import Mathlib

/-!
# jsonlib2: a shallow embedding of `jsonlib2.c`

Text is a sequence of code units (`Py_UNICODE`), modelled as `List Nat`.  The
embedding follows the wide (`Py_UNICODE_WIDE`) build: one code unit is one code
point and `Py_UNICODE` arithmetic is taken modulo `2 ^ 32`.  A buffer is
sentinel-terminated: reading at or past its end yields `0`.

Library routines of the Python runtime that the source calls are modelled in
the section "Host library"; the finite floating values and the Unicode character
database live in a `Host` record.
-/

namespace Jsonlib2

/-! ## Values -/

/-- A Python float: a finite double of the host, or one of the three special values. -/
inductive PyFloat (F : Type) where
  | finite (f : F)
  | inf
  | neg_inf
  | nan

/-- The value model: `None`, `True`/`False`, integers, floats, unicode strings,
lists and string-keyed dictionaries (kept in insertion order). -/
inductive Value (F : Type) where
  | null
  | bool (b : Bool)
  | int (n : Int)
  | float (x : PyFloat F)
  | str (s : List Nat)
  | arr (xs : List (Value F))
  | obj (items : List (List Nat × Value F))

/-! ## Host library -/

/-- What the embedding takes from the Python runtime without modelling it:
the Unicode database above ASCII and the text form of finite floats. -/
structure Host (F : Type) where
  /-- `Py_UNICODE_ISSPACE` on code points from 128 upwards. -/
  isspace : Nat → Bool
  /-- `Py_UNICODE_TODECIMAL` on code points from 128 upwards. -/
  todecimal : Nat → Option Nat
  /-- `PyFloat_FromString` on the text of a number. -/
  float_from_string : List Nat → Option (PyFloat F)
  /-- `PyObject_Repr` of a finite float. -/
  float_repr : F → List Nat

/-- `Py_UNICODE_ISSPACE`: the ASCII table of the runtime, the host database above it. -/
def Py_UNICODE_ISSPACE {F : Type} (host : Host F) (ch : Nat) : Bool :=
  if ch < 128 then
    decide ((0x09 ≤ ch ∧ ch ≤ 0x0D) ∨ (0x1C ≤ ch ∧ ch ≤ 0x20))
  else host.isspace ch

/-- `Py_UNICODE_TODECIMAL`: the ASCII digits, the host database above ASCII. -/
def Py_UNICODE_TODECIMAL {F : Type} (host : Host F) (ch : Nat) : Option Nat :=
  if ch < 128 then
    if 0x30 ≤ ch ∧ ch ≤ 0x39 then some (ch - 0x30) else none
  else host.todecimal ch

/-- `PyUnicode_EncodeDecimal` with strict errors: spaces become U+0020, decimal
digits become ASCII digits, other Latin-1 code points pass, anything else
(U+0000 included) is an encoding error. -/
def PyUnicode_EncodeDecimal {F : Type} (host : Host F) : List Nat → Option (List Nat)
  | [] => some []
  | ch :: rest =>
    let out : Option Nat :=
      if Py_UNICODE_ISSPACE host ch then some 0x20
      else match Py_UNICODE_TODECIMAL host ch with
        | some dgt => some (0x30 + dgt)
        | none => if 0 < ch ∧ ch < 256 then some ch else none
    match out, PyUnicode_EncodeDecimal host rest with
    | some c, some cs => some (c :: cs)
    | _, _ => none

/-- C `isspace` in the "C" locale. -/
def c_isspace (c : Nat) : Bool :=
  decide (c = 0x20 ∨ (0x09 ≤ c ∧ c ≤ 0x0D))

/-- `_PyLong_DigitValue`: the value of a digit character, 37 for anything else. -/
def PyLong_DigitValue (c : Nat) : Nat :=
  if 0x30 ≤ c ∧ c ≤ 0x39 then c - 0x30
  else if 0x61 ≤ c ∧ c ≤ 0x7A then c - 0x61 + 10
  else if 0x41 ≤ c ∧ c ≤ 0x5A then c - 0x41 + 10
  else 37

/-- The prefix `PyLong_FromString` skips for an explicit base: `0x`/`0X` for
base 16, `0o`/`0O` for base 8, `0b`/`0B` for base 2. -/
def strip_base_marker (str : List Nat) (base : Nat) : List Nat :=
  match str with
  | c :: x :: r =>
    if c = 0x30 ∧ ((base = 16 ∧ (x = 0x78 ∨ x = 0x58)) ∨ (base = 8 ∧ (x = 0x6F ∨ x = 0x4F))
        ∨ (base = 2 ∧ (x = 0x62 ∨ x = 0x42))) then r
    else c :: x :: r
  | s => s

/-- The optional `L`/`l` that `PyLong_FromString` skips after the digits. -/
def strip_long_suffix : List Nat → List Nat
  | c :: r => if c = 0x4C ∨ c = 0x6C then r else c :: r
  | [] => []

/-- The part of `PyLong_FromString` after the sign: the optional prefix of the
base, at least one digit of the base, an optional `L`/`l`, trailing blanks,
end of text. -/
def PyLong_FromString_digits (str : List Nat) (base : Nat) : Option Nat :=
  let str := strip_base_marker str base
  let digits := str.takeWhile (fun c => decide (PyLong_DigitValue c < base))
  let str := str.dropWhile (fun c => decide (PyLong_DigitValue c < base))
  if digits = [] then none
  else if (strip_long_suffix str).dropWhile c_isspace = [] then
    some (digits.foldl (fun acc c => acc * base + PyLong_DigitValue c) 0)
  else none

/-- `PyLong_FromString (str, NULL, base)` for an explicit base: leading blanks,
an optional sign, blanks, then the digits (`PyLong_FromString_digits`). -/
def PyLong_FromString (str : List Nat) (base : Nat) : Option Int :=
  match str.dropWhile c_isspace with
  | c :: r =>
    if c = 0x2B then
      (PyLong_FromString_digits (r.dropWhile c_isspace) base).map (fun (z : Nat) => Int.ofNat z)
    else if c = 0x2D then
      (PyLong_FromString_digits (r.dropWhile c_isspace) base).map
        (fun (z : Nat) => -(Int.ofNat z))
    else
      (PyLong_FromString_digits ((c :: r).dropWhile c_isspace) base).map
        (fun (z : Nat) => Int.ofNat z)
  | [] => none

/-- `PyLong_FromUnicode (u, length, base)`: `PyUnicode_EncodeDecimal` followed by
`PyLong_FromString`. -/
def PyLong_FromUnicode {F : Type} (host : Host F) (u : List Nat) (base : Nat) : Option Int :=
  match PyUnicode_EncodeDecimal host u with
  | none => none
  | some buffer => PyLong_FromString buffer base

/-- `(Py_UNICODE) PyLong_AsUnsignedLong (py_long)`: the value itself when it is
not negative; for a negative value the conversion yields `(unsigned long) -1`,
whose low 32 bits are kept (the exception it leaves pending is not modelled). -/
def PyLong_AsUnsignedLong (n : Int) : Nat :=
  if 0 ≤ n then n.toNat % 2 ^ 32 else 2 ^ 32 - 1

/-! ## Parser -/

/-- What `set_error` is given to describe a failure. -/
inductive Description where
  /-- A fixed message (`set_error_simple`). -/
  | simple (message : String)
  /-- `set_error_unexpected`: "Unexpected U+XXXX while looking for ...". -/
  | unexpected (c : Nat) (wanted : String)
  /-- "Unknown escape code: \c." -/
  | unknown_escape (c : Nat)
  /-- "U+XXXX is a reserved code point." -/
  | reserved_code_point (value : Nat)
deriving DecidableEq, Repr

/-- How a decode call fails. -/
inductive DecodeError where
  /-- `ReadError`, raised by `set_error` for the position `position - start`. -/
  | ReadError (description : Description) (position : Nat)
  /-- An exception of a library call that the parser passes on unchanged
  (`read_4hex` returning `FALSE`). -/
  | HostError
  /-- The model ran out of fuel (no counterpart in the source but the C stack). -/
  | RecursionLimit
deriving DecidableEq, Repr

/-- The decoder state: the text (`start` .. `end`, the sentinel implicit), the
cursor as an offset from `start`, the capacity of the scratch buffer for string
unescaping, and the three optional hooks (a hook that raises returns `none`). -/
structure Decoder (F : Type) where
  start : List Nat
  index : Nat
  stringparse_buffer_size : Nat
  parse_float : Option (List Nat → Option (Value F))
  parse_int : Option (List Nat → Option (Value F))
  parse_constant : Option (List Nat → Option (Value F))

/-- The code unit at offset `i`; the sentinel `0` at and past the end. -/
def code_at (buf : List Nat) (i : Nat) : Nat := buf.getD i 0

/-- `next_power_2`: double `start` until it reaches `min` (the loop runs at most
`fuel` times; `min` rounds suffice when `start ≥ 1`). -/
def next_power_2_loop : Nat → Nat → Nat → Nat
  | 0, start, _ => start
  | fuel + 1, start, min => if start < min then next_power_2_loop fuel (start * 2) min else start

/-- `next_power_2 (start, min)`. -/
def next_power_2 (start min : Nat) : Nat := next_power_2_loop min start min

/-- The loop of `skip_spaces` over the code units from the cursor on. -/
def skip_spaces_from : List Nat → Nat → Nat
  | [], index => index
  | c :: cs, index =>
    if c ≠ 0 ∧ (c = 0x09 ∨ c = 0x0A ∨ c = 0x0D ∨ c = 0x20) then skip_spaces_from cs (index + 1)
    else index

/-- `skip_spaces`. -/
def skip_spaces {F : Type} (d : Decoder F) : Decoder F :=
  { d with index := skip_spaces_from (d.start.drop d.index) d.index }

/-- `parser_find_next_value`: `0` when an atom or value starts at the cursor, `1`
otherwise.  The cases of the C `switch` fall through from `t` down to `N`. -/
def parser_find_next_value {F : Type} (d : Decoder F) : Nat :=
  let c : Nat → Nat := fun k => code_at d.start (d.index + k)
  let c0 := c 0
  let is_true := decide (c 1 = 0x72 ∧ c 2 = 0x75 ∧ c 3 = 0x65)
  let is_false := decide (c 1 = 0x61 ∧ c 2 = 0x6C ∧ c 3 = 0x73 ∧ c 4 = 0x65)
  let is_null := decide (c 1 = 0x75 ∧ c 2 = 0x6C ∧ c 3 = 0x6C)
  let is_inf := decide (c 1 = 0x6E ∧ c 2 = 0x66 ∧ c 3 = 0x69 ∧ c 4 = 0x6E ∧
    c 5 = 0x69 ∧ c 6 = 0x74 ∧ c 7 = 0x79)
  let is_nan := decide (c 1 = 0x61 ∧ c 2 = 0x4E)
  if c0 = 0x22 ∨ c0 = 0x2D ∨ (0x30 ≤ c0 ∧ c0 ≤ 0x39) ∨ c0 = 0x5B ∨ c0 = 0x7B then 0
  else if c0 = 0x74 then
    if is_true || is_false || is_null || is_inf || is_nan then 0 else 1
  else if c0 = 0x66 then
    if is_false || is_null || is_inf || is_nan then 0 else 1
  else if c0 = 0x6E then
    if is_null || is_inf || is_nan then 0 else 1
  else if c0 = 0x49 then
    if is_inf || is_nan then 0 else 1
  else if c0 = 0x4E then
    if is_nan then 0 else 1
  else 1

/-- `next_ucs4`: the code point at a position, a high surrogate merged with the
unit after it when that unit is not the sentinel. -/
def next_ucs4 (buf : List Nat) (index : Nat) : Nat :=
  let value := code_at buf index
  if 0xD800 ≤ value ∧ value ≤ 0xDBFF then
    let lower := code_at buf (index + 1)
    if lower ≠ 0 then
      ((((value - 0xD800) <<< 10) + (lower + 2 ^ 32 - 0xDC00)) + 0x10000) % 2 ^ 32
    else value
  else value

/-- `set_error_unexpected`: the error for an unexpected code point at `position`. -/
def set_error_unexpected {F : Type} (d : Decoder F) (position : Nat) (wanted : String) :
    DecodeError :=
  .ReadError (.unexpected (next_ucs4 d.start position) wanted) position

/-- `set_error_simple`. -/
def set_error_simple (position : Nat) (description : String) : DecodeError :=
  .ReadError (.simple description) position

/-- The `for` loop of `count_row_column`: `n` code units are left before `pos`,
`ptr` is the offset of the next one, `row` the count so far. -/
def count_row_loop (start : List Nat) : Nat → Nat → Nat → Nat
  | 0, _, row => row
  | n + 1, ptr, row =>
    count_row_loop start n (ptr + 1) (if code_at start ptr = 0x0A then row + 1 else row)

/-- The `while` loop of `count_row_column` that walks back from `ptr` to a line
feed or to the start of the text; the offset it stops at. -/
def count_column_loop (start : List Nat) : Nat → Nat
  | 0 => 0
  | ptr + 1 => if code_at start (ptr + 1) ≠ 0x0A then count_column_loop start ptr else ptr + 1

/-- `count_row_column`: offset, row and column of the offset `pos`. -/
def count_row_column (start : List Nat) (pos : Nat) : Nat × Nat × Nat :=
  let offset := pos
  let row := count_row_loop start pos 0 1
  if row = 1 then (offset, row, offset + 1)
  else (offset, row, pos - count_column_loop start (pos - 1))

/-- What `set_error` formats into the message of the `ReadError` it raises
("JSON parsing error at line %d, column %d (position %d): %s"): row, column,
offset and description. -/
def set_error (start : List Nat) (position : Nat) (description : Description) :
    Nat × Nat × Nat × Description :=
  let (char_offset, row, column) := count_row_column start position
  (row, column, char_offset, description)

/-- The line, column, offset and description reported for a failed decode of
`text`: those of `set_error` for a `ReadError`. -/
def DecodeError.report (text : List Nat) : DecodeError → Option (Nat × Nat × Nat × Description)
  | .ReadError description position => some (set_error text position description)
  | _ => none

/-- `keyword_compare`: `none` stands for the `NULL` return (no error is set). -/
def keyword_compare {F : Type} (d : Decoder F) (expected : List Nat) (retval : Value F) :
    Option (Value F × Decoder F) :=
  let len := expected.length
  let left := d.start.length - d.index
  if left ≥ len then
    if (d.start.drop d.index).take len = expected then
      match d.parse_constant with
      | some hook =>
        match hook ((d.start.drop d.index).take len) with
        | none => none
        | some object => some (object, { d with index := d.index + len })
      | none => some (retval, { d with index := d.index + len })
    else none
  else none

/-- `read_4hex`: `none` stands for the `FALSE` return. -/
def read_4hex {F : Type} (host : Host F) (buf : List Nat) (start : Nat) : Option Nat :=
  match PyLong_FromUnicode host ((buf.drop start).take 4) 16 with
  | none => none
  | some py_long => some (PyLong_AsUnsignedLong py_long)

/-- `read_unicode_escape`, called with `index_ptr` at the `u`.  Returns the code
point to store at `buffer[*buffer_idx]` and the new `*index_ptr`. -/
def read_unicode_escape {F : Type} (host : Host F) (d : Decoder F) (string_start : Nat)
    (index_ptr : Nat) (max_char_count : Nat) : Except DecodeError (Nat × Nat) :=
  let index_ptr := index_ptr + 1
  let remaining := max_char_count - index_ptr
  if remaining < 4 then
    .error (set_error_simple (d.index + index_ptr - 1) "Unterminated unicode escape.")
  else
    match read_4hex host d.start (string_start + index_ptr) with
    | none => .error .HostError
    | some value =>
      let index_ptr := index_ptr + 4
      if 0xD800 ≤ value ∧ value ≤ 0xDBFF then
        let upper := value
        if remaining < 10 then
          .error (set_error_simple (d.index + index_ptr + 1) "Missing surrogate pair half.")
        else if code_at d.start (string_start + index_ptr) ≠ 0x5C ∨
            code_at d.start (string_start + index_ptr + 1) ≠ 0x75 then
          .error (set_error_simple (d.index + index_ptr + 1) "Missing surrogate pair half.")
        else
          let index_ptr := index_ptr + 2
          match read_4hex host d.start (string_start + index_ptr) with
          | none => .error .HostError
          | some lower =>
            let index_ptr := index_ptr + 4
            let upper := upper - 0xD800
            let lower := (lower + 2 ^ 32 - 0xDC00) % 2 ^ 32
            let value := (((upper <<< 10) + lower) + 0x10000) % 2 ^ 32
            .ok (value, index_ptr)
      else if 0xDC00 ≤ value ∧ value ≤ 0xDFFF then
        .error (.ReadError (.reserved_code_point value) (d.index + index_ptr - 5))
      else .ok (value, index_ptr)

/-- The `for` loop of `read_string_full`: `ii` runs below `max_char_count`, the
scratch buffer is the list written so far (`buffer_idx` is its length).  One unit
of fuel per iteration; `max_char_count` units always suffice. -/
def read_string_full_loop {F : Type} (host : Host F) (d : Decoder F) (start : Nat)
    (max_char_count : Nat) : Nat → Nat → Bool → List Nat → Except DecodeError (List Nat)
  | 0, _, _, buffer => .ok buffer
  | fuel + 1, ii, escaped, buffer =>
    if ii < max_char_count then
      let c := code_at d.start (start + ii)
      if escaped then
        if c = 0x5C ∨ c = 0x22 ∨ c = 0x2F then
          read_string_full_loop host d start max_char_count fuel (ii + 1) false (buffer ++ [c])
        else if c = 0x62 then
          read_string_full_loop host d start max_char_count fuel (ii + 1) false (buffer ++ [0x08])
        else if c = 0x66 then
          read_string_full_loop host d start max_char_count fuel (ii + 1) false (buffer ++ [0x0C])
        else if c = 0x6E then
          read_string_full_loop host d start max_char_count fuel (ii + 1) false (buffer ++ [0x0A])
        else if c = 0x72 then
          read_string_full_loop host d start max_char_count fuel (ii + 1) false (buffer ++ [0x0D])
        else if c = 0x74 then
          read_string_full_loop host d start max_char_count fuel (ii + 1) false (buffer ++ [0x09])
        else if c = 0x75 then
          match read_unicode_escape host d start ii max_char_count with
          | .error e => .error e
          | .ok (value, next_ii) =>
            read_string_full_loop host d start max_char_count fuel next_ii false
              (buffer ++ [value])
        else .error (.ReadError (.unknown_escape c) (start + ii - 1))
      else if c = 0x5C then
        read_string_full_loop host d start max_char_count fuel (ii + 1) true buffer
      else if c = 0x22 then .ok buffer
      else read_string_full_loop host d start max_char_count fuel (ii + 1) false (buffer ++ [c])
    else .ok buffer

/-- `read_string_full`. -/
def read_string_full {F : Type} (host : Host F) (d : Decoder F) (start : Nat)
    (max_char_count : Nat) : Except DecodeError (List Nat × Decoder F) :=
  let d' : Decoder F :=
    if max_char_count > d.stringparse_buffer_size then
      { d with stringparse_buffer_size := next_power_2 1 max_char_count }
    else d
  match read_string_full_loop host d start max_char_count max_char_count 0 false [] with
  | .error e => .error e
  | .ok buffer => .ok (buffer, { d' with index := start + max_char_count + 1 })

/-- The first pass of `read_string` over the code units after the opening quote:
finds the closing quote (`ii`) and whether a backslash was seen (`fancy`).
`quote` is the offset of the opening quote, `start = quote + 1`. -/
def read_string_scan {F : Type} (d : Decoder F) (start : Nat) :
    List Nat → Nat → Bool → Bool → Except DecodeError (Nat × Bool)
  | [], _, _, _ => .error (set_error_simple d.index "Unterminated string.")
  | c :: cs, ii, escaped, fancy =>
    if c = 0 then .error (set_error_simple d.index "Unterminated string.")
    else if c < 0x20 then .error (set_error_unexpected d (start + ii) "printable characters")
    else if escaped then read_string_scan d start cs (ii + 1) false fancy
    else if c = 0x5C then read_string_scan d start cs (ii + 1) true true
    else if c = 0x22 then .ok (ii, fancy)
    else read_string_scan d start cs (ii + 1) false fancy

/-- `read_string`, called with the cursor on the opening quote. -/
def read_string {F : Type} (host : Host F) (d : Decoder F) :
    Except DecodeError (List Nat × Decoder F) :=
  let start := d.index + 1
  if code_at d.start start = 0x22 then .ok ([], { d with index := start + 1 })
  else
    match read_string_scan d start (d.start.drop start) 0 false false with
    | .error e => .error e
    | .ok (ii, fancy) =>
      if fancy then read_string_full host d start ii
      else .ok ((d.start.drop start).take ii, { d with index := start + ii + 1 })

/-- The flags of the scan in `read_number`. -/
structure NumberFlags where
  is_float : Bool
  got_digit : Bool
  leading_zero : Bool
  has_exponent : Bool
deriving DecidableEq, Repr

/-- The `while` loop of `read_number` over the code units from the cursor on:
`none` is the "Invalid number." exit inside the loop, otherwise the offset `ptr`
where the scan stopped and the flags. -/
def read_number_scan : List Nat → Nat → NumberFlags → Option (Nat × NumberFlags)
  | [], ptr, fl => some (ptr, fl)
  | c :: cs, ptr, fl =>
    if c = 0 then some (ptr, fl)
    else if c = 0x30 then
      if fl.got_digit = false then
        read_number_scan cs (ptr + 1) { fl with leading_zero := true, got_digit := true }
      else if fl.leading_zero = true ∧ fl.is_float = false then none
      else read_number_scan cs (ptr + 1) { fl with got_digit := true }
    else if 0x31 ≤ c ∧ c ≤ 0x39 then
      if fl.leading_zero = true ∧ fl.is_float = false then none
      else read_number_scan cs (ptr + 1) { fl with got_digit := true }
    else if c = 0x2D ∨ c = 0x2B then read_number_scan cs (ptr + 1) fl
    else if c = 0x65 ∨ c = 0x45 then
      read_number_scan cs (ptr + 1) { fl with has_exponent := true }
    else if c = 0x2E then
      read_number_scan cs (ptr + 1) { fl with is_float := true, got_digit := false }
    else some (ptr, fl)

/-- `read_number`, called with the cursor on the first code unit of the number. -/
def read_number {F : Type} (host : Host F) (d : Decoder F) :
    Except DecodeError (Value F × Decoder F) :=
  match read_number_scan (d.start.drop d.index) d.index
      { is_float := false, got_digit := false, leading_zero := false, has_exponent := false } with
  | none => .error (set_error_simple d.index "Invalid number.")
  | some (ptr, fl) =>
    let unicode := (d.start.drop d.index).take (ptr - d.index)
    let object : Option (Value F) :=
      if fl.got_digit then
        if fl.is_float || fl.has_exponent then
          match d.parse_float with
          | some hook => hook unicode
          | none => (host.float_from_string unicode).map Value.float
        else
          match d.parse_int with
          | some hook => hook unicode
          | none => (PyLong_FromUnicode host unicode 10).map Value.int
      else none
    match object with
    | none => .error (set_error_simple d.index "Invalid number.")
    | some object => .ok (object, { d with index := ptr })

/-- `ParseArrayState`. -/
inductive ParseArrayState where
  | ARRAY_EMPTY
  | ARRAY_NEED_VALUE
  | ARRAY_GOT_VALUE
deriving DecidableEq, Repr

/-- `ParseObjectState`. -/
inductive ParseObjectState where
  | OBJECT_EMPTY
  | OBJECT_NEED_KEY
  | OBJECT_NEED_COLON
  | OBJECT_NEED_VALUE
  | OBJECT_GOT_VALUE
deriving DecidableEq, Repr

/-- `PyDict_SetItem` on a dictionary kept as its items in insertion order: the
value of a key already present is replaced in place, a new key goes last. -/
def PyDict_SetItem {F : Type} :
    List (List Nat × Value F) → List Nat → Value F → List (List Nat × Value F)
  | [], key, value => [(key, value)]
  | (k, v) :: rest, key, value =>
    if k = key then (k, value) :: rest else (k, v) :: PyDict_SetItem rest key value

mutual

/-- `json_read`.  One unit of fuel is spent on every call and on every turn of
the `while` loops of `read_array_impl` and `read_object_impl`. -/
def json_read {F : Type} (host : Host F) :
    Nat → Decoder F → Except DecodeError (Value F × Decoder F)
  | 0, _ => .error .RecursionLimit
  | fuel + 1, d =>
    let d := skip_spaces d
    let c := code_at d.start d.index
    let unexpected : Except DecodeError (Value F × Decoder F) :=
      .error (set_error_unexpected d d.index "<valid thing>")
    let number : Except DecodeError (Value F × Decoder F) := read_number host d
    if c = 0 then .error (set_error_simple 0 "No expression found.")
    else if c = 0x7B then
      match read_object_impl host fuel [] none d.index .OBJECT_EMPTY { d with index := d.index + 1 } with
      | .error e => .error e
      | .ok (object, d) => .ok (.obj object, d)
    else if c = 0x5B then
      match read_array_impl host fuel [] d.index .ARRAY_EMPTY { d with index := d.index + 1 } with
      | .error e => .error e
      | .ok (list, d) => .ok (.arr list, d)
    else if c = 0x22 then
      match read_string host d with
      | .error e => .error e
      | .ok (s, d) => .ok (.str s, d)
    else if c = 0x74 then
      match keyword_compare d [0x74, 0x72, 0x75, 0x65] (.bool true) with
      | some kw => .ok kw
      | none => unexpected
    else if c = 0x66 then
      match keyword_compare d [0x66, 0x61, 0x6C, 0x73, 0x65] (.bool false) with
      | some kw => .ok kw
      | none => unexpected
    else if c = 0x6E then
      match keyword_compare d [0x6E, 0x75, 0x6C, 0x6C] .null with
      | some kw => .ok kw
      | none => unexpected
    else if c = 0x4E then
      match keyword_compare d [0x4E, 0x61, 0x4E] (.float .nan) with
      | some kw => .ok kw
      | none => unexpected
    else if c = 0x49 then
      match keyword_compare d [0x49, 0x6E, 0x66, 0x69, 0x6E, 0x69, 0x74, 0x79] (.float .inf) with
      | some kw => .ok kw
      | none => unexpected
    else if c = 0x2D then
      match keyword_compare d [0x2D, 0x49, 0x6E, 0x66, 0x69, 0x6E, 0x69, 0x74, 0x79]
          (.float .neg_inf) with
      | some kw => .ok kw
      | none => number
    else if 0x30 ≤ c ∧ c ≤ 0x39 then number
    else unexpected

/-- The `while` loop of `read_array_impl`: `list` is the list built so far,
`start` the offset of the opening bracket. -/
def read_array_impl {F : Type} (host : Host F) :
    Nat → List (Value F) → Nat → ParseArrayState → Decoder F →
      Except DecodeError (List (Value F) × Decoder F)
  | 0, _, _, _, _ => .error .RecursionLimit
  | fuel + 1, list, start, array_state, d =>
    let d := skip_spaces d
    let c := code_at d.start d.index
    if c = 0 then .error (set_error_simple start "Unterminated array.")
    else
      let need_value : Except DecodeError (List (Value F) × Decoder F) :=
        if parser_find_next_value d = 0 then
          match json_read host fuel d with
          | .error e => .error e
          | .ok (value, d) =>
            read_array_impl host fuel (list ++ [value]) start .ARRAY_GOT_VALUE d
        else .error (set_error_unexpected d d.index "object in array")
      match array_state with
      | .ARRAY_EMPTY =>
        if c = 0x5D then .ok (list, { d with index := d.index + 1 })
        else need_value
      | .ARRAY_NEED_VALUE => need_value
      | .ARRAY_GOT_VALUE =>
        if c = 0x2C then
          read_array_impl host fuel list start .ARRAY_NEED_VALUE { d with index := d.index + 1 }
        else if c = 0x5D then .ok (list, { d with index := d.index + 1 })
        else .error (set_error_unexpected d d.index "comma")

/-- The `while` loop of `read_object_impl`: `object` is the dictionary built so
far, `key` the pending key, `start` the offset of the opening brace. -/
def read_object_impl {F : Type} (host : Host F) :
    Nat → List (List Nat × Value F) → Option (Value F) → Nat → ParseObjectState → Decoder F →
      Except DecodeError (List (List Nat × Value F) × Decoder F)
  | 0, _, _, _, _, _ => .error .RecursionLimit
  | fuel + 1, object, key, start, object_state, d =>
    let d := skip_spaces d
    let c := code_at d.start d.index
    if c = 0 then .error (set_error_simple start "Unterminated object.")
    else
      let need_key : Except DecodeError (List (List Nat × Value F) × Decoder F) :=
        if c ≠ 0x22 then .error (set_error_unexpected d d.index "property name")
        else
          match json_read host fuel d with
          | .error e => .error e
          | .ok (key, d) =>
            read_object_impl host fuel object (some key) start .OBJECT_NEED_COLON d
      match object_state with
      | .OBJECT_EMPTY =>
        if c = 0x7D then .ok (object, { d with index := d.index + 1 })
        else need_key
      | .OBJECT_NEED_KEY => need_key
      | .OBJECT_NEED_COLON =>
        if c ≠ 0x3A then .error (set_error_unexpected d d.index "colon")
        else
          read_object_impl host fuel object key start .OBJECT_NEED_VALUE
            { d with index := d.index + 1 }
      | .OBJECT_NEED_VALUE =>
        if parser_find_next_value d = 0 then
          match json_read host fuel d with
          | .error e => .error e
          | .ok (value, d) =>
            match key with
            | some (.str k) =>
              read_object_impl host fuel (PyDict_SetItem object k value) none start
                .OBJECT_GOT_VALUE d
            | _ => .error .HostError
        else .error (set_error_unexpected d d.index "object in dictionary")
      | .OBJECT_GOT_VALUE =>
        if c = 0x2C then
          read_object_impl host fuel object key start .OBJECT_NEED_KEY
            { d with index := d.index + 1 }
        else if c = 0x7D then .ok (object, { d with index := d.index + 1 })
        else .error (set_error_unexpected d d.index "comma")

end

/-- The encodings `detect_encoding` tells apart. -/
inductive Encoding where
  | UTF_8
  | UTF_8_BOM
  | UTF_16_LE
  | UTF_16_LE_BOM
  | UTF_16_BE
  | UTF_16_BE_BOM
  | UTF_32_LE
  | UTF_32_LE_BOM
  | UTF_32_BE
  | UTF_32_BE_BOM
deriving DecidableEq, Repr

/-- `BOM_UTF8`. -/
def BOM_UTF8 : List Nat := [0xEF, 0xBB, 0xBF]

/-- `BOM_UTF16_LE`. -/
def BOM_UTF16_LE : List Nat := [0xFF, 0xFE]

/-- `BOM_UTF16_BE`. -/
def BOM_UTF16_BE : List Nat := [0xFE, 0xFF]

/-- `BOM_UTF32_LE`. -/
def BOM_UTF32_LE : List Nat := [0xFF, 0xFE, 0x00, 0x00]

/-- `BOM_UTF32_BE`. -/
def BOM_UTF32_BE : List Nat := [0x00, 0x00, 0xFE, 0xFF]

/-- `memcmp (bytes, bom, n) == 0` on a buffer of at least `n` bytes. -/
def memcmp_eq (bytes bom : List Nat) (n : Nat) : Bool := decide (bytes.take n = bom.take n)

/-- `detect_encoding` on a byte string; `size` is its length. -/
def detect_encoding (bytes : List Nat) : Encoding :=
  let b : Nat → Nat := fun i => bytes.getD i 0
  if bytes.length < 4 then .UTF_8
  else if memcmp_eq bytes BOM_UTF8 3 then .UTF_8_BOM
  else if memcmp_eq bytes BOM_UTF32_LE 4 then .UTF_32_LE_BOM
  else if memcmp_eq bytes BOM_UTF32_BE 4 then .UTF_32_BE_BOM
  else if memcmp_eq bytes BOM_UTF16_LE 2 then .UTF_16_LE_BOM
  else if memcmp_eq bytes BOM_UTF16_BE 2 then .UTF_16_BE_BOM
  else if b 0 ≠ 0 ∧ b 1 = 0 ∧ b 2 ≠ 0 ∧ b 3 = 0 then .UTF_16_LE
  else if b 0 = 0 ∧ b 1 ≠ 0 ∧ b 2 = 0 ∧ b 3 ≠ 0 then .UTF_16_BE
  else if b 0 ≠ 0 ∧ b 1 = 0 ∧ b 2 = 0 ∧ b 3 = 0 then .UTF_32_LE
  else if b 0 = 0 ∧ b 1 = 0 ∧ b 2 = 0 ∧ b 3 ≠ 0 then .UTF_32_BE
  else .UTF_8

/-- The fuel `_read_entry` gives `json_read`: every call and every loop turn
consumes at least one code unit of the text or ends the parse. -/
def read_fuel (text : List Nat) : Nat := 2 * text.length + 2

/-- `_read_entry` on a unicode argument: parse one value, then allow nothing but
whitespace up to the end. -/
def _read_entry {F : Type} (host : Host F) (text : List Nat)
    (parse_float parse_int parse_constant : Option (List Nat → Option (Value F))) :
    Except DecodeError (Value F) :=
  let decoder : Decoder F :=
    { start := text, index := 0, stringparse_buffer_size := 0,
      parse_float := parse_float, parse_int := parse_int, parse_constant := parse_constant }
  match json_read host (read_fuel text) decoder with
  | .error e => .error e
  | .ok (result, decoder) =>
    let decoder := skip_spaces decoder
    if decoder.index < decoder.start.length then
      .error (set_error_simple decoder.index "Extra data after JSON expression.")
    else .ok result

/-- The codecs `unicode_autodetect` asks `PyUnicode_Decode` for: `"utf-8"`,
`"utf-16-le"`, `"utf-16-be"`, `"utf-32-le"`, `"utf-32-be"`. -/
inductive Codec where
  | utf_8
  | utf_16_le
  | utf_16_be
  | utf_32_le
  | utf_32_be
deriving DecidableEq, Repr

/-- `unicode_autodetect`.  `PyUnicode_Decode` (with `"strict"`) is the runtime's:
it gets the codec and the bytes and returns `none` when it raises. -/
def unicode_autodetect (PyUnicode_Decode : Codec → List Nat → Option (List Nat))
    (bytestring : List Nat) : Option (List Nat) :=
  match detect_encoding bytestring with
  | .UTF_8 => PyUnicode_Decode .utf_8 bytestring
  | .UTF_8_BOM => PyUnicode_Decode .utf_8 (bytestring.drop 3)
  | .UTF_16_LE => PyUnicode_Decode .utf_16_le bytestring
  | .UTF_16_LE_BOM => PyUnicode_Decode .utf_16_le (bytestring.drop 2)
  | .UTF_16_BE => PyUnicode_Decode .utf_16_be bytestring
  | .UTF_16_BE_BOM => PyUnicode_Decode .utf_16_be (bytestring.drop 2)
  | .UTF_32_LE => PyUnicode_Decode .utf_32_le bytestring
  | .UTF_32_LE_BOM => PyUnicode_Decode .utf_32_le (bytestring.drop 4)
  | .UTF_32_BE => PyUnicode_Decode .utf_32_be bytestring
  | .UTF_32_BE_BOM => PyUnicode_Decode .utf_32_be (bytestring.drop 4)

/-- `_read_entry` on a byte string argument: `parse_unicode_arg` converts it with
`unicode_autodetect`, whose exception ends the call. -/
def _read_entry_bytes {F : Type} (host : Host F)
    (PyUnicode_Decode : Codec → List Nat → Option (List Nat)) (bytestring : List Nat)
    (parse_float parse_int parse_constant : Option (List Nat → Option (Value F))) :
    Except DecodeError (Value F) :=
  match unicode_autodetect PyUnicode_Decode bytestring with
  | none => .error .HostError
  | some unicode => _read_entry host unicode parse_float parse_int parse_constant

/-! ## Serializer -/

/-- How an encode call fails. -/
inductive EncodeError where
  /-- `WriteError` with a fixed message. -/
  | WriteError (message : String)
  /-- `WriteError`: "Cannot serialize reserved code point U+XXXX." -/
  | reserved_code_point (c : Nat)
  /-- `UnknownSerializerError` (`set_unknown_serializer`). -/
  | UnknownSerializerError
  /-- `TypeError` with a fixed message. -/
  | TypeError (message : String)
  /-- The model ran out of fuel (no counterpart in the source but the C stack). -/
  | RecursionLimit
  /-- `WriteError`: "Only strings may be used as object keys, not %r", for the key
  at the given address. -/
  | key_not_string (key : Nat)
  /-- An exception raised by a callback or a library call, passed on unchanged. -/
  | Raised
deriving DecidableEq, Repr

/-- The options of `Encoder`; `indent_string = none` is `Py_None`. -/
structure Encoder where
  sort_keys : Bool
  indent_string : Option (List Nat)
  ensure_ascii : Bool
  coerce_keys : Bool
  escape_slash : Bool
  allow_nan : Bool
  colon : List Nat
  comma : List Nat
deriving DecidableEq, Repr

/-- `init_encoder`, with the separators `serializer_init_and_run_common` fills in
when none are passed (`": "` and `", "`). -/
def init_encoder : Encoder :=
  { sort_keys := false, indent_string := none, ensure_ascii := true, coerce_keys := true,
    escape_slash := true, allow_nan := true, colon := [0x3A, 0x20], comma := [0x2C, 0x20] }

/-- The table `hexdigit`. -/
def hexdigit (i : Nat) : Nat :=
  [0x30, 0x31, 0x32, 0x33, 0x34, 0x35, 0x36, 0x37, 0x38, 0x39,
   0x61, 0x62, 0x63, 0x64, 0x65, 0x66].getD i 0

/-- What the fill loop of `unicode_to_unicode` writes for one code unit. -/
def unicode_to_unicode_char (escape_slash : Bool) (c : Nat) : List Nat :=
  if c = 0x08 then [0x5C, 0x62]
  else if c = 0x09 then [0x5C, 0x74]
  else if c = 0x0A then [0x5C, 0x6E]
  else if c = 0x0C then [0x5C, 0x66]
  else if c = 0x0D then [0x5C, 0x72]
  else if c = 0x22 then [0x5C, 0x22]
  else if escape_slash = true ∧ c = 0x2F then [0x5C, 0x2F]
  else if c = 0x5C then [0x5C, 0x5C]
  else if c ≤ 0x1F then [0x5C, 0x75, 0x30, 0x30, hexdigit ((c >>> 4) &&& 0xF), hexdigit (c &&& 0xF)]
  else [c]

/-- What the size loop of `unicode_to_unicode` adds for one code unit. -/
def unicode_to_unicode_char_size (escape_slash : Bool) (c : Nat) : Nat :=
  if c = 0x08 ∨ c = 0x09 ∨ c = 0x0A ∨ c = 0x0C ∨ c = 0x0D ∨ c = 0x22 ∨
      (escape_slash = true ∧ c = 0x2F) ∨ c = 0x5C then 2
  else if c ≤ 0x1F then 6
  else 1

/-- The `new_buffer_size` that `unicode_to_unicode` allocates. -/
def unicode_to_unicode_size (unicode : List Nat) (escape_slash : Bool) : Nat :=
  unicode.foldl (fun size c => size + unicode_to_unicode_char_size escape_slash c) 2

/-- `unicode_to_unicode`: the code units its fill loop writes. -/
def unicode_to_unicode (unicode : List Nat) (escape_slash : Bool) : List Nat :=
  [0x22] ++ unicode.flatMap (unicode_to_unicode_char escape_slash) ++ [0x22]

/-- `escape_unichar`: the characters written for one code unit. -/
def escape_unichar (c : Nat) : List Nat :=
  if c = 0x08 then [0x5C, 0x62]
  else if c = 0x09 then [0x5C, 0x74]
  else if c = 0x0A then [0x5C, 0x6E]
  else if c = 0x0C then [0x5C, 0x66]
  else if c = 0x0D then [0x5C, 0x72]
  else if c = 0x22 then [0x5C, 0x22]
  else if c = 0x2F then [0x5C, 0x2F]
  else if c = 0x5C then [0x5C, 0x5C]
  else if c > 0xFFFF then
    let reduced := c - 0x10000
    let lower := (reduced &&& 0x3FF) + 0xDC00
    let upper := (reduced >>> 10) + 0xD800
    [0x5C, 0x75, hexdigit ((upper >>> 12) &&& 0xF), hexdigit ((upper >>> 8) &&& 0xF),
      hexdigit ((upper >>> 4) &&& 0xF), hexdigit (upper &&& 0xF),
     0x5C, 0x75, hexdigit ((lower >>> 12) &&& 0xF), hexdigit ((lower >>> 8) &&& 0xF),
      hexdigit ((lower >>> 4) &&& 0xF), hexdigit (lower &&& 0xF)]
  else
    [0x5C, 0x75, hexdigit ((c >>> 12) &&& 0xF), hexdigit ((c >>> 8) &&& 0xF),
      hexdigit ((c >>> 4) &&& 0xF), hexdigit (c &&& 0xF)]

/-- What the fill loop of `unicode_to_ascii` writes for one code unit. -/
def unicode_to_ascii_char (escape_slash : Bool) (c : Nat) : List Nat :=
  if c > 0x1F ∧ c ≤ 0x7E ∧ c ≠ 0x5C ∧ c ≠ 0x22 ∧ (escape_slash = false ∨ c ≠ 0x2F) then [c]
  else escape_unichar c

/-- What the size loop of `unicode_to_ascii` adds for one code unit. -/
def unicode_to_ascii_char_size (escape_slash : Bool) (c : Nat) : Nat :=
  if c = 0x08 ∨ c = 0x09 ∨ c = 0x0A ∨ c = 0x0C ∨ c = 0x0D ∨ c = 0x22 ∨
      (escape_slash = true ∧ c = 0x2F) ∨ c = 0x5C then 2
  else if c ≤ 0x1F then 6
  else if c > 0xFFFF then 12
  else if c > 0x7E then 6
  else 1

/-- The `new_buffer_size` that `unicode_to_ascii` allocates. -/
def unicode_to_ascii_size (unicode : List Nat) (escape_slash : Bool) : Nat :=
  unicode.foldl (fun size c => size + unicode_to_ascii_char_size escape_slash c) 2

/-- `unicode_to_ascii`: the characters its fill loop writes. -/
def unicode_to_ascii (unicode : List Nat) (escape_slash : Bool) : List Nat :=
  [0x22] ++ unicode.flatMap (unicode_to_ascii_char escape_slash) ++ [0x22]

/-- The second scan of `write_unicode`, for invalid surrogate pairs. -/
def write_unicode_surrogates : List Nat → Option EncodeError
  | [] => none
  | c :: rest =>
    if 0xD800 ≤ c ∧ c ≤ 0xDBFF then
      match rest with
      | [] => some (.WriteError "Cannot serialize incomplete surrogate pair.")
      | c2 :: rest2 =>
        if ¬(0xDC00 ≤ c2 ∧ c2 ≤ 0xDFFF) then
          some (.WriteError "Cannot serialize invalid surrogate pair.")
        else write_unicode_surrogates rest2
    else if 0xDC00 ≤ c ∧ c ≤ 0xDFFF then some (.reserved_code_point c)
    else write_unicode_surrogates rest

/-- The test of the first scan of `write_unicode`: the code unit needs escaping. -/
def write_unicode_needs_escape (enc : Encoder) (c : Nat) : Bool :=
  decide (c = 0x22 ∨ (enc.escape_slash = true ∧ c = 0x2F) ∨ c = 0x5C ∨ c < 0x20 ∨
    (enc.ensure_ascii = true ∧ c > 0x7E))

/-- `write_unicode`. -/
def write_unicode (enc : Encoder) (unicode : List Nat) : Except EncodeError (List Nat) :=
  if unicode.all (fun c => !write_unicode_needs_escape enc c) then
    .ok ([0x22] ++ unicode ++ [0x22])
  else
    match write_unicode_surrogates unicode with
    | some e => .error e
    | none =>
      if enc.ensure_ascii then .ok (unicode_to_ascii unicode enc.escape_slash)
      else .ok (unicode_to_unicode unicode enc.escape_slash)

/-- The decimal digits of a natural number, most significant first
(at most `fuel` of them). -/
def nat_digits : Nat → Nat → List Nat → List Nat
  | 0, _, acc => acc
  | fuel + 1, n, acc =>
    if n < 10 then (0x30 + n) :: acc else nat_digits fuel (n / 10) ((0x30 + n % 10) :: acc)

/-- `PyObject_Str` of an integer: its decimal digits, after `-` when negative. -/
def PyObject_Str_int (n : Int) : List Nat :=
  if n < 0 then 0x2D :: nat_digits (n.natAbs + 1) n.natAbs []
  else nat_digits (n.natAbs + 1) n.natAbs []

/-- `write_float`. -/
def write_float {F : Type} (host : Host F) (enc : Encoder) :
    PyFloat F → Except EncodeError (List Nat)
  | .nan =>
    if enc.allow_nan then .ok [0x4E, 0x61, 0x4E]
    else .error (.WriteError "Cannot serialize NaN.")
  | .inf =>
    if enc.allow_nan then .ok [0x49, 0x6E, 0x66, 0x69, 0x6E, 0x69, 0x74, 0x79]
    else .error (.WriteError "Cannot serialize Infinity.")
  | .neg_inf =>
    if enc.allow_nan then .ok [0x2D, 0x49, 0x6E, 0x66, 0x69, 0x6E, 0x69, 0x74, 0x79]
    else .error (.WriteError "Cannot serialize -Infinity.")
  | .finite f => .ok (host.float_repr f)

/-- `write_basic`: the text of a scalar; lists and dictionaries have no scalar
serializer. -/
def write_basic {F : Type} (host : Host F) (enc : Encoder) :
    Value F → Except EncodeError (List Nat)
  | .bool true => .ok [0x74, 0x72, 0x75, 0x65]
  | .bool false => .ok [0x66, 0x61, 0x6C, 0x73, 0x65]
  | .null => .ok [0x6E, 0x75, 0x6C, 0x6C]
  | .str s => write_unicode enc s
  | .int n => .ok (PyObject_Str_int n)
  | .float x => write_float host enc x
  | .arr _ => .error .UnknownSerializerError
  | .obj _ => .error .UnknownSerializerError

/-- The four strings `get_separators` builds. -/
structure Separators where
  start : List Nat
  end_ : List Nat
  pre_value : Option (List Nat)
  post_value : List Nat
deriving DecidableEq, Repr

/-- The output with `pre_value` appended when there is one
(`pre_value && encoder_append_string (encoder, pre_value)`). -/
def Separators.with_pre_value (sep : Separators) (out : List Nat) : List Nat :=
  match sep.pre_value with
  | some pre_value => out ++ pre_value
  | none => out

/-- `PySequence_Repeat` of a string. -/
def PySequence_Repeat (s : List Nat) : Nat → List Nat
  | 0 => []
  | n + 1 => s ++ PySequence_Repeat s n

/-- `get_separators`. -/
def get_separators (indent_string : Option (List Nat)) (indent_level : Nat) (comma : List Nat)
    (start end_ : Nat) : Separators :=
  match indent_string with
  | none => { start := [start], pre_value := none, post_value := comma, end_ := [end_] }
  | some indent_string =>
    { start := [start, 0x0A],
      post_value := [0x2C, 0x0A],
      pre_value := some (PySequence_Repeat indent_string (indent_level + 1)),
      end_ := [0x0A] ++ PySequence_Repeat indent_string indent_level ++ [end_] }

/-- The `for` loop of `write_sequence_impl`; `write_object` is the writer for the
items, `size` the length of the sequence, `out` the output so far. -/
def write_sequence_impl_loop {F : Type}
    (write_object : Value F → Nat → List Nat → Except EncodeError (List Nat))
    (sep : Separators) (indent_level size : Nat) :
    List (Value F) → Nat → List Nat → Except EncodeError (List Nat)
  | [], _, out => .ok (out ++ sep.end_)
  | item :: rest, ii, out =>
    let out := match sep.pre_value with
      | some pre_value => out ++ pre_value
      | none => out
    match write_object item (indent_level + 1) out with
    | .error e => .error e
    | .ok out =>
      let out := if ii + 1 < size then out ++ sep.post_value else out
      write_sequence_impl_loop write_object sep indent_level size rest (ii + 1) out

/-- `write_sequence_impl`. -/
def write_sequence_impl {F : Type}
    (write_object : Value F → Nat → List Nat → Except EncodeError (List Nat))
    (seq : List (Value F)) (sep : Separators) (indent_level : Nat) (out : List Nat) :
    Except EncodeError (List Nat) :=
  write_sequence_impl_loop write_object sep indent_level seq.length seq 0 (out ++ sep.start)

/-- `write_iterable` (the re-entrancy guard never fires on a tree of values). -/
def write_iterable {F : Type} (enc : Encoder)
    (write_object : Value F → Nat → List Nat → Except EncodeError (List Nat))
    (iter : List (Value F)) (indent_level : Nat) (out : List Nat) :
    Except EncodeError (List Nat) :=
  if iter.length = 0 then .ok (out ++ [0x5B, 0x5D])
  else
    write_sequence_impl write_object iter
      (get_separators enc.indent_string indent_level enc.comma 0x5B 0x5D) indent_level out

/-- `mapping_process_key`: a unicode key is passed on as it is (the keys of the
value model are all unicode strings). -/
def mapping_process_key (_enc : Encoder) (key : List Nat) : Except EncodeError (List Nat) :=
  .ok key

/-- The loop shared by `write_dict` and `write_mapping_impl`: for every item the
optional `pre_value`, the serialized key, the colon, the value, and `post_value`
unless the item is the last. -/
def write_mapping_impl_loop {F : Type} (host : Host F) (enc : Encoder)
    (write_object : Value F → Nat → List Nat → Except EncodeError (List Nat))
    (sep : Separators) (indent_level item_count : Nat) :
    List (List Nat × Value F) → Nat → List Nat → Except EncodeError (List Nat)
  | [], _, out => .ok (out ++ sep.end_)
  | (raw_key, value) :: rest, ii, out =>
    let out := match sep.pre_value with
      | some pre_value => out ++ pre_value
      | none => out
    match mapping_process_key enc raw_key with
    | .error e => .error e
    | .ok key =>
      match write_basic host enc (.str key) with
      | .error e => .error e
      | .ok serialized =>
        let out := out ++ serialized ++ enc.colon
        match write_object value (indent_level + 1) out with
        | .error e => .error e
        | .ok out =>
          let out := if ii + 1 < item_count then out ++ sep.post_value else out
          write_mapping_impl_loop host enc write_object sep indent_level item_count rest
            (ii + 1) out

/-- `write_dict`: the items in the order `PyDict_Next` yields them. -/
def write_dict {F : Type} (host : Host F) (enc : Encoder)
    (write_object : Value F → Nat → List Nat → Except EncodeError (List Nat))
    (dict : List (List Nat × Value F)) (sep : Separators) (indent_level : Nat)
    (out : List Nat) : Except EncodeError (List Nat) :=
  write_mapping_impl_loop host enc write_object sep indent_level dict.length dict 0
    (out ++ sep.start)

/-- `write_mapping_impl`. -/
def write_mapping_impl {F : Type} (host : Host F) (enc : Encoder)
    (write_object : Value F → Nat → List Nat → Except EncodeError (List Nat))
    (items : List (List Nat × Value F)) (sep : Separators) (indent_level : Nat)
    (out : List Nat) : Except EncodeError (List Nat) :=
  write_mapping_impl_loop host enc write_object sep indent_level items.length items 0
    (out ++ sep.start)

/-- The comparison of two unicode strings (`unicode_compare`): by code unit, a
proper prefix first. -/
def unicode_compare : List Nat → List Nat → Ordering
  | [], [] => .eq
  | [], _ :: _ => .lt
  | _ :: _, [] => .gt
  | a :: as, b :: bs =>
    if a < b then .lt else if b < a then .gt else unicode_compare as bs

/-- The order `PyList_Sort` puts `(key, value)` items in: by key (the keys of a
dictionary are distinct, so the values are never compared). -/
def item_le {F : Type} (a b : List Nat × Value F) : Prop :=
  unicode_compare a.1 b.1 ≠ .gt

instance {F : Type} : DecidableRel (item_le (F := F)) :=
  fun a b => inferInstanceAs (Decidable (unicode_compare a.1 b.1 ≠ .gt))

/-- `PyList_Sort` on the items of a mapping (the sort is stable). -/
def PyList_Sort {F : Type} (items : List (List Nat × Value F)) : List (List Nat × Value F) :=
  items.insertionSort item_le

/-- `write_mapping` (the re-entrancy guard never fires on a tree of values). -/
def write_mapping {F : Type} (host : Host F) (enc : Encoder)
    (write_object : Value F → Nat → List Nat → Except EncodeError (List Nat))
    (mapping : List (List Nat × Value F)) (indent_level : Nat) (out : List Nat) :
    Except EncodeError (List Nat) :=
  if mapping.length = 0 then .ok (out ++ [0x7B, 0x7D])
  else
    let sep := get_separators enc.indent_string indent_level enc.comma 0x7B 0x7D
    if enc.sort_keys = false then write_dict host enc write_object mapping sep indent_level out
    else write_mapping_impl host enc write_object (PyList_Sort mapping) sep indent_level out

/-- `write_object`: lists and dictionaries are written structurally, everything
else through `write_basic`.  One unit of fuel per nesting level. -/
def write_object {F : Type} (host : Host F) (enc : Encoder) :
    Nat → Value F → Nat → List Nat → Except EncodeError (List Nat)
  | 0, _, _, _ => .error .RecursionLimit
  | fuel + 1, object, indent_level, out =>
    match object with
    | .arr xs => write_iterable enc (write_object host enc fuel) xs indent_level out
    | .obj items => write_mapping host enc (write_object host enc fuel) items indent_level out
    | _ =>
      match write_basic host enc object with
      | .ok pieces => .ok (out ++ pieces)
      | .error e => .error e

mutual

/-- The nesting depth of a value. -/
def Value.depth {F : Type} : Value F → Nat
  | .arr xs => depth_list xs + 1
  | .obj items => depth_items items + 1
  | _ => 0

/-- The largest depth in a list of values. -/
def depth_list {F : Type} : List (Value F) → Nat
  | [] => 0
  | x :: xs => max x.depth (depth_list xs)

/-- The largest depth among the values of a list of items. -/
def depth_items {F : Type} : List (List Nat × Value F) → Nat
  | [] => 0
  | (_, x) :: rest => max x.depth (depth_items rest)

end

/-- `valid_json_whitespace`. -/
def valid_json_whitespace (string : Option (List Nat)) : Bool :=
  match string with
  | none => true
  | some s => s.all (fun c => decide (c = 0x09 ∨ c = 0x0A ∨ c = 0x0D ∨ c = 0x20))

/-- `serializer_init_and_run_common` for a buffer encoder: the text written, or
the error.  The fuel is the depth of the value, which always suffices. -/
def serializer_init_and_run_common {F : Type} (host : Host F) (enc : Encoder) (value : Value F) :
    Except EncodeError (List Nat) :=
  if valid_json_whitespace enc.indent_string = false then
    .error (.TypeError "Only whitespace may be used for indentation.")
  else write_object host enc (value.depth + 1) value 0 []

/-- `_write_entry` with `encoding = None`: the text of the value. -/
def _write_entry {F : Type} (host : Host F) (enc : Encoder) (value : Value F) :
    Except EncodeError (List Nat) :=
  serializer_init_and_run_common host enc value

/-! ## The serializer on objects with identity

The functions of the serializer once more, on objects that are named by their
address, so that a list or a dictionary can be met again while it is written,
and with the `default` handler. -/

/-- A Python object as `write_object` tells objects apart. -/
inductive PyObject (F : Type) where
  /-- An object `write_basic` has a serializer for (`None`, `True`, `False`, a
  string, an integer, a float), given as the value it holds. -/
  | atom (v : Value F)
  /-- A list or a tuple, or another sequence (`PySequence_Check`), which
  `write_object` hands to `write_iterable` as well: the addresses of its items.
  (An object that is only iterable is written through a new iterator object and
  is not covered.) -/
  | list (items : List Nat)
  /-- A dict, or an object with `items`, which `write_object` hands to
  `write_mapping` as well: the addresses of its keys and values in the order of
  iteration. -/
  | dict (items : List (Nat × Nat))
  /-- An object that is none of these. -/
  | other

/-- What an encode call takes from the Python runtime: the objects at their
addresses, the `default` handler (`none` is `Py_None`; the handler returns the
address of its result, `none` when it raises), `PyObject_Unicode` on an object
(`none` when it raises) and `PyList_Sort` on the items of a mapping. -/
structure Runtime (F : Type) where
  heap : Nat → PyObject F
  default_handler : Option (Nat → Option Nat)
  PyObject_Unicode : Nat → Option (List Nat)
  PyList_Sort : List (Nat × Nat) → List (Nat × Nat)

/-- The state an encode call changes besides its output: the list
`Py_ReprEnter` keeps of the containers that are being written, and, to tell how
often the `default` handler is called, the arguments of its calls so far. -/
structure WriteState where
  repr : List Nat
  calls : List Nat
deriving DecidableEq, Repr

/-- `Py_ReprEnter`: `1` when the object is in the list, otherwise `0` after
appending it. -/
def Py_ReprEnter (st : WriteState) (obj : Nat) : Nat × WriteState :=
  if obj ∈ st.repr then (1, st) else (0, { st with repr := st.repr ++ [obj] })

/-- `Py_ReprLeave`: the last occurrence of the object is taken off the list. -/
def Py_ReprLeave (st : WriteState) (obj : Nat) : WriteState :=
  { st with repr := (st.repr.reverse.erase obj).reverse }

namespace Heap

/-- `write_basic` on an object: an object it has no serializer for gets
`set_unknown_serializer`. -/
def write_basic {F : Type} (host : Host F) (enc : Encoder) :
    PyObject F → Except EncodeError (List Nat)
  | .atom v => Jsonlib2.write_basic host enc v
  | _ => .error .UnknownSerializerError

/-- `mapping_process_key`: a string key is passed on; another key is, with
`coerce_keys`, replaced by the text `write_basic` gives it, or by its
`PyObject_Unicode` when `write_basic` has no serializer for it, and refused
otherwise. -/
def mapping_process_key {F : Type} (host : Host F) (enc : Encoder) (rt : Runtime F)
    (key : Nat) : Except EncodeError (List Nat) :=
  match rt.heap key with
  | .atom (.str s) => .ok s
  | o =>
    if enc.coerce_keys then
      match write_basic host enc o with
      | .ok new_key => .ok new_key
      | .error e =>
        if e = .UnknownSerializerError then
          match rt.PyObject_Unicode key with
          | some new_key => .ok new_key
          | none => .error .Raised
        else .error e
    else .error (.key_not_string key)

/-- The `for` loop of `write_sequence_impl`; `write_object` is the writer for the
items (called with `in_unknown_hook = FALSE`), `size` the length of the
sequence. -/
def write_sequence_impl_loop
    (write_object : WriteState → Nat → Nat → List Nat →
      Except EncodeError (List Nat) × WriteState)
    (sep : Separators) (indent_level size : Nat) :
    List Nat → Nat → List Nat → WriteState → Except EncodeError (List Nat) × WriteState
  | [], _, out, st => (.ok (out ++ sep.end_), st)
  | item :: rest, ii, out, st =>
    let out := sep.with_pre_value out
    match write_object st item (indent_level + 1) out with
    | (.error e, st) => (.error e, st)
    | (.ok out, st) =>
      let out := if ii + 1 < size then out ++ sep.post_value else out
      write_sequence_impl_loop write_object sep indent_level size rest (ii + 1) out st

/-- `write_sequence_impl`. -/
def write_sequence_impl
    (write_object : WriteState → Nat → Nat → List Nat →
      Except EncodeError (List Nat) × WriteState)
    (seq : List Nat) (sep : Separators) (indent_level : Nat) (out : List Nat)
    (st : WriteState) : Except EncodeError (List Nat) × WriteState :=
  write_sequence_impl_loop write_object sep indent_level seq.length seq 0 (out ++ sep.start) st

/-- `write_iterable` on the object at address `iter` whose items are `items`. -/
def write_iterable (enc : Encoder)
    (write_object : WriteState → Nat → Nat → List Nat →
      Except EncodeError (List Nat) × WriteState)
    (st : WriteState) (iter : Nat) (items : List Nat) (indent_level : Nat) (out : List Nat) :
    Except EncodeError (List Nat) × WriteState :=
  match Py_ReprEnter st iter with
  | (has_parents, st) =>
    if has_parents ≠ 0 then
      (.error (.WriteError "Cannot serialize self-referential values."), st)
    else if items.length = 0 then (.ok (out ++ [0x5B, 0x5D]), Py_ReprLeave st iter)
    else
      match write_sequence_impl write_object items
          (get_separators enc.indent_string indent_level enc.comma 0x5B 0x5D)
          indent_level out st with
      | (succeeded, st) => (succeeded, Py_ReprLeave st iter)

/-- The loop shared by `write_dict` and `write_mapping_impl`. -/
def write_mapping_impl_loop {F : Type} (host : Host F) (enc : Encoder) (rt : Runtime F)
    (write_object : WriteState → Nat → Nat → List Nat →
      Except EncodeError (List Nat) × WriteState)
    (sep : Separators) (indent_level item_count : Nat) :
    List (Nat × Nat) → Nat → List Nat → WriteState →
      Except EncodeError (List Nat) × WriteState
  | [], _, out, st => (.ok (out ++ sep.end_), st)
  | (raw_key, value) :: rest, ii, out, st =>
    let out := sep.with_pre_value out
    match mapping_process_key host enc rt raw_key with
    | .error e => (.error e, st)
    | .ok key =>
      match Jsonlib2.write_basic host enc (.str key) with
      | .error e => (.error e, st)
      | .ok serialized =>
        let out := out ++ serialized ++ enc.colon
        match write_object st value (indent_level + 1) out with
        | (.error e, st) => (.error e, st)
        | (.ok out, st) =>
          let out := if ii + 1 < item_count then out ++ sep.post_value else out
          write_mapping_impl_loop host enc rt write_object sep indent_level item_count rest
            (ii + 1) out st

/-- `write_mapping` on the object at address `mapping` whose items are `items`:
`write_dict` on the items as they are, or `write_mapping_impl` on the sorted
items with `sort_keys`. -/
def write_mapping {F : Type} (host : Host F) (enc : Encoder) (rt : Runtime F)
    (write_object : WriteState → Nat → Nat → List Nat →
      Except EncodeError (List Nat) × WriteState)
    (st : WriteState) (mapping : Nat) (items : List (Nat × Nat)) (indent_level : Nat)
    (out : List Nat) : Except EncodeError (List Nat) × WriteState :=
  if items.length = 0 then (.ok (out ++ [0x7B, 0x7D]), st)
  else
    match Py_ReprEnter st mapping with
    | (has_parents, st) =>
      if has_parents ≠ 0 then
        (.error (.WriteError "Cannot serialize self-referential values."), st)
      else
        let sep := get_separators enc.indent_string indent_level enc.comma 0x7B 0x7D
        let items := if enc.sort_keys = false then items else rt.PyList_Sort items
        match write_mapping_impl_loop host enc rt write_object sep indent_level items.length
            items 0 (out ++ sep.start) st with
        | (succeeded, st) => (succeeded, Py_ReprLeave st mapping)

/-- `write_object`.  One unit of fuel per nested call. -/
def write_object {F : Type} (host : Host F) (enc : Encoder) (rt : Runtime F) :
    Nat → WriteState → Nat → Nat → Bool → List Nat →
      Except EncodeError (List Nat) × WriteState
  | 0, st, _, _, _, _ => (.error .RecursionLimit, st)
  | fuel + 1, st, object, indent_level, in_unknown_hook, out =>
    match rt.heap object with
    | .list items =>
      write_iterable enc (fun st o l out => write_object host enc rt fuel st o l false out)
        st object items indent_level out
    | .dict items =>
      write_mapping host enc rt
        (fun st o l out => write_object host enc rt fuel st o l false out)
        st object items indent_level out
    | o =>
      match write_basic host enc o with
      | .ok pieces => (.ok (out ++ pieces), st)
      | .error e =>
        if e ≠ .UnknownSerializerError then (.error e, st)
        else
          match rt.default_handler with
          | none => (.error .UnknownSerializerError, st)
          | some default_handler =>
            if in_unknown_hook then (.error .UnknownSerializerError, st)
            else
              let st := { st with calls := st.calls ++ [object] }
              match default_handler object with
              | none => (.error .Raised, st)
              | some result => write_object host enc rt fuel st result indent_level true out

/-- `serializer_init_and_run_common` for a buffer encoder, from the state the
thread is in. -/
def serializer_init_and_run_common {F : Type} (host : Host F) (enc : Encoder) (rt : Runtime F)
    (fuel : Nat) (st : WriteState) (value : Nat) :
    Except EncodeError (List Nat) × WriteState :=
  if valid_json_whitespace enc.indent_string = false then
    (.error (.TypeError "Only whitespace may be used for indentation."), st)
  else write_object host enc rt fuel st value 0 false []

end Heap

/-! ## The grammar of string literals and numbers

The definitions below are not taken from the source: they describe JSON text,
and the theorems relate them to the parser and the serializer above. -/

/-- A hexadecimal digit character, in either case. -/
def is_hex_digit (c : Nat) : Prop :=
  (0x30 ≤ c ∧ c ≤ 0x39) ∨ (0x61 ≤ c ∧ c ≤ 0x66) ∨ (0x41 ≤ c ∧ c ≤ 0x46)

instance : DecidablePred is_hex_digit := fun c =>
  inferInstanceAs (Decidable ((0x30 ≤ c ∧ c ≤ 0x39) ∨ (0x61 ≤ c ∧ c ≤ 0x66) ∨ (0x41 ≤ c ∧ c ≤ 0x46)))

/-- The value of a hexadecimal digit character. -/
def hex_digit_value (c : Nat) : Nat :=
  if c ≤ 0x39 then c - 0x30 else if 0x61 ≤ c then c - 0x61 + 10 else c - 0x41 + 10

/-- The number four hexadecimal digit characters spell. -/
def hex4 (d1 d2 d3 d4 : Nat) : Nat :=
  ((hex_digit_value d1 * 16 + hex_digit_value d2) * 16 + hex_digit_value d3) * 16
    + hex_digit_value d4

/-- One element of the body of a JSON string literal. -/
inductive StrToken where
  /-- A code point written as it is. -/
  | plain (c : Nat)
  /-- A backslash and one of `"`, `\`, `/`, `b`, `f`, `n`, `r`, `t`. -/
  | escape (e : Nat)
  /-- `\uXXXX` for a code point that is not a surrogate. -/
  | unicode (d1 d2 d3 d4 : Nat)
  /-- `\uXXXX\uXXXX`: a high surrogate followed by a low surrogate. -/
  | pair (h1 h2 h3 h4 l1 l2 l3 l4 : Nat)
deriving DecidableEq, Repr

/-- The text of a token. -/
def StrToken.src : StrToken → List Nat
  | .plain c => [c]
  | .escape e => [0x5C, e]
  | .unicode d1 d2 d3 d4 => [0x5C, 0x75, d1, d2, d3, d4]
  | .pair h1 h2 h3 h4 l1 l2 l3 l4 => [0x5C, 0x75, h1, h2, h3, h4, 0x5C, 0x75, l1, l2, l3, l4]

/-- The code point a single-character escape stands for. -/
def escape_value (e : Nat) : Nat :=
  if e = 0x62 then 0x08
  else if e = 0x66 then 0x0C
  else if e = 0x6E then 0x0A
  else if e = 0x72 then 0x0D
  else if e = 0x74 then 0x09
  else e

/-- The code point a token stands for. -/
def StrToken.val : StrToken → Nat
  | .plain c => c
  | .escape e => escape_value e
  | .unicode d1 d2 d3 d4 => hex4 d1 d2 d3 d4
  | .pair h1 h2 h3 h4 l1 l2 l3 l4 =>
    ((hex4 h1 h2 h3 h4 - 0xD800) <<< 10) + (hex4 l1 l2 l3 l4 - 0xDC00) + 0x10000

/-- The well-formed tokens of the JSON grammar. -/
def StrToken.WF : StrToken → Prop
  | .plain c => 0x20 ≤ c ∧ c ≠ 0x22 ∧ c ≠ 0x5C
  | .escape e =>
    e = 0x22 ∨ e = 0x5C ∨ e = 0x2F ∨ e = 0x62 ∨ e = 0x66 ∨ e = 0x6E ∨ e = 0x72 ∨ e = 0x74
  | .unicode d1 d2 d3 d4 =>
    is_hex_digit d1 ∧ is_hex_digit d2 ∧ is_hex_digit d3 ∧ is_hex_digit d4 ∧
      ¬(0xD800 ≤ hex4 d1 d2 d3 d4 ∧ hex4 d1 d2 d3 d4 ≤ 0xDFFF)
  | .pair h1 h2 h3 h4 l1 l2 l3 l4 =>
    is_hex_digit h1 ∧ is_hex_digit h2 ∧ is_hex_digit h3 ∧ is_hex_digit h4 ∧
    is_hex_digit l1 ∧ is_hex_digit l2 ∧ is_hex_digit l3 ∧ is_hex_digit l4 ∧
    (0xD800 ≤ hex4 h1 h2 h3 h4 ∧ hex4 h1 h2 h3 h4 ≤ 0xDBFF) ∧
    (0xDC00 ≤ hex4 l1 l2 l3 l4 ∧ hex4 l1 l2 l3 l4 ≤ 0xDFFF)

/-- The text of a sequence of tokens. -/
def tokens_src (toks : List StrToken) : List Nat := toks.flatMap StrToken.src

/-- The lexical state after a stretch of a string literal's body, starting
`escaped` or not: `none` when the stretch holds U+0000, a control character or
an unescaped quote, otherwise whether it ends just after an unescaped backslash. -/
def scan_state : Bool → List Nat → Option Bool
  | escaped, [] => some escaped
  | escaped, c :: cs =>
    if c < 0x20 then none
    else if escaped then scan_state false cs
    else if c = 0x5C then scan_state true cs
    else if c = 0x22 then none
    else scan_state false cs

/-- The number of loop turns `read_string_full` spends on a token. -/
def StrToken.steps : StrToken → Nat
  | .plain _ => 1
  | _ => 2

/-- The loop turns spent on a sequence of tokens. -/
def tokens_steps (toks : List StrToken) : Nat := (toks.map StrToken.steps).sum

/-- The capacity of the scratch buffer after reading a literal with the given body. -/
def scratch_after {F : Type} (d : Decoder F) (body : List Nat) : Nat :=
  if 0x5C ∈ body ∧ body.length > d.stringparse_buffer_size then next_power_2 1 body.length
  else d.stringparse_buffer_size

/-- A Unicode scalar value: a code point up to U+10FFFF that is not a surrogate. -/
def is_scalar_value (c : Nat) : Prop := c < 0x110000 ∧ ¬(0xD800 ≤ c ∧ c ≤ 0xDFFF)

instance : DecidablePred is_scalar_value := fun c =>
  inferInstanceAs (Decidable (c < 0x110000 ∧ ¬(0xD800 ≤ c ∧ c ≤ 0xDFFF)))

/-- A code unit that the scan of `read_number` passes over. -/
def is_number_char (c : Nat) : Prop :=
  (0x30 ≤ c ∧ c ≤ 0x39) ∨ c = 0x2D ∨ c = 0x2B ∨ c = 0x65 ∨ c = 0x45 ∨ c = 0x2E

instance : DecidablePred is_number_char := fun c =>
  inferInstanceAs (Decidable ((0x30 ≤ c ∧ c ≤ 0x39) ∨ c = 0x2D ∨ c = 0x2B ∨ c = 0x65 ∨
    c = 0x45 ∨ c = 0x2E))

/-- What may follow the text of a number: the end of the input, or a code unit
the scan of `read_number` stops at. -/
def number_stop : List Nat → Prop
  | [] => True
  | c :: _ => ¬ is_number_char c

/-- A decimal digit character. -/
def is_digit (c : Nat) : Prop := 0x30 ≤ c ∧ c ≤ 0x39

instance : DecidablePred is_digit := fun c =>
  inferInstanceAs (Decidable (0x30 ≤ c ∧ c ≤ 0x39))

/-- The parts of the text of a number: the sign, the digits of the integer
part, the digits of the fraction if there is one, and for an exponent its
letter, its sign characters and its digits. -/
structure NumberText where
  negative : Bool
  int_digits : List Nat
  frac_digits : Option (List Nat)
  exponent : Option (Nat × List Nat × List Nat)

/-- The text of a sign. -/
def sign_text (negative : Bool) : List Nat := if negative then [0x2D] else []

/-- The text of a fraction: a point and digits. -/
def frac_text : Option (List Nat) → List Nat
  | some ds => 0x2E :: ds
  | none => []

/-- The text of an exponent: its letter, sign characters and digits. -/
def exp_text : Option (Nat × List Nat × List Nat) → List Nat
  | some (e, sign, ds) => e :: (sign ++ ds)
  | none => []

/-- The text the parts spell. -/
def NumberText.text (n : NumberText) : List Nat :=
  sign_text n.negative ++ n.int_digits ++ frac_text n.frac_digits ++ exp_text n.exponent

/-- The JSON number grammar `-?(0|[1-9][0-9]*)(.[0-9]+)?([eE][+-]?[0-9]+)?`. -/
def NumberText.WF (n : NumberText) : Prop :=
  (n.int_digits = [0x30] ∨
    (∃ c cs, n.int_digits = c :: cs ∧ (0x31 ≤ c ∧ c ≤ 0x39) ∧ ∀ x ∈ cs, is_digit x)) ∧
  (∀ ds, n.frac_digits = some ds → ds ≠ [] ∧ ∀ x ∈ ds, is_digit x) ∧
  (∀ e sign ds, n.exponent = some (e, sign, ds) →
    (e = 0x65 ∨ e = 0x45) ∧ (sign = [] ∨ sign = [0x2B] ∨ sign = [0x2D]) ∧
      ds ≠ [] ∧ ∀ x ∈ ds, is_digit x)

/-- What the round trip needs of the host's floats: the text `PyObject_Repr`
gives a finite float is a JSON number with a fraction or an exponent, with a
fraction when its integer part is `0`, and `PyFloat_FromString` reads it back
as the same float. -/
def Host.float_round_trip {F : Type} (host : Host F) : Prop :=
  ∀ f : F, host.float_from_string (host.float_repr f) = some (.finite f) ∧
    ∃ n : NumberText, n.WF ∧ (n.frac_digits.isSome = true ∨ n.exponent.isSome = true) ∧
      (n.int_digits = [0x30] → n.frac_digits.isSome = true) ∧ host.float_repr f = n.text

/-- The decoder moved to offset `i`, its scratch buffer of capacity `size`. -/
def Decoder.moved {F : Type} (d : Decoder F) (i size : Nat) : Decoder F :=
  { d with index := i, stringparse_buffer_size := size }

/-- Flags on which further digits change nothing. -/
def NumberFlags.stable (fl : NumberFlags) : Prop :=
  fl.got_digit = true ∧ (fl.leading_zero = false ∨ fl.is_float = true)

/-- The flags `read_number` starts from. -/
def init_flags : NumberFlags :=
  { is_float := false, got_digit := false, leading_zero := false, has_exponent := false }

/-- The conversion `read_number` applies to the matched text once the scan has
accepted it. -/
def number_object {F : Type} (host : Host F) (d : Decoder F) (is_float : Bool)
    (unicode : List Nat) : Option (Value F) :=
  if is_float then
    match d.parse_float with
    | some hook => hook unicode
    | none => (host.float_from_string unicode).map Value.float
  else
    match d.parse_int with
    | some hook => hook unicode
    | none => (PyLong_FromUnicode host unicode 10).map Value.int

mutual

/-- A value of the value model: its strings and keys hold Unicode scalar values
only and the keys of each of its objects are pairwise distinct. -/
def Value.wf {F : Type} : Value F → Prop
  | .str s => ∀ c ∈ s, is_scalar_value c
  | .arr xs => wf_list xs
  | .obj items => (items.map Prod.fst).Nodup ∧ wf_items items
  | _ => True

/-- Every value of the list is of the value model. -/
def wf_list {F : Type} : List (Value F) → Prop
  | [] => True
  | x :: xs => x.wf ∧ wf_list xs

/-- Every key holds scalar values only and every value is of the value model. -/
def wf_items {F : Type} : List (List Nat × Value F) → Prop
  | [] => True
  | (k, v) :: rest => (∀ c ∈ k, is_scalar_value c) ∧ v.wf ∧ wf_items rest

end

mutual

/-- The value with the items of every object in the order `PyList_Sort` gives. -/
def Value.sorted {F : Type} : Value F → Value F
  | .arr xs => .arr (sorted_list xs)
  | .obj items => .obj (PyList_Sort (sorted_items items))
  | .null => .null
  | .bool b => .bool b
  | .int n => .int n
  | .float x => .float x
  | .str s => .str s

/-- `Value.sorted` on every value of a list. -/
def sorted_list {F : Type} : List (Value F) → List (Value F)
  | [] => []
  | x :: xs => x.sorted :: sorted_list xs

/-- `Value.sorted` on the value of every item. -/
def sorted_items {F : Type} : List (List Nat × Value F) → List (List Nat × Value F)
  | [] => []
  | (k, v) :: rest => (k, v.sorted) :: sorted_items rest

end

/-- The text of a scalar: what `write_basic` returns for it. -/
def scalar_text {F : Type} (host : Host F) (enc : Encoder) (v : Value F) : List Nat :=
  match write_basic host enc v with
  | .ok text => text
  | .error _ => []

mutual

/-- The compact text of a value: items in the order they are stored, separated
by `, `, keys and values by `: `. -/
def render {F : Type} (host : Host F) (enc : Encoder) : Value F → List Nat
  | .arr [] => [0x5B, 0x5D]
  | .arr (x :: xs) => [0x5B] ++ render host enc x ++ render_tail host enc xs ++ [0x5D]
  | .obj [] => [0x7B, 0x7D]
  | .obj ((k, v) :: rest) =>
    [0x7B] ++ (scalar_text host enc (.str k) ++ [0x3A, 0x20] ++ render host enc v) ++
      render_members host enc rest ++ [0x7D]
  | .null => scalar_text host enc .null
  | .bool b => scalar_text host enc (.bool b)
  | .int n => scalar_text host enc (.int n)
  | .float x => scalar_text host enc (.float x)
  | .str s => scalar_text host enc (.str s)

/-- The compact text of the values after the first of an array. -/
def render_tail {F : Type} (host : Host F) (enc : Encoder) : List (Value F) → List Nat
  | [] => []
  | x :: xs => [0x2C, 0x20] ++ render host enc x ++ render_tail host enc xs

/-- The compact text of the members after the first of an object. -/
def render_members {F : Type} (host : Host F) (enc : Encoder) :
    List (List Nat × Value F) → List Nat
  | [] => []
  | (k, v) :: rest =>
    [0x2C, 0x20] ++ (scalar_text host enc (.str k) ++ [0x3A, 0x20] ++ render host enc v) ++
      render_members host enc rest

end

/-- An encoder in compact mode with the default separators, allowing `NaN` and
the infinities. -/
def Encoder.compact (enc : Encoder) : Prop :=
  enc.indent_string = none ∧ enc.comma = [0x2C, 0x20] ∧ enc.colon = [0x3A, 0x20] ∧
    enc.allow_nan = true

/-- The text of the values of an array from some position on. -/
def render_body {F : Type} (host : Host F) (enc : Encoder) : List (Value F) → List Nat
  | [] => []
  | x :: xs => render host enc x ++ render_tail host enc xs

/-- The text of the members of an object from some position on. -/
def render_members_body {F : Type} (host : Host F) (enc : Encoder) :
    List (List Nat × Value F) → List Nat
  | [] => []
  | (k, v) :: rest =>
    (scalar_text host enc (.str k) ++ [0x3A, 0x20] ++ render host enc v) ++
      render_members host enc rest

/-- The value in the order its objects are written in: with `sort_keys` the
items of every object sorted by key, otherwise as they are stored. -/
def Encoder.order {F : Type} (enc : Encoder) (v : Value F) : Value F :=
  if enc.sort_keys then v.sorted else v

mutual

/-- The indented text of a value at nesting level `L` for the indent string `s`:
a non-empty array is its opening bracket, a line feed, its elements, each after
`s` repeated `L + 1` times, separated by a comma and a line feed, then a line
feed, `s` repeated `L` times and the closing bracket; a non-empty object the
same with braces, each member written as key, `: `, value.  The elements and
the values of members are at level `L + 1`. -/
def indented {F : Type} (host : Host F) (enc : Encoder) (s : List Nat) :
    Nat → Value F → List Nat
  | _, .arr [] => [0x5B, 0x5D]
  | L, .arr (x :: xs) =>
    [0x5B, 0x0A] ++ (PySequence_Repeat s (L + 1) ++ indented host enc s (L + 1) x) ++
      indented_tail host enc s (L + 1) xs ++ ([0x0A] ++ PySequence_Repeat s L ++ [0x5D])
  | _, .obj [] => [0x7B, 0x7D]
  | L, .obj ((k, v) :: rest) =>
    [0x7B, 0x0A] ++
      (PySequence_Repeat s (L + 1) ++ scalar_text host enc (.str k) ++ [0x3A, 0x20] ++
        indented host enc s (L + 1) v) ++
      indented_members host enc s (L + 1) rest ++ ([0x0A] ++ PySequence_Repeat s L ++ [0x7D])
  | _, .null => scalar_text host enc .null
  | _, .bool b => scalar_text host enc (.bool b)
  | _, .int n => scalar_text host enc (.int n)
  | _, .float x => scalar_text host enc (.float x)
  | _, .str t => scalar_text host enc (.str t)

/-- The indented text of the elements after the first of an array, themselves at
level `L`: each after a comma, a line feed and `s` repeated `L` times. -/
def indented_tail {F : Type} (host : Host F) (enc : Encoder) (s : List Nat) :
    Nat → List (Value F) → List Nat
  | _, [] => []
  | L, x :: xs =>
    [0x2C, 0x0A] ++ (PySequence_Repeat s L ++ indented host enc s L x) ++
      indented_tail host enc s L xs

/-- The indented text of the members after the first of an object, themselves at
level `L`. -/
def indented_members {F : Type} (host : Host F) (enc : Encoder) (s : List Nat) :
    Nat → List (List Nat × Value F) → List Nat
  | _, [] => []
  | L, (k, v) :: rest =>
    [0x2C, 0x0A] ++
      (PySequence_Repeat s L ++ scalar_text host enc (.str k) ++ [0x3A, 0x20] ++
        indented host enc s L v) ++
      indented_members host enc s L rest

end

/-- The indented text of the elements of an array from some position on. -/
def indented_body {F : Type} (host : Host F) (enc : Encoder) (s : List Nat) (L : Nat) :
    List (Value F) → List Nat
  | [] => []
  | x :: xs =>
    (PySequence_Repeat s L ++ indented host enc s L x) ++ indented_tail host enc s L xs

/-- The indented text of the members of an object from some position on. -/
def indented_members_body {F : Type} (host : Host F) (enc : Encoder) (s : List Nat) (L : Nat) :
    List (List Nat × Value F) → List Nat
  | [] => []
  | (k, v) :: rest =>
    (PySequence_Repeat s L ++ scalar_text host enc (.str k) ++ [0x3A, 0x20] ++
      indented host enc s L v) ++ indented_members host enc s L rest

/-- The argument `indent` of `write`: `None`, an integer or a string. -/
inductive IndentArg where
  | none
  | int (n : Int)
  | string (s : List Nat)
deriving DecidableEq, Repr

/-- `normalize_indent_string`: an integer becomes that many spaces. -/
def normalize_indent_string : IndentArg → Option (List Nat)
  | .none => Option.none
  | .int n => some (PySequence_Repeat [0x20] n.toNat)
  | .string s => some s

/-- JSON whitespace: tab, line feed, carriage return, space. -/
def is_json_space (c : Nat) : Prop := c = 0x09 ∨ c = 0x0A ∨ c = 0x0D ∨ c = 0x20

instance : DecidablePred is_json_space := fun c =>
  inferInstanceAs (Decidable (c = 0x09 ∨ c = 0x0A ∨ c = 0x0D ∨ c = 0x20))

/-- The first code unit of the text of a value written by the serializer. -/
def value_start (c : Nat) : Prop :=
  c = 0x22 ∨ c = 0x2D ∨ (0x30 ≤ c ∧ c ≤ 0x39) ∨ c = 0x5B ∨ c = 0x7B ∨ c = 0x74 ∨ c = 0x66 ∨
    c = 0x6E ∨ c = 0x4E ∨ c = 0x49

/-! ## Coordinates, byte-order marks, keywords and number spans as the
specification words them -/

/-- The line of offset `p`: one more than the number of line feeds below `p`. -/
def spec_line (text : List Nat) (p : Nat) : Nat := 1 + (text.take p).count 0x0A

/-- The index of the last line feed below `p`, `-1` when there is none. -/
def spec_last_line_feed (text : List Nat) : Nat → Int
  | 0 => -1
  | p + 1 => if text[p]? = some 0x0A then (p : Int) else spec_last_line_feed text p

/-- The column of offset `p`: `p` minus the index of the last line feed below `p`. -/
def spec_column (text : List Nat) (p : Nat) : Int := (p : Int) - spec_last_line_feed text p

/-- The byte-order marks in the order the specification lists them, each with
the encoding it stands for. -/
def bom_order : List (List Nat × Encoding) :=
  [([0xEF, 0xBB, 0xBF], .UTF_8_BOM), ([0xFF, 0xFE, 0x00, 0x00], .UTF_32_LE_BOM),
   ([0x00, 0x00, 0xFE, 0xFF], .UTF_32_BE_BOM), ([0xFF, 0xFE], .UTF_16_LE_BOM),
   ([0xFE, 0xFF], .UTF_16_BE_BOM)]

/-- The six keywords and the value each stands for when no hook is given. -/
def keyword_table {F : Type} : List (List Nat × Value F) :=
  [([0x74, 0x72, 0x75, 0x65], .bool true),
   ([0x66, 0x61, 0x6C, 0x73, 0x65], .bool false),
   ([0x6E, 0x75, 0x6C, 0x6C], .null),
   ([0x4E, 0x61, 0x4E], .float .nan),
   ([0x49, 0x6E, 0x66, 0x69, 0x6E, 0x69, 0x74, 0x79], .float .inf),
   ([0x2D, 0x49, 0x6E, 0x66, 0x69, 0x6E, 0x69, 0x74, 0x79], .float .neg_inf)]

/-- The span `read_number` matches: the code units from the cursor up to the
first that is not a digit, a sign, `e`, `E` or a point. -/
def number_span (l : List Nat) : List Nat := l.takeWhile (fun c => decide (is_number_char c))

/-- A span with a point or an exponent letter. -/
def is_float_span (span : List Nat) : Prop := 0x2E ∈ span ∨ 0x65 ∈ span ∨ 0x45 ∈ span

instance : DecidablePred is_float_span := fun span =>
  inferInstanceAs (Decidable (0x2E ∈ span ∨ 0x65 ∈ span ∨ 0x45 ∈ span))

/-- The value of a sequence of decimal digits. -/
def digits_value (ds : List Nat) : Nat := ds.foldl (fun acc c => acc * 10 + (c - 0x30)) 0

/-- The decimal value of digits after an optional sign. -/
def decimal_value : List Nat → Int
  | 0x2D :: ds => -(digits_value ds : Int)
  | 0x2B :: ds => (digits_value ds : Int)
  | ds => (digits_value ds : Int)

/-- Digits after an optional sign: `[+-]?[0-9]+`. -/
def is_signed_digits (span : List Nat) : Prop :=
  ∃ sign ds, span = sign ++ ds ∧ (sign = [] ∨ sign = [0x2D] ∨ sign = [0x2B]) ∧ ds ≠ [] ∧
    ∀ c ∈ ds, is_digit c

/-- The codec of an encoding variant. -/
def Encoding.codec : Encoding → Codec
  | .UTF_8 => .utf_8
  | .UTF_8_BOM => .utf_8
  | .UTF_16_LE => .utf_16_le
  | .UTF_16_LE_BOM => .utf_16_le
  | .UTF_16_BE => .utf_16_be
  | .UTF_16_BE_BOM => .utf_16_be
  | .UTF_32_LE => .utf_32_le
  | .UTF_32_LE_BOM => .utf_32_le
  | .UTF_32_BE => .utf_32_be
  | .UTF_32_BE_BOM => .utf_32_be

/-- The byte-order mark of an encoding variant, empty for a variant without. -/
def Encoding.bom : Encoding → List Nat
  | .UTF_8_BOM => [0xEF, 0xBB, 0xBF]
  | .UTF_16_LE_BOM => [0xFF, 0xFE]
  | .UTF_16_BE_BOM => [0xFE, 0xFF]
  | .UTF_32_LE_BOM => [0xFF, 0xFE, 0x00, 0x00]
  | .UTF_32_BE_BOM => [0x00, 0x00, 0xFE, 0xFF]
  | _ => []

/-- The bytes of an ASCII text in a codec: one byte per character in UTF-8, two
in UTF-16 and four in UTF-32, the character in the low byte. -/
def encode_ascii : Codec → List Nat → List Nat
  | .utf_8, text => text
  | .utf_16_le, text => text.flatMap (fun c => [c, 0])
  | .utf_16_be, text => text.flatMap (fun c => [0, c])
  | .utf_32_le, text => text.flatMap (fun c => [c, 0, 0, 0])
  | .utf_32_be, text => text.flatMap (fun c => [0, 0, 0, c])

/-- The lowercase hexadecimal digit of a value below 16. -/
def lower_hex_digit (d : Nat) : Nat := if d < 10 then 0x30 + d else 0x61 + (d - 10)

/-- The four lowercase hexadecimal digits of a value below 65536. -/
def lower_hex4 (n : Nat) : List Nat :=
  [lower_hex_digit (n / 4096 % 16), lower_hex_digit (n / 256 % 16),
   lower_hex_digit (n / 16 % 16), lower_hex_digit (n % 16)]

/-- A code point in D800..DBFF. -/
def is_high_surrogate (c : Nat) : Prop := 0xD800 ≤ c ∧ c ≤ 0xDBFF

/-- A code point in DC00..DFFF. -/
def is_low_surrogate (c : Nat) : Prop := 0xDC00 ≤ c ∧ c ≤ 0xDFFF

/-- The string holds an unpaired surrogate: a code point in D800..DBFF not
immediately followed by one in DC00..DFFF, or a code point in DC00..DFFF not
immediately preceded by one in D800..DBFF. -/
def has_unpaired_surrogate (s : List Nat) : Prop :=
  ∃ i, i < s.length ∧
    ((is_high_surrogate (s.getD i 0) ∧
        ¬(i + 1 < s.length ∧ is_low_surrogate (s.getD (i + 1) 0))) ∨
      (is_low_surrogate (s.getD i 0) ∧ ¬(0 < i ∧ is_high_surrogate (s.getD (i - 1) 0))))

/-! ## JSON texts

The texts the decoder is meant for, as syntax trees that keep the whitespace
between the tokens; not taken from the source. -/

/-- A run of JSON whitespace. -/
def is_ws (ws : List Nat) : Prop := ∀ c ∈ ws, is_json_space c

/-- A JSON text.  An element of an array is `(b, v, a)`: whitespace, the value,
whitespace.  A member of an object is `((b, key, m), (n, v, a))`: whitespace,
the tokens of the key, whitespace, the colon, whitespace, the value,
whitespace.  The whitespace `ws` of an array or object follows its opening
bracket. -/
inductive JText where
  | keyword (kw : List Nat)
  | number (n : NumberText)
  | string (toks : List StrToken)
  | array (ws : List Nat) (elems : List (List Nat × JText × List Nat))
  | object (ws : List Nat)
      (members : List ((List Nat × List StrToken × List Nat) × (List Nat × JText × List Nat)))

/-- The text of a string literal with the given tokens. -/
def quoted (toks : List StrToken) : List Nat := 0x22 :: (tokens_src toks ++ [0x22])

mutual

/-- The code units of a JSON text. -/
def JText.text : JText → List Nat
  | .keyword kw => kw
  | .number n => n.text
  | .string toks => quoted toks
  | .array ws [] => 0x5B :: (ws ++ [0x5D])
  | .array ws ((b, v, a) :: rest) =>
    0x5B :: (ws ++ (b ++ v.text ++ a) ++ elems_tail_text rest ++ [0x5D])
  | .object ws [] => 0x7B :: (ws ++ [0x7D])
  | .object ws (((b, key, m), (n, v, a)) :: rest) =>
    0x7B :: (ws ++ (b ++ quoted key ++ m ++ 0x3A :: (n ++ v.text ++ a)) ++
      members_tail_text rest ++ [0x7D])

/-- The elements after the first: each after a comma. -/
def elems_tail_text : List (List Nat × JText × List Nat) → List Nat
  | [] => []
  | (b, v, a) :: rest => 0x2C :: (b ++ v.text ++ a) ++ elems_tail_text rest

/-- The members after the first: each after a comma. -/
def members_tail_text :
    List ((List Nat × List StrToken × List Nat) × (List Nat × JText × List Nat)) → List Nat
  | [] => []
  | ((b, key, m), (n, v, a)) :: rest =>
    0x2C :: (b ++ quoted key ++ m ++ 0x3A :: (n ++ v.text ++ a)) ++ members_tail_text rest

end

/-- The six keywords. -/
def keyword_texts : List (List Nat) :=
  [[0x74, 0x72, 0x75, 0x65], [0x66, 0x61, 0x6C, 0x73, 0x65], [0x6E, 0x75, 0x6C, 0x6C],
   [0x4E, 0x61, 0x4E], [0x49, 0x6E, 0x66, 0x69, 0x6E, 0x69, 0x74, 0x79],
   [0x2D, 0x49, 0x6E, 0x66, 0x69, 0x6E, 0x69, 0x74, 0x79]]

mutual

/-- A well-formed JSON text: one of the six keywords; a number of the JSON
grammar, with a fraction when its integer part is `0` and it has an exponent; a
string of well-formed tokens; an array or an object of well-formed texts with
JSON whitespace between the tokens. -/
def JText.WF : JText → Prop
  | .keyword kw => kw ∈ keyword_texts
  | .number n =>
    n.WF ∧ (n.int_digits = [0x30] → n.frac_digits.isSome = true ∨ n.exponent.isSome = false)
  | .string toks => ∀ t ∈ toks, t.WF
  | .array ws elems => is_ws ws ∧ elems_WF elems
  | .object ws members => is_ws ws ∧ members_WF members

/-- Every element is well-formed. -/
def elems_WF : List (List Nat × JText × List Nat) → Prop
  | [] => True
  | (b, v, a) :: rest => is_ws b ∧ v.WF ∧ is_ws a ∧ elems_WF rest

/-- Every member is well-formed. -/
def members_WF :
    List ((List Nat × List StrToken × List Nat) × (List Nat × JText × List Nat)) → Prop
  | [] => True
  | ((b, key, m), (n, v, a)) :: rest =>
    is_ws b ∧ (∀ t ∈ key, t.WF) ∧ is_ws m ∧ is_ws n ∧ v.WF ∧ is_ws a ∧ members_WF rest

end

/-- The value a keyword stands for when there is no hook. -/
def keyword_value {F : Type} (kw : List Nat) : Option (Value F) :=
  (keyword_table.find? (fun p => p.1 = kw)).map Prod.snd

/-- The dictionary built from members in the order of the text. -/
def dict_of_members {F : Type} (kvs : List (List Nat × Value F)) : List (List Nat × Value F) :=
  kvs.foldl (fun acc kv => PyDict_SetItem acc kv.1 kv.2) []

mutual

/-- The value a JSON text denotes for a decoder with the given hooks: a keyword
or a number goes through the hook when there is one; the members of an object
enter the dictionary in the order of the text. -/
def JText.value {F : Type} (host : Host F) (d : Decoder F) : JText → Option (Value F)
  | .keyword kw =>
    match d.parse_constant with
    | some hook => hook kw
    | none => keyword_value kw
  | .number n => number_object host d (n.frac_digits.isSome || n.exponent.isSome) n.text
  | .string toks => some (.str (toks.map StrToken.val))
  | .array _ elems => (elems_values host d elems).map Value.arr
  | .object _ members =>
    (members_values host d members).map (fun kvs => Value.obj (dict_of_members kvs))

/-- The values of the elements. -/
def elems_values {F : Type} (host : Host F) (d : Decoder F) :
    List (List Nat × JText × List Nat) → Option (List (Value F))
  | [] => some []
  | (_, v, _) :: rest =>
    match v.value host d, elems_values host d rest with
    | some x, some xs => some (x :: xs)
    | _, _ => none

/-- The keys and values of the members. -/
def members_values {F : Type} (host : Host F) (d : Decoder F) :
    List ((List Nat × List StrToken × List Nat) × (List Nat × JText × List Nat)) →
      Option (List (List Nat × Value F))
  | [] => some []
  | ((_, key, _), (_, v, _)) :: rest =>
    match v.value host d, members_values host d rest with
    | some x, some xs => some ((key.map StrToken.val, x) :: xs)
    | _, _ => none

end

/-! ## Texts that stop inside an array or an object -/

/-- Elements of an array, each followed by its comma. -/
def elems_lead_text : List (List Nat × JText × List Nat) → List Nat
  | [] => []
  | (b, v, a) :: rest => (b ++ v.text ++ a) ++ 0x2C :: elems_lead_text rest

/-- Members of an object, each followed by its comma. -/
def members_lead_text :
    List ((List Nat × List StrToken × List Nat) × (List Nat × JText × List Nat)) → List Nat
  | [] => []
  | ((b, key, m), (n, v, a)) :: rest =>
    (b ++ quoted key ++ m ++ 0x3A :: (n ++ v.text ++ a)) ++ 0x2C :: members_lead_text rest

/-- An array or an object from its opening bracket up to a point between two
tokens: after the elements `done` and their commas, then
* `arr_need`: whitespace, where an element (or, with no element yet, the closing
  bracket) is due;
* `arr_got`: one more element, where a comma or the closing bracket is due;
* `obj_need_key`: whitespace, where a key (or, with no member yet, the closing
  brace) is due;
* `obj_need_colon`: a key, where the colon is due;
* `obj_need_value`: a key and the colon, where the value is due;
* `obj_got`: one more member, where a comma or the closing brace is due. -/
inductive Opened where
  | arr_need (ws : List Nat) (done : List (List Nat × JText × List Nat)) (b : List Nat)
  | arr_got (ws : List Nat) (done : List (List Nat × JText × List Nat)) (b : List Nat)
      (v : JText) (a : List Nat)
  | obj_need_key (ws : List Nat)
      (done : List ((List Nat × List StrToken × List Nat) × (List Nat × JText × List Nat)))
      (b : List Nat)
  | obj_need_colon (ws : List Nat)
      (done : List ((List Nat × List StrToken × List Nat) × (List Nat × JText × List Nat)))
      (b : List Nat) (key : List StrToken) (m : List Nat)
  | obj_need_value (ws : List Nat)
      (done : List ((List Nat × List StrToken × List Nat) × (List Nat × JText × List Nat)))
      (b : List Nat) (key : List StrToken) (m n : List Nat)
  | obj_got (ws : List Nat)
      (done : List ((List Nat × List StrToken × List Nat) × (List Nat × JText × List Nat)))
      (b : List Nat) (key : List StrToken) (m n : List Nat) (v : JText) (a : List Nat)

/-- The code units of an opened array or object. -/
def Opened.text : Opened → List Nat
  | .arr_need ws done b => 0x5B :: (ws ++ elems_lead_text done ++ b)
  | .arr_got ws done b v a => 0x5B :: (ws ++ elems_lead_text done ++ (b ++ v.text ++ a))
  | .obj_need_key ws done b => 0x7B :: (ws ++ members_lead_text done ++ b)
  | .obj_need_colon ws done b key m =>
    0x7B :: (ws ++ members_lead_text done ++ (b ++ quoted key ++ m))
  | .obj_need_value ws done b key m n =>
    0x7B :: (ws ++ members_lead_text done ++ (b ++ quoted key ++ m ++ 0x3A :: n))
  | .obj_got ws done b key m n v a =>
    0x7B :: (ws ++ members_lead_text done ++ (b ++ quoted key ++ m ++ 0x3A :: (n ++ v.text ++ a)))

/-- Well-formed so far: whitespace where whitespace stands, well-formed keys and
values. -/
def Opened.WF : Opened → Prop
  | .arr_need ws done b => is_ws ws ∧ elems_WF done ∧ is_ws b
  | .arr_got ws done b v a => is_ws ws ∧ elems_WF done ∧ is_ws b ∧ v.WF ∧ is_ws a
  | .obj_need_key ws done b => is_ws ws ∧ members_WF done ∧ is_ws b
  | .obj_need_colon ws done b key m =>
    is_ws ws ∧ members_WF done ∧ is_ws b ∧ (∀ t ∈ key, t.WF) ∧ is_ws m
  | .obj_need_value ws done b key m n =>
    is_ws ws ∧ members_WF done ∧ is_ws b ∧ (∀ t ∈ key, t.WF) ∧ is_ws m ∧ is_ws n
  | .obj_got ws done b key m n v a =>
    is_ws ws ∧ members_WF done ∧ is_ws b ∧ (∀ t ∈ key, t.WF) ∧ is_ws m ∧ is_ws n ∧ v.WF ∧
      is_ws a

/-- The values read so far all denote something (no hook and no host conversion
fails on them). -/
def Opened.denotes {F : Type} (host : Host F) (d : Decoder F) : Opened → Prop
  | .arr_need _ done _ => (elems_values host d done).isSome = true
  | .arr_got _ done _ v _ =>
    (elems_values host d done).isSome = true ∧ (v.value host d).isSome = true
  | .obj_need_key _ done _ => (members_values host d done).isSome = true
  | .obj_need_colon _ done _ _ _ => (members_values host d done).isSome = true
  | .obj_need_value _ done _ _ _ _ => (members_values host d done).isSome = true
  | .obj_got _ done _ _ _ _ v _ =>
    (members_values host d done).isSome = true ∧ (v.value host d).isSome = true

/-- An opened array (rather than an opened object). -/
def Opened.is_array : Opened → Bool
  | .arr_need _ _ _ => true
  | .arr_got _ _ _ _ _ => true
  | _ => false

/-- A value is due next. -/
def Opened.value_due : Opened → Bool
  | .arr_need _ _ _ => true
  | .obj_need_value _ _ _ _ _ _ => true
  | _ => false

/-- The text stops right after a value. -/
def Opened.after_value : Opened → Bool
  | .arr_got _ _ _ _ _ => true
  | .obj_got _ _ _ _ _ _ _ _ => true
  | _ => false

/-- The state of `read_array_impl` at the end of an opened array. -/
def Opened.array_state : Opened → ParseArrayState
  | .arr_need _ done _ => if done.length = 0 then .ARRAY_EMPTY else .ARRAY_NEED_VALUE
  | _ => .ARRAY_GOT_VALUE

/-- The state of `read_object_impl` at the end of an opened object. -/
def Opened.object_state : Opened → ParseObjectState
  | .obj_need_key _ done _ => if done.length = 0 then .OBJECT_EMPTY else .OBJECT_NEED_KEY
  | .obj_need_colon _ _ _ _ _ => .OBJECT_NEED_COLON
  | .obj_need_value _ _ _ _ _ _ => .OBJECT_NEED_VALUE
  | _ => .OBJECT_GOT_VALUE

/-- The key `read_object_impl` holds at the end of an opened object. -/
def Opened.pending_key {F : Type} : Opened → Option (Value F)
  | .obj_need_colon _ _ _ key _ => some (.str (key.map StrToken.val))
  | .obj_need_value _ _ _ key _ _ => some (.str (key.map StrToken.val))
  | _ => none

/-- What `read_array` makes of the result of `read_array_impl`. -/
def lift_array {F : Type} (r : Except DecodeError (List (Value F) × Decoder F)) :
    Except DecodeError (Value F × Decoder F) :=
  match r with
  | .error e => .error e
  | .ok (list, d) => .ok (.arr list, d)

/-- What `read_object` makes of the result of `read_object_impl`. -/
def lift_object {F : Type} (r : Except DecodeError (List (List Nat × Value F) × Decoder F)) :
    Except DecodeError (Value F × Decoder F) :=
  match r with
  | .error e => .error e
  | .ok (object, d) => .ok (.obj object, d)

/-- The rest of the call of `json_read` once an opened array or object has been
read: the loop in the state the text stopped in, with the list or dictionary
built so far. -/
def Opened.resume {F : Type} (host : Host F) (op : Opened) (fuel : Nat)
    (list : List (Value F)) (object : List (List Nat × Value F)) (start : Nat) (d : Decoder F) :
    Except DecodeError (Value F × Decoder F) :=
  if op.is_array then lift_array (read_array_impl host fuel list start op.array_state d)
  else lift_object (read_object_impl host fuel object op.pending_key start op.object_state d)

/-- The text of nested opened arrays and objects, the outermost first, each
stopping where the next begins. -/
def context_text (ctx : List Opened) : List Nat := ctx.flatMap Opened.text

/-- The message for input that ends inside an array or an object. -/
def unterminated_message (op : Opened) : String :=
  if op.is_array then "Unterminated array." else "Unterminated object."

/-- The keywords `parser_find_next_value` and `json_read` look for after one of
the letters `t`, `f`, `n`, `N`, `I`. -/
def letter_keywords : List (List Nat) :=
  [[0x74, 0x72, 0x75, 0x65], [0x66, 0x61, 0x6C, 0x73, 0x65], [0x6E, 0x75, 0x6C, 0x6C],
   [0x4E, 0x61, 0x4E], [0x49, 0x6E, 0x66, 0x69, 0x6E, 0x69, 0x74, 0x79]]

/-- Code units that start a value: a quote, a minus sign, a digit, an opening
bracket or brace, or one of the keywords `true`, `false`, `null`, `NaN`,
`Infinity`. -/
def starts_value : List Nat → Prop
  | [] => False
  | c :: t =>
    (c = 0x22 ∨ c = 0x2D ∨ (0x30 ≤ c ∧ c ≤ 0x39) ∨ c = 0x5B ∨ c = 0x7B) ∨
      ∃ kw ∈ letter_keywords, kw <+: c :: t

/-- The decoder `_read_entry` parses `text` with. -/
def entry_decoder {F : Type} (text : List Nat)
    (parse_float parse_int parse_constant : Option (List Nat → Option (Value F))) : Decoder F :=
  { start := text, index := 0, stringparse_buffer_size := 0,
    parse_float := parse_float, parse_int := parse_int, parse_constant := parse_constant }

/-! ## Calls of `write_object` and the calls made within them -/

/-- A call of `write_object` on objects with identity: the fuel it has, the
state it starts from, the object, the indent level, the flag `in_unknown_hook`
and the output so far. -/
structure Call where
  fuel : Nat
  st : WriteState
  object : Nat
  indent_level : Nat
  in_unknown_hook : Bool
  out : List Nat
deriving DecidableEq, Repr

/-- What the call returns: the output or the error, and the state. -/
def Call.result {F : Type} (host : Host F) (enc : Encoder) (rt : Runtime F) (c : Call) :
    Except EncodeError (List Nat) × WriteState :=
  Heap.write_object host enc rt c.fuel c.st c.object c.indent_level c.in_unknown_hook c.out

/-- The object is a container the guard of the serializer watches: a list
(empty or not) or a non-empty dict. -/
def guarded_container {F : Type} (rt : Runtime F) (object : Nat) : Prop :=
  match rt.heap object with
  | .list _ => True
  | .dict items => items ≠ []
  | _ => False

/-- The loop of `write_sequence_impl`, started at position `ii` with the output
`out` in the state `st`, calls the writer with the state, item, indent level
and output `a`: on its first item, or, that item written, on a later one. -/
inductive SequenceCalls
    (W : WriteState → Nat → Nat → List Nat → Except EncodeError (List Nat) × WriteState)
    (sep : Separators) (indent_level size : Nat) :
    List Nat → Nat → List Nat → WriteState → WriteState × Nat × Nat × List Nat → Prop where
  | first (item : Nat) (rest : List Nat) (ii : Nat) (out : List Nat) (st : WriteState) :
    SequenceCalls W sep indent_level size (item :: rest) ii out st
      (st, item, indent_level + 1, sep.with_pre_value out)
  | later (item : Nat) (rest : List Nat) (ii : Nat) (out : List Nat) (st : WriteState)
      (out2 : List Nat) (st2 : WriteState) (a : WriteState × Nat × Nat × List Nat) :
    W st item (indent_level + 1) (sep.with_pre_value out) = (.ok out2, st2) →
    SequenceCalls W sep indent_level size rest (ii + 1)
      (if ii + 1 < size then out2 ++ sep.post_value else out2) st2 a →
    SequenceCalls W sep indent_level size (item :: rest) ii out st a

/-- The loop of `write_dict` and `write_mapping_impl` calls the writer with the
state, value, indent level and output `a`: on the value of its first item, the
key serialized, or, that item written, on a later one. -/
inductive MappingCalls {F : Type} (host : Host F) (enc : Encoder) (rt : Runtime F)
    (W : WriteState → Nat → Nat → List Nat → Except EncodeError (List Nat) × WriteState)
    (sep : Separators) (indent_level item_count : Nat) :
    List (Nat × Nat) → Nat → List Nat → WriteState → WriteState × Nat × Nat × List Nat →
      Prop where
  | first (raw_key value : Nat) (rest : List (Nat × Nat)) (ii : Nat) (out : List Nat)
      (st : WriteState) (key serialized : List Nat) :
    Heap.mapping_process_key host enc rt raw_key = .ok key →
    write_basic host enc (.str key) = .ok serialized →
    MappingCalls host enc rt W sep indent_level item_count ((raw_key, value) :: rest) ii out st
      (st, value, indent_level + 1, sep.with_pre_value out ++ serialized ++ enc.colon)
  | later (raw_key value : Nat) (rest : List (Nat × Nat)) (ii : Nat) (out : List Nat)
      (st : WriteState) (key serialized : List Nat) (out2 : List Nat) (st2 : WriteState)
      (a : WriteState × Nat × Nat × List Nat) :
    Heap.mapping_process_key host enc rt raw_key = .ok key →
    write_basic host enc (.str key) = .ok serialized →
    W st value (indent_level + 1) (sep.with_pre_value out ++ serialized ++ enc.colon)
      = (.ok out2, st2) →
    MappingCalls host enc rt W sep indent_level item_count rest (ii + 1)
      (if ii + 1 < item_count then out2 ++ sep.post_value else out2) st2 a →
    MappingCalls host enc rt W sep indent_level item_count ((raw_key, value) :: rest) ii out st a

/-- The call `c2` is made by the call `c1` itself: on an item of the list `c1`
writes, on the value of an item of the dict `c1` writes, or on what the
`default` handler returned for the object of `c1`. -/
inductive Nested {F : Type} (host : Host F) (enc : Encoder) (rt : Runtime F) :
    Call → Call → Prop where
  | item (fuel : Nat) (st : WriteState) (object indent_level : Nat) (hook : Bool)
      (out : List Nat) (items : List Nat) (a : WriteState × Nat × Nat × List Nat) :
    rt.heap object = .list items → object ∉ st.repr → items ≠ [] →
    SequenceCalls (fun st o l out => Heap.write_object host enc rt fuel st o l false out)
      (get_separators enc.indent_string indent_level enc.comma 0x5B 0x5D) indent_level
      items.length items 0
      (out ++ (get_separators enc.indent_string indent_level enc.comma 0x5B 0x5D).start)
      { st with repr := st.repr ++ [object] } a →
    Nested host enc rt ⟨fuel + 1, st, object, indent_level, hook, out⟩
      ⟨fuel, a.1, a.2.1, a.2.2.1, false, a.2.2.2⟩
  | member (fuel : Nat) (st : WriteState) (object indent_level : Nat) (hook : Bool)
      (out : List Nat) (items : List (Nat × Nat)) (a : WriteState × Nat × Nat × List Nat) :
    rt.heap object = .dict items → object ∉ st.repr → items ≠ [] →
    MappingCalls host enc rt
      (fun st o l out => Heap.write_object host enc rt fuel st o l false out)
      (get_separators enc.indent_string indent_level enc.comma 0x7B 0x7D) indent_level
      (if enc.sort_keys = false then items else rt.PyList_Sort items).length
      (if enc.sort_keys = false then items else rt.PyList_Sort items) 0
      (out ++ (get_separators enc.indent_string indent_level enc.comma 0x7B 0x7D).start)
      { st with repr := st.repr ++ [object] } a →
    Nested host enc rt ⟨fuel + 1, st, object, indent_level, hook, out⟩
      ⟨fuel, a.1, a.2.1, a.2.2.1, false, a.2.2.2⟩
  | handled (fuel : Nat) (st : WriteState) (object indent_level : Nat) (out : List Nat)
      (default_handler : Nat → Option Nat) (result : Nat) :
    Heap.write_basic host enc (rt.heap object) = .error .UnknownSerializerError →
    (∀ items, rt.heap object ≠ .list items) → (∀ items, rt.heap object ≠ .dict items) →
    rt.default_handler = some default_handler → default_handler object = some result →
    Nested host enc rt ⟨fuel + 1, st, object, indent_level, false, out⟩
      ⟨fuel, { st with calls := st.calls ++ [object] }, result, indent_level, true, out⟩

/-! ## A concrete host and decoder for examples -/

/-- A host with no spaces or decimal digits above ASCII and two finite floats,
written `0.5` (for `true`) and `1e+22` (for `false`). -/
def example_host : Host Bool :=
  { isspace := fun _ => false,
    todecimal := fun _ => none,
    float_from_string := fun s =>
      if s = [0x30, 0x2E, 0x35] then some (.finite true)
      else if s = [0x31, 0x65, 0x2B, 0x32, 0x32] then some (.finite false)
      else none,
    float_repr := fun f => if f then [0x30, 0x2E, 0x35] else [0x31, 0x65, 0x2B, 0x32, 0x32] }

/-- The decoder `_read_entry` starts from: cursor at the start of the text, no
scratch buffer, no hooks. -/
def new_decoder {F : Type} (text : List Nat) : Decoder F :=
  { start := text, index := 0, stringparse_buffer_size := 0,
    parse_float := none, parse_int := none, parse_constant := none }

/-- Bytes taken two by two as code units, the low byte first or last. -/
def decode_pairs (little : Bool) : List Nat → Option (List Nat)
  | [] => some []
  | [_] => none
  | a :: b :: rest =>
    (decode_pairs little rest).map (fun u => (if little then a + 256 * b else 256 * a + b) :: u)

/-- Bytes taken four by four as code points, the low byte first or last. -/
def decode_quads (little : Bool) : List Nat → Option (List Nat)
  | a :: b :: c :: d :: rest =>
    (decode_quads little rest).map (fun u =>
      (if little then a + 256 * (b + 256 * (c + 256 * d))
       else 256 * (256 * (256 * a + b) + c) + d) :: u)
  | [] => some []
  | _ => none

/-- A decoder for examples: it accepts ASCII bytes as UTF-8, code units below
the surrogates as UTF-16 and any four bytes as UTF-32. -/
def example_decode : Codec → List Nat → Option (List Nat)
  | .utf_8, bytes => if bytes.all (fun b => decide (b < 0x80)) then some bytes else none
  | .utf_16_le, bytes =>
    (decode_pairs true bytes).bind (fun u =>
      if u.all (fun c => decide (c < 0xD800)) then some u else none)
  | .utf_16_be, bytes =>
    (decode_pairs false bytes).bind (fun u =>
      if u.all (fun c => decide (c < 0xD800)) then some u else none)
  | .utf_32_le, bytes => decode_quads true bytes
  | .utf_32_be, bytes => decode_quads false bytes

/-- Objects for examples: at 0 the list `[1, <itself>]`, at 1 the integer 1, at
2 the dict `{"a": [<the dict>]}` with its key at 3 and its list at 4, at 5 and 7
objects that are neither scalars nor containers, at 6 the list `[<5>, <5>]`,
at 8 the list `[<6>, <6>]`. -/
def example_heap : Nat → PyObject Bool
  | 0 => .list [1, 0]
  | 1 => .atom (.int 1)
  | 2 => .dict [(3, 4)]
  | 3 => .atom (.str [0x61])
  | 4 => .list [2]
  | 6 => .list [5, 5]
  | 8 => .list [6, 6]
  | _ => .other

/-- A runtime for examples: the handler returns the integer at 1 for the object
at 5 and the object at 5 for the object at 7, and raises otherwise; the items
of a mapping are left in their order. -/
def example_runtime : Runtime Bool :=
  { heap := example_heap,
    default_handler := some (fun o => if o = 5 then some 1 else if o = 7 then some 5 else none),
    PyObject_Unicode := fun _ => none,
    PyList_Sort := fun items => items }

/-- An example value: `{"b": [-7, 0.5, null, true], "a": "é😀/", "": {}}`. -/
def example_value : Value Bool :=
  .obj [([0x62], .arr [.int (-7), .float (.finite true), .null, .bool true]),
    ([0x61], .str [0xE9, 0x1F600, 0x2F]), ([], .obj [])]

/-- The default options with `sort_keys` switched on. -/
def sorting_encoder : Encoder := { init_encoder with sort_keys := true }

end Jsonlib2

namespace Jsonlib2

/-! ## The entry point with its `indent` argument -/

/-- The function `write` of the module (`_write_entry` with `encoding = None`) from its
argument `indent` on: the argument is normalised into the indent string of the
encoder, then the serializer runs. -/
def write {F : Type} (host : Host F) (enc : Encoder) (indent : IndentArg) (value : Value F) :
    Except EncodeError (List Nat) :=
  serializer_init_and_run_common host
    { enc with indent_string := normalize_indent_string indent } value

/-! ## The cursor and the scratch buffer of the parser -/

/-- A capacity the scratch buffer can have: the initial `0`, or a power of two
(what `next_power_2 (1, _)` returns). -/
def capacity_ok (size : Nat) : Prop := size = 0 ∨ ∃ k, size = 2 ^ k

/-- The decoder `d2` is the decoder `d` further on: the same text, the cursor not
before that of `d` and not past the end of the text, the capacity of the scratch buffer
not smaller and still `0` or a power of two when it was. -/
def Decoder.later {F : Type} (d d2 : Decoder F) : Prop :=
  d2.start = d.start ∧ d.index ≤ d2.index ∧ d2.index ≤ d.start.length ∧
    d.stringparse_buffer_size ≤ d2.stringparse_buffer_size ∧
    (capacity_ok d.stringparse_buffer_size → capacity_ok d2.stringparse_buffer_size)

/-- The error is one the parser reports at a position within a text of length `len`
(or an exception of a library call); it is not the model running out of fuel. -/
def DecodeError.within (len : Nat) : DecodeError → Prop
  | .ReadError _ position => position ≤ len
  | .HostError => True
  | .RecursionLimit => False

/-- What a parser operation started with the decoder `d` is to return: on success a
decoder further on with the cursor strictly advanced; a `ReadError` at a position
within the text; and `RecursionLimit` (the model out of fuel) only when the fuel was
not `enough`. -/
def Decoder.sound {F α : Type} (d : Decoder F) (enough : Prop) :
    Except DecodeError (α × Decoder F) → Prop
  | .ok (_, d2) => d.later d2 ∧ d.index < d2.index
  | .error (.ReadError _ position) => position ≤ d.start.length
  | .error .HostError => True
  | .error .RecursionLimit => ¬ enough

/-- The indices of the scratch buffer that `read_string_full` and
`read_unicode_escape` store to, in order, whatever the outcome of the read: the `for`
loop of `read_string_full` once more, with `buffer_idx` in place of the buffer. -/
def read_string_full_writes {F : Type} (host : Host F) (d : Decoder F) (start : Nat)
    (max_char_count : Nat) : Nat → Nat → Bool → Nat → List Nat
  | 0, _, _, _ => []
  | fuel + 1, ii, escaped, buffer_idx =>
    if ii < max_char_count then
      let c := code_at d.start (start + ii)
      if escaped then
        if c = 0x5C ∨ c = 0x22 ∨ c = 0x2F ∨ c = 0x62 ∨ c = 0x66 ∨ c = 0x6E ∨ c = 0x72 ∨
            c = 0x74 then
          buffer_idx ::
            read_string_full_writes host d start max_char_count fuel (ii + 1) false
              (buffer_idx + 1)
        else if c = 0x75 then
          match read_unicode_escape host d start ii max_char_count with
          | .error _ => []
          | .ok (_, next_ii) =>
            buffer_idx ::
              read_string_full_writes host d start max_char_count fuel next_ii false
                (buffer_idx + 1)
        else []
      else if c = 0x5C then
        read_string_full_writes host d start max_char_count fuel (ii + 1) true buffer_idx
      else if c = 0x22 then []
      else
        buffer_idx ::
          read_string_full_writes host d start max_char_count fuel (ii + 1) false
            (buffer_idx + 1)
    else []

/-! ## Objects that unfold to values -/

mutual

/-- The object at address `o` unfolds to the value `v`: it is a scalar holding `v`, a
list whose items unfold to the elements of the array `v`, or a dict whose keys are
strings and whose values unfold to the members of the object `v`, in the order of
iteration.  Only objects that do not contain themselves unfold to a value. -/
def unfolds {F : Type} (rt : Runtime F) : Value F → Nat → Prop
  | .arr xs, o => ∃ items, rt.heap o = .list items ∧ unfolds_list rt xs items
  | .obj kvs, o => ∃ items, rt.heap o = .dict items ∧ unfolds_items rt kvs items
  | .null, o => rt.heap o = .atom .null
  | .bool b, o => rt.heap o = .atom (.bool b)
  | .int n, o => rt.heap o = .atom (.int n)
  | .float x, o => rt.heap o = .atom (.float x)
  | .str s, o => rt.heap o = .atom (.str s)

/-- The objects at the addresses unfold to the values, one by one. -/
def unfolds_list {F : Type} (rt : Runtime F) : List (Value F) → List Nat → Prop
  | [], os => os = []
  | x :: xs, os => ∃ o rest, os = o :: rest ∧ unfolds rt x o ∧ unfolds_list rt xs rest

/-- The items unfold to the members, one by one: the key is that string, the value
unfolds to the member's value. -/
def unfolds_items {F : Type} (rt : Runtime F) :
    List (List Nat × Value F) → List (Nat × Nat) → Prop
  | [], os => os = []
  | (s, v) :: kvs, os =>
    ∃ k o rest, os = (k, o) :: rest ∧ rt.heap k = .atom (.str s) ∧ unfolds rt v o ∧
      unfolds_items rt kvs rest

end

/-! ## Objects for examples -/

/-- A heap with keys that are not strings: object 0 is the dict
`{1: 0, True: 0, None: 0, "k": 0}`, object 6 the dict `{10: None, 9: None}`, object 9
the list `[l, l]` for the one list `l = [1]` at address 10. -/
def keys_heap : Nat → PyObject Bool
  | 0 => .dict [(1, 4), (2, 4), (3, 4), (5, 4)]
  | 1 => .atom (.int 1)
  | 2 => .atom (.bool true)
  | 3 => .atom .null
  | 4 => .atom (.int 0)
  | 5 => .atom (.str [0x6B])
  | 6 => .dict [(7, 3), (8, 3)]
  | 7 => .atom (.int 10)
  | 8 => .atom (.int 9)
  | 9 => .list [10, 10]
  | 10 => .list [1]
  | _ => .other

/-- The integer an object holds (`0` when it holds none). -/
def int_key {F : Type} (heap : Nat → PyObject F) (o : Nat) : Int :=
  match heap o with
  | .atom (.int n) => n
  | _ => 0

/-- A runtime on `keys_heap` without a `default` handler; `PyList_Sort` puts items
whose keys are integers in ascending order of the keys, as Python compares the
`(key, value)` tuples. -/
def keys_runtime : Runtime Bool :=
  { heap := keys_heap,
    default_handler := none,
    PyObject_Unicode := fun _ => none,
    PyList_Sort := fun items =>
      items.insertionSort (fun a b => int_key keys_heap a.1 ≤ int_key keys_heap b.1) }

end Jsonlib2

namespace Jsonlib2

/-! ## Reading the buffer -/

theorem code_at_of_drop {buf xs : List Nat} {p : Nat} (h : buf.drop p = xs) (j : Nat) :
    code_at buf (p + j) = xs.getD j 0 := by
  subst h
  simp [code_at, List.getD_eq_getElem?_getD, List.getElem?_drop]

theorem code_at_of_drop_zero {buf xs : List Nat} {p : Nat} (h : buf.drop p = xs) :
    code_at buf p = xs.getD 0 0 := by
  simpa using code_at_of_drop h 0

theorem drop_add_of_drop {buf x y : List Nat} {p : Nat} (h : buf.drop p = x ++ y) :
    buf.drop (p + x.length) = y := by
  rw [← List.drop_drop, h, List.drop_left]

theorem take_drop_of_drop {buf xs ys : List Nat} {p : Nat} (h : buf.drop p = xs ++ ys) :
    (buf.drop p).take xs.length = xs := by
  rw [h, List.take_left]

theorem length_of_drop {buf xs : List Nat} {p : Nat} (h : buf.drop p = xs) :
    p + xs.length = buf.length ∨ (xs = [] ∧ buf.length ≤ p) := by
  subst h
  by_cases hp : p ≤ buf.length
  · left; simp; omega
  · right; constructor
    · simp; omega
    · omega

/-! ## Hexadecimal digits -/

theorem hex_digit_lt {c : Nat} (h : is_hex_digit c) : hex_digit_value c < 16 := by
  unfold is_hex_digit at h; unfold hex_digit_value; split_ifs <;> omega

theorem hex_digit_DigitValue {c : Nat} (h : is_hex_digit c) :
    PyLong_DigitValue c = hex_digit_value c := by
  unfold is_hex_digit at h; unfold hex_digit_value PyLong_DigitValue; split_ifs <;> omega

theorem hex4_lt {d1 d2 d3 d4 : Nat} (h1 : is_hex_digit d1) (h2 : is_hex_digit d2)
    (h3 : is_hex_digit d3) (h4 : is_hex_digit d4) : hex4 d1 d2 d3 d4 < 0x10000 := by
  have := hex_digit_lt h1; have := hex_digit_lt h2
  have := hex_digit_lt h3; have := hex_digit_lt h4
  unfold hex4; omega

theorem EncodeDecimal_hex {F : Type} (host : Host F) {c : Nat} (h : is_hex_digit c)
    (rest : List Nat) :
    PyUnicode_EncodeDecimal host (c :: rest) =
      (PyUnicode_EncodeDecimal host rest).map (fun cs => c :: cs) := by
  unfold is_hex_digit at h
  have hlt : c < 128 := by omega
  have hs : Py_UNICODE_ISSPACE host c = false := by
    simp only [Py_UNICODE_ISSPACE, hlt, if_true, decide_eq_false_iff_not]; omega
  rw [PyUnicode_EncodeDecimal, hs]
  rcases h with h | h | h
  · have : Py_UNICODE_TODECIMAL host c = some (c - 0x30) := by
      simp only [Py_UNICODE_TODECIMAL, hlt, if_true]; rw [if_pos h]
    simp only [this]
    have e : 0x30 + (c - 0x30) = c := by omega
    rw [e]
    cases PyUnicode_EncodeDecimal host rest <;> simp
  · have : Py_UNICODE_TODECIMAL host c = none := by
      simp only [Py_UNICODE_TODECIMAL, hlt, if_true]; rw [if_neg (by omega)]
    simp only [this]
    have : (0 < c ∧ c < 256) := by omega
    simp only [this]
    cases PyUnicode_EncodeDecimal host rest <;> simp
  · have : Py_UNICODE_TODECIMAL host c = none := by
      simp only [Py_UNICODE_TODECIMAL, hlt, if_true]; rw [if_neg (by omega)]
    simp only [this]
    have : (0 < c ∧ c < 256) := by omega
    simp only [this]
    cases PyUnicode_EncodeDecimal host rest <;> simp

theorem PyLong_FromString_hex4 {d1 d2 d3 d4 : Nat} (h1 : is_hex_digit d1) (h2 : is_hex_digit d2)
    (h3 : is_hex_digit d3) (h4 : is_hex_digit d4) :
    PyLong_FromString [d1, d2, d3, d4] 16 = some ((hex4 d1 d2 d3 d4 : Nat) : Int) := by
  have v1 := hex_digit_DigitValue h1; have v2 := hex_digit_DigitValue h2
  have v3 := hex_digit_DigitValue h3; have v4 := hex_digit_DigitValue h4
  have l1 := hex_digit_lt h1; have l2 := hex_digit_lt h2
  have l3 := hex_digit_lt h3; have l4 := hex_digit_lt h4
  have s1 : c_isspace d1 = false := by
    unfold is_hex_digit at h1; simp only [c_isspace, decide_eq_false_iff_not]; omega
  have n1 : d1 ≠ 0x2B ∧ d1 ≠ 0x2D := by unfold is_hex_digit at h1; omega
  have n2 : d2 ≠ 0x78 ∧ d2 ≠ 0x58 := by unfold is_hex_digit at h2; omega
  have hp : strip_base_marker [d1, d2, d3, d4] 16 = [d1, d2, d3, d4] := by
    simp [strip_base_marker, n2.1, n2.2]
  have ht : List.takeWhile (fun c => decide (PyLong_DigitValue c < 16)) [d1, d2, d3, d4]
      = [d1, d2, d3, d4] := by
    simp [List.takeWhile, v1, v2, v3, v4, l1, l2, l3, l4]
  have hd : List.dropWhile (fun c => decide (PyLong_DigitValue c < 16)) [d1, d2, d3, d4]
      = [] := by
    simp [List.dropWhile, v1, v2, v3, v4, l1, l2, l3, l4]
  have hdig : PyLong_FromString_digits [d1, d2, d3, d4] 16 = some (hex4 d1 d2 d3 d4) := by
    simp only [PyLong_FromString_digits, hp, ht, hd]
    simp [strip_long_suffix, hex4, v1, v2, v3, v4]
  simp only [PyLong_FromString, List.dropWhile_cons, s1, Bool.false_eq_true, if_false]
  rw [if_neg n1.1, if_neg n1.2, hdig]
  rfl

theorem read_4hex_hex {F : Type} (host : Host F) {buf rest : List Nat} {p : Nat}
    {d1 d2 d3 d4 : Nat} (h1 : is_hex_digit d1) (h2 : is_hex_digit d2)
    (h3 : is_hex_digit d3) (h4 : is_hex_digit d4)
    (h : buf.drop p = d1 :: d2 :: d3 :: d4 :: rest) :
    read_4hex host buf p = some (hex4 d1 d2 d3 d4) := by
  have ht : (buf.drop p).take 4 = [d1, d2, d3, d4] := by rw [h]; rfl
  have hl := hex4_lt h1 h2 h3 h4
  have he : PyUnicode_EncodeDecimal host [d1, d2, d3, d4] = some [d1, d2, d3, d4] := by
    rw [EncodeDecimal_hex host h1, EncodeDecimal_hex host h2, EncodeDecimal_hex host h3,
      EncodeDecimal_hex host h4]
    rfl
  simp only [read_4hex, ht, PyLong_FromUnicode, he, PyLong_FromString_hex4 h1 h2 h3 h4,
    PyLong_AsUnsignedLong]
  have hnn : (0 : Int) ≤ ((hex4 d1 d2 d3 d4 : Nat) : Int) := Int.natCast_nonneg _
  rw [if_pos hnn, Int.toNat_natCast, Nat.mod_eq_of_lt (by omega)]

end Jsonlib2

namespace Jsonlib2

/-! ## The first pass of `read_string` -/

theorem read_string_scan_body {F : Type} (d : Decoder F) (start : Nat) (rest : List Nat) :
    ∀ (body : List Nat) (ii : Nat) (escaped fancy : Bool),
      scan_state escaped body = some false → (escaped = true → fancy = true) →
      read_string_scan d start (body ++ 0x22 :: rest) ii escaped fancy
        = .ok (ii + body.length, fancy || decide (0x5C ∈ body)) := by
  intro body
  induction body with
  | nil =>
    intro ii escaped fancy hs _
    simp only [scan_state, Option.some.injEq] at hs
    subst hs
    simp [read_string_scan]
  | cons c cs ih =>
    intro ii escaped fancy hs hf
    rw [scan_state] at hs
    by_cases hc : c < 0x20
    · simp [hc] at hs
    · rw [if_neg hc] at hs
      have h0 : c ≠ 0 := by omega
      rw [List.cons_append, read_string_scan, if_neg h0, if_neg hc]
      cases escaped with
      | true =>
        simp only [if_true] at hs ⊢
        rw [ih (ii + 1) false fancy hs (by simp)]
        have := hf rfl
        subst this
        simp; omega
      | false =>
        simp only [Bool.false_eq_true, if_false] at hs ⊢
        by_cases hb : c = 0x5C
        · rw [if_pos hb] at hs ⊢
          rw [ih (ii + 1) true true hs (by simp)]
          simp [hb]; omega
        · rw [if_neg hb] at hs ⊢
          by_cases hq : c = 0x22
          · simp [hq] at hs
          · rw [if_neg hq] at hs ⊢
            rw [ih (ii + 1) false fancy hs (by simp)]
            have : ¬ (0x5C = c) := fun h => hb h.symm
            simp [this]; omega

theorem read_string_scan_control {F : Type} (d : Decoder F) (start : Nat) (c : Nat)
    (rest : List Nat) (hc1 : 1 ≤ c) (hc2 : c < 0x20) :
    ∀ (pre : List Nat) (ii : Nat) (escaped fancy : Bool),
      (scan_state escaped pre).isSome = true →
      read_string_scan d start (pre ++ c :: rest) ii escaped fancy
        = .error (set_error_unexpected d (start + (ii + pre.length)) "printable characters") := by
  intro pre
  induction pre with
  | nil =>
    intro ii escaped fancy _
    have h0 : c ≠ 0 := by omega
    simp [read_string_scan, h0, hc2]
  | cons a as ih =>
    intro ii escaped fancy hs
    rw [scan_state] at hs
    by_cases ha : a < 0x20
    · simp [ha] at hs
    · rw [if_neg ha] at hs
      have h0 : a ≠ 0 := by omega
      rw [List.cons_append, read_string_scan, if_neg h0, if_neg ha]
      have e : ii + (a :: as).length = ii + 1 + as.length := by simp; omega
      rw [e]
      cases escaped with
      | true =>
        simp only [if_true] at hs ⊢
        exact ih (ii + 1) false fancy hs
      | false =>
        simp only [Bool.false_eq_true, if_false] at hs ⊢
        by_cases hb : a = 0x5C
        · rw [if_pos hb] at hs ⊢
          exact ih (ii + 1) true true hs
        · rw [if_neg hb] at hs ⊢
          by_cases hq : a = 0x22
          · simp [hq] at hs
          · rw [if_neg hq] at hs ⊢
            exact ih (ii + 1) false fancy hs

theorem read_string_scan_nul {F : Type} (d : Decoder F) (start : Nat) :
    ∀ (pre : List Nat) (ii : Nat) (escaped fancy : Bool),
      (scan_state escaped pre).isSome = true →
      read_string_scan d start pre ii escaped fancy
        = .error (set_error_simple d.index "Unterminated string.") := by
  intro pre
  induction pre with
  | nil => intro ii escaped fancy _; simp [read_string_scan]
  | cons a as ih =>
    intro ii escaped fancy hs
    rw [scan_state] at hs
    by_cases ha : a < 0x20
    · simp [ha] at hs
    · rw [if_neg ha] at hs
      have h0 : a ≠ 0 := by omega
      rw [read_string_scan, if_neg h0, if_neg ha]
      cases escaped with
      | true =>
        simp only [if_true] at hs ⊢
        exact ih (ii + 1) false fancy hs
      | false =>
        simp only [Bool.false_eq_true, if_false] at hs ⊢
        by_cases hb : a = 0x5C
        · rw [if_pos hb] at hs ⊢
          exact ih (ii + 1) true true hs
        · rw [if_neg hb] at hs ⊢
          by_cases hq : a = 0x22
          · simp [hq] at hs
          · rw [if_neg hq] at hs ⊢
            exact ih (ii + 1) false fancy hs

/-! ## The lexical state of token text -/

theorem scan_state_append :
    ∀ (xs ys : List Nat) (escaped e' : Bool), scan_state escaped xs = some e' →
      scan_state escaped (xs ++ ys) = scan_state e' ys := by
  intro xs
  induction xs with
  | nil => intro ys escaped e' h; simp only [scan_state, Option.some.injEq] at h; subst h; rfl
  | cons c cs ih =>
    intro ys escaped e' h
    rw [scan_state] at h
    rw [List.cons_append, scan_state]
    by_cases hc : c < 0x20
    · simp [hc] at h
    · rw [if_neg hc] at h ⊢
      cases escaped with
      | true => simp only [if_true] at h ⊢; exact ih ys false e' h
      | false =>
        simp only [Bool.false_eq_true, if_false] at h ⊢
        by_cases hb : c = 0x5C
        · rw [if_pos hb] at h ⊢; exact ih ys true e' h
        · rw [if_neg hb] at h ⊢
          by_cases hq : c = 0x22
          · simp [hq] at h
          · rw [if_neg hq] at h ⊢; exact ih ys false e' h

theorem hex_digit_scan {c : Nat} (h : is_hex_digit c) : ¬ c < 0x20 ∧ c ≠ 0x5C ∧ c ≠ 0x22 := by
  unfold is_hex_digit at h; omega

theorem scan_state_token {t : StrToken} (ht : t.WF) : scan_state false t.src = some false := by
  cases t with
  | plain c =>
    obtain ⟨h1, h2, h3⟩ := ht
    have : ¬ c < 0x20 := by omega
    simp [StrToken.src, scan_state, this, h2, h3]
  | escape e =>
    have h : ¬ e < 0x20 := by
      simp only [StrToken.WF] at ht; omega
    simp [StrToken.src, scan_state, h]
  | unicode d1 d2 d3 d4 =>
    obtain ⟨h1, h2, h3, h4, _⟩ := ht
    have a1 := hex_digit_scan h1; have a2 := hex_digit_scan h2
    have a3 := hex_digit_scan h3; have a4 := hex_digit_scan h4
    simp [StrToken.src, scan_state, a1, a2, a3, a4]
  | pair h1 h2 h3 h4 l1 l2 l3 l4 =>
    obtain ⟨h1, h2, h3, h4, g1, g2, g3, g4, _⟩ := ht
    have a1 := hex_digit_scan h1; have a2 := hex_digit_scan h2
    have a3 := hex_digit_scan h3; have a4 := hex_digit_scan h4
    have b1 := hex_digit_scan g1; have b2 := hex_digit_scan g2
    have b3 := hex_digit_scan g3; have b4 := hex_digit_scan g4
    simp [StrToken.src, scan_state, a1, a2, a3, a4, b1, b2, b3, b4]

theorem scan_state_tokens : ∀ (toks : List StrToken), (∀ t ∈ toks, t.WF) →
    scan_state false (tokens_src toks) = some false := by
  intro toks
  induction toks with
  | nil => intro _; rfl
  | cons t ts ih =>
    intro h
    have ht := h t (List.mem_cons_self _ _)
    have hts : ∀ t ∈ ts, t.WF := fun x hx => h x (List.mem_cons_of_mem _ hx)
    simp only [tokens_src, List.flatMap_cons]
    rw [scan_state_append _ _ _ _ (scan_state_token ht)]
    exact ih hts

end Jsonlib2

namespace Jsonlib2

/-! ## The second pass of `read_string` -/

theorem StrToken.steps_le (t : StrToken) : t.steps ≤ t.src.length := by
  cases t <;> simp [StrToken.steps, StrToken.src]

theorem read_unicode_escape_unicode {F : Type} (host : Host F) (d : Decoder F)
    (start max ii : Nat) {d1 d2 d3 d4 : Nat} {rest : List Nat}
    (h1 : is_hex_digit d1) (h2 : is_hex_digit d2) (h3 : is_hex_digit d3) (h4 : is_hex_digit d4)
    (hs : ¬(0xD800 ≤ hex4 d1 d2 d3 d4 ∧ hex4 d1 d2 d3 d4 ≤ 0xDFFF))
    (h : d.start.drop (start + (ii + 1)) = d1 :: d2 :: d3 :: d4 :: rest)
    (hmax : ii + 5 ≤ max) :
    read_unicode_escape host d start ii max = .ok (hex4 d1 d2 d3 d4, ii + 5) := by
  have hr : ¬ (max - (ii + 1) < 4) := by omega
  simp only [read_unicode_escape, hr, if_false, read_4hex_hex host h1 h2 h3 h4 h]
  have a : ¬(0xD800 ≤ hex4 d1 d2 d3 d4 ∧ hex4 d1 d2 d3 d4 ≤ 0xDBFF) := by omega
  have b : ¬(0xDC00 ≤ hex4 d1 d2 d3 d4 ∧ hex4 d1 d2 d3 d4 ≤ 0xDFFF) := by omega
  rw [if_neg a, if_neg b]

theorem read_unicode_escape_pair {F : Type} (host : Host F) (d : Decoder F)
    (start max ii : Nat) {h1 h2 h3 h4 l1 l2 l3 l4 : Nat} {rest : List Nat}
    (x1 : is_hex_digit h1) (x2 : is_hex_digit h2) (x3 : is_hex_digit h3) (x4 : is_hex_digit h4)
    (y1 : is_hex_digit l1) (y2 : is_hex_digit l2) (y3 : is_hex_digit l3) (y4 : is_hex_digit l4)
    (hh : 0xD800 ≤ hex4 h1 h2 h3 h4 ∧ hex4 h1 h2 h3 h4 ≤ 0xDBFF)
    (h : d.start.drop (start + (ii + 1)) =
      h1 :: h2 :: h3 :: h4 :: 0x5C :: 0x75 :: l1 :: l2 :: l3 :: l4 :: rest)
    (hmax : ii + 11 ≤ max) :
    read_unicode_escape host d start ii max =
      .ok ((((hex4 h1 h2 h3 h4 - 0xD800) <<< 10) +
        (hex4 l1 l2 l3 l4 + 2 ^ 32 - 0xDC00) % 2 ^ 32 + 0x10000) % 2 ^ 32, ii + 11) := by
  have hr : ¬ (max - (ii + 1) < 4) := by omega
  have hr2 : ¬ (max - (ii + 1) < 10) := by omega
  have hd : d.start.drop (start + (ii + 1) + 4) = 0x5C :: 0x75 :: l1 :: l2 :: l3 :: l4 :: rest :=
    drop_add_of_drop (x := [h1, h2, h3, h4]) h
  have c0 : code_at d.start (start + (ii + 1 + 4)) = 0x5C := by
    rw [← Nat.add_assoc, code_at_of_drop_zero hd]; rfl
  have c1 : code_at d.start (start + (ii + 1 + 4) + 1) = 0x75 := by
    rw [← Nat.add_assoc, code_at_of_drop hd 1]; rfl
  have hd2 : d.start.drop (start + (ii + 1 + 4 + 2)) = l1 :: l2 :: l3 :: l4 :: rest := by
    have := drop_add_of_drop (x := [0x5C, 0x75]) hd
    simpa [Nat.add_assoc] using this
  simp only [read_unicode_escape, hr, hr2, if_false, read_4hex_hex host x1 x2 x3 x4 h, hh,
    and_self, if_true, c0, c1, ne_eq, not_true_eq_false, or_self,
    read_4hex_hex host y1 y2 y3 y4 hd2]

theorem loop_done {F : Type} (host : Host F) (d : Decoder F) (start max : Nat) (fuel : Nat)
    (ii : Nat) (buffer : List Nat) (h : max ≤ ii) :
    read_string_full_loop host d start max fuel ii false buffer = .ok buffer := by
  cases fuel with
  | zero => rfl
  | succ n => rw [read_string_full_loop, if_neg (by omega)]

theorem loop_token {F : Type} (host : Host F) (d : Decoder F) (start max : Nat)
    (t : StrToken) (ht : t.WF) (rest : List Nat) (ii fuel : Nat) (buffer : List Nat)
    (h : d.start.drop (start + ii) = t.src ++ rest) (hmax : ii + t.src.length ≤ max) :
    read_string_full_loop host d start max (fuel + t.steps) ii false buffer
      = read_string_full_loop host d start max fuel (ii + t.src.length) false
          (buffer ++ [t.val]) := by
  cases t with
  | plain c =>
    obtain ⟨h1, h2, h3⟩ := ht
    simp only [StrToken.src, List.length_singleton] at hmax ⊢
    have c0 : code_at d.start (start + ii) = c := by rw [code_at_of_drop_zero h]; rfl
    simp only [StrToken.steps]
    rw [read_string_full_loop, if_pos (by omega)]
    simp only [c0, Bool.false_eq_true, if_false, h2, h3, StrToken.val]
  | escape e =>
    simp only [StrToken.src, List.length_cons, List.length_nil] at hmax ⊢
    have c0 : code_at d.start (start + ii) = 0x5C := by rw [code_at_of_drop_zero h]; rfl
    have c1 : code_at d.start (start + (ii + 1)) = e := by
      rw [← Nat.add_assoc, code_at_of_drop h 1]; rfl
    simp only [StrToken.steps]
    rw [read_string_full_loop, if_pos (by omega)]
    simp only [c0, Bool.false_eq_true, if_false, if_true]
    rw [read_string_full_loop, if_pos (by omega)]
    simp only [c1, if_true, StrToken.val]
    simp only [StrToken.WF] at ht
    rcases ht with r | r | r | r | r | r | r | r <;> subst r <;> simp [escape_value]
  | unicode d1 d2 d3 d4 =>
    obtain ⟨h1, h2, h3, h4, hs⟩ := ht
    simp only [StrToken.src, List.length_cons, List.length_nil] at hmax ⊢
    have c0 : code_at d.start (start + ii) = 0x5C := by rw [code_at_of_drop_zero h]; rfl
    have c1 : code_at d.start (start + (ii + 1)) = 0x75 := by
      rw [← Nat.add_assoc, code_at_of_drop h 1]; rfl
    have hd : d.start.drop (start + (ii + 1 + 1)) = d1 :: d2 :: d3 :: d4 :: rest := by
      have := drop_add_of_drop (x := [0x5C, 0x75]) h
      simpa [Nat.add_assoc] using this
    simp only [StrToken.steps]
    rw [read_string_full_loop, if_pos (by omega)]
    simp only [c0, Bool.false_eq_true, if_false, if_true]
    rw [read_string_full_loop, if_pos (by omega)]
    simp only [c1, if_true]
    rw [read_unicode_escape_unicode host d start max (ii + 1) h1 h2 h3 h4 hs hd (by omega)]
    simp [StrToken.val, Nat.add_assoc]
  | pair h1 h2 h3 h4 l1 l2 l3 l4 =>
    obtain ⟨x1, x2, x3, x4, y1, y2, y3, y4, hh, hl⟩ := ht
    simp only [StrToken.src, List.length_cons, List.length_nil] at hmax ⊢
    have c0 : code_at d.start (start + ii) = 0x5C := by rw [code_at_of_drop_zero h]; rfl
    have c1 : code_at d.start (start + (ii + 1)) = 0x75 := by
      rw [← Nat.add_assoc, code_at_of_drop h 1]; rfl
    have hd : d.start.drop (start + (ii + 1 + 1)) =
        h1 :: h2 :: h3 :: h4 :: 0x5C :: 0x75 :: l1 :: l2 :: l3 :: l4 :: rest := by
      have := drop_add_of_drop (x := [0x5C, 0x75]) h
      simpa [Nat.add_assoc] using this
    simp only [StrToken.steps]
    rw [read_string_full_loop, if_pos (by omega)]
    simp only [c0, Bool.false_eq_true, if_false, if_true]
    rw [read_string_full_loop, if_pos (by omega)]
    simp only [c1, if_true]
    rw [read_unicode_escape_pair host d start max (ii + 1) x1 x2 x3 x4 y1 y2 y3 y4 hh hd
      (by omega)]
    have hl4 := hex4_lt y1 y2 y3 y4
    have hh4 := hex4_lt x1 x2 x3 x4
    have e1 : (hex4 l1 l2 l3 l4 + 2 ^ 32 - 0xDC00) % 2 ^ 32 = hex4 l1 l2 l3 l4 - 0xDC00 := by
      omega
    have e2 : (((hex4 h1 h2 h3 h4 - 0xD800) <<< 10) + (hex4 l1 l2 l3 l4 - 0xDC00) + 0x10000)
        % 2 ^ 32 = ((hex4 h1 h2 h3 h4 - 0xD800) <<< 10) + (hex4 l1 l2 l3 l4 - 0xDC00) + 0x10000 := by
      rw [Nat.shiftLeft_eq]; omega
    simp only [e1, e2, StrToken.val]
    simp [Nat.add_assoc]

theorem tokens_steps_le : ∀ toks : List StrToken, tokens_steps toks ≤ (tokens_src toks).length := by
  intro toks
  induction toks with
  | nil => simp [tokens_steps, tokens_src]
  | cons t ts ih =>
    have := t.steps_le
    simp only [tokens_steps, tokens_src, List.map_cons, List.sum_cons, List.flatMap_cons,
      List.length_append] at ih ⊢
    omega

theorem loop_tokens {F : Type} (host : Host F) (d : Decoder F) (start max : Nat) :
    ∀ (toks : List StrToken), (∀ t ∈ toks, t.WF) → ∀ (rest : List Nat) (ii fuel : Nat)
      (buffer : List Nat), d.start.drop (start + ii) = tokens_src toks ++ rest →
      ii + (tokens_src toks).length ≤ max →
      read_string_full_loop host d start max (fuel + tokens_steps toks) ii false buffer
        = read_string_full_loop host d start max fuel (ii + (tokens_src toks).length) false
            (buffer ++ toks.map StrToken.val) := by
  intro toks
  induction toks with
  | nil => intro _ rest ii fuel buffer _ _; simp [tokens_steps, tokens_src]
  | cons t ts ih =>
    intro hwf rest ii fuel buffer h hmax
    have ht := hwf t (List.mem_cons_self _ _)
    have hts : ∀ t ∈ ts, t.WF := fun x hx => hwf x (List.mem_cons_of_mem _ hx)
    simp only [tokens_src, List.flatMap_cons, List.length_append, List.append_assoc] at h hmax
    have hd : d.start.drop (start + (ii + t.src.length)) = tokens_src ts ++ rest := by
      have := drop_add_of_drop h
      simpa [Nat.add_assoc, tokens_src] using this
    have e : fuel + tokens_steps (t :: ts) = (fuel + tokens_steps ts) + t.steps := by
      simp [tokens_steps]; omega
    rw [e, loop_token host d start max t ht _ ii _ buffer h (by omega),
      ih hts rest (ii + t.src.length) fuel _ hd (by simp only [tokens_src]; omega)]
    simp [tokens_src, Nat.add_assoc]

end Jsonlib2

namespace Jsonlib2

/-! ## `read_string` on well-formed literals -/

theorem tokens_src_plain : ∀ toks : List StrToken, 0x5C ∉ tokens_src toks →
    (∀ t ∈ toks, t.WF) → toks.map StrToken.val = tokens_src toks := by
  intro toks
  induction toks with
  | nil => intro _ _; rfl
  | cons t ts ih =>
    intro h hwf
    simp only [tokens_src, List.flatMap_cons, List.mem_append, not_or] at h
    have hts : ∀ t ∈ ts, t.WF := fun x hx => hwf x (List.mem_cons_of_mem _ hx)
    have := ih h.2 hts
    cases t with
    | plain c => simp [tokens_src, StrToken.src, StrToken.val] at this ⊢; exact this
    | escape e => simp [StrToken.src] at h
    | unicode d1 d2 d3 d4 => simp [StrToken.src] at h
    | pair h1 h2 h3 h4 l1 l2 l3 l4 => simp [StrToken.src] at h

theorem token_src_head {t : StrToken} (ht : t.WF) :
    ∃ c cs, t.src = c :: cs ∧ c ≠ 0x22 := by
  cases t with
  | plain c => exact ⟨c, [], rfl, ht.2.1⟩
  | escape e => exact ⟨0x5C, [e], rfl, by decide⟩
  | unicode d1 d2 d3 d4 => exact ⟨0x5C, _, rfl, by decide⟩
  | pair h1 h2 h3 h4 l1 l2 l3 l4 => exact ⟨0x5C, _, rfl, by decide⟩

theorem read_string_tokens {F : Type} (host : Host F) (d : Decoder F) (toks : List StrToken)
    (hwf : ∀ t ∈ toks, t.WF) (rest : List Nat)
    (h : d.start.drop d.index = 0x22 :: (tokens_src toks ++ 0x22 :: rest)) :
    read_string host d = .ok (toks.map StrToken.val,
      { d with index := d.index + (tokens_src toks).length + 2,
               stringparse_buffer_size := scratch_after d (tokens_src toks) }) := by
  have hd : d.start.drop (d.index + 1) = tokens_src toks ++ 0x22 :: rest :=
    drop_add_of_drop (x := [0x22]) h
  cases toks with
  | nil =>
    have c0 : code_at d.start (d.index + 1) = 0x22 := by rw [code_at_of_drop_zero hd]; rfl
    simp [read_string, c0, tokens_src, scratch_after]
  | cons t ts =>
    obtain ⟨c, cs, hsrc, hc⟩ := token_src_head (hwf t (List.mem_cons_self _ _))
    have c0 : code_at d.start (d.index + 1) = c := by
      rw [code_at_of_drop_zero hd]; simp [tokens_src, hsrc]
    have hscan := read_string_scan_body d (d.index + 1) rest (tokens_src (t :: ts)) 0 false false
      (scan_state_tokens _ hwf) (by simp)
    rw [read_string, c0, if_neg hc]
    simp only [hd, hscan, Bool.false_or, Nat.zero_add]
    by_cases hf : 0x5C ∈ tokens_src (t :: ts)
    · simp only [hf, decide_True, if_true, read_string_full]
      have hle := tokens_steps_le (t :: ts)
      have e : (tokens_src (t :: ts)).length
          = ((tokens_src (t :: ts)).length - tokens_steps (t :: ts)) + tokens_steps (t :: ts) := by
        omega
      have hl := loop_tokens host d (d.index + 1) (tokens_src (t :: ts)).length (t :: ts) hwf
        (0x22 :: rest) 0 ((tokens_src (t :: ts)).length - tokens_steps (t :: ts)) []
        (by simpa using hd) (by omega)
      rw [← e] at hl
      rw [hl, loop_done host d _ _ _ _ _ (by omega)]
      simp only [List.nil_append, scratch_after, hf, true_and]
      by_cases hsz : (tokens_src (t :: ts)).length > d.stringparse_buffer_size
      · simp only [hsz, if_true]
        congr 3; omega
      · simp only [hsz, if_false]
        congr 3; omega
    · simp only [hf, decide_False, Bool.false_eq_true, if_false, scratch_after, false_and]
      rw [List.take_left, tokens_src_plain _ hf hwf]
      congr 3; omega

theorem read_string_tokens_index {F : Type} (host : Host F) (d : Decoder F)
    (toks : List StrToken) (hwf : ∀ t ∈ toks, t.WF) (rest : List Nat)
    (h : d.start.drop d.index = 0x22 :: (tokens_src toks ++ 0x22 :: rest)) :
    ∃ d', read_string host d = .ok (toks.map StrToken.val, d') ∧
      d'.index = d.index + (tokens_src toks).length + 2 ∧ d'.start = d.start :=
  ⟨_, read_string_tokens host d toks hwf rest h, rfl, rfl⟩

end Jsonlib2

namespace Jsonlib2

/-! ## `read_string` on literals with an escape -/

theorem scan_state_head {c : Nat} {cs : List Nat} {e : Bool}
    (h : scan_state false (c :: cs) = some e) : c ≠ 0x22 := by
  intro hc
  subst hc
  simp [scan_state] at h

theorem read_string_fancy {F : Type} (host : Host F) (d : Decoder F) (body rest : List Nat)
    (h : d.start.drop d.index = 0x22 :: (body ++ 0x22 :: rest))
    (hs : scan_state false body = some false) (hb : 0x5C ∈ body) :
    read_string host d =
      match read_string_full_loop host d (d.index + 1) body.length body.length 0 false [] with
      | .error e => .error e
      | .ok buffer => .ok (buffer,
          { d with index := d.index + body.length + 2,
                   stringparse_buffer_size := scratch_after d body }) := by
  have hd : d.start.drop (d.index + 1) = body ++ 0x22 :: rest :=
    drop_add_of_drop (x := [0x22]) h
  cases body with
  | nil => simp at hb
  | cons c cs =>
    have hc := scan_state_head hs
    have c0 : code_at d.start (d.index + 1) = c := by
      rw [code_at_of_drop_zero hd]; simp
    have hscan := read_string_scan_body d (d.index + 1) rest (c :: cs) 0 false false hs (by simp)
    rw [read_string, c0, if_neg hc]
    simp only [hd, hscan, Bool.false_or, Nat.zero_add, hb, decide_True, if_true, read_string_full]
    cases read_string_full_loop host d (d.index + 1) (c :: cs).length (c :: cs).length 0 false []
      with
    | error e => rfl
    | ok buffer =>
      simp only [scratch_after, hb, true_and]
      by_cases hsz : (c :: cs).length > d.stringparse_buffer_size
      · simp only [hsz, if_true]
        congr 3; omega
      · simp only [hsz, if_false]
        congr 3; omega

/-- After well-formed tokens the second pass reaches the text that follows them
with at least as much fuel as text is left. -/
theorem read_string_after_tokens {F : Type} (host : Host F) (d : Decoder F)
    (toks : List StrToken) (hwf : ∀ t ∈ toks, t.WF) (body2 rest : List Nat)
    (h : d.start.drop d.index = 0x22 :: (tokens_src toks ++ body2 ++ 0x22 :: rest))
    (hs : scan_state false body2 = some false) (hb : 0x5C ∈ body2) :
    ∃ fuel, body2.length ≤ fuel ∧
    read_string host d =
      match read_string_full_loop host d (d.index + 1) ((tokens_src toks).length + body2.length)
          fuel (tokens_src toks).length false (toks.map StrToken.val) with
      | .error e => .error e
      | .ok buffer => .ok (buffer,
          { d with index := d.index + ((tokens_src toks).length + body2.length) + 2,
                   stringparse_buffer_size := scratch_after d (tokens_src toks ++ body2) }) := by
  have hs' : scan_state false (tokens_src toks ++ body2) = some false := by
    rw [scan_state_append _ _ _ _ (scan_state_tokens toks hwf)]; exact hs
  have hb' : 0x5C ∈ tokens_src toks ++ body2 := List.mem_append_right _ hb
  have hle := tokens_steps_le toks
  refine ⟨(tokens_src toks).length + body2.length - tokens_steps toks, by omega, ?_⟩
  rw [read_string_fancy host d (tokens_src toks ++ body2) rest h hs' hb']
  have hd : d.start.drop (d.index + 1 + 0) = tokens_src toks ++ (body2 ++ 0x22 :: rest) := by
    have := drop_add_of_drop (x := [0x22]) h
    simpa using this
  have hl := loop_tokens host d (d.index + 1) ((tokens_src toks).length + body2.length) toks hwf
    (body2 ++ 0x22 :: rest) 0 ((tokens_src toks).length + body2.length - tokens_steps toks) []
    hd (by omega)
  have e : (tokens_src toks).length + body2.length - tokens_steps toks + tokens_steps toks
      = (tokens_src toks).length + body2.length := by omega
  rw [e] at hl
  simp only [List.length_append, hl, Nat.zero_add, List.nil_append]

theorem loop_unknown_escape {F : Type} (host : Host F) (d : Decoder F) (start max : Nat)
    (c : Nat) (rest : List Nat) (ii fuel : Nat) (buffer : List Nat)
    (hc : c ≠ 0x22 ∧ c ≠ 0x5C ∧ c ≠ 0x2F ∧ c ≠ 0x62 ∧ c ≠ 0x66 ∧ c ≠ 0x6E ∧ c ≠ 0x72 ∧
      c ≠ 0x74 ∧ c ≠ 0x75)
    (h : d.start.drop (start + ii) = 0x5C :: c :: rest) (hmax : ii + 2 ≤ max)
    (hfuel : 2 ≤ fuel) :
    read_string_full_loop host d start max fuel ii false buffer
      = .error (.ReadError (.unknown_escape c) (start + ii)) := by
  obtain ⟨n, rfl⟩ : ∃ n, fuel = n + 2 := ⟨fuel - 2, by omega⟩
  have c0 : code_at d.start (start + ii) = 0x5C := by rw [code_at_of_drop_zero h]; rfl
  have c1 : code_at d.start (start + (ii + 1)) = c := by
    rw [← Nat.add_assoc, code_at_of_drop h 1]; rfl
  obtain ⟨a1, a2, a3, a4, a5, a6, a7, a8, a9⟩ := hc
  rw [read_string_full_loop, if_pos (by omega)]
  simp only [c0, Bool.false_eq_true, if_false, if_true]
  rw [read_string_full_loop, if_pos (by omega)]
  simp only [c1, if_true, a1, a2, a3, a4, a5, a6, a7, a8, a9, or_self, if_false]
  congr 2

theorem loop_reserved {F : Type} (host : Host F) (d : Decoder F) (max : Nat)
    {d1 d2 d3 d4 : Nat} (rest : List Nat) (ii fuel : Nat) (buffer : List Nat)
    (h1 : is_hex_digit d1) (h2 : is_hex_digit d2) (h3 : is_hex_digit d3) (h4 : is_hex_digit d4)
    (hv : 0xDC00 ≤ hex4 d1 d2 d3 d4 ∧ hex4 d1 d2 d3 d4 ≤ 0xDFFF)
    (h : d.start.drop (d.index + 1 + ii) = 0x5C :: 0x75 :: d1 :: d2 :: d3 :: d4 :: rest)
    (hmax : ii + 6 ≤ max) (hfuel : 2 ≤ fuel) :
    read_string_full_loop host d (d.index + 1) max fuel ii false buffer
      = .error (.ReadError (.reserved_code_point (hex4 d1 d2 d3 d4)) (d.index + 1 + ii)) := by
  obtain ⟨n, rfl⟩ : ∃ n, fuel = n + 2 := ⟨fuel - 2, by omega⟩
  have c0 : code_at d.start (d.index + 1 + ii) = 0x5C := by rw [code_at_of_drop_zero h]; rfl
  have c1 : code_at d.start (d.index + 1 + (ii + 1)) = 0x75 := by
    rw [← Nat.add_assoc, code_at_of_drop h 1]; rfl
  have hd : d.start.drop (d.index + 1 + (ii + 1 + 1)) = d1 :: d2 :: d3 :: d4 :: rest := by
    have := drop_add_of_drop (x := [0x5C, 0x75]) h
    simpa [Nat.add_assoc] using this
  rw [read_string_full_loop, if_pos (by omega)]
  simp only [c0, Bool.false_eq_true, if_false, if_true]
  rw [read_string_full_loop, if_pos (by omega)]
  simp only [c1, if_true]
  have hr : ¬ (max - (ii + 1 + 1) < 4) := by omega
  have a : ¬(0xD800 ≤ hex4 d1 d2 d3 d4 ∧ hex4 d1 d2 d3 d4 ≤ 0xDBFF) := by omega
  simp only [read_unicode_escape, hr, if_false, read_4hex_hex host h1 h2 h3 h4 hd, a, hv,
    and_self, if_true]
  simp
  omega

end Jsonlib2

namespace Jsonlib2

/-! ## Claims about string literals -/

/-- C4: in a string literal whose other elements are well-formed, the escape of a
high surrogate `H` (D800..DBFF) followed at once by the escape of a low surrogate
`L` (DC00..DFFF) is read as the single scalar value
`((H - 0xD800) << 10) + (L - 0xDC00) + 0x10000`, and the cursor ends after the
closing quote; in particular the literal `"a😀b"` is read as the three
code points `a`, U+1F600, `b`. -/
theorem surrogate_pair_decodes {F : Type} (host : Host F) (d : Decoder F)
    (pre post : List StrToken) (h1 h2 h3 h4 l1 l2 l3 l4 : Nat) (rest : List Nat)
    (hpre : ∀ t ∈ pre, t.WF) (hpost : ∀ t ∈ post, t.WF)
    (hh : is_hex_digit h1 ∧ is_hex_digit h2 ∧ is_hex_digit h3 ∧ is_hex_digit h4)
    (hl : is_hex_digit l1 ∧ is_hex_digit l2 ∧ is_hex_digit l3 ∧ is_hex_digit l4)
    (hhigh : 0xD800 ≤ hex4 h1 h2 h3 h4 ∧ hex4 h1 h2 h3 h4 ≤ 0xDBFF)
    (hlow : 0xDC00 ≤ hex4 l1 l2 l3 l4 ∧ hex4 l1 l2 l3 l4 ≤ 0xDFFF)
    (h : d.start.drop d.index = 0x22 :: (tokens_src pre ++
      [0x5C, 0x75, h1, h2, h3, h4, 0x5C, 0x75, l1, l2, l3, l4] ++ tokens_src post ++
      0x22 :: rest)) :
    (∃ d', read_string host d = .ok (pre.map StrToken.val ++
        [((hex4 h1 h2 h3 h4 - 0xD800) <<< 10) + (hex4 l1 l2 l3 l4 - 0xDC00) + 0x10000] ++
        post.map StrToken.val, d') ∧
      d'.index = d.index + ((tokens_src pre).length + 12 + (tokens_src post).length) + 2) ∧
    (∃ d', read_string host (new_decoder [0x22, 0x61, 0x5C, 0x75, 0x64, 0x38, 0x33, 0x64,
        0x5C, 0x75, 0x64, 0x65, 0x30, 0x30, 0x62, 0x22]) = .ok ([0x61, 0x1F600, 0x62], d')) := by
  constructor
  · have hwf : ∀ t ∈ pre ++ [StrToken.pair h1 h2 h3 h4 l1 l2 l3 l4] ++ post, t.WF := by
      intro t ht
      simp only [List.mem_append, List.mem_singleton] at ht
      rcases ht with (ht | ht) | ht
      · exact hpre t ht
      · subst ht
        exact ⟨hh.1, hh.2.1, hh.2.2.1, hh.2.2.2, hl.1, hl.2.1, hl.2.2.1, hl.2.2.2, hhigh, hlow⟩
      · exact hpost t ht
    have hsrc : tokens_src (pre ++ [StrToken.pair h1 h2 h3 h4 l1 l2 l3 l4] ++ post)
        = tokens_src pre ++ [0x5C, 0x75, h1, h2, h3, h4, 0x5C, 0x75, l1, l2, l3, l4]
          ++ tokens_src post := by
      simp [tokens_src, StrToken.src]
    obtain ⟨d', hr, hi, _⟩ := read_string_tokens_index host d _ hwf rest (by rw [hsrc]; exact h)
    refine ⟨d', ?_, ?_⟩
    · rw [hr]; simp [StrToken.val]
    · rw [hi, hsrc]; simp only [List.length_append, List.length_cons, List.length_nil]
  · have hwf : ∀ t ∈ [StrToken.plain 0x61, StrToken.pair 0x64 0x38 0x33 0x64 0x64 0x65 0x30 0x30,
        StrToken.plain 0x62], t.WF := by
      intro t ht
      simp only [List.mem_cons, List.mem_singleton, List.not_mem_nil, or_false] at ht
      rcases ht with ht | ht | ht <;> subst ht <;> simp [StrToken.WF, is_hex_digit, hex4, hex_digit_value]
    obtain ⟨d', hr, _, _⟩ := read_string_tokens_index host (new_decoder [0x22, 0x61, 0x5C, 0x75,
        0x64, 0x38, 0x33, 0x64, 0x5C, 0x75, 0x64, 0x65, 0x30, 0x30, 0x62, 0x22]) _ hwf [] rfl
    refine ⟨d', ?_⟩
    rw [hr]
    simp [StrToken.val, hex4, hex_digit_value]

/-- C4, at a concrete input: the literal `"a😀b"` followed by `]`. -/
theorem surrogate_pair_decodes_witness :
    (∃ d', read_string example_host
        (new_decoder [0x22, 0x61, 0x5C, 0x75, 0x64, 0x38, 0x33, 0x64,
          0x5C, 0x75, 0x64, 0x65, 0x30, 0x30, 0x62, 0x22, 0x5D])
        = .ok ([0x61] ++ [((0xD83D - 0xD800) <<< 10) + (0xDE00 - 0xDC00) + 0x10000] ++ [0x62], d')
      ∧ d'.index = 16) :=
  (surrogate_pair_decodes example_host
    (new_decoder [0x22, 0x61, 0x5C, 0x75, 0x64, 0x38, 0x33, 0x64,
      0x5C, 0x75, 0x64, 0x65, 0x30, 0x30, 0x62, 0x22, 0x5D])
    [.plain 0x61] [.plain 0x62] 0x64 0x38 0x33 0x64 0x64 0x65 0x30 0x30 [0x5D]
    (by simp [StrToken.WF]) (by simp [StrToken.WF])
    (by simp [is_hex_digit]) (by simp [is_hex_digit])
    (by simp [hex4, hex_digit_value]) (by simp [hex4, hex_digit_value]) rfl).1

end Jsonlib2

namespace Jsonlib2

/-- C5, at the failing input `"\ud83dA"`: the escape after the high surrogate
is not a low surrogate, yet the literal is read, as the single code unit U+11841. -/
theorem high_surrogate_then_other_escape_accepted :
    read_string example_host (new_decoder [0x22, 0x5C, 0x75, 0x64, 0x38, 0x33, 0x64,
        0x5C, 0x75, 0x30, 0x30, 0x34, 0x31, 0x22])
      = .ok ([0x11841], { (new_decoder [0x22, 0x5C, 0x75, 0x64, 0x38, 0x33, 0x64,
          0x5C, 0x75, 0x30, 0x30, 0x34, 0x31, 0x22] : Decoder Bool) with
          index := 14, stringparse_buffer_size := 16 }) := by
  rfl

/-- C7, at three failing inputs: the literals `"\u+041"`, `"\u 041"` and `"\u0x41"`,
whose escapes hold a sign, a space and the letter `x`, are all read as `A`. -/
theorem unicode_escape_accepts_non_hex :
    (read_string example_host (new_decoder [0x22, 0x5C, 0x75, 0x2B, 0x30, 0x34, 0x31, 0x22])
      = .ok ([0x41], { (new_decoder [0x22, 0x5C, 0x75, 0x2B, 0x30, 0x34, 0x31, 0x22] :
          Decoder Bool) with index := 8, stringparse_buffer_size := 8 })) ∧
    (read_string example_host (new_decoder [0x22, 0x5C, 0x75, 0x20, 0x30, 0x34, 0x31, 0x22])
      = .ok ([0x41], { (new_decoder [0x22, 0x5C, 0x75, 0x20, 0x30, 0x34, 0x31, 0x22] :
          Decoder Bool) with index := 8, stringparse_buffer_size := 8 })) ∧
    (read_string example_host (new_decoder [0x22, 0x5C, 0x75, 0x30, 0x78, 0x34, 0x31, 0x22])
      = .ok ([0x41], { (new_decoder [0x22, 0x5C, 0x75, 0x30, 0x78, 0x34, 0x31, 0x22] :
          Decoder Bool) with index := 8, stringparse_buffer_size := 8 })) := by
  refine ⟨?_, ?_, ?_⟩ <;> rfl

/-- C6, counterexample: the literal `"\udc00<TAB>"` holds the escape of a bare low
surrogate, and decoding fails with the unexpected-character error at the raw
tab (offset 7), not with a reserved-code-point error at the backslash (offset 1). -/
theorem bare_low_surrogate_counterexample :
    read_string example_host (new_decoder [0x22, 0x5C, 0x75, 0x64, 0x63, 0x30, 0x30, 0x09, 0x22])
      = .error (.ReadError (.unexpected 0x09 "printable characters") 7) := by
  rfl

/-- C6, amended: in a string literal that holds no raw control character or
U+0000 and no unterminated escape before its closing quote, and in which
everything before a `\uXXXX` escape with value in DC00..DFFF is well-formed (so
that the escape is not the second half of a surrogate pair), decoding fails with
the reserved-code-point error for that value, positioned at the backslash of
that escape. -/
theorem bare_low_surrogate_rejected {F : Type} (host : Host F) (d : Decoder F)
    (pre : List StrToken) (d1 d2 d3 d4 : Nat) (tail rest : List Nat)
    (hpre : ∀ t ∈ pre, t.WF)
    (hd : is_hex_digit d1 ∧ is_hex_digit d2 ∧ is_hex_digit d3 ∧ is_hex_digit d4)
    (hv : 0xDC00 ≤ hex4 d1 d2 d3 d4 ∧ hex4 d1 d2 d3 d4 ≤ 0xDFFF)
    (htail : scan_state false tail = some false)
    (h : d.start.drop d.index = 0x22 :: (tokens_src pre ++
      ([0x5C, 0x75, d1, d2, d3, d4] ++ tail) ++ 0x22 :: rest)) :
    read_string host d = .error (.ReadError (.reserved_code_point (hex4 d1 d2 d3 d4))
      (d.index + 1 + (tokens_src pre).length)) := by
  obtain ⟨x1, x2, x3, x4⟩ := hd
  have a1 := hex_digit_scan x1; have a2 := hex_digit_scan x2
  have a3 := hex_digit_scan x3; have a4 := hex_digit_scan x4
  have hs : scan_state false ([0x5C, 0x75, d1, d2, d3, d4] ++ tail) = some false := by
    rw [scan_state_append _ _ false false (by simp [scan_state, a1, a2, a3, a4])]
    exact htail
  obtain ⟨fuel, hfuel, hr⟩ := read_string_after_tokens host d pre hpre _ rest h hs (by simp)
  have hdrop : d.start.drop (d.index + 1 + (tokens_src pre).length)
      = 0x5C :: 0x75 :: d1 :: d2 :: d3 :: d4 :: (tail ++ 0x22 :: rest) := by
    have h' : d.start.drop d.index = ([0x22] ++ tokens_src pre) ++
        ([0x5C, 0x75, d1, d2, d3, d4] ++ tail ++ 0x22 :: rest) := by
      rw [h]; simp
    have := drop_add_of_drop h'
    have e : d.index + ([0x22] ++ tokens_src pre).length = d.index + 1 + (tokens_src pre).length := by
      simp; omega
    rw [e] at this
    simpa using this
  simp only [List.length_append, List.length_cons, List.length_nil] at hfuel hr
  rw [hr, loop_reserved host d _ _ _ fuel _ x1 x2 x3 x4 hv hdrop (by omega) (by omega)]

/-- C6 amended, at a concrete input: the literal `"a\udc00b"`. -/
theorem bare_low_surrogate_rejected_witness :
    read_string example_host
        (new_decoder [0x22, 0x61, 0x5C, 0x75, 0x64, 0x63, 0x30, 0x30, 0x62, 0x22])
      = .error (.ReadError (.reserved_code_point (hex4 0x64 0x63 0x30 0x30)) (0 + 1 + 1)) :=
  bare_low_surrogate_rejected example_host
    (new_decoder [0x22, 0x61, 0x5C, 0x75, 0x64, 0x63, 0x30, 0x30, 0x62, 0x22])
    [.plain 0x61] 0x64 0x63 0x30 0x30 [0x62] []
    (by simp [StrToken.WF]) (by simp [is_hex_digit]) (by simp [hex4, hex_digit_value])
    (by simp [scan_state]) rfl

end Jsonlib2

namespace Jsonlib2

theorem scan_state_head_isSome {c : Nat} {cs : List Nat}
    (h : (scan_state false (c :: cs)).isSome = true) : c ≠ 0x22 := by
  intro hc
  subst hc
  simp [scan_state] at h

/-- C8, counterexample: the literal `"a<NUL>b<TAB>c"` holds a raw tab (offset 4)
before its closing quote, and decoding fails with "Unterminated string." at the
opening quote (offset 0), not with the unexpected-character error at the tab: the
first pass of `read_string` tests `c == 0` before `c < 0x20`, and takes the U+0000
at offset 2 for the end of the text. -/
theorem raw_control_after_nul_counterexample :
    read_string example_host (new_decoder [0x22, 0x61, 0x00, 0x62, 0x09, 0x63, 0x22])
      = .error (.ReadError (.simple "Unterminated string.") 0) ∧
    _read_entry example_host [0x22, 0x61, 0x00, 0x62, 0x09, 0x63, 0x22] none none none
      = .error (.ReadError (.simple "Unterminated string.") 0) ∧
    read_string example_host (new_decoder [0x22, 0x61, 0x00, 0x62, 0x09, 0x63, 0x22])
      ≠ .error (.ReadError (.unexpected 0x09 "printable characters") 4) := by
  refine ⟨rfl, rfl, ?_⟩
  intro h
  have h2 : read_string example_host (new_decoder [0x22, 0x61, 0x00, 0x62, 0x09, 0x63, 0x22])
      = .error (.ReadError (.simple "Unterminated string.") 0) := rfl
  rw [h2] at h
  simp at h

/-- C8, amended: when the body of a string literal holds, before any closing quote,
a raw code point `c` in U+0001..U+001F, and no code point before `c` is U+0000 or a
control character (`c` is the first code point below U+0020 of the literal),
decoding fails with the unexpected-character error for `c`, positioned at `c`. -/
theorem raw_control_character_rejected {F : Type} (host : Host F) (d : Decoder F)
    (pre : List Nat) (c : Nat) (rest : List Nat)
    (hpre : (scan_state false pre).isSome = true) (hc : 1 ≤ c ∧ c ≤ 0x1F)
    (h : d.start.drop d.index = 0x22 :: (pre ++ c :: rest)) :
    read_string host d = .error (.ReadError (.unexpected c "printable characters")
      (d.index + 1 + pre.length)) := by
  have hd : d.start.drop (d.index + 1) = pre ++ c :: rest := drop_add_of_drop (x := [0x22]) h
  have hd2 : d.start.drop (d.index + 1 + pre.length) = c :: rest := drop_add_of_drop hd
  have hne : code_at d.start (d.index + 1) ≠ 0x22 := by
    rw [code_at_of_drop_zero hd]
    cases pre with
    | nil => simp; omega
    | cons a as => simpa using scan_state_head_isSome hpre
  have hcur : code_at d.start (d.index + 1 + pre.length) = c := by
    rw [code_at_of_drop_zero hd2]; rfl
  rw [read_string, if_neg hne]
  simp only [hd, read_string_scan_control d (d.index + 1) c rest hc.1 (by omega) pre 0 false false
    hpre, Nat.zero_add, set_error_unexpected, next_ucs4, hcur]
  rw [if_neg (by omega)]

/-- C8 amended, at a concrete input: the literal `"ab<TAB>c"`. -/
theorem raw_control_character_rejected_witness :
    read_string example_host (new_decoder [0x22, 0x61, 0x62, 0x09, 0x63, 0x22])
      = .error (.ReadError (.unexpected 0x09 "printable characters") (0 + 1 + 2)) :=
  raw_control_character_rejected example_host (new_decoder [0x22, 0x61, 0x62, 0x09, 0x63, 0x22])
    [0x61, 0x62] 0x09 [0x63, 0x22] (by simp [scan_state]) (by omega) rfl

/-- C9, counterexample: in the literal `"\<TAB>"` the first malformed escape is a
backslash followed by a raw tab, a character other than the nine escape
letters, and decoding fails with the unexpected-character error at the tab
(offset 2), not with an unknown-escape error at the backslash (offset 1). -/
theorem unknown_escape_counterexample :
    read_string example_host (new_decoder [0x22, 0x5C, 0x09, 0x22])
      = .error (.ReadError (.unexpected 0x09 "printable characters") 2) := by
  rfl

/-- C9, amended: in a string literal that holds no raw control character or
U+0000 and no unterminated escape before its closing quote, and in which
everything before the first malformed escape is well-formed, a backslash followed
by a code point from U+0020 upwards other than `"`, `\`, `/`, `b`, `f`, `n`, `r`,
`t`, `u` makes decoding fail with the unknown-escape error for that code point,
positioned at the backslash; and among well-formed elements each of the eight
single-character escapes is read as its fixed code point. -/
theorem unknown_escape_rejected {F : Type} (host : Host F) (d : Decoder F)
    (pre : List StrToken) (c : Nat) (tail rest : List Nat)
    (hpre : ∀ t ∈ pre, t.WF)
    (hc : 0x20 ≤ c ∧ c ≠ 0x22 ∧ c ≠ 0x5C ∧ c ≠ 0x2F ∧ c ≠ 0x62 ∧ c ≠ 0x66 ∧ c ≠ 0x6E ∧
      c ≠ 0x72 ∧ c ≠ 0x74 ∧ c ≠ 0x75)
    (htail : scan_state false tail = some false)
    (h : d.start.drop d.index = 0x22 :: (tokens_src pre ++ ([0x5C, c] ++ tail) ++ 0x22 :: rest)) :
    read_string host d = .error (.ReadError (.unknown_escape c)
        (d.index + 1 + (tokens_src pre).length)) ∧
    ∀ (d0 : Decoder F) (before after : List StrToken) (rest0 : List Nat),
      (∀ t ∈ before, t.WF) → (∀ t ∈ after, t.WF) →
      ∀ p ∈ [((0x22 : Nat), (0x22 : Nat)), (0x5C, 0x5C), (0x2F, 0x2F), (0x62, 0x08),
          (0x66, 0x0C), (0x6E, 0x0A), (0x72, 0x0D), (0x74, 0x09)],
        d0.start.drop d0.index = 0x22 :: (tokens_src before ++ [0x5C, p.1] ++ tokens_src after ++
          0x22 :: rest0) →
        ∃ d', read_string host d0
          = .ok (before.map StrToken.val ++ [p.2] ++ after.map StrToken.val, d') := by
  constructor
  · have hc20 : ¬ c < 0x20 := by omega
    have hs : scan_state false ([0x5C, c] ++ tail) = some false := by
      rw [scan_state_append _ _ false false (by simp [scan_state, hc20])]
      exact htail
    obtain ⟨fuel, hfuel, hr⟩ := read_string_after_tokens host d pre hpre _ rest h hs (by simp)
    have hdrop : d.start.drop (d.index + 1 + (tokens_src pre).length)
        = 0x5C :: c :: (tail ++ 0x22 :: rest) := by
      have h' : d.start.drop d.index = ([0x22] ++ tokens_src pre) ++
          ([0x5C, c] ++ tail ++ 0x22 :: rest) := by
        rw [h]; simp
      have := drop_add_of_drop h'
      have e : d.index + ([0x22] ++ tokens_src pre).length
          = d.index + 1 + (tokens_src pre).length := by
        simp; omega
      rw [e] at this
      simpa using this
    simp only [List.length_append, List.length_cons, List.length_nil] at hfuel hr
    rw [hr, loop_unknown_escape host d _ _ c _ _ fuel _ hc.2 hdrop (by omega) (by omega)]
  · intro d0 before after rest0 hb ha p hp h0
    have hwf : ∀ t ∈ before ++ [StrToken.escape p.1] ++ after, t.WF := by
      intro t ht
      simp only [List.mem_append, List.mem_singleton] at ht
      rcases ht with (ht | ht) | ht
      · exact hb t ht
      · subst ht
        simp only [List.mem_cons, List.mem_singleton, List.not_mem_nil, or_false] at hp
        rcases hp with r | r | r | r | r | r | r | r <;> subst r <;> simp [StrToken.WF]
      · exact ha t ht
    have hsrc : tokens_src (before ++ [StrToken.escape p.1] ++ after)
        = tokens_src before ++ [0x5C, p.1] ++ tokens_src after := by
      simp [tokens_src, StrToken.src]
    obtain ⟨d', hr, _, _⟩ := read_string_tokens_index host d0 _ hwf rest0 (by rw [hsrc]; exact h0)
    refine ⟨d', ?_⟩
    rw [hr]
    simp only [List.mem_cons, List.mem_singleton, List.not_mem_nil, or_false] at hp
    rcases hp with r | r | r | r | r | r | r | r <;> subst r <;>
      simp [StrToken.val, escape_value]

/-- C9 amended, at a concrete input: the literal `"a\qb"`. -/
theorem unknown_escape_rejected_witness :
    read_string example_host (new_decoder [0x22, 0x61, 0x5C, 0x71, 0x62, 0x22])
      = .error (.ReadError (.unknown_escape 0x71) (0 + 1 + 1)) :=
  (unknown_escape_rejected example_host (new_decoder [0x22, 0x61, 0x5C, 0x71, 0x62, 0x22])
    [.plain 0x61] 0x71 [0x62] [] (by simp [StrToken.WF]) (by omega) (by simp [scan_state])
    rfl).1

end Jsonlib2

namespace Jsonlib2

/-! ## Claims about numbers -/

theorem read_number_scan_stop {rest : List Nat} (h : number_stop rest) (ptr : Nat)
    (fl : NumberFlags) : read_number_scan rest ptr fl = some (ptr, fl) := by
  cases rest with
  | nil => rfl
  | cons c cs =>
    simp only [number_stop, is_number_char, not_or] at h
    obtain ⟨h1, h2, h3, h4, h5, h6⟩ := h
    rw [read_number_scan]
    by_cases h0 : c = 0
    · rw [if_pos h0]
    · rw [if_neg h0, if_neg (by omega), if_neg (by omega), if_neg (by omega), if_neg (by omega),
        if_neg h6]

/-- C10: `read_number` fails with "Invalid number." (positioned at the start of
the number) on every text in which a digit directly follows a leading zero of
the integer part, with or without a minus sign before the zero (`01`, `-01`,
`00`, `0123`); and without hooks the literals `-0` and `0.5`, followed by the end
of input or by a code unit that cannot continue a number, are accepted: `-0` as
the integer 0, `0.5` as the float the host reads from that text. -/
theorem leading_zero_rejected {F : Type} (host : Host F) (d : Decoder F)
    (neg : Bool) (dgt : Nat) (rest : List Nat) (hdgt : 0x30 ≤ dgt ∧ dgt ≤ 0x39)
    (h : d.start.drop d.index = (if neg then [0x2D] else []) ++ 0x30 :: dgt :: rest) :
    read_number host d = .error (.ReadError (.simple "Invalid number.") d.index) ∧
    (∀ (d0 : Decoder F) (rest0 : List Nat), d0.parse_int = none → number_stop rest0 →
      d0.start.drop d0.index = [0x2D, 0x30] ++ rest0 →
      read_number host d0 = .ok (.int 0, { d0 with index := d0.index + 2 })) ∧
    (∀ (d0 : Decoder F) (rest0 : List Nat) (x : PyFloat F), d0.parse_float = none →
      number_stop rest0 → host.float_from_string [0x30, 0x2E, 0x35] = some x →
      d0.start.drop d0.index = [0x30, 0x2E, 0x35] ++ rest0 →
      read_number host d0 = .ok (.float x, { d0 with index := d0.index + 3 })) := by
  refine ⟨?_, ?_, ?_⟩
  · have hd0 : dgt ≠ 0 := by omega
    cases neg with
    | true =>
      simp only [if_true, List.singleton_append] at h
      rw [read_number, h]
      by_cases hz : dgt = 0x30
      · subst hz; simp [read_number_scan, set_error_simple]
      · have : 0x31 ≤ dgt ∧ dgt ≤ 0x39 := by omega
        simp [read_number_scan, set_error_simple, hd0, hz, this]
    | false =>
      simp only [Bool.false_eq_true, if_false, List.nil_append] at h
      rw [read_number, h]
      by_cases hz : dgt = 0x30
      · subst hz; simp [read_number_scan, set_error_simple]
      · have : 0x31 ≤ dgt ∧ dgt ≤ 0x39 := by omega
        simp [read_number_scan, set_error_simple, hd0, hz, this]
  · intro d0 rest0 hint hstop h0
    have ht : List.take 2 (0x2D :: 0x30 :: rest0) = [0x2D, 0x30] := rfl
    have hp : PyLong_FromUnicode host [0x2D, 0x30] 10 = some 0 := by
      simp [PyLong_FromUnicode, PyUnicode_EncodeDecimal, Py_UNICODE_ISSPACE,
        Py_UNICODE_TODECIMAL, PyLong_FromString, PyLong_FromString_digits, strip_base_marker,
        strip_long_suffix, c_isspace, PyLong_DigitValue, List.dropWhile, List.takeWhile]
    have e : d0.index + 1 + 1 - d0.index = 2 := by omega
    simp [read_number, h0, read_number_scan, read_number_scan_stop hstop, hint, e, ht, hp]
  · intro d0 rest0 x hfl hstop hx h0
    have ht : List.take 3 (0x30 :: 0x2E :: 0x35 :: rest0) = [0x30, 0x2E, 0x35] := rfl
    have e : d0.index + 1 + 1 + 1 - d0.index = 3 := by omega
    simp [read_number, h0, read_number_scan, read_number_scan_stop hstop, hfl, e, ht, hx]

/-- C10, at a concrete input: the text `-0123`. -/
theorem leading_zero_rejected_witness :
    read_number example_host (new_decoder [0x2D, 0x30, 0x31, 0x32, 0x33])
      = .error (.ReadError (.simple "Invalid number.") 0) :=
  (leading_zero_rejected example_host (new_decoder [0x2D, 0x30, 0x31, 0x32, 0x33])
    true 0x31 [0x32, 0x33] (by omega) rfl).1

end Jsonlib2

namespace Jsonlib2

/-! ## The text `write_unicode` produces, as tokens -/

theorem and_0xF (n : Nat) : n &&& 0xF = n % 16 := Nat.and_pow_two_sub_one_eq_mod n 4

theorem and_0x3FF (n : Nat) : n &&& 0x3FF = n % 1024 := Nat.and_pow_two_sub_one_eq_mod n 10

theorem hexdigit_spec : ∀ i, i < 16 → is_hex_digit (hexdigit i) ∧ hex_digit_value (hexdigit i) = i := by
  decide

theorem hex4_hexdigit {n : Nat} (h : n < 0x10000) :
    is_hex_digit (hexdigit ((n >>> 12) &&& 0xF)) ∧ is_hex_digit (hexdigit ((n >>> 8) &&& 0xF)) ∧
    is_hex_digit (hexdigit ((n >>> 4) &&& 0xF)) ∧ is_hex_digit (hexdigit (n &&& 0xF)) ∧
    hex4 (hexdigit ((n >>> 12) &&& 0xF)) (hexdigit ((n >>> 8) &&& 0xF))
      (hexdigit ((n >>> 4) &&& 0xF)) (hexdigit (n &&& 0xF)) = n := by
  simp only [and_0xF, Nat.shiftRight_eq_div_pow]
  have a := hexdigit_spec (n / 2 ^ 12 % 16) (Nat.mod_lt _ (by decide))
  have b := hexdigit_spec (n / 2 ^ 8 % 16) (Nat.mod_lt _ (by decide))
  have c := hexdigit_spec (n / 2 ^ 4 % 16) (Nat.mod_lt _ (by decide))
  have e := hexdigit_spec (n % 16) (Nat.mod_lt _ (by decide))
  refine ⟨a.1, b.1, c.1, e.1, ?_⟩
  simp only [hex4, a.2, b.2, c.2, e.2]
  omega

theorem hex2_hexdigit {n : Nat} (h : n < 0x100) :
    is_hex_digit (hexdigit ((n >>> 4) &&& 0xF)) ∧ is_hex_digit (hexdigit (n &&& 0xF)) ∧
    hex4 0x30 0x30 (hexdigit ((n >>> 4) &&& 0xF)) (hexdigit (n &&& 0xF)) = n := by
  simp only [and_0xF, Nat.shiftRight_eq_div_pow]
  have c := hexdigit_spec (n / 2 ^ 4 % 16) (Nat.mod_lt _ (by decide))
  have e := hexdigit_spec (n % 16) (Nat.mod_lt _ (by decide))
  refine ⟨c.1, e.1, ?_⟩
  have z : hex_digit_value 0x30 = 0 := by decide
  simp only [hex4, c.2, e.2, z]
  omega

theorem escape_unichar_token {c : Nat} (hc : is_scalar_value c) :
    ∃ t : StrToken, t.WF ∧ t.src = escape_unichar c ∧ t.val = c ∧ 0x5C ∈ t.src := by
  obtain ⟨hlt, hns⟩ := hc
  unfold escape_unichar
  by_cases h1 : c = 0x08
  · exact ⟨.escape 0x62, by simp [StrToken.WF], by simp [h1, StrToken.src],
      by simp [h1, StrToken.val, escape_value], by simp [StrToken.src]⟩
  by_cases h2 : c = 0x09
  · exact ⟨.escape 0x74, by simp [StrToken.WF], by simp [h2, StrToken.src],
      by simp [h2, StrToken.val, escape_value], by simp [StrToken.src]⟩
  by_cases h3 : c = 0x0A
  · exact ⟨.escape 0x6E, by simp [StrToken.WF], by simp [h3, StrToken.src],
      by simp [h3, StrToken.val, escape_value], by simp [StrToken.src]⟩
  by_cases h4 : c = 0x0C
  · exact ⟨.escape 0x66, by simp [StrToken.WF], by simp [h4, StrToken.src],
      by simp [h4, StrToken.val, escape_value], by simp [StrToken.src]⟩
  by_cases h5 : c = 0x0D
  · exact ⟨.escape 0x72, by simp [StrToken.WF], by simp [h5, StrToken.src],
      by simp [h5, StrToken.val, escape_value], by simp [StrToken.src]⟩
  by_cases h6 : c = 0x22
  · exact ⟨.escape 0x22, by simp [StrToken.WF], by simp [h6, StrToken.src],
      by simp [h6, StrToken.val, escape_value], by simp [StrToken.src]⟩
  by_cases h7 : c = 0x2F
  · exact ⟨.escape 0x2F, by simp [StrToken.WF], by simp [h7, StrToken.src],
      by simp [h7, StrToken.val, escape_value], by simp [StrToken.src]⟩
  by_cases h8 : c = 0x5C
  · exact ⟨.escape 0x5C, by simp [StrToken.WF], by simp [h8, StrToken.src],
      by simp [h8, StrToken.val, escape_value], by simp [StrToken.src]⟩
  rw [if_neg h1, if_neg h2, if_neg h3, if_neg h4, if_neg h5, if_neg h6, if_neg h7, if_neg h8]
  by_cases hw : c > 0xFFFF
  · rw [if_pos hw]
    have hu : (c - 0x10000) >>> 10 + 0xD800 < 0x10000 := by
      rw [Nat.shiftRight_eq_div_pow]; omega
    have hl : ((c - 0x10000) &&& 0x3FF) + 0xDC00 < 0x10000 := by
      rw [and_0x3FF]; omega
    obtain ⟨a1, a2, a3, a4, av⟩ := hex4_hexdigit hu
    obtain ⟨b1, b2, b3, b4, bv⟩ := hex4_hexdigit hl
    refine ⟨.pair _ _ _ _ _ _ _ _, ⟨a1, a2, a3, a4, b1, b2, b3, b4, ?_, ?_⟩, rfl, ?_,
      by simp [StrToken.src]⟩
    · rw [av, Nat.shiftRight_eq_div_pow]; omega
    · rw [bv, and_0x3FF]; omega
    · simp only [StrToken.val]
      rw [av, bv]
      simp only [and_0x3FF, Nat.shiftRight_eq_div_pow, Nat.shiftLeft_eq]
      omega
  · rw [if_neg hw]
    have hu : c < 0x10000 := by omega
    obtain ⟨a1, a2, a3, a4, av⟩ := hex4_hexdigit hu
    exact ⟨.unicode _ _ _ _, ⟨a1, a2, a3, a4, by rw [av]; exact hns⟩, rfl,
      by simp only [StrToken.val, av], by simp [StrToken.src]⟩

theorem unicode_to_ascii_char_token (es : Bool) {c : Nat} (hc : is_scalar_value c) :
    ∃ t : StrToken, t.WF ∧ t.src = unicode_to_ascii_char es c ∧ t.val = c := by
  unfold unicode_to_ascii_char
  split_ifs with h
  · exact ⟨.plain c, ⟨by omega, h.2.2.2.1, h.2.2.1⟩, rfl, rfl⟩
  · obtain ⟨t, h1, h2, h3, _⟩ := escape_unichar_token hc
    exact ⟨t, h1, h2, h3⟩

theorem unicode_to_unicode_char_token (es : Bool) {c : Nat} :
    ∃ t : StrToken, t.WF ∧ t.src = unicode_to_unicode_char es c ∧ t.val = c := by
  unfold unicode_to_unicode_char
  by_cases h1 : c = 0x08
  · exact ⟨.escape 0x62, by simp [StrToken.WF], by simp [h1, StrToken.src],
      by simp [h1, StrToken.val, escape_value]⟩
  by_cases h2 : c = 0x09
  · exact ⟨.escape 0x74, by simp [StrToken.WF], by simp [h2, StrToken.src],
      by simp [h2, StrToken.val, escape_value]⟩
  by_cases h3 : c = 0x0A
  · exact ⟨.escape 0x6E, by simp [StrToken.WF], by simp [h3, StrToken.src],
      by simp [h3, StrToken.val, escape_value]⟩
  by_cases h4 : c = 0x0C
  · exact ⟨.escape 0x66, by simp [StrToken.WF], by simp [h4, StrToken.src],
      by simp [h4, StrToken.val, escape_value]⟩
  by_cases h5 : c = 0x0D
  · exact ⟨.escape 0x72, by simp [StrToken.WF], by simp [h5, StrToken.src],
      by simp [h5, StrToken.val, escape_value]⟩
  by_cases h6 : c = 0x22
  · exact ⟨.escape 0x22, by simp [StrToken.WF], by simp [h6, StrToken.src],
      by simp [h6, StrToken.val, escape_value]⟩
  rw [if_neg h1, if_neg h2, if_neg h3, if_neg h4, if_neg h5, if_neg h6]
  by_cases h7 : es = true ∧ c = 0x2F
  · rw [if_pos h7]
    exact ⟨.escape 0x2F, by simp [StrToken.WF], by simp [StrToken.src],
      by simp [h7.2, StrToken.val, escape_value]⟩
  rw [if_neg h7]
  by_cases h8 : c = 0x5C
  · exact ⟨.escape 0x5C, by simp [StrToken.WF], by simp [h8, StrToken.src],
      by simp [h8, StrToken.val, escape_value]⟩
  rw [if_neg h8]
  by_cases h9 : c ≤ 0x1F
  · rw [if_pos h9]
    obtain ⟨a3, a4, av⟩ := hex2_hexdigit (n := c) (by omega)
    refine ⟨.unicode 0x30 0x30 _ _, ⟨by simp [is_hex_digit], by simp [is_hex_digit], a3, a4, ?_⟩,
      rfl, ?_⟩
    · rw [av]; omega
    · simp only [StrToken.val, av]
  · rw [if_neg h9]
    exact ⟨.plain c, ⟨by omega, h6, h8⟩, rfl, rfl⟩

theorem tokens_of_chars (f : Nat → List Nat) (s : List Nat)
    (h : ∀ c ∈ s, ∃ t : StrToken, t.WF ∧ t.src = f c ∧ t.val = c) :
    ∃ toks : List StrToken, (∀ t ∈ toks, t.WF) ∧ tokens_src toks = s.flatMap f ∧
      toks.map StrToken.val = s := by
  induction s with
  | nil => exact ⟨[], by simp, rfl, rfl⟩
  | cons c cs ih =>
    obtain ⟨t, h1, h2, h3⟩ := h c (List.mem_cons_self _ _)
    obtain ⟨ts, g1, g2, g3⟩ := ih (fun x hx => h x (List.mem_cons_of_mem _ hx))
    refine ⟨t :: ts, ?_, ?_, ?_⟩
    · intro x hx
      rcases List.mem_cons.1 hx with r | r
      · subst r; exact h1
      · exact g1 x r
    · simp only [tokens_src, List.flatMap_cons] at g2 ⊢
      rw [h2, g2]
    · simp [h3, g3]

theorem flatMap_singleton_id : ∀ s : List Nat, s.flatMap (fun c => [c]) = s := by
  intro s
  induction s with
  | nil => rfl
  | cons c cs ih => simp only [List.flatMap_cons, ih, List.singleton_append]

theorem write_unicode_surrogates_scalar : ∀ s : List Nat, (∀ c ∈ s, is_scalar_value c) →
    write_unicode_surrogates s = none := by
  intro s
  induction s with
  | nil => intro _; rfl
  | cons c cs ih =>
    intro h
    have hc := (h c (List.mem_cons_self _ _)).2
    have a : ¬(0xD800 ≤ c ∧ c ≤ 0xDBFF) := by omega
    have b : ¬(0xDC00 ≤ c ∧ c ≤ 0xDFFF) := by omega
    rw [write_unicode_surrogates.eq_def]
    simp only [a, b, if_false]
    exact ih (fun x hx => h x (List.mem_cons_of_mem _ hx))

/-- The literal `write_unicode` produces for a string of scalar values is a quoted
sequence of well-formed tokens that stand for the code points of the string. -/
theorem write_unicode_tokens (enc : Encoder) (s : List Nat) (hs : ∀ c ∈ s, is_scalar_value c) :
    ∃ toks : List StrToken, (∀ t ∈ toks, t.WF) ∧ toks.map StrToken.val = s ∧
      write_unicode enc s = .ok (0x22 :: (tokens_src toks ++ [0x22])) := by
  unfold write_unicode
  split_ifs with hsafe hascii
  · obtain ⟨toks, h1, h2, h3⟩ := tokens_of_chars (fun c => [c]) s (fun c hc => by
      have := List.all_eq_true.1 hsafe c hc
      simp only [write_unicode_needs_escape, Bool.not_eq_true', decide_eq_false_iff_not, not_or]
        at this
      exact ⟨.plain c, ⟨by omega, this.1, this.2.2.1⟩, rfl, rfl⟩)
    refine ⟨toks, h1, h3, ?_⟩
    rw [h2, flatMap_singleton_id]
    simp
  · rw [write_unicode_surrogates_scalar s hs]
    obtain ⟨toks, h1, h2, h3⟩ := tokens_of_chars (unicode_to_ascii_char enc.escape_slash) s
      (fun c hc => unicode_to_ascii_char_token _ (hs c hc))
    refine ⟨toks, h1, h3, ?_⟩
    simp [unicode_to_ascii, h2]
  · rw [write_unicode_surrogates_scalar s hs]
    obtain ⟨toks, h1, h2, h3⟩ := tokens_of_chars (unicode_to_unicode_char enc.escape_slash) s
      (fun c _ => unicode_to_unicode_char_token _)
    refine ⟨toks, h1, h3, ?_⟩
    simp [unicode_to_unicode, h2]

end Jsonlib2

namespace Jsonlib2

/-- C2: for every string `s` of Unicode scalar values and every encoder (so for
each combination of `ensure_ascii` and `escape_slash`), `write_unicode` produces
a quoted literal, and `read_string`, started on the opening quote of that literal
wherever it stands in a text, returns exactly `s` and leaves the cursor just
after the closing quote. -/
theorem write_unicode_read_string {F : Type} (host : Host F) (enc : Encoder) (s : List Nat)
    (hs : ∀ c ∈ s, is_scalar_value c) :
    ∃ lit, write_unicode enc s = .ok lit ∧
      ∀ (d : Decoder F) (rest : List Nat), d.start.drop d.index = lit ++ rest →
        ∃ d', read_string host d = .ok (s, d') ∧ d'.index = d.index + lit.length ∧
          d'.start = d.start := by
  obtain ⟨toks, hwf, hval, hw⟩ := write_unicode_tokens enc s hs
  refine ⟨_, hw, ?_⟩
  intro d rest h
  obtain ⟨d', hr, hi, hst⟩ := read_string_tokens_index host d toks hwf rest (by
    rw [h]; simp)
  refine ⟨d', ?_, ?_, hst⟩
  · rw [hr, hval]
  · rw [hi]; simp; omega

/-- C2, at a concrete input: the string `a`, U+00E9, U+1F600, `/` under the
default options. -/
theorem write_unicode_read_string_witness :
    ∃ lit, write_unicode init_encoder [0x61, 0xE9, 0x1F600, 0x2F] = .ok lit ∧
      ∀ (d : Decoder Bool) (rest : List Nat), d.start.drop d.index = lit ++ rest →
        ∃ d', read_string example_host d = .ok ([0x61, 0xE9, 0x1F600, 0x2F], d') ∧
          d'.index = d.index + lit.length ∧ d'.start = d.start :=
  write_unicode_read_string example_host init_encoder [0x61, 0xE9, 0x1F600, 0x2F]
    (by simp [is_scalar_value])

end Jsonlib2

namespace Jsonlib2

/-! ## The scan of `read_number` on JSON numbers -/

theorem scan_digit_stable {c : Nat} (hc : is_digit c) {f : NumberFlags} (hf : f.stable)
    (rest : List Nat) (ptr : Nat) :
    read_number_scan (c :: rest) ptr f = read_number_scan rest (ptr + 1) f := by
  obtain ⟨hg, hz⟩ := hf
  unfold is_digit at hc
  have h0 : c ≠ 0 := by omega
  have hnot : ¬(f.leading_zero = true ∧ f.is_float = false) := by
    rcases hz with h | h <;> simp [h]
  have hfl : ({ f with got_digit := true } : NumberFlags) = f := by
    cases f; simp_all
  rw [read_number_scan, if_neg h0]
  by_cases hz0 : c = 0x30
  · rw [if_pos hz0, if_neg (by simp [hg]), if_neg hnot, hfl]
  · rw [if_neg hz0, if_pos (by omega), if_neg hnot, hfl]

theorem scan_digits_stable : ∀ (ds : List Nat), (∀ x ∈ ds, is_digit x) →
    ∀ {f : NumberFlags}, f.stable → ∀ (rest : List Nat) (ptr : Nat),
    read_number_scan (ds ++ rest) ptr f = read_number_scan rest (ptr + ds.length) f := by
  intro ds
  induction ds with
  | nil => intro _ f _ rest ptr; rfl
  | cons c cs ih =>
    intro h f hf rest ptr
    rw [List.cons_append, scan_digit_stable (h c (List.mem_cons_self _ _)) hf,
      ih (fun x hx => h x (List.mem_cons_of_mem _ hx)) hf]
    simp only [List.length_cons]
    congr 1; omega

theorem scan_first_digit {c : Nat} (hc : is_digit c) {f : NumberFlags}
    (hf : f.is_float = true ∨ (f.leading_zero = false ∧ c ≠ 0x30)) (rest : List Nat)
    (ptr : Nat) :
    ∃ f' : NumberFlags, read_number_scan (c :: rest) ptr f = read_number_scan rest (ptr + 1) f'
      ∧ f'.stable ∧ f'.is_float = f.is_float ∧ f'.has_exponent = f.has_exponent := by
  unfold is_digit at hc
  have h0 : c ≠ 0 := by omega
  have hnot : ¬(f.leading_zero = true ∧ f.is_float = false) := by
    rcases hf with h | h
    · simp [h]
    · simp [h.1]
  rw [read_number_scan, if_neg h0]
  by_cases hz0 : c = 0x30
  · have hfloat : f.is_float = true := by
      rcases hf with h | h
      · exact h
      · exact absurd hz0 h.2
    rw [if_pos hz0]
    by_cases hg : f.got_digit = false
    · rw [if_pos hg]
      exact ⟨_, rfl, ⟨rfl, Or.inr hfloat⟩, rfl, rfl⟩
    · rw [if_neg hg, if_neg hnot]
      exact ⟨_, rfl, ⟨rfl, Or.inr hfloat⟩, rfl, rfl⟩
  · rw [if_neg hz0, if_pos (by omega), if_neg hnot]
    refine ⟨_, rfl, ⟨rfl, ?_⟩, rfl, rfl⟩
    rcases hf with h | h
    · exact Or.inr h
    · exact Or.inl h.1

theorem scan_sign {c : Nat} (hc : c = 0x2D ∨ c = 0x2B) (f : NumberFlags) (rest : List Nat)
    (ptr : Nat) : read_number_scan (c :: rest) ptr f = read_number_scan rest (ptr + 1) f := by
  rw [read_number_scan, if_neg (by omega), if_neg (by omega), if_neg (by omega), if_pos hc]

theorem scan_exp {c : Nat} (hc : c = 0x65 ∨ c = 0x45) (f : NumberFlags) (rest : List Nat)
    (ptr : Nat) : read_number_scan (c :: rest) ptr f
      = read_number_scan rest (ptr + 1) { f with has_exponent := true } := by
  rw [read_number_scan, if_neg (by omega), if_neg (by omega), if_neg (by omega),
    if_neg (by omega), if_pos hc]

theorem scan_dot (f : NumberFlags) (rest : List Nat) (ptr : Nat) :
    read_number_scan (0x2E :: rest) ptr f
      = read_number_scan rest (ptr + 1) { f with is_float := true, got_digit := false } := by
  rw [read_number_scan]
  simp

/-- The scan over an exponent, from stable flags. -/
theorem scan_exponent (ex : Option (Nat × List Nat × List Nat))
    (hex : ∀ e sign ds, ex = some (e, sign, ds) →
      (e = 0x65 ∨ e = 0x45) ∧ (sign = [] ∨ sign = [0x2B] ∨ sign = [0x2D]) ∧
        ds ≠ [] ∧ ∀ x ∈ ds, is_digit x)
    {f : NumberFlags} (hf : f.stable) (hfe : f.has_exponent = false)
    (rest : List Nat) (hstop : number_stop rest) (ptr : Nat) :
    ∃ f' : NumberFlags,
      read_number_scan (exp_text ex ++ rest) ptr f
        = some (ptr + (exp_text ex).length, f') ∧
      f'.got_digit = true ∧ f'.is_float = f.is_float ∧ f'.has_exponent = ex.isSome := by
  cases ex with
  | none =>
    refine ⟨f, ?_, hf.1, rfl, by simpa using hfe⟩
    simp [exp_text, read_number_scan_stop hstop]
  | some p =>
    obtain ⟨e, sign, ds⟩ := p
    obtain ⟨he, hsign, _, hds⟩ := hex e sign ds rfl
    have hst : ({ f with has_exponent := true } : NumberFlags).stable := hf
    refine ⟨{ f with has_exponent := true }, ?_, hf.1, rfl, rfl⟩
    simp only [exp_text, List.cons_append, List.append_assoc]
    rw [scan_exp he]
    rcases hsign with r | r | r <;> subst r
    · rw [List.nil_append, scan_digits_stable ds hds hst, read_number_scan_stop hstop]
      simp; omega
    · rw [List.singleton_append, scan_sign (Or.inr rfl), scan_digits_stable ds hds hst,
        read_number_scan_stop hstop]
      simp; omega
    · rw [List.singleton_append, scan_sign (Or.inl rfl), scan_digits_stable ds hds hst,
        read_number_scan_stop hstop]
      simp; omega

/-- The scan over a fraction and an exponent, from stable flags with
`is_float = false`. -/
theorem scan_frac_exponent (fr : Option (List Nat)) (ex : Option (Nat × List Nat × List Nat))
    (hfr : ∀ ds, fr = some ds → ds ≠ [] ∧ ∀ x ∈ ds, is_digit x)
    (hex : ∀ e sign ds, ex = some (e, sign, ds) →
      (e = 0x65 ∨ e = 0x45) ∧ (sign = [] ∨ sign = [0x2B] ∨ sign = [0x2D]) ∧
        ds ≠ [] ∧ ∀ x ∈ ds, is_digit x)
    {f : NumberFlags} (hf : f.got_digit = true) (hff : f.is_float = false)
    (hfe : f.has_exponent = false)
    (hz : f.leading_zero = false ∨ fr.isSome = true ∨ ex.isSome = false)
    (rest : List Nat) (hstop : number_stop rest) (ptr : Nat) :
    ∃ f' : NumberFlags,
      read_number_scan (frac_text fr ++ exp_text ex ++ rest) ptr f
        = some (ptr + ((frac_text fr).length + (exp_text ex).length), f') ∧
      f'.got_digit = true ∧ f'.is_float = fr.isSome ∧ f'.has_exponent = ex.isSome := by
  cases fr with
  | some ds =>
    obtain ⟨hne, hds⟩ := hfr ds rfl
    obtain ⟨c, cs, rfl⟩ : ∃ c cs, ds = c :: cs := by
      cases ds with
      | nil => exact absurd rfl hne
      | cons c cs => exact ⟨c, cs, rfl⟩
    simp only [frac_text, List.cons_append, List.append_assoc]
    rw [scan_dot]
    obtain ⟨fl1, h1, hst1, hfl1, he1⟩ := scan_first_digit (hds c (List.mem_cons_self _ _))
      (f := { f with is_float := true, got_digit := false }) (Or.inl rfl)
      (cs ++ (exp_text ex ++ rest)) (ptr + 1)
    rw [h1, scan_digits_stable cs (fun x hx => hds x (List.mem_cons_of_mem _ hx)) hst1]
    obtain ⟨fl2, h2, hg2, hfl2, he2⟩ := scan_exponent ex hex hst1 (by rw [he1]; exact hfe) rest
      hstop (ptr + 1 + 1 + cs.length)
    refine ⟨fl2, ?_, hg2, by rw [hfl2, hfl1]; rfl, he2⟩
    rw [h2]
    simp only [List.length_cons]
    congr 2; omega
  | none =>
    simp only [frac_text, List.nil_append, List.length_nil, Nat.zero_add]
    cases ex with
    | none =>
      refine ⟨f, ?_, hf, by simpa using hff, by simpa using hfe⟩
      simp [exp_text, read_number_scan_stop hstop]
    | some p =>
      have hlz : f.leading_zero = false := by
        rcases hz with h | h | h
        · exact h
        · simp at h
        · simp at h
      obtain ⟨fl2, h2, hg2, hfl2, he2⟩ := scan_exponent (some p) hex (f := f)
        ⟨hf, Or.inl hlz⟩ hfe rest hstop ptr
      exact ⟨fl2, h2, hg2, by rw [hfl2]; simpa using hff, he2⟩

/-- The scan of `read_number` runs exactly over a JSON number that is followed by
the end of input or a code unit no number holds, provided the number is not a
lone zero integer part with an exponent (`0e5`); the flags then tell whether the
number has a fraction or an exponent. -/
theorem read_number_scan_text (n : NumberText) (hwf : n.WF)
    (hz : n.int_digits = [0x30] → n.frac_digits.isSome = true ∨ n.exponent.isSome = false)
    (rest : List Nat) (hstop : number_stop rest) (ptr : Nat) :
    ∃ f' : NumberFlags, read_number_scan (n.text ++ rest) ptr init_flags
        = some (ptr + n.text.length, f') ∧
      f'.got_digit = true ∧ f'.is_float = n.frac_digits.isSome ∧
      f'.has_exponent = n.exponent.isSome := by
  obtain ⟨hint, hfr, hex⟩ := hwf
  -- the sign
  have hsign : ∀ (body : List Nat), read_number_scan
      (sign_text n.negative ++ body) ptr init_flags
      = read_number_scan body (ptr + (sign_text n.negative).length)
          init_flags := by
    intro body
    cases n.negative with
    | true => simp only [sign_text, if_true, List.singleton_append, List.length_singleton]
              rw [scan_sign (Or.inl rfl)]
    | false => simp [sign_text]
  unfold NumberText.text
  simp only [List.append_assoc]
  rw [hsign]
  rcases hint with h0 | ⟨c, cs, hcs, hc, hrest⟩
  · -- integer part `0`
    rw [h0]
    have hstep : ∀ body, read_number_scan ([0x30] ++ body)
        (ptr + (sign_text n.negative).length) init_flags
        = read_number_scan body (ptr + (sign_text n.negative).length + 1)
          { init_flags with leading_zero := true, got_digit := true } := by
      intro body
      rw [List.singleton_append, read_number_scan]
      simp [init_flags]
    rw [hstep]
    obtain ⟨fl2, h2, hg2, hfl2, he2⟩ := scan_frac_exponent n.frac_digits n.exponent hfr hex
      (f := { init_flags with leading_zero := true, got_digit := true }) rfl rfl rfl
      (Or.inr (hz h0)) rest hstop (ptr + (sign_text n.negative).length + 1)
    refine ⟨fl2, ?_, hg2, hfl2, he2⟩
    simp only [List.append_assoc] at h2
    rw [h2]
    simp only [List.length_append, List.length_singleton]
    congr 2; omega
  · rw [hcs]
    have hstep : ∀ body, read_number_scan (c :: cs ++ body)
        (ptr + (sign_text n.negative).length) init_flags
        = read_number_scan body
          (ptr + (sign_text n.negative).length + 1 + cs.length)
          { init_flags with got_digit := true } := by
      intro body
      rw [List.cons_append, read_number_scan, if_neg (by omega), if_neg (by omega),
        if_pos hc, if_neg (by simp [init_flags]),
        scan_digits_stable cs hrest ⟨rfl, Or.inl rfl⟩]
    rw [hstep]
    obtain ⟨fl2, h2, hg2, hfl2, he2⟩ := scan_frac_exponent n.frac_digits n.exponent hfr hex
      (f := { init_flags with got_digit := true }) rfl rfl rfl (Or.inl rfl) rest hstop
      (ptr + (sign_text n.negative).length + 1 + cs.length)
    refine ⟨fl2, ?_, hg2, hfl2, he2⟩
    simp only [List.append_assoc] at h2
    rw [h2]
    simp only [List.length_append, List.length_cons]
    congr 2; omega

end Jsonlib2

namespace Jsonlib2

/-! ## `read_number` on JSON numbers, and the text of integers -/

theorem read_number_text {F : Type} (host : Host F) (d : Decoder F) (n : NumberText)
    (hwf : n.WF)
    (hz : n.int_digits = [0x30] → n.frac_digits.isSome = true ∨ n.exponent.isSome = false)
    (rest : List Nat) (hstop : number_stop rest)
    (h : d.start.drop d.index = n.text ++ rest) :
    read_number host d =
      match number_object host d (n.frac_digits.isSome || n.exponent.isSome) n.text with
      | none => .error (set_error_simple d.index "Invalid number.")
      | some object => .ok (object, { d with index := d.index + n.text.length }) := by
  obtain ⟨fl, hscan, hg, hf, he⟩ := read_number_scan_text n hwf hz rest hstop d.index
  have hscan' : read_number_scan (n.text ++ rest) d.index
      { is_float := false, got_digit := false, leading_zero := false, has_exponent := false }
      = some (d.index + n.text.length, fl) := hscan
  have ht : List.take (d.index + n.text.length - d.index) (n.text ++ rest) = n.text := by
    rw [Nat.add_sub_cancel_left, List.take_left]
  simp only [read_number, h, hscan', hg, if_true, ht, hf, he, number_object] <;> rfl

theorem nat_digits_spec : ∀ (n fuel : Nat), n < fuel →
    ∃ ds : List Nat, (∀ acc, nat_digits fuel n acc = ds ++ acc) ∧ (∀ x ∈ ds, is_digit x) ∧
      ((ds = [0x30] ∧ n = 0) ∨ (∃ c cs, ds = c :: cs ∧ (0x31 ≤ c ∧ c ≤ 0x39))) ∧
      ds.foldl (fun a c => a * 10 + PyLong_DigitValue c) 0 = n := by
  intro n
  induction n using Nat.strong_induction_on with
  | _ n ih =>
    intro fuel hfuel
    obtain ⟨k, rfl⟩ : ∃ k, fuel = k + 1 := ⟨fuel - 1, by omega⟩
    by_cases hn : n < 10
    · refine ⟨[0x30 + n], ?_, ?_, ?_, ?_⟩
      · intro acc; simp [nat_digits, hn]
      · intro x hx; simp only [List.mem_singleton] at hx; subst hx; unfold is_digit; omega
      · by_cases h0 : n = 0
        · left; subst h0; simp
        · right; exact ⟨0x30 + n, [], rfl, by omega⟩
      · simp only [List.foldl_cons, List.foldl_nil, PyLong_DigitValue]
        rw [if_pos (by omega)]; omega
    · obtain ⟨ds, h1, h2, h3, h4⟩ := ih (n / 10) (by omega) k (by omega)
      refine ⟨ds ++ [0x30 + n % 10], ?_, ?_, ?_, ?_⟩
      · intro acc
        rw [nat_digits, if_neg hn, h1]
        simp
      · intro x hx
        rcases List.mem_append.1 hx with r | r
        · exact h2 x r
        · simp only [List.mem_singleton] at r; subst r; unfold is_digit; omega
      · right
        rcases h3 with ⟨_, h0⟩ | ⟨c, cs, hcs, hc⟩
        · omega
        · exact ⟨c, cs ++ [0x30 + n % 10], by rw [hcs]; rfl, hc⟩
      · rw [List.foldl_append, h4]
        simp only [List.foldl_cons, List.foldl_nil, PyLong_DigitValue]
        rw [if_pos (by omega)]; omega

theorem EncodeDecimal_ascii {F : Type} (host : Host F) :
    ∀ s : List Nat, (∀ c ∈ s, 0x21 ≤ c ∧ c ≤ 0x7E) → PyUnicode_EncodeDecimal host s = some s := by
  intro s
  induction s with
  | nil => intro _; rfl
  | cons c cs ih =>
    intro h
    have hc := h c (List.mem_cons_self _ _)
    have hlt : c < 128 := by omega
    have hs : Py_UNICODE_ISSPACE host c = false := by
      simp only [Py_UNICODE_ISSPACE, hlt, if_true, decide_eq_false_iff_not]; omega
    rw [PyUnicode_EncodeDecimal, hs, ih (fun x hx => h x (List.mem_cons_of_mem _ hx))]
    by_cases hd : 0x30 ≤ c ∧ c ≤ 0x39
    · have : Py_UNICODE_TODECIMAL host c = some (c - 0x30) := by
        simp only [Py_UNICODE_TODECIMAL, hlt, if_true]; rw [if_pos hd]
      simp only [this]
      have e : 0x30 + (c - 0x30) = c := by omega
      simp [e]
    · have : Py_UNICODE_TODECIMAL host c = none := by
        simp only [Py_UNICODE_TODECIMAL, hlt, if_true]; rw [if_neg hd]
      simp only [this]
      have : (0 < c ∧ c < 256) := by omega
      simp [this]

theorem digit_value_lt {c : Nat} (h : is_digit c) : PyLong_DigitValue c < 10 := by
  unfold is_digit at h; unfold PyLong_DigitValue; rw [if_pos h]; omega

theorem PyLong_FromString_digits_decimal (ds : List Nat) (hne : ds ≠ [])
    (hds : ∀ x ∈ ds, is_digit x) :
    PyLong_FromString_digits ds 10
      = some (ds.foldl (fun a c => a * 10 + PyLong_DigitValue c) 0) := by
  have htake : List.takeWhile (fun c => decide (PyLong_DigitValue c < 10)) ds = ds := by
    rw [List.takeWhile_eq_self_iff]
    intro x hx
    simpa using digit_value_lt (hds x hx)
  have hdrop : List.dropWhile (fun c => decide (PyLong_DigitValue c < 10)) ds = [] := by
    rw [List.dropWhile_eq_nil_iff]
    intro x hx
    simpa using digit_value_lt (hds x hx)
  have hpre : strip_base_marker ds 10 = ds := by
    unfold strip_base_marker
    split
    · simp
    · rfl
  simp only [PyLong_FromString_digits, hpre, htake, hdrop, hne, if_false]
  simp [strip_long_suffix]

theorem PyLong_FromString_decimal (negative : Bool) (ds : List Nat) (hne : ds ≠ [])
    (hds : ∀ x ∈ ds, is_digit x) :
    PyLong_FromString (sign_text negative ++ ds) 10
      = some ((if negative then -1 else 1) *
          ((ds.foldl (fun a c => a * 10 + PyLong_DigitValue c) 0 : Nat) : Int)) := by
  obtain ⟨c, cs, hcs⟩ : ∃ c cs, ds = c :: cs := by
    cases ds with
    | nil => exact absurd rfl hne
    | cons c cs => exact ⟨c, cs, rfl⟩
  have hc := hds c (by rw [hcs]; exact List.mem_cons_self _ _)
  have hsp : c_isspace c = false := by
    unfold is_digit at hc; simp only [c_isspace, decide_eq_false_iff_not]; omega
  have hcn : c ≠ 0x2B ∧ c ≠ 0x2D := by unfold is_digit at hc; omega
  have hdw : List.dropWhile c_isspace ds = ds := by
    rw [hcs, List.dropWhile_cons, hsp]; rfl
  have hdig := PyLong_FromString_digits_decimal ds hne hds
  cases negative with
  | true =>
    have hm : c_isspace 0x2D = false := by decide
    simp only [sign_text, if_true, List.singleton_append, PyLong_FromString,
      List.dropWhile_cons, hm, Bool.false_eq_true, if_false]
    rw [hdw, hdig]
    simp
  | false =>
    simp only [sign_text, Bool.false_eq_true, if_false, List.nil_append, PyLong_FromString]
    rw [hdw]
    subst hcs
    simp only [if_neg hcn.1, if_neg hcn.2, hdw, hdig]
    simp

/-- The text `PyObject_Str` gives an integer, as a JSON number. -/
theorem PyObject_Str_int_text (n : Int) :
    ∃ t : NumberText, t.WF ∧ t.frac_digits = none ∧ t.exponent = none ∧
      PyObject_Str_int n = t.text ∧
      ∀ {F : Type} (host : Host F), PyLong_FromUnicode host t.text 10 = some n := by
  obtain ⟨ds, h1, h2, h3, h4⟩ := nat_digits_spec n.natAbs (n.natAbs + 1) (by omega)
  have hne : ds ≠ [] := by
    rcases h3 with ⟨h, _⟩ | ⟨c, cs, h, _⟩ <;> rw [h] <;> simp
  refine ⟨NumberText.mk (decide (n < 0)) ds none none, ?_, rfl, rfl, ?_, ?_⟩
  · refine ⟨?_, by simp, by simp⟩
    rcases h3 with ⟨h, _⟩ | ⟨c, cs, h, hc⟩
    · exact Or.inl h
    · refine Or.inr ⟨c, cs, h, hc, ?_⟩
      intro x hx
      exact h2 x (by rw [h]; exact List.mem_cons_of_mem _ hx)
  · unfold PyObject_Str_int NumberText.text
    by_cases hn : n < 0
    · simp [hn, sign_text, frac_text, exp_text, h1]
    · simp [hn, sign_text, frac_text, exp_text, h1]
  · intro F host
    have hascii : ∀ c ∈ sign_text (decide (n < 0)) ++ ds, 0x21 ≤ c ∧ c ≤ 0x7E := by
      intro c hc
      rcases List.mem_append.1 hc with r | r
      · unfold sign_text at r
        split_ifs at r
        · simp only [List.mem_singleton] at r; omega
        · simp at r
      · have := h2 c r; unfold is_digit at this; omega
    have htext : (NumberText.mk (decide (n < 0)) ds none none).text
        = sign_text (decide (n < 0)) ++ ds := by
      simp [NumberText.text, frac_text, exp_text]
    rw [htext, PyLong_FromUnicode, EncodeDecimal_ascii host _ hascii]
    simp only [PyLong_FromString_decimal _ ds hne h2, h4]
    by_cases hn : n < 0
    · simp only [hn, decide_True, if_true]
      congr 1; omega
    · simp only [hn, decide_False, Bool.false_eq_true, if_false]
      congr 1; omega

end Jsonlib2

namespace Jsonlib2

/-! ## The serializer writes the compact text -/

theorem write_basic_str_ok {F : Type} (host : Host F) (enc : Encoder) (s : List Nat)
    (hs : ∀ c ∈ s, is_scalar_value c) :
    write_basic host enc (.str s) = .ok (scalar_text host enc (.str s)) := by
  obtain ⟨toks, _, _, hw⟩ := write_unicode_tokens enc s hs
  simp only [scalar_text, write_basic, hw]

theorem write_float_ok {F : Type} (host : Host F) (enc : Encoder) (hnan : enc.allow_nan = true)
    (x : PyFloat F) :
    write_basic host enc (.float x) = .ok (scalar_text host enc (.float x)) := by
  cases x <;> simp [scalar_text, write_basic, write_float, hnan]

theorem render_tail_eq {F : Type} (host : Host F) (enc : Encoder) (x : Value F)
    (xs : List (Value F)) :
    render_tail host enc (x :: xs) = [0x2C, 0x20] ++ render_body host enc (x :: xs) := by
  simp [render_tail, render_body]

theorem render_members_eq {F : Type} (host : Host F) (enc : Encoder) (kv : List Nat × Value F)
    (rest : List (List Nat × Value F)) :
    render_members host enc (kv :: rest)
      = [0x2C, 0x20] ++ render_members_body host enc (kv :: rest) := by
  obtain ⟨k, v⟩ := kv
  simp [render_members, render_members_body]

theorem sequence_loop_render_map {F : Type} (host : Host F) (enc : Encoder)
    (W : Value F → Nat → List Nat → Except EncodeError (List Nat)) (g : Value F → Value F)
    (lvl size : Nat) (cl : Nat) :
    ∀ (xs : List (Value F)) (ii : Nat) (out : List Nat), ii + xs.length = size →
      (∀ x ∈ xs, ∀ o, W x (lvl + 1) o = .ok (o ++ render host enc (g x))) →
      write_sequence_impl_loop W
        { start := [0x5B], end_ := [cl], pre_value := none, post_value := [0x2C, 0x20] }
        lvl size xs ii out
        = .ok (out ++ render_body host enc (xs.map g) ++ [cl]) := by
  intro xs
  induction xs with
  | nil => intro ii out _ _; simp [write_sequence_impl_loop, render_body]
  | cons x xs ih =>
    intro ii out hsz hW
    rw [write_sequence_impl_loop]
    simp only [hW x (List.mem_cons_self _ _)]
    rw [ih (ii + 1) _ (by simp only [List.length_cons] at hsz; omega)
      (fun y hy => hW y (List.mem_cons_of_mem _ hy))]
    cases xs with
    | nil =>
      have : ¬ (ii + 1 < size) := by simp only [List.length_cons, List.length_nil] at hsz; omega
      simp [this, render_body, render_tail]
    | cons y ys =>
      have : ii + 1 < size := by simp only [List.length_cons] at hsz; omega
      simp [this, render_body, render_tail]

theorem sequence_loop_render {F : Type} (host : Host F) (enc : Encoder)
    (W : Value F → Nat → List Nat → Except EncodeError (List Nat)) (lvl size : Nat)
    (cl : Nat) (xs : List (Value F)) (ii : Nat) (out : List Nat) (hsz : ii + xs.length = size)
    (hW : ∀ x ∈ xs, ∀ o, W x (lvl + 1) o = .ok (o ++ render host enc x)) :
    write_sequence_impl_loop W
      { start := [0x5B], end_ := [cl], pre_value := none, post_value := [0x2C, 0x20] }
      lvl size xs ii out
      = .ok (out ++ render_body host enc xs ++ [cl]) := by
  have := sequence_loop_render_map host enc W id lvl size cl xs ii out hsz hW
  rwa [List.map_id] at this

theorem mapping_loop_render_map {F : Type} (host : Host F) (enc : Encoder)
    (hcolon : enc.colon = [0x3A, 0x20])
    (W : Value F → Nat → List Nat → Except EncodeError (List Nat)) (g : Value F → Value F)
    (lvl size : Nat) :
    ∀ (items : List (List Nat × Value F)) (ii : Nat) (out : List Nat),
      ii + items.length = size →
      (∀ kv ∈ items, (∀ c ∈ kv.1, is_scalar_value c) ∧
        ∀ o, W kv.2 (lvl + 1) o = .ok (o ++ render host enc (g kv.2))) →
      write_mapping_impl_loop host enc W
        { start := [0x7B], end_ := [0x7D], pre_value := none, post_value := [0x2C, 0x20] }
        lvl size items ii out
        = .ok (out ++ render_members_body host enc (items.map (fun kv => (kv.1, g kv.2)))
            ++ [0x7D]) := by
  intro items
  induction items with
  | nil => intro ii out _ _; simp [write_mapping_impl_loop, render_members_body]
  | cons kv rest ih =>
    obtain ⟨k, v⟩ := kv
    intro ii out hsz hW
    obtain ⟨hk, hv⟩ := hW (k, v) (List.mem_cons_self _ _)
    rw [write_mapping_impl_loop]
    simp only [mapping_process_key, write_basic_str_ok host enc k hk, hv, hcolon]
    rw [ih (ii + 1) _ (by simp only [List.length_cons] at hsz; omega)
      (fun y hy => hW y (List.mem_cons_of_mem _ hy))]
    cases rest with
    | nil =>
      have : ¬ (ii + 1 < size) := by simp only [List.length_cons, List.length_nil] at hsz; omega
      simp [this, render_members_body, render_members]
    | cons y ys =>
      obtain ⟨k2, v2⟩ := y
      have : ii + 1 < size := by simp only [List.length_cons] at hsz; omega
      simp [this, render_members_body, render_members]

theorem mapping_loop_render {F : Type} (host : Host F) (enc : Encoder)
    (hcolon : enc.colon = [0x3A, 0x20])
    (W : Value F → Nat → List Nat → Except EncodeError (List Nat)) (lvl size : Nat)
    (items : List (List Nat × Value F)) (ii : Nat) (out : List Nat)
    (hsz : ii + items.length = size)
    (hW : ∀ kv ∈ items, (∀ c ∈ kv.1, is_scalar_value c) ∧
      ∀ o, W kv.2 (lvl + 1) o = .ok (o ++ render host enc kv.2)) :
    write_mapping_impl_loop host enc W
      { start := [0x7B], end_ := [0x7D], pre_value := none, post_value := [0x2C, 0x20] }
      lvl size items ii out
      = .ok (out ++ render_members_body host enc items ++ [0x7D]) := by
  have := mapping_loop_render_map host enc hcolon W id lvl size items ii out hsz hW
  have e : items.map (fun kv => (kv.1, id kv.2)) = items := by
    induction items with
    | nil => rfl
    | cons kv rest ih => simp
  rwa [e] at this

mutual

/-- Without `sort_keys`, in compact mode, `write_object` appends the compact
text of a value of the value model, given fuel beyond its depth. -/
theorem write_object_render {F : Type} (host : Host F) (enc : Encoder) (hc : enc.compact)
    (hs : enc.sort_keys = false) :
    ∀ (v : Value F), v.wf → ∀ (fuel : Nat), v.depth < fuel → ∀ (lvl : Nat) (out : List Nat),
      write_object host enc fuel v lvl out = .ok (out ++ render host enc v)
  | .null, _, fuel, hf, lvl, out => by
    obtain ⟨k, rfl⟩ : ∃ k, fuel = k + 1 := ⟨fuel - 1, by omega⟩
    simp [write_object, write_basic, render, scalar_text]
  | .bool b, _, fuel, hf, lvl, out => by
    obtain ⟨k, rfl⟩ : ∃ k, fuel = k + 1 := ⟨fuel - 1, by omega⟩
    cases b <;> simp [write_object, write_basic, render, scalar_text]
  | .int n, _, fuel, hf, lvl, out => by
    obtain ⟨k, rfl⟩ : ∃ k, fuel = k + 1 := ⟨fuel - 1, by omega⟩
    simp [write_object, write_basic, render, scalar_text]
  | .float x, _, fuel, hf, lvl, out => by
    obtain ⟨k, rfl⟩ : ∃ k, fuel = k + 1 := ⟨fuel - 1, by omega⟩
    simp only [write_object, write_float_ok host enc hc.2.2.2 x, render]
  | .str s, hwf, fuel, hf, lvl, out => by
    obtain ⟨k, rfl⟩ : ∃ k, fuel = k + 1 := ⟨fuel - 1, by omega⟩
    simp only [Value.wf] at hwf
    simp only [write_object, write_basic_str_ok host enc s hwf, render]
  | .arr xs, hwf, fuel, hf, lvl, out => by
    obtain ⟨k, rfl⟩ : ∃ k, fuel = k + 1 := ⟨fuel - 1, by omega⟩
    simp only [Value.wf] at hwf
    simp only [Value.depth] at hf
    have hW := write_list_render host enc hc hs xs hwf k (by omega)
    cases xs with
    | nil => simp [write_object, write_iterable, render]
    | cons x xs =>
      simp only [write_object, write_iterable, List.length_cons, Nat.add_one_ne_zero, if_false,
        write_sequence_impl, get_separators, hc.1, hc.2.1]
      rw [sequence_loop_render host enc _ lvl _ 0x5D (x :: xs) 0 _ (by simp)
        (fun y hy o => hW y hy (lvl + 1) o)]
      simp [render, render_body]
  | .obj items, hwf, fuel, hf, lvl, out => by
    obtain ⟨k, rfl⟩ : ∃ k, fuel = k + 1 := ⟨fuel - 1, by omega⟩
    simp only [Value.wf] at hwf
    simp only [Value.depth] at hf
    have hW := write_items_render host enc hc hs items hwf.2 k (by omega)
    cases items with
    | nil => simp [write_object, write_mapping, render]
    | cons kv rest =>
      obtain ⟨key, v⟩ := kv
      simp only [write_object, write_mapping, List.length_cons, Nat.add_one_ne_zero, if_false,
        hs, if_true, write_dict, get_separators, hc.1, hc.2.1]
      rw [mapping_loop_render host enc hc.2.2.1 _ lvl _ ((key, v) :: rest) 0 _ (by simp)
        (fun y hy => ⟨(hW y hy).1, fun o => (hW y hy).2 (lvl + 1) o⟩)]
      simp [render, render_members_body]

/-- `write_object_render` for every value of a list. -/
theorem write_list_render {F : Type} (host : Host F) (enc : Encoder) (hc : enc.compact)
    (hs : enc.sort_keys = false) :
    ∀ (xs : List (Value F)), wf_list xs → ∀ (fuel : Nat), depth_list xs < fuel →
      ∀ x ∈ xs, ∀ (lvl : Nat) (out : List Nat),
        write_object host enc fuel x lvl out = .ok (out ++ render host enc x)
  | [], _, _, _, x, hx, _, _ => by simp at hx
  | y :: ys, hwf, fuel, hf, x, hx, lvl, out => by
    simp only [wf_list] at hwf
    simp only [depth_list] at hf
    rcases List.mem_cons.1 hx with r | r
    · subst r
      exact write_object_render host enc hc hs x hwf.1 fuel (by omega) lvl out
    · exact write_list_render host enc hc hs ys hwf.2 fuel (by omega) x r lvl out

/-- `write_object_render` for the key and the value of every item. -/
theorem write_items_render {F : Type} (host : Host F) (enc : Encoder) (hc : enc.compact)
    (hs : enc.sort_keys = false) :
    ∀ (items : List (List Nat × Value F)), wf_items items → ∀ (fuel : Nat),
      depth_items items < fuel →
      ∀ kv ∈ items, (∀ c ∈ kv.1, is_scalar_value c) ∧ ∀ (lvl : Nat) (out : List Nat),
        write_object host enc fuel kv.2 lvl out = .ok (out ++ render host enc kv.2)
  | [], _, _, _, x, hx => by simp at hx
  | (k, v) :: rest, hwf, fuel, hf, x, hx => by
    simp only [wf_items] at hwf
    simp only [depth_items] at hf
    rcases List.mem_cons.1 hx with r | r
    · subst r
      exact ⟨hwf.1, fun lvl out =>
        write_object_render host enc hc hs v hwf.2.1 fuel (by omega) lvl out⟩
    · exact write_items_render host enc hc hs rest hwf.2.2 fuel (by omega) x r

end

end Jsonlib2

namespace Jsonlib2

/-! ## Steps of the parser -/

@[simp] theorem moved_start {F : Type} (d : Decoder F) (i sz : Nat) :
    (d.moved i sz).start = d.start := rfl

@[simp] theorem moved_index {F : Type} (d : Decoder F) (i sz : Nat) :
    (d.moved i sz).index = i := rfl

@[simp] theorem moved_size {F : Type} (d : Decoder F) (i sz : Nat) :
    (d.moved i sz).stringparse_buffer_size = sz := rfl

@[simp] theorem moved_parse_float {F : Type} (d : Decoder F) (i sz : Nat) :
    (d.moved i sz).parse_float = d.parse_float := rfl

@[simp] theorem moved_parse_int {F : Type} (d : Decoder F) (i sz : Nat) :
    (d.moved i sz).parse_int = d.parse_int := rfl

@[simp] theorem moved_parse_constant {F : Type} (d : Decoder F) (i sz : Nat) :
    (d.moved i sz).parse_constant = d.parse_constant := rfl

@[simp] theorem moved_moved {F : Type} (d : Decoder F) (i sz j s : Nat) :
    (d.moved i sz).moved j s = d.moved j s := rfl

theorem moved_self {F : Type} (d : Decoder F) :
    d.moved d.index d.stringparse_buffer_size = d := rfl

theorem skip_spaces_from_stop {c : Nat} (t : List Nat) (i : Nat) (hc : ¬ is_json_space c) :
    skip_spaces_from (c :: t) i = i := by
  unfold is_json_space at hc
  rw [skip_spaces_from, if_neg (fun h => hc h.2)]

theorem skip_spaces_moved_stop {F : Type} (d : Decoder F) (i sz : Nat) {c : Nat} {t : List Nat}
    (h : d.start.drop i = c :: t) (hc : ¬ is_json_space c) :
    skip_spaces (d.moved i sz) = d.moved i sz := by
  simp only [skip_spaces, moved_start, moved_index, h, skip_spaces_from_stop t i hc]
  rfl

theorem skip_spaces_moved_space {F : Type} (d : Decoder F) (i sz : Nat) {c : Nat} {t : List Nat}
    (h : d.start.drop i = 0x20 :: c :: t) (hc : ¬ is_json_space c) :
    skip_spaces (d.moved i sz) = d.moved (i + 1) sz := by
  simp only [skip_spaces, moved_start, moved_index, h]
  rw [skip_spaces_from, if_pos (by decide), skip_spaces_from_stop t (i + 1) hc]
  rfl

theorem value_start_facts {c : Nat} (h : value_start c) :
    ¬ is_json_space c ∧ c ≠ 0 ∧ c ≠ 0x5D ∧ c ≠ 0x7D ∧ c ≠ 0x2C ∧ c ≠ 0x3A := by
  unfold value_start at h; unfold is_json_space; omega

/-! ### Keywords -/

theorem keyword_compare_ok {F : Type} (d : Decoder F) (i sz : Nat) (kw rest : List Nat)
    (retval : Value F) (hk : d.parse_constant = none) (h : d.start.drop i = kw ++ rest) :
    keyword_compare (d.moved i sz) kw retval = some (retval, d.moved (i + kw.length) sz) := by
  have hlen : d.start.length - i ≥ kw.length := by
    have := congrArg List.length h
    simp only [List.length_drop, List.length_append] at this
    omega
  obtain ⟨s, ix, sz0, pf, pi, pc⟩ := d
  simp only at hk h hlen
  subst hk
  simp only [keyword_compare, Decoder.moved, hlen, if_true, h, List.take_left]

theorem keyword_compare_minus_digit {F : Type} (d : Decoder F) (i sz : Nat) (c : Nat)
    (t : List Nat) (retval : Value F) (hc : is_digit c)
    (h : d.start.drop i = 0x2D :: c :: t) :
    keyword_compare (d.moved i sz) [0x2D, 0x49, 0x6E, 0x66, 0x69, 0x6E, 0x69, 0x74, 0x79] retval
      = none := by
  unfold is_digit at hc
  have hne : List.take 9 (0x2D :: c :: t) ≠ [0x2D, 0x49, 0x6E, 0x66, 0x69, 0x6E, 0x69, 0x74, 0x79] := by
    intro hh
    simp only [List.take_succ_cons, List.cons.injEq] at hh
    omega
  simp only [keyword_compare, moved_start, moved_index, h, List.length_cons, List.length_nil]
  split_ifs <;> first | rfl | exact absurd (by assumption) hne

/-! ### Arrays -/

theorem array_close_step {F : Type} (host : Host F) (d : Decoder F) (i sz fuel start : Nat)
    (acc : List (Value F)) (st : ParseArrayState) (t : List Nat)
    (hst : st = .ARRAY_EMPTY ∨ st = .ARRAY_GOT_VALUE)
    (h : d.start.drop i = 0x5D :: t) :
    read_array_impl host (fuel + 1) acc start st (d.moved i sz)
      = .ok (acc, d.moved (i + 1) sz) := by
  have hsk := skip_spaces_moved_stop d i sz h (by unfold is_json_space; omega)
  have hc : code_at d.start i = 0x5D := by rw [code_at_of_drop_zero h]; rfl
  rw [read_array_impl]
  simp only [hsk, moved_start, moved_index, hc]
  rcases hst with r | r <;> subst r <;> simp <;> rfl

theorem array_comma_step {F : Type} (host : Host F) (d : Decoder F) (i sz fuel start : Nat)
    (acc : List (Value F)) (t : List Nat) (h : d.start.drop i = 0x2C :: t) :
    read_array_impl host (fuel + 1) acc start .ARRAY_GOT_VALUE (d.moved i sz)
      = read_array_impl host fuel acc start .ARRAY_NEED_VALUE (d.moved (i + 1) sz) := by
  have hsk := skip_spaces_moved_stop d i sz h (by unfold is_json_space; omega)
  have hc : code_at d.start i = 0x2C := by rw [code_at_of_drop_zero h]; rfl
  rw [read_array_impl]
  simp only [hsk, moved_start, moved_index, hc]
  simp
  rfl

theorem array_value_step {F : Type} (host : Host F) (d : Decoder F) (i j sz fuel start : Nat)
    (acc : List (Value F)) (st : ParseArrayState) (c : Nat)
    (hst : st = .ARRAY_EMPTY ∨ st = .ARRAY_NEED_VALUE)
    (hsk : skip_spaces (d.moved i sz) = d.moved j sz)
    (hc : code_at d.start j = c) (hvs : value_start c)
    (hp : parser_find_next_value (d.moved j sz) = 0) :
    read_array_impl host (fuel + 1) acc start st (d.moved i sz)
      = match json_read host fuel (d.moved j sz) with
        | .error e => .error e
        | .ok (value, d') => read_array_impl host fuel (acc ++ [value]) start .ARRAY_GOT_VALUE d' := by
  obtain ⟨_, h0, h5, _, _, _⟩ := value_start_facts hvs
  rw [read_array_impl]
  simp only [hsk, moved_start, moved_index, hc, h0, if_false, hp, if_true]
  rcases hst with r | r <;> subst r <;> simp only [h5, if_false] <;> rfl

/-! ### Objects -/

theorem object_close_step {F : Type} (host : Host F) (d : Decoder F) (i sz fuel start : Nat)
    (acc : List (List Nat × Value F)) (key : Option (Value F)) (st : ParseObjectState)
    (t : List Nat) (hst : st = .OBJECT_EMPTY ∨ st = .OBJECT_GOT_VALUE)
    (h : d.start.drop i = 0x7D :: t) :
    read_object_impl host (fuel + 1) acc key start st (d.moved i sz)
      = .ok (acc, d.moved (i + 1) sz) := by
  have hsk := skip_spaces_moved_stop d i sz h (by unfold is_json_space; omega)
  have hc : code_at d.start i = 0x7D := by rw [code_at_of_drop_zero h]; rfl
  rw [read_object_impl]
  simp only [hsk, moved_start, moved_index, hc]
  rcases hst with r | r <;> subst r <;> simp <;> rfl

theorem object_comma_step {F : Type} (host : Host F) (d : Decoder F) (i sz fuel start : Nat)
    (acc : List (List Nat × Value F)) (key : Option (Value F)) (t : List Nat)
    (h : d.start.drop i = 0x2C :: t) :
    read_object_impl host (fuel + 1) acc key start .OBJECT_GOT_VALUE (d.moved i sz)
      = read_object_impl host fuel acc key start .OBJECT_NEED_KEY (d.moved (i + 1) sz) := by
  have hsk := skip_spaces_moved_stop d i sz h (by unfold is_json_space; omega)
  have hc : code_at d.start i = 0x2C := by rw [code_at_of_drop_zero h]; rfl
  rw [read_object_impl]
  simp only [hsk, moved_start, moved_index, hc]
  simp
  rfl

theorem object_colon_step {F : Type} (host : Host F) (d : Decoder F) (i sz fuel start : Nat)
    (acc : List (List Nat × Value F)) (key : Option (Value F)) (t : List Nat)
    (h : d.start.drop i = 0x3A :: t) :
    read_object_impl host (fuel + 1) acc key start .OBJECT_NEED_COLON (d.moved i sz)
      = read_object_impl host fuel acc key start .OBJECT_NEED_VALUE (d.moved (i + 1) sz) := by
  have hsk := skip_spaces_moved_stop d i sz h (by unfold is_json_space; omega)
  have hc : code_at d.start i = 0x3A := by rw [code_at_of_drop_zero h]; rfl
  rw [read_object_impl]
  simp only [hsk, moved_start, moved_index, hc]
  simp
  rfl

theorem object_key_step {F : Type} (host : Host F) (d : Decoder F) (i j sz fuel start : Nat)
    (acc : List (List Nat × Value F)) (key : Option (Value F)) (st : ParseObjectState)
    (hst : st = .OBJECT_EMPTY ∨ st = .OBJECT_NEED_KEY)
    (hsk : skip_spaces (d.moved i sz) = d.moved j sz)
    (hc : code_at d.start j = 0x22) :
    read_object_impl host (fuel + 1) acc key start st (d.moved i sz)
      = match json_read host fuel (d.moved j sz) with
        | .error e => .error e
        | .ok (k, d') => read_object_impl host fuel acc (some k) start .OBJECT_NEED_COLON d' := by
  rw [read_object_impl]
  simp only [hsk, moved_start, moved_index, hc]
  rcases hst with r | r <;> subst r <;> simp <;> rfl

theorem object_value_step {F : Type} (host : Host F) (d : Decoder F) (i j sz fuel start : Nat)
    (acc : List (List Nat × Value F)) (k : List Nat) (c : Nat)
    (hsk : skip_spaces (d.moved i sz) = d.moved j sz)
    (hc : code_at d.start j = c) (hvs : value_start c)
    (hp : parser_find_next_value (d.moved j sz) = 0) :
    read_object_impl host (fuel + 1) acc (some (.str k)) start .OBJECT_NEED_VALUE (d.moved i sz)
      = match json_read host fuel (d.moved j sz) with
        | .error e => .error e
        | .ok (value, d') =>
          read_object_impl host fuel (PyDict_SetItem acc k value) none start
            .OBJECT_GOT_VALUE d' := by
  obtain ⟨_, h0, _, _, _, _⟩ := value_start_facts hvs
  rw [read_object_impl]
  simp only [hsk, moved_start, moved_index, hc, h0, if_false, hp, if_true] <;> rfl

end Jsonlib2

namespace Jsonlib2

/-! ## Reading back one scalar -/

theorem number_text_head (n : NumberText) (hwf : n.WF) :
    ∃ c t, n.text = c :: t ∧
      ((is_digit c) ∨ (c = 0x2D ∧ ∃ c2 t2, t = c2 :: t2 ∧ is_digit c2)) := by
  obtain ⟨hint, _, _⟩ := hwf
  have hd : ∃ c cs, n.int_digits = c :: cs ∧ is_digit c := by
    rcases hint with h | ⟨c, cs, h, hc, _⟩
    · exact ⟨0x30, [], h, by unfold is_digit; omega⟩
    · exact ⟨c, cs, h, by unfold is_digit; omega⟩
  obtain ⟨c, cs, hcs, hc⟩ := hd
  unfold NumberText.text sign_text
  cases n.negative
  · exact ⟨c, cs ++ frac_text n.frac_digits ++ exp_text n.exponent, by simp [hcs], Or.inl hc⟩
  · exact ⟨0x2D, n.int_digits ++ frac_text n.frac_digits ++ exp_text n.exponent, by simp,
      Or.inr ⟨rfl, c, cs ++ frac_text n.frac_digits ++ exp_text n.exponent, by simp [hcs], hc⟩⟩

theorem json_read_str {F : Type} (host : Host F) (d : Decoder F) (i sz fuel : Nat)
    (toks : List StrToken) (hwf : ∀ t ∈ toks, t.WF) (rest : List Nat)
    (h : d.start.drop i = 0x22 :: (tokens_src toks ++ 0x22 :: rest)) :
    json_read host (fuel + 1) (d.moved i sz)
      = .ok (.str (toks.map StrToken.val),
          d.moved (i + (0x22 :: (tokens_src toks ++ [0x22])).length)
            (scratch_after (d.moved i sz) (tokens_src toks))) := by
  have hsk := skip_spaces_moved_stop d i sz h (by unfold is_json_space; omega)
  have hc : code_at d.start i = 0x22 := by rw [code_at_of_drop_zero h]; rfl
  have hr := read_string_tokens host (d.moved i sz) toks hwf rest h
  rw [json_read]
  simp only [hsk, moved_start, moved_index, hc, hr]
  simp only [List.length_cons, List.length_append, List.length_nil]
  rfl

theorem json_read_keyword {F : Type} (host : Host F) (d : Decoder F)
    (hk : d.parse_constant = none) (i sz fuel : Nat) (kw : List Nat) (v : Value F)
    (hkw : (kw, v) ∈ [([0x74, 0x72, 0x75, 0x65], Value.bool true),
      ([0x66, 0x61, 0x6C, 0x73, 0x65], Value.bool false),
      ([0x6E, 0x75, 0x6C, 0x6C], Value.null),
      ([0x4E, 0x61, 0x4E], Value.float PyFloat.nan),
      ([0x49, 0x6E, 0x66, 0x69, 0x6E, 0x69, 0x74, 0x79], Value.float PyFloat.inf),
      ([0x2D, 0x49, 0x6E, 0x66, 0x69, 0x6E, 0x69, 0x74, 0x79], Value.float PyFloat.neg_inf)])
    (rest : List Nat) (h : d.start.drop i = kw ++ rest) :
    json_read host (fuel + 1) (d.moved i sz) = .ok (v, d.moved (i + kw.length) sz) := by
  have hkc := keyword_compare_ok d i sz kw rest v hk h
  simp only [List.mem_cons, Prod.mk.injEq, List.mem_singleton, List.not_mem_nil, or_false] at hkw
  rcases hkw with ⟨rfl, rfl⟩ | ⟨rfl, rfl⟩ | ⟨rfl, rfl⟩ | ⟨rfl, rfl⟩ | ⟨rfl, rfl⟩ | ⟨rfl, rfl⟩ <;>
  · have hsk := skip_spaces_moved_stop d i sz h (by unfold is_json_space; omega)
    have hc := code_at_of_drop_zero h
    simp only [List.cons_append, List.getD_cons_zero] at hc
    rw [json_read]
    simp only [hsk, moved_start, moved_index, hc, hkc]
    simp

theorem number_object_moved {F : Type} (host : Host F) (d : Decoder F) (i sz : Nat)
    (b : Bool) (u : List Nat) :
    number_object host (d.moved i sz) b u = number_object host d b u := rfl

theorem json_read_number {F : Type} (host : Host F) (d : Decoder F) (n : NumberText)
    (hwf : n.WF)
    (hz : n.int_digits = [0x30] → n.frac_digits.isSome = true ∨ n.exponent.isSome = false)
    (rest : List Nat) (hstop : number_stop rest) (i sz fuel : Nat)
    (h : d.start.drop i = n.text ++ rest) (o : Value F)
    (ho : number_object host d (n.frac_digits.isSome || n.exponent.isSome) n.text = some o) :
    json_read host (fuel + 1) (d.moved i sz) = .ok (o, d.moved (i + n.text.length) sz) := by
  obtain ⟨c, t, ht, hhead⟩ := number_text_head n hwf
  have h2 : d.start.drop i = c :: (t ++ rest) := by rw [h, ht]; rfl
  have hns : ¬ is_json_space c := by
    unfold is_json_space; unfold is_digit at hhead
    rcases hhead with hh | ⟨hh, _⟩ <;> omega
  have hsk := skip_spaces_moved_stop d i sz h2 hns
  have hc : code_at d.start i = c := by rw [code_at_of_drop_zero h2]; rfl
  have hr := read_number_text host (d.moved i sz) n hwf hz rest hstop h
  rw [number_object_moved, ho] at hr
  rw [json_read]
  simp only [hsk, moved_start, moved_index, hc, hr]
  rcases hhead with hh | ⟨hh, c2, t2, ht2, hd2⟩
  · unfold is_digit at hh
    have e1 : c ≠ 0 := by omega
    have e2 : c ≠ 0x7B := by omega
    have e3 : c ≠ 0x5B := by omega
    have e4 : c ≠ 0x22 := by omega
    have e5 : c ≠ 0x74 := by omega
    have e6 : c ≠ 0x66 := by omega
    have e7 : c ≠ 0x6E := by omega
    have e8 : c ≠ 0x4E := by omega
    have e9 : c ≠ 0x49 := by omega
    have e10 : c ≠ 0x2D := by omega
    simp only [e1, e2, e3, e4, e5, e6, e7, e8, e9, e10, if_false, hh, and_self, if_true]
    rfl
  · subst hh
    have h3 : d.start.drop i = 0x2D :: c2 :: (t2 ++ rest) := by rw [h2, ht2]; rfl
    have hk := keyword_compare_minus_digit d i sz c2 (t2 ++ rest) (.float .neg_inf) hd2 h3
    simp only [hk]
    simp
    rfl

end Jsonlib2

namespace Jsonlib2

/-! ## The text of a value, seen by the parser -/

theorem find_next_simple {F : Type} (d : Decoder F) (i sz : Nat) {c : Nat} {t : List Nat}
    (h : d.start.drop i = c :: t)
    (hc : c = 0x22 ∨ c = 0x2D ∨ (0x30 ≤ c ∧ c ≤ 0x39) ∨ c = 0x5B ∨ c = 0x7B) :
    parser_find_next_value (d.moved i sz) = 0 := by
  have h0 : code_at d.start i = c := by rw [code_at_of_drop_zero h]; rfl
  unfold parser_find_next_value
  simp only [moved_start, moved_index, Nat.add_zero, h0]
  rw [if_pos hc]

theorem find_next_keyword {F : Type} (d : Decoder F) (i sz : Nat) (kw rest : List Nat)
    (hkw : kw ∈ [[0x74, 0x72, 0x75, 0x65], [0x66, 0x61, 0x6C, 0x73, 0x65],
      [0x6E, 0x75, 0x6C, 0x6C], [0x4E, 0x61, 0x4E],
      [0x49, 0x6E, 0x66, 0x69, 0x6E, 0x69, 0x74, 0x79]])
    (h : d.start.drop i = kw ++ rest) :
    parser_find_next_value (d.moved i sz) = 0 := by
  have hk := fun k => code_at_of_drop h k
  have h0 := code_at_of_drop_zero h
  simp only [List.mem_cons, List.mem_singleton, List.not_mem_nil, or_false] at hkw
  unfold parser_find_next_value
  rcases hkw with rfl | rfl | rfl | rfl | rfl <;> simp [hk, h0]

theorem scalar_text_str {F : Type} (host : Host F) (enc : Encoder) (s : List Nat)
    (hs : ∀ c ∈ s, is_scalar_value c) :
    ∃ toks : List StrToken, (∀ t ∈ toks, t.WF) ∧ toks.map StrToken.val = s ∧
      scalar_text host enc (.str s) = 0x22 :: (tokens_src toks ++ [0x22]) := by
  obtain ⟨toks, h1, h2, hw⟩ := write_unicode_tokens enc s hs
  exact ⟨toks, h1, h2, by simp only [scalar_text, write_basic, hw]⟩

theorem float_number_object {F : Type} (host : Host F) (hf : host.float_round_trip)
    (d : Decoder F) (hpf : d.parse_float = none) (f : F) :
    ∃ n : NumberText, n.WF ∧
      (n.int_digits = [0x30] → n.frac_digits.isSome = true ∨ n.exponent.isSome = false) ∧
      host.float_repr f = n.text ∧
      number_object host d (n.frac_digits.isSome || n.exponent.isSome) n.text
        = some (.float (.finite f)) := by
  obtain ⟨hparse, n, hwf, hfe, hz, htext⟩ := hf f
  refine ⟨n, hwf, fun h => Or.inl (hz h), htext, ?_⟩
  have hb : (n.frac_digits.isSome || n.exponent.isSome) = true := by
    rcases hfe with h | h <;> simp [h]
  rw [hb, ← htext]
  simp [number_object, hpf, hparse]

theorem int_number_object {F : Type} (host : Host F) (d : Decoder F)
    (hpi : d.parse_int = none) (z : Int) :
    ∃ n : NumberText, n.WF ∧
      (n.int_digits = [0x30] → n.frac_digits.isSome = true ∨ n.exponent.isSome = false) ∧
      PyObject_Str_int z = n.text ∧
      number_object host d (n.frac_digits.isSome || n.exponent.isSome) n.text
        = some (.int z) := by
  obtain ⟨n, hwf, hfr, hex, htext, hparse⟩ := PyObject_Str_int_text z
  refine ⟨n, hwf, fun _ => Or.inr (by simp [hex]), htext, ?_⟩
  simp [number_object, hfr, hex, hpi, hparse host]

/-- The text of a scalar of the value model is read back as that scalar. -/
theorem json_read_scalar {F : Type} (host : Host F) (enc : Encoder) (hc : enc.compact)
    (hf : host.float_round_trip) (d : Decoder F) (hpf : d.parse_float = none)
    (hpi : d.parse_int = none) (hpc : d.parse_constant = none) (v : Value F) (hwf : v.wf)
    (hsc : v.depth = 0) (fuel i sz : Nat) (rest : List Nat)
    (h : d.start.drop i = render host enc v ++ rest) (hstop : number_stop rest) :
    ∃ sz', json_read host (fuel + 1) (d.moved i sz)
      = .ok (v, d.moved (i + (render host enc v).length) sz') := by
  cases v with
  | null =>
    simp only [render, scalar_text, write_basic] at h ⊢
    exact ⟨sz, json_read_keyword host d hpc i sz fuel _ _ (by simp) rest h⟩
  | bool b =>
    cases b
    · simp only [render, scalar_text, write_basic] at h ⊢
      exact ⟨sz, json_read_keyword host d hpc i sz fuel _ _ (by simp) rest h⟩
    · simp only [render, scalar_text, write_basic] at h ⊢
      exact ⟨sz, json_read_keyword host d hpc i sz fuel _ _ (by simp) rest h⟩
  | int z =>
    obtain ⟨n, hn, hz, htext, ho⟩ := int_number_object host d hpi z
    simp only [render, scalar_text, write_basic, htext] at h ⊢
    exact ⟨sz, json_read_number host d n hn hz rest hstop i sz fuel h _ ho⟩
  | float x =>
    cases x with
    | finite f =>
      obtain ⟨n, hn, hz, htext, ho⟩ := float_number_object host hf d hpf f
      simp only [render, scalar_text, write_basic, write_float, htext] at h ⊢
      exact ⟨sz, json_read_number host d n hn hz rest hstop i sz fuel h _ ho⟩
    | inf =>
      simp only [render, scalar_text, write_basic, write_float, hc.2.2.2, if_true] at h ⊢
      exact ⟨sz, json_read_keyword host d hpc i sz fuel _ _ (by simp) rest h⟩
    | neg_inf =>
      simp only [render, scalar_text, write_basic, write_float, hc.2.2.2, if_true] at h ⊢
      exact ⟨sz, json_read_keyword host d hpc i sz fuel _ _ (by simp) rest h⟩
    | nan =>
      simp only [render, scalar_text, write_basic, write_float, hc.2.2.2, if_true] at h ⊢
      exact ⟨sz, json_read_keyword host d hpc i sz fuel _ _ (by simp) rest h⟩
  | str s =>
    simp only [Value.wf] at hwf
    obtain ⟨toks, h1, h2, h3⟩ := scalar_text_str host enc s hwf
    simp only [render, h3] at h ⊢
    have h' : d.start.drop i = 0x22 :: (tokens_src toks ++ 0x22 :: rest) := by
      rw [h]; simp
    have := json_read_str host d i sz fuel toks h1 rest h'
    rw [h2] at this
    exact ⟨_, this⟩
  | arr xs => simp [Value.depth] at hsc
  | obj items => simp [Value.depth] at hsc

/-- The text of a value starts with a code unit that opens a value, and the
parser finds a value there. -/
theorem render_head {F : Type} (host : Host F) (enc : Encoder) (hc : enc.compact)
    (hf : host.float_round_trip) (v : Value F) (hwf : v.wf) :
    ∃ c t, render host enc v = c :: t ∧ value_start c ∧
      ∀ (d : Decoder F) (i sz : Nat) (rest : List Nat),
        d.start.drop i = render host enc v ++ rest → parser_find_next_value (d.moved i sz) = 0 := by
  have simple : ∀ (c : Nat) (t : List Nat), render host enc v = c :: t →
      (c = 0x22 ∨ c = 0x2D ∨ (0x30 ≤ c ∧ c ≤ 0x39) ∨ c = 0x5B ∨ c = 0x7B) →
      ∃ c t, render host enc v = c :: t ∧ value_start c ∧
        ∀ (d : Decoder F) (i sz : Nat) (rest : List Nat),
          d.start.drop i = render host enc v ++ rest →
            parser_find_next_value (d.moved i sz) = 0 := by
    intro c t hr hcc
    refine ⟨c, t, hr, by unfold value_start; omega, fun d i sz rest h => ?_⟩
    rw [hr] at h
    exact find_next_simple d i sz h hcc
  have keyword : ∀ (kw : List Nat), render host enc v = kw →
      kw ∈ [[0x74, 0x72, 0x75, 0x65], [0x66, 0x61, 0x6C, 0x73, 0x65],
        [0x6E, 0x75, 0x6C, 0x6C], [0x4E, 0x61, 0x4E],
        [0x49, 0x6E, 0x66, 0x69, 0x6E, 0x69, 0x74, 0x79]] →
      ∃ c t, render host enc v = c :: t ∧ value_start c ∧
        ∀ (d : Decoder F) (i sz : Nat) (rest : List Nat),
          d.start.drop i = render host enc v ++ rest →
            parser_find_next_value (d.moved i sz) = 0 := by
    intro kw hr hcc
    have hfn : ∀ (d : Decoder F) (i sz : Nat) (rest : List Nat),
        d.start.drop i = render host enc v ++ rest →
          parser_find_next_value (d.moved i sz) = 0 := by
      intro d i sz rest h
      rw [hr] at h
      exact find_next_keyword d i sz _ rest hcc h
    simp only [List.mem_cons, List.mem_singleton, List.not_mem_nil, or_false] at hcc
    rcases hcc with e | e | e | e | e <;>
    · rw [e] at hr
      exact ⟨_, _, hr, by unfold value_start; omega, hfn⟩
  have number : ∀ n : NumberText, n.WF → render host enc v = n.text →
      ∃ c t, render host enc v = c :: t ∧ value_start c ∧
        ∀ (d : Decoder F) (i sz : Nat) (rest : List Nat),
          d.start.drop i = render host enc v ++ rest →
            parser_find_next_value (d.moved i sz) = 0 := by
    intro n hn hr
    obtain ⟨c, t, ht, hh⟩ := number_text_head n hn
    refine simple c t (by rw [hr, ht]) ?_
    unfold is_digit at hh
    rcases hh with hh | ⟨hh, _⟩ <;> omega
  cases v with
  | null => exact keyword _ rfl (by simp [render, scalar_text, write_basic])
  | bool b =>
    cases b
    · exact keyword _ rfl (by simp [render, scalar_text, write_basic])
    · exact keyword _ rfl (by simp [render, scalar_text, write_basic])
  | int z =>
    obtain ⟨n, hn, _, _, htext, _⟩ := PyObject_Str_int_text z
    exact number n hn (by simp [render, scalar_text, write_basic, htext])
  | float x =>
    cases x with
    | finite f =>
      obtain ⟨_, n, hn, _, _, htext⟩ := hf f
      exact number n hn (by simp [render, scalar_text, write_basic, write_float, htext])
    | inf =>
      exact keyword _ rfl (by simp [render, scalar_text, write_basic, write_float, hc.2.2.2])
    | neg_inf =>
      exact simple 0x2D [0x49, 0x6E, 0x66, 0x69, 0x6E, 0x69, 0x74, 0x79]
        (by simp [render, scalar_text, write_basic, write_float, hc.2.2.2]) (by omega)
    | nan =>
      exact keyword _ rfl (by simp [render, scalar_text, write_basic, write_float, hc.2.2.2])
  | str s =>
    simp only [Value.wf] at hwf
    obtain ⟨toks, _, _, h3⟩ := scalar_text_str host enc s hwf
    exact simple 0x22 (tokens_src toks ++ [0x22]) (by simp only [render, h3]) (by omega)
  | arr xs =>
    cases xs with
    | nil => exact simple 0x5B [0x5D] (by simp [render]) (by omega)
    | cons x xs =>
      exact simple 0x5B (render host enc x ++ render_tail host enc xs ++ [0x5D])
        (by simp [render]) (by omega)
  | obj items =>
    cases items with
    | nil => exact simple 0x7B [0x7D] (by simp [render]) (by omega)
    | cons kv rest =>
      obtain ⟨k, x⟩ := kv
      exact simple 0x7B ((scalar_text host enc (.str k) ++ [0x3A, 0x20] ++ render host enc x) ++
        render_members host enc rest ++ [0x7D]) (by simp [render]) (by omega)

theorem PyDict_SetItem_new {F : Type} (k : List Nat) (v : Value F) :
    ∀ (acc : List (List Nat × Value F)), k ∉ acc.map Prod.fst →
      PyDict_SetItem acc k v = acc ++ [(k, v)]
  | [], _ => rfl
  | (k2, v2) :: rest, h => by
    simp only [List.map_cons, List.mem_cons, not_or] at h
    have hne : ¬ (k2 = k) := fun e => h.1 e.symm
    simp only [PyDict_SetItem, hne, if_false, List.cons_append, PyDict_SetItem_new k v rest h.2]

theorem number_stop_cons {c : Nat} (t : List Nat) (hc : ¬ is_number_char c) :
    number_stop (c :: t) := hc

end Jsonlib2

namespace Jsonlib2

/-! ## Reading back the text of a value -/

theorem json_read_arr {F : Type} (host : Host F) (d : Decoder F) (i sz fuel : Nat)
    (t : List Nat) (h : d.start.drop i = 0x5B :: t) :
    json_read host (fuel + 1) (d.moved i sz)
      = match read_array_impl host fuel [] i .ARRAY_EMPTY (d.moved (i + 1) sz) with
        | .error e => .error e
        | .ok (list, d) => .ok (.arr list, d) := by
  have hsk := skip_spaces_moved_stop d i sz h (by unfold is_json_space; omega)
  have hc : code_at d.start i = 0x5B := by rw [code_at_of_drop_zero h]; rfl
  rw [json_read]
  simp only [hsk, moved_start, moved_index, hc]
  simp
  rfl

theorem json_read_obj {F : Type} (host : Host F) (d : Decoder F) (i sz fuel : Nat)
    (t : List Nat) (h : d.start.drop i = 0x7B :: t) :
    json_read host (fuel + 1) (d.moved i sz)
      = match read_object_impl host fuel [] none i .OBJECT_EMPTY (d.moved (i + 1) sz) with
        | .error e => .error e
        | .ok (object, d) => .ok (.obj object, d) := by
  have hsk := skip_spaces_moved_stop d i sz h (by unfold is_json_space; omega)
  have hc : code_at d.start i = 0x7B := by rw [code_at_of_drop_zero h]; rfl
  rw [json_read]
  simp only [hsk, moved_start, moved_index, hc]
  simp
  rfl

theorem tail_stop {F : Type} (host : Host F) (enc : Encoder) (xs : List (Value F))
    (rest : List Nat) : number_stop (render_tail host enc xs ++ 0x5D :: rest) := by
  cases xs with
  | nil => simp only [render_tail, List.nil_append, number_stop]; decide
  | cons x xs => simp only [render_tail, List.cons_append, number_stop]; decide

theorem members_stop {F : Type} (host : Host F) (enc : Encoder)
    (items : List (List Nat × Value F)) (rest : List Nat) :
    number_stop (render_members host enc items ++ 0x7D :: rest) := by
  cases items with
  | nil => simp only [render_members, List.nil_append, number_stop]; decide
  | cons kv items =>
    obtain ⟨k, v⟩ := kv
    simp only [render_members, List.cons_append, number_stop]; decide

/-- One member of an object: its key, the colon and its value. -/
theorem member_step {F : Type} (host : Host F) (d : Decoder F) (i j sz g start e : Nat)
    (acc : List (List Nat × Value F)) (key : Option (Value F)) (st : ParseObjectState)
    (k : List Nat) (v : Value F) (toks : List StrToken) (hwf : ∀ t ∈ toks, t.WF)
    (hval : toks.map StrToken.val = k) (klit : List Nat)
    (hk : klit = 0x22 :: (tokens_src toks ++ [0x22]))
    (hst : st = .OBJECT_EMPTY ∨ st = .OBJECT_NEED_KEY)
    (hsk : skip_spaces (d.moved i sz) = d.moved j sz) (c : Nat) (t : List Nat)
    (h : d.start.drop j = klit ++ 0x3A :: 0x20 :: c :: t) (hvs : value_start c)
    (hp : ∀ sz1, parser_find_next_value (d.moved (j + klit.length + 2) sz1) = 0)
    (hnew : k ∉ acc.map Prod.fst)
    (hv : ∀ sz1, ∃ sz2, json_read host g (d.moved (j + klit.length + 2) sz1)
      = .ok (v, d.moved e sz2)) :
    ∃ sz2, read_object_impl host (g + 3) acc key start st (d.moved i sz)
      = read_object_impl host g (acc ++ [(k, v)]) none start .OBJECT_GOT_VALUE
          (d.moved e sz2) := by
  subst hk
  have h1 : d.start.drop j = 0x22 :: (tokens_src toks ++ 0x22 :: (0x3A :: 0x20 :: c :: t)) := by
    rw [h]; simp
  have hc22 : code_at d.start j = 0x22 := by rw [code_at_of_drop_zero h1]; rfl
  have h2 : d.start.drop (j + (0x22 :: (tokens_src toks ++ [0x22])).length)
      = 0x3A :: 0x20 :: c :: t := drop_add_of_drop h
  have h3 : d.start.drop (j + (0x22 :: (tokens_src toks ++ [0x22])).length + 1)
      = 0x20 :: c :: t := drop_add_of_drop (x := [0x3A]) h2
  have h4 : d.start.drop (j + (0x22 :: (tokens_src toks ++ [0x22])).length + 1 + 1)
      = c :: t := drop_add_of_drop (x := [0x20]) h3
  have hc4 : code_at d.start (j + (0x22 :: (tokens_src toks ++ [0x22])).length + 2) = c := by
    rw [code_at_of_drop_zero h4]; rfl
  rw [object_key_step host d i j sz (g + 2) start acc key st hst hsk hc22]
  have hs := json_read_str host d j sz (g + 1) toks hwf _ h1
  rw [hval] at hs
  simp only [hs]
  rw [object_colon_step host d _ _ (g + 1) start acc _ _ h2]
  rw [object_value_step host d _ (j + (0x22 :: (tokens_src toks ++ [0x22])).length + 2) _ g start
    acc k c (skip_spaces_moved_space d _ _ h3 (value_start_facts hvs).1) hc4 hvs (hp _)]
  obtain ⟨sz2, hv2⟩ := hv (scratch_after (d.moved j sz) (tokens_src toks))
  simp only [hv2, PyDict_SetItem_new k v acc hnew]
  exact ⟨sz2, rfl⟩

theorem json_read_scalar_fuel {F : Type} (host : Host F) (enc : Encoder) (hc : enc.compact)
    (hf : host.float_round_trip) (d : Decoder F) (hpf : d.parse_float = none)
    (hpi : d.parse_int = none) (hpc : d.parse_constant = none) (v : Value F) (hwf : v.wf)
    (hsc : v.depth = 0) (fuel i sz : Nat) (rest : List Nat)
    (h : d.start.drop i = render host enc v ++ rest) (hstop : number_stop rest)
    (hfuel : 2 * (render host enc v).length ≤ fuel) :
    ∃ sz', json_read host fuel (d.moved i sz)
      = .ok (v, d.moved (i + (render host enc v).length) sz') := by
  obtain ⟨c, t, hr, _, _⟩ := render_head host enc hc hf v hwf
  have hpos : 1 ≤ fuel := by
    rw [hr] at hfuel; simp only [List.length_cons] at hfuel; omega
  obtain ⟨g, rfl⟩ : ∃ g, fuel = g + 1 := ⟨fuel - 1, by omega⟩
  exact json_read_scalar host enc hc hf d hpf hpi hpc v hwf hsc g i sz rest h hstop

mutual

/-- With no hooks, `json_read` on the compact text of a value of the value model
returns that value and leaves the cursor right after the text. -/
theorem json_read_render {F : Type} (host : Host F) (enc : Encoder) (hc : enc.compact)
    (hf : host.float_round_trip) (d : Decoder F) (hpf : d.parse_float = none)
    (hpi : d.parse_int = none) (hpc : d.parse_constant = none) :
    ∀ (v : Value F), v.wf → ∀ (fuel i sz : Nat) (rest : List Nat),
      d.start.drop i = render host enc v ++ rest → number_stop rest →
      2 * (render host enc v).length ≤ fuel →
      ∃ sz', json_read host fuel (d.moved i sz)
        = .ok (v, d.moved (i + (render host enc v).length) sz')
  | .null, hwf, fuel, i, sz, rest, h, hstop, hfuel =>
    json_read_scalar_fuel host enc hc hf d hpf hpi hpc _ hwf rfl fuel i sz rest h hstop hfuel
  | .bool _, hwf, fuel, i, sz, rest, h, hstop, hfuel =>
    json_read_scalar_fuel host enc hc hf d hpf hpi hpc _ hwf rfl fuel i sz rest h hstop hfuel
  | .int _, hwf, fuel, i, sz, rest, h, hstop, hfuel =>
    json_read_scalar_fuel host enc hc hf d hpf hpi hpc _ hwf rfl fuel i sz rest h hstop hfuel
  | .float _, hwf, fuel, i, sz, rest, h, hstop, hfuel =>
    json_read_scalar_fuel host enc hc hf d hpf hpi hpc _ hwf rfl fuel i sz rest h hstop hfuel
  | .str _, hwf, fuel, i, sz, rest, h, hstop, hfuel =>
    json_read_scalar_fuel host enc hc hf d hpf hpi hpc _ hwf rfl fuel i sz rest h hstop hfuel
  | .arr [], _, fuel, i, sz, rest, h, _, hfuel => by
    simp only [render, List.length_cons, List.length_nil] at hfuel ⊢
    have h1 : d.start.drop i = 0x5B :: 0x5D :: rest := by rw [h]; simp [render]
    have h2 : d.start.drop (i + 1) = 0x5D :: rest := drop_add_of_drop (x := [0x5B]) h1
    obtain ⟨g, rfl⟩ : ∃ g, fuel = g + 2 := ⟨fuel - 2, by omega⟩
    rw [json_read_arr host d i sz (g + 1) _ h1,
      array_close_step host d (i + 1) sz g i [] _ rest (Or.inl rfl) h2]
    exact ⟨sz, rfl⟩
  | .arr (x :: xs), hwf, fuel, i, sz, rest, h, _, hfuel => by
    simp only [Value.wf, wf_list] at hwf
    obtain ⟨c, t, hr, hvs, hp⟩ := render_head host enc hc hf x hwf.1
    have hlen : (render host enc (.arr (x :: xs))).length
        = 1 + (render host enc x).length + (render_tail host enc xs).length + 1 := by
      simp [render]; omega
    rw [hlen] at hfuel ⊢
    have h1 : d.start.drop i
        = 0x5B :: (render host enc x ++ (render_tail host enc xs ++ 0x5D :: rest)) := by
      rw [h]; simp [render]
    have h2 : d.start.drop (i + 1)
        = render host enc x ++ (render_tail host enc xs ++ 0x5D :: rest) :=
      drop_add_of_drop (x := [0x5B]) h1
    have h3 : d.start.drop (i + 1 + (render host enc x).length)
        = render_tail host enc xs ++ 0x5D :: rest := drop_add_of_drop h2
    have h2c : d.start.drop (i + 1)
        = c :: (t ++ (render_tail host enc xs ++ 0x5D :: rest)) := by rw [h2, hr]; rfl
    obtain ⟨g, rfl⟩ : ∃ g, fuel = g + 2 := ⟨fuel - 2, by omega⟩
    rw [json_read_arr host d i sz (g + 1) _ h1,
      array_value_step host d (i + 1) (i + 1) sz g i [] .ARRAY_EMPTY c (Or.inl rfl)
        (skip_spaces_moved_stop d (i + 1) sz h2c (value_start_facts hvs).1)
        (by rw [code_at_of_drop_zero h2c]; rfl) hvs (hp d (i + 1) sz _ h2)]
    obtain ⟨sz1, hx⟩ := json_read_render host enc hc hf d hpf hpi hpc x hwf.1 g (i + 1) sz _ h2
      (tail_stop host enc xs rest) (by omega)
    simp only [hx]
    obtain ⟨sz2, hxs⟩ := read_tail_render host enc hc hf d hpf hpi hpc xs hwf.2 g ([] ++ [x]) i
      (i + 1 + (render host enc x).length) sz1 rest h3 (by omega)
    rw [hxs]
    refine ⟨sz2, ?_⟩
    have e : i + 1 + (render host enc x).length + (render_tail host enc xs).length + 1
        = i + (1 + (render host enc x).length + (render_tail host enc xs).length + 1) := by omega
    rw [e]
    rfl
  | .obj [], _, fuel, i, sz, rest, h, _, hfuel => by
    simp only [render, List.length_cons, List.length_nil] at hfuel ⊢
    have h1 : d.start.drop i = 0x7B :: 0x7D :: rest := by rw [h]; simp [render]
    have h2 : d.start.drop (i + 1) = 0x7D :: rest := drop_add_of_drop (x := [0x7B]) h1
    obtain ⟨g, rfl⟩ : ∃ g, fuel = g + 2 := ⟨fuel - 2, by omega⟩
    rw [json_read_obj host d i sz (g + 1) _ h1,
      object_close_step host d (i + 1) sz g i [] none _ rest (Or.inl rfl) h2]
    exact ⟨sz, rfl⟩
  | .obj ((k, v) :: items), hwf, fuel, i, sz, rest, h, _, hfuel => by
    simp only [Value.wf, wf_items] at hwf
    obtain ⟨hnd, hks, hv, hitems⟩ := hwf
    obtain ⟨c, t, hr, hvs, hp⟩ := render_head host enc hc hf v hv
    obtain ⟨toks, htw, htv, htl⟩ := scalar_text_str host enc k hks
    have hkl : 2 ≤ (scalar_text host enc (Value.str k : Value F)).length := by
      rw [htl]; simp
    have hlen : (render host enc (.obj ((k, v) :: items))).length
        = 1 + (scalar_text host enc (Value.str k : Value F)).length + 2
          + (render host enc v).length + (render_members host enc items).length + 1 := by
      simp [render]; omega
    rw [hlen] at hfuel ⊢
    have h1 : d.start.drop i
        = 0x7B :: (scalar_text host enc (Value.str k : Value F) ++ 0x3A :: 0x20 ::
            (render host enc v ++ (render_members host enc items ++ 0x7D :: rest))) := by
      rw [h]; simp [render]
    have h2 : d.start.drop (i + 1)
        = scalar_text host enc (Value.str k : Value F) ++ 0x3A :: 0x20 ::
            (render host enc v ++ (render_members host enc items ++ 0x7D :: rest)) :=
      drop_add_of_drop (x := [0x7B]) h1
    have h3 : d.start.drop (i + 1 + (scalar_text host enc (Value.str k : Value F)).length)
        = 0x3A :: 0x20 ::
            (render host enc v ++ (render_members host enc items ++ 0x7D :: rest)) :=
      drop_add_of_drop h2
    have h4 : d.start.drop (i + 1 + (scalar_text host enc (Value.str k : Value F)).length + 2)
        = render host enc v ++ (render_members host enc items ++ 0x7D :: rest) :=
      drop_add_of_drop (x := [0x3A, 0x20]) h3
    have h5 : d.start.drop (i + 1 + (scalar_text host enc (Value.str k : Value F)).length + 2
          + (render host enc v).length)
        = render_members host enc items ++ 0x7D :: rest := drop_add_of_drop h4
    have h2c : d.start.drop (i + 1)
        = scalar_text host enc (Value.str k : Value F) ++ 0x3A :: 0x20 :: c ::
            (t ++ (render_members host enc items ++ 0x7D :: rest)) := by
      rw [h2, hr]; rfl
    have h2q : d.start.drop (i + 1)
        = 0x22 :: (tokens_src toks ++ [0x22] ++ 0x3A :: 0x20 :: c ::
            (t ++ (render_members host enc items ++ 0x7D :: rest))) := by
      rw [h2c, htl]; simp
    obtain ⟨g, rfl⟩ : ∃ g, fuel = g + 4 := ⟨fuel - 4, by omega⟩
    rw [json_read_obj host d i sz (g + 3) _ h1]
    obtain ⟨sz1, hm⟩ := member_step host d (i + 1) (i + 1) sz g i
      (i + 1 + (scalar_text host enc (Value.str k : Value F)).length + 2
          + (render host enc v).length)
      [] none .OBJECT_EMPTY k v toks htw htv _ htl (Or.inl rfl)
      (skip_spaces_moved_stop d (i + 1) sz h2q (by unfold is_json_space; omega)) c _ h2c hvs
      (fun sz1 => hp d _ sz1 _ h4) (by simp)
      (fun sz1 => json_read_render host enc hc hf d hpf hpi hpc v hv g _ sz1 _ h4
        (members_stop host enc items rest) (by omega))
    rw [hm]
    obtain ⟨sz2, hms⟩ := read_members_render host enc hc hf d hpf hpi hpc items hitems g
      ([] ++ [(k, v)]) i _ sz1 rest (by simpa using hnd) h5 (by omega)
    rw [hms]
    refine ⟨sz2, ?_⟩
    have e : i + 1 + (scalar_text host enc (Value.str k : Value F)).length + 2
          + (render host enc v).length + (render_members host enc items).length + 1
        = i + (1 + (scalar_text host enc (Value.str k : Value F)).length + 2
          + (render host enc v).length + (render_members host enc items).length + 1) := by omega
    rw [e]
    rfl

/-- After a value of an array: the remaining values and the closing bracket. -/
theorem read_tail_render {F : Type} (host : Host F) (enc : Encoder) (hc : enc.compact)
    (hf : host.float_round_trip) (d : Decoder F) (hpf : d.parse_float = none)
    (hpi : d.parse_int = none) (hpc : d.parse_constant = none) :
    ∀ (xs : List (Value F)), wf_list xs → ∀ (fuel : Nat) (acc : List (Value F))
      (start i sz : Nat) (rest : List Nat),
      d.start.drop i = render_tail host enc xs ++ 0x5D :: rest →
      2 * (render_tail host enc xs).length + 1 ≤ fuel →
      ∃ sz', read_array_impl host fuel acc start .ARRAY_GOT_VALUE (d.moved i sz)
        = .ok (acc ++ xs, d.moved (i + (render_tail host enc xs).length + 1) sz')
  | [], _, fuel, acc, start, i, sz, rest, h, hfuel => by
    obtain ⟨g, rfl⟩ : ∃ g, fuel = g + 1 := ⟨fuel - 1, by omega⟩
    simp only [render_tail, List.nil_append] at h
    refine ⟨sz, ?_⟩
    rw [array_close_step host d i sz g start acc _ rest (Or.inr rfl) h]
    simp [render_tail]
  | x :: xs, hwf, fuel, acc, start, i, sz, rest, h, hfuel => by
    simp only [wf_list] at hwf
    obtain ⟨c, t, hr, hvs, hp⟩ := render_head host enc hc hf x hwf.1
    have hlen : (render_tail host enc (x :: xs)).length
        = 2 + (render host enc x).length + (render_tail host enc xs).length := by
      simp [render_tail]; omega
    rw [hlen] at hfuel ⊢
    have h1 : d.start.drop i
        = 0x2C :: 0x20 :: (render host enc x ++ (render_tail host enc xs ++ 0x5D :: rest)) := by
      rw [h]; simp [render_tail]
    have h1b : d.start.drop (i + 1)
        = 0x20 :: (render host enc x ++ (render_tail host enc xs ++ 0x5D :: rest)) :=
      drop_add_of_drop (x := [0x2C]) h1
    have h2 : d.start.drop (i + 2)
        = render host enc x ++ (render_tail host enc xs ++ 0x5D :: rest) :=
      drop_add_of_drop (x := [0x2C, 0x20]) h1
    have h3 : d.start.drop (i + 2 + (render host enc x).length)
        = render_tail host enc xs ++ 0x5D :: rest := drop_add_of_drop h2
    have h1c : d.start.drop (i + 1)
        = 0x20 :: c :: (t ++ (render_tail host enc xs ++ 0x5D :: rest)) := by
      rw [h1b, hr]; rfl
    have h2c : d.start.drop (i + 2)
        = c :: (t ++ (render_tail host enc xs ++ 0x5D :: rest)) := by rw [h2, hr]; rfl
    obtain ⟨g, rfl⟩ : ∃ g, fuel = g + 2 := ⟨fuel - 2, by omega⟩
    rw [array_comma_step host d i sz (g + 1) start acc _ h1,
      array_value_step host d (i + 1) (i + 2) sz g start acc .ARRAY_NEED_VALUE c (Or.inr rfl)
        (skip_spaces_moved_space d (i + 1) sz h1c (value_start_facts hvs).1)
        (by rw [code_at_of_drop_zero h2c]; rfl) hvs (hp d (i + 2) sz _ h2)]
    obtain ⟨sz1, hx⟩ := json_read_render host enc hc hf d hpf hpi hpc x hwf.1 g (i + 2) sz _ h2
      (tail_stop host enc xs rest) (by omega)
    simp only [hx]
    obtain ⟨sz2, hxs⟩ := read_tail_render host enc hc hf d hpf hpi hpc xs hwf.2 g (acc ++ [x])
      start (i + 2 + (render host enc x).length) sz1 rest h3 (by omega)
    rw [hxs]
    refine ⟨sz2, ?_⟩
    have e : i + 2 + (render host enc x).length + (render_tail host enc xs).length + 1
        = i + (2 + (render host enc x).length + (render_tail host enc xs).length) + 1 := by omega
    rw [e]
    simp

/-- After a member of an object: the remaining members and the closing brace. -/
theorem read_members_render {F : Type} (host : Host F) (enc : Encoder) (hc : enc.compact)
    (hf : host.float_round_trip) (d : Decoder F) (hpf : d.parse_float = none)
    (hpi : d.parse_int = none) (hpc : d.parse_constant = none) :
    ∀ (items : List (List Nat × Value F)), wf_items items → ∀ (fuel : Nat)
      (acc : List (List Nat × Value F)) (start i sz : Nat) (rest : List Nat),
      ((acc ++ items).map Prod.fst).Nodup →
      d.start.drop i = render_members host enc items ++ 0x7D :: rest →
      2 * (render_members host enc items).length + 1 ≤ fuel →
      ∃ sz', read_object_impl host fuel acc none start .OBJECT_GOT_VALUE (d.moved i sz)
        = .ok (acc ++ items, d.moved (i + (render_members host enc items).length + 1) sz')
  | [], _, fuel, acc, start, i, sz, rest, _, h, hfuel => by
    obtain ⟨g, rfl⟩ : ∃ g, fuel = g + 1 := ⟨fuel - 1, by omega⟩
    simp only [render_members, List.nil_append] at h
    refine ⟨sz, ?_⟩
    rw [object_close_step host d i sz g start acc none _ rest (Or.inr rfl) h]
    simp [render_members]
  | (k, v) :: items, hwf, fuel, acc, start, i, sz, rest, hnd, h, hfuel => by
    simp only [wf_items] at hwf
    obtain ⟨hks, hv, hitems⟩ := hwf
    obtain ⟨c, t, hr, hvs, hp⟩ := render_head host enc hc hf v hv
    obtain ⟨toks, htw, htv, htl⟩ := scalar_text_str host enc k hks
    have hkl : 2 ≤ (scalar_text host enc (Value.str k : Value F)).length := by
      rw [htl]; simp
    have hlen : (render_members host enc ((k, v) :: items)).length
        = 2 + (scalar_text host enc (Value.str k : Value F)).length + 2
          + (render host enc v).length + (render_members host enc items).length := by
      simp [render_members]; omega
    rw [hlen] at hfuel ⊢
    have h1 : d.start.drop i
        = 0x2C :: 0x20 :: (scalar_text host enc (Value.str k : Value F) ++ 0x3A :: 0x20 ::
            (render host enc v ++ (render_members host enc items ++ 0x7D :: rest))) := by
      rw [h]; simp [render_members]
    have h1b : d.start.drop (i + 1)
        = 0x20 :: (scalar_text host enc (Value.str k : Value F) ++ 0x3A :: 0x20 ::
            (render host enc v ++ (render_members host enc items ++ 0x7D :: rest))) :=
      drop_add_of_drop (x := [0x2C]) h1
    have h2 : d.start.drop (i + 2)
        = scalar_text host enc (Value.str k : Value F) ++ 0x3A :: 0x20 ::
            (render host enc v ++ (render_members host enc items ++ 0x7D :: rest)) :=
      drop_add_of_drop (x := [0x2C, 0x20]) h1
    have h3 : d.start.drop (i + 2 + (scalar_text host enc (Value.str k : Value F)).length)
        = 0x3A :: 0x20 ::
            (render host enc v ++ (render_members host enc items ++ 0x7D :: rest)) :=
      drop_add_of_drop h2
    have h4 : d.start.drop (i + 2 + (scalar_text host enc (Value.str k : Value F)).length + 2)
        = render host enc v ++ (render_members host enc items ++ 0x7D :: rest) :=
      drop_add_of_drop (x := [0x3A, 0x20]) h3
    have h5 : d.start.drop (i + 2 + (scalar_text host enc (Value.str k : Value F)).length + 2
          + (render host enc v).length)
        = render_members host enc items ++ 0x7D :: rest := drop_add_of_drop h4
    have h2c : d.start.drop (i + 2)
        = scalar_text host enc (Value.str k : Value F) ++ 0x3A :: 0x20 :: c ::
            (t ++ (render_members host enc items ++ 0x7D :: rest)) := by
      rw [h2, hr]; rfl
    have h1q : d.start.drop (i + 1)
        = 0x20 :: 0x22 :: (tokens_src toks ++ [0x22] ++ 0x3A :: 0x20 :: c ::
            (t ++ (render_members host enc items ++ 0x7D :: rest))) := by
      rw [h1b, hr, htl]; simp
    have hknew : k ∉ acc.map Prod.fst := by
      simp only [List.map_append, List.map_cons] at hnd
      have := (List.nodup_append.1 hnd).2.2
      intro hmem
      exact this hmem (List.mem_cons_self _ _)
    obtain ⟨g, rfl⟩ : ∃ g, fuel = g + 4 := ⟨fuel - 4, by omega⟩
    rw [object_comma_step host d i sz (g + 3) start acc none _ h1]
    obtain ⟨sz1, hm⟩ := member_step host d (i + 1) (i + 2) sz g start
      (i + 2 + (scalar_text host enc (Value.str k : Value F)).length + 2
          + (render host enc v).length)
      acc none .OBJECT_NEED_KEY k v toks htw htv _ htl (Or.inr rfl)
      (skip_spaces_moved_space d (i + 1) sz h1q (by unfold is_json_space; omega)) c _ h2c hvs
      (fun sz1 => hp d _ sz1 _ h4) hknew
      (fun sz1 => json_read_render host enc hc hf d hpf hpi hpc v hv g _ sz1 _ h4
        (members_stop host enc items rest) (by omega))
    rw [hm]
    obtain ⟨sz2, hms⟩ := read_members_render host enc hc hf d hpf hpi hpc items hitems g
      (acc ++ [(k, v)]) start _ sz1 rest (by simpa using hnd) h5 (by omega)
    rw [hms]
    refine ⟨sz2, ?_⟩
    have e : i + 2 + (scalar_text host enc (Value.str k : Value F)).length + 2
          + (render host enc v).length + (render_members host enc items).length + 1
        = i + (2 + (scalar_text host enc (Value.str k : Value F)).length + 2
          + (render host enc v).length + (render_members host enc items).length) + 1 := by omega
    rw [e]
    simp

end

end Jsonlib2

namespace Jsonlib2

/-! ## Sorted keys -/

theorem unicode_compare_total : ∀ (a b : List Nat),
    unicode_compare a b = .gt → unicode_compare b a ≠ .gt
  | [], [], h => by simp [unicode_compare] at h
  | [], _ :: _, h => by simp [unicode_compare] at h
  | _ :: _, [], _ => by simp [unicode_compare]
  | a :: as, b :: bs, h => by
    simp only [unicode_compare] at h ⊢
    split_ifs at h ⊢ <;>
      first | omega | exact unicode_compare_total as bs h | simp

theorem unicode_compare_trans : ∀ (a b c : List Nat),
    unicode_compare a b ≠ .gt → unicode_compare b c ≠ .gt → unicode_compare a c ≠ .gt
  | [], [], _, _, h => h
  | [], _ :: _, [], _, _ => by simp [unicode_compare]
  | [], _ :: _, _ :: _, _, _ => by simp [unicode_compare]
  | _ :: _, [], _, h, _ => by simp [unicode_compare] at h
  | _ :: _, _ :: _, [], _, h => by simp [unicode_compare] at h
  | a :: as, b :: bs, c :: cs, h1, h2 => by
    simp only [unicode_compare] at h1 h2 ⊢
    split_ifs at h1 h2 ⊢ <;>
      first | omega | exact absurd rfl h1 | exact absurd rfl h2 |
        exact unicode_compare_trans as bs cs h1 h2 | simp

theorem item_le_total {F : Type} (a b : List Nat × Value F) : item_le a b ∨ item_le b a := by
  unfold item_le
  by_cases h : unicode_compare a.1 b.1 = .gt
  · exact Or.inr (unicode_compare_total _ _ h)
  · exact Or.inl h

theorem item_le_trans {F : Type} (a b c : List Nat × Value F) (h1 : item_le a b)
    (h2 : item_le b c) : item_le a c :=
  unicode_compare_trans _ _ _ h1 h2

theorem PyList_Sort_sorted {F : Type} (items : List (List Nat × Value F)) :
    PyList_Sort (PyList_Sort items) = PyList_Sort items := by
  unfold PyList_Sort
  exact List.Sorted.insertionSort_eq
    (@List.sorted_insertionSort _ item_le _ ⟨item_le_total⟩ ⟨item_le_trans⟩ items)

theorem PyList_Sort_map {F : Type} (g : Value F → Value F) (items : List (List Nat × Value F)) :
    (PyList_Sort items).map (fun kv => (kv.1, g kv.2))
      = PyList_Sort (items.map (fun kv => (kv.1, g kv.2))) := by
  unfold PyList_Sort
  exact List.map_insertionSort item_le item_le _ items (fun a _ b _ => Iff.rfl)

theorem PyList_Sort_perm {F : Type} (items : List (List Nat × Value F)) :
    (PyList_Sort items).Perm items := List.perm_insertionSort _ _

theorem sorted_list_eq_map {F : Type} : ∀ (xs : List (Value F)),
    sorted_list xs = xs.map Value.sorted
  | [] => rfl
  | x :: xs => by simp [sorted_list, sorted_list_eq_map xs]

theorem sorted_items_eq_map {F : Type} : ∀ (items : List (List Nat × Value F)),
    sorted_items items = items.map (fun kv => (kv.1, kv.2.sorted))
  | [] => rfl
  | (k, v) :: rest => by simp [sorted_items, sorted_items_eq_map rest]

theorem wf_list_iff {F : Type} : ∀ (xs : List (Value F)), wf_list xs ↔ ∀ x ∈ xs, x.wf
  | [] => by simp [wf_list]
  | x :: xs => by simp [wf_list, wf_list_iff xs]

theorem wf_items_iff {F : Type} : ∀ (items : List (List Nat × Value F)),
    wf_items items ↔ ∀ kv ∈ items, (∀ c ∈ kv.1, is_scalar_value c) ∧ kv.2.wf
  | [] => by simp [wf_items]
  | (k, v) :: rest => by simp [wf_items, wf_items_iff rest, and_assoc]

theorem render_arr {F : Type} (host : Host F) (enc : Encoder) (xs : List (Value F))
    (h : xs ≠ []) :
    render host enc (.arr xs) = [0x5B] ++ render_body host enc xs ++ [0x5D] := by
  cases xs with
  | nil => exact absurd rfl h
  | cons x xs => simp [render, render_body]

theorem render_obj {F : Type} (host : Host F) (enc : Encoder)
    (items : List (List Nat × Value F)) (h : items ≠ []) :
    render host enc (.obj items) = [0x7B] ++ render_members_body host enc items ++ [0x7D] := by
  cases items with
  | nil => exact absurd rfl h
  | cons kv rest =>
    obtain ⟨k, v⟩ := kv
    simp [render, render_members_body]

mutual

/-- Sorting the items of every object keeps a value in the value model. -/
theorem wf_sorted {F : Type} : ∀ (v : Value F), v.wf → v.sorted.wf
  | .null, h => h
  | .bool _, h => h
  | .int _, h => h
  | .float _, h => h
  | .str _, h => h
  | .arr xs, h => by
    simp only [Value.wf] at h
    simp only [Value.sorted, Value.wf]
    exact wf_sorted_list xs h
  | .obj items, h => by
    simp only [Value.wf] at h
    simp only [Value.sorted, Value.wf]
    have hp := PyList_Sort_perm (sorted_items items)
    refine ⟨?_, ?_⟩
    · have hk : (sorted_items items).map Prod.fst = items.map Prod.fst := by
        rw [sorted_items_eq_map]; simp [Function.comp_def]
      exact ((hp.map Prod.fst).nodup_iff).2 (hk ▸ h.1)
    · rw [wf_items_iff]
      intro kv hkv
      exact (wf_items_iff _).1 (wf_sorted_items items h.2) kv (hp.mem_iff.1 hkv)

/-- `wf_sorted` on the values of a list. -/
theorem wf_sorted_list {F : Type} : ∀ (xs : List (Value F)), wf_list xs →
    wf_list (sorted_list xs)
  | [], _ => by simp [sorted_list, wf_list]
  | x :: xs, h => by
    simp only [wf_list] at h
    simp only [sorted_list, wf_list]
    exact ⟨wf_sorted x h.1, wf_sorted_list xs h.2⟩

/-- `wf_sorted` on the values of the items. -/
theorem wf_sorted_items {F : Type} : ∀ (items : List (List Nat × Value F)), wf_items items →
    wf_items (sorted_items items)
  | [], _ => by simp [sorted_items, wf_items]
  | (k, v) :: rest, h => by
    simp only [wf_items] at h
    simp only [sorted_items, wf_items]
    exact ⟨h.1, wf_sorted v h.2.1, wf_sorted_items rest h.2.2⟩

end

mutual

/-- Sorting the items of every object twice is sorting them once. -/
theorem sorted_sorted {F : Type} : ∀ (v : Value F), v.sorted.sorted = v.sorted
  | .null => rfl
  | .bool _ => rfl
  | .int _ => rfl
  | .float _ => rfl
  | .str _ => rfl
  | .arr xs => by
    simp only [Value.sorted]
    rw [sorted_sorted_list xs]
  | .obj items => by
    simp only [Value.sorted]
    rw [sorted_items_eq_map (PyList_Sort (sorted_items items)),
      PyList_Sort_map Value.sorted, ← sorted_items_eq_map, sorted_sorted_items items,
      PyList_Sort_sorted]

/-- `sorted_sorted` on the values of a list. -/
theorem sorted_sorted_list {F : Type} : ∀ (xs : List (Value F)),
    sorted_list (sorted_list xs) = sorted_list xs
  | [] => rfl
  | x :: xs => by
    simp only [sorted_list]
    rw [sorted_sorted x, sorted_sorted_list xs]

/-- `sorted_sorted` on the values of the items. -/
theorem sorted_sorted_items {F : Type} : ∀ (items : List (List Nat × Value F)),
    sorted_items (sorted_items items) = sorted_items items
  | [] => rfl
  | (k, v) :: rest => by
    simp only [sorted_items]
    rw [sorted_sorted v, sorted_sorted_items rest]

end

mutual

/-- With `sort_keys`, in compact mode, `write_object` appends the compact text of
the value with the items of every object sorted by key. -/
theorem write_object_sorted {F : Type} (host : Host F) (enc : Encoder) (hc : enc.compact)
    (hs : enc.sort_keys = true) :
    ∀ (v : Value F), v.wf → ∀ (fuel : Nat), v.depth < fuel → ∀ (lvl : Nat) (out : List Nat),
      write_object host enc fuel v lvl out = .ok (out ++ render host enc v.sorted)
  | .null, _, fuel, hf, lvl, out => by
    obtain ⟨k, rfl⟩ : ∃ k, fuel = k + 1 := ⟨fuel - 1, by omega⟩
    simp [write_object, write_basic, render, scalar_text, Value.sorted]
  | .bool b, _, fuel, hf, lvl, out => by
    obtain ⟨k, rfl⟩ : ∃ k, fuel = k + 1 := ⟨fuel - 1, by omega⟩
    cases b <;> simp [write_object, write_basic, render, scalar_text, Value.sorted]
  | .int n, _, fuel, hf, lvl, out => by
    obtain ⟨k, rfl⟩ : ∃ k, fuel = k + 1 := ⟨fuel - 1, by omega⟩
    simp [write_object, write_basic, render, scalar_text, Value.sorted]
  | .float x, _, fuel, hf, lvl, out => by
    obtain ⟨k, rfl⟩ : ∃ k, fuel = k + 1 := ⟨fuel - 1, by omega⟩
    simp only [write_object, write_float_ok host enc hc.2.2.2 x, render, Value.sorted]
  | .str s, hwf, fuel, hf, lvl, out => by
    obtain ⟨k, rfl⟩ : ∃ k, fuel = k + 1 := ⟨fuel - 1, by omega⟩
    simp only [Value.wf] at hwf
    simp only [write_object, write_basic_str_ok host enc s hwf, render, Value.sorted]
  | .arr xs, hwf, fuel, hf, lvl, out => by
    obtain ⟨k, rfl⟩ : ∃ k, fuel = k + 1 := ⟨fuel - 1, by omega⟩
    simp only [Value.wf] at hwf
    simp only [Value.depth] at hf
    have hW := write_list_sorted host enc hc hs xs hwf k (by omega)
    cases xs with
    | nil => simp [write_object, write_iterable, render, Value.sorted, sorted_list]
    | cons x xs =>
      simp only [write_object, write_iterable, List.length_cons, Nat.add_one_ne_zero, if_false,
        write_sequence_impl, get_separators, hc.1, hc.2.1]
      rw [sequence_loop_render_map host enc _ Value.sorted lvl _ 0x5D (x :: xs) 0 _ (by simp)
        (fun y hy o => hW y hy (lvl + 1) o)]
      simp only [Value.sorted, sorted_list_eq_map]
      rw [render_arr host enc _ (by simp)]
      simp
  | .obj items, hwf, fuel, hf, lvl, out => by
    obtain ⟨k, rfl⟩ : ∃ k, fuel = k + 1 := ⟨fuel - 1, by omega⟩
    simp only [Value.wf] at hwf
    simp only [Value.depth] at hf
    have hW := write_items_sorted host enc hc hs items hwf.2 k (by omega)
    cases items with
    | nil => simp [write_object, write_mapping, render, Value.sorted, sorted_items, PyList_Sort]
    | cons kv rest =>
      have hp := PyList_Sort_perm (kv :: rest)
      have hne : PyList_Sort (sorted_items (kv :: rest)) ≠ [] := by
        intro h0
        have := (PyList_Sort_perm (sorted_items (kv :: rest))).length_eq
        rw [h0, sorted_items_eq_map] at this
        simp at this
      simp only [write_object, write_mapping, List.length_cons, Nat.add_one_ne_zero, if_false,
        hs, write_mapping_impl, get_separators, hc.1, hc.2.1]
      rw [mapping_loop_render_map host enc hc.2.2.1 _ Value.sorted lvl _
        (PyList_Sort (kv :: rest)) 0 _ (by simp)
        (fun y hy => ⟨(hW y (hp.mem_iff.1 hy)).1,
          fun o => (hW y (hp.mem_iff.1 hy)).2 (lvl + 1) o⟩)]
      rw [PyList_Sort_map Value.sorted, ← sorted_items_eq_map]
      simp only [Value.sorted]
      rw [render_obj host enc _ hne]
      simp

/-- `write_object_sorted` for every value of a list. -/
theorem write_list_sorted {F : Type} (host : Host F) (enc : Encoder) (hc : enc.compact)
    (hs : enc.sort_keys = true) :
    ∀ (xs : List (Value F)), wf_list xs → ∀ (fuel : Nat), depth_list xs < fuel →
      ∀ x ∈ xs, ∀ (lvl : Nat) (out : List Nat),
        write_object host enc fuel x lvl out = .ok (out ++ render host enc x.sorted)
  | [], _, _, _, x, hx, _, _ => by simp at hx
  | y :: ys, hwf, fuel, hf, x, hx, lvl, out => by
    simp only [wf_list] at hwf
    simp only [depth_list] at hf
    rcases List.mem_cons.1 hx with r | r
    · subst r
      exact write_object_sorted host enc hc hs x hwf.1 fuel (by omega) lvl out
    · exact write_list_sorted host enc hc hs ys hwf.2 fuel (by omega) x r lvl out

/-- `write_object_sorted` for the key and the value of every item. -/
theorem write_items_sorted {F : Type} (host : Host F) (enc : Encoder) (hc : enc.compact)
    (hs : enc.sort_keys = true) :
    ∀ (items : List (List Nat × Value F)), wf_items items → ∀ (fuel : Nat),
      depth_items items < fuel →
      ∀ kv ∈ items, (∀ c ∈ kv.1, is_scalar_value c) ∧ ∀ (lvl : Nat) (out : List Nat),
        write_object host enc fuel kv.2 lvl out = .ok (out ++ render host enc kv.2.sorted)
  | [], _, _, _, x, hx => by simp at hx
  | (k, v) :: rest, hwf, fuel, hf, x, hx => by
    simp only [wf_items] at hwf
    simp only [depth_items] at hf
    rcases List.mem_cons.1 hx with r | r
    · subst r
      exact ⟨hwf.1, fun lvl out =>
        write_object_sorted host enc hc hs v hwf.2.1 fuel (by omega) lvl out⟩
    · exact write_items_sorted host enc hc hs rest hwf.2.2 fuel (by omega) x r

end

end Jsonlib2

namespace Jsonlib2

/-! ## The entry points -/

theorem write_entry_render {F : Type} (host : Host F) (enc : Encoder) (hc : enc.compact)
    (hs : enc.sort_keys = false) (v : Value F) (hwf : v.wf) :
    _write_entry host enc v = .ok (render host enc v) := by
  unfold _write_entry serializer_init_and_run_common
  rw [hc.1, write_object_render host enc hc hs v hwf (v.depth + 1) (Nat.lt_succ_self _) 0 []]
  simp [valid_json_whitespace]

theorem read_entry_render {F : Type} (host : Host F) (enc : Encoder) (hc : enc.compact)
    (hf : host.float_round_trip) (v : Value F) (hwf : v.wf) :
    _read_entry host (render host enc v) none none none = .ok v := by
  obtain ⟨sz, hj⟩ := json_read_render host enc hc hf (new_decoder (render host enc v)) rfl rfl rfl
    v hwf (read_fuel (render host enc v)) 0 0 [] (by simp [new_decoder]) trivial
    (by unfold read_fuel; omega)
  have hj2 : json_read host (read_fuel (render host enc v))
      { start := render host enc v, index := 0, stringparse_buffer_size := 0,
        parse_float := none, parse_int := none, parse_constant := none }
      = .ok (v, (new_decoder (render host enc v)).moved (0 + (render host enc v).length) sz) := hj
  unfold _read_entry
  simp only [hj2]
  simp [skip_spaces, new_decoder, skip_spaces_from]

theorem example_host_round_trip : example_host.float_round_trip := by
  intro f
  cases f
  · refine ⟨rfl, NumberText.mk false [0x31] none (some (0x65, [0x2B], [0x32, 0x32])), ?_, ?_, ?_,
      rfl⟩
    · refine ⟨Or.inr ⟨0x31, [], rfl, by omega, by simp⟩, by simp, ?_⟩
      intro e sign ds h
      simp only [Option.some.injEq, Prod.mk.injEq] at h
      obtain ⟨rfl, rfl, rfl⟩ := h
      refine ⟨Or.inl rfl, Or.inr (Or.inl rfl), by simp, ?_⟩
      intro x hx
      simp only [List.mem_cons, List.mem_singleton, List.not_mem_nil, or_false, or_self] at hx
      subst hx
      unfold is_digit; omega
    · simp
    · simp
  · refine ⟨rfl, NumberText.mk false [0x30] (some [0x35]) none, ?_, ?_, ?_, rfl⟩
    · refine ⟨Or.inl rfl, ?_, by simp⟩
      intro ds h
      simp only [Option.some.injEq] at h
      subst h
      refine ⟨by simp, ?_⟩
      intro x hx
      simp only [List.mem_singleton] at hx
      subst hx
      unfold is_digit; omega
    · simp
    · simp

theorem example_value_wf : example_value.wf := by
  simp [example_value, Value.wf, wf_items, wf_list, is_scalar_value]

end Jsonlib2

namespace Jsonlib2

/-! ## Round trip -/

/-- C1: for every value of the value model (null, booleans, integers, floats,
strings of Unicode scalar values, arrays, objects with distinct string keys) and
with no hooks, the encoder under default options produces a text, and decoding
that text succeeds, trailing-data check included, and returns the value itself.
The host is assumed to write a finite float as a JSON number with a fraction or
an exponent that it reads back as the same float. -/
theorem encode_decode_round_trip {F : Type} (host : Host F) (hf : host.float_round_trip)
    (v : Value F) (hwf : v.wf) :
    ∃ text, _write_entry host init_encoder v = .ok text ∧
      _read_entry host text none none none = .ok v :=
  ⟨render host init_encoder v,
    write_entry_render host init_encoder ⟨rfl, rfl, rfl, rfl⟩ rfl v hwf,
    read_entry_render host init_encoder ⟨rfl, rfl, rfl, rfl⟩ hf v hwf⟩

/-- The round trip of `{"b": [-7, 0.5, null, true], "a": "é😀/", "": {}}`. -/
theorem encode_decode_round_trip_witness :
    example_host.float_round_trip ∧ example_value.wf ∧
      ∃ text, _write_entry example_host init_encoder example_value = .ok text ∧
        _read_entry example_host text none none none = .ok example_value :=
  ⟨example_host_round_trip, example_value_wf,
    encode_decode_round_trip example_host example_host_round_trip example_value example_value_wf⟩

end Jsonlib2

namespace Jsonlib2

/-! ## A point without digits around it -/

/-- C11: the texts `-.5` and `1.e5`, in which the point is not between two
digits, pass the scan of `read_number`: the whole text goes to the float parser
of the host (or to the `parse_float` hook, which gets the text as it is), and
the decode fails only if that parser rejects it.  The text `1.` is rejected. -/
theorem point_without_digits_accepted {F : Type} (host : Host F) :
    _read_entry host [0x2D, 0x2E, 0x35] none none none
      = (match host.float_from_string [0x2D, 0x2E, 0x35] with
        | some x => .ok (.float x)
        | none => .error (set_error_simple 0 "Invalid number.")) ∧
    _read_entry host [0x31, 0x2E, 0x65, 0x35] none none none
      = (match host.float_from_string [0x31, 0x2E, 0x65, 0x35] with
        | some x => .ok (.float x)
        | none => .error (set_error_simple 0 "Invalid number.")) ∧
    _read_entry host [0x2D, 0x2E, 0x35] (some (fun s => some (.str s))) none none
      = .ok (.str [0x2D, 0x2E, 0x35]) ∧
    _read_entry host [0x31, 0x2E, 0x65, 0x35] (some (fun s => some (.str s))) none none
      = .ok (.str [0x31, 0x2E, 0x65, 0x35]) ∧
    _read_entry host [0x31, 0x2E] none none none
      = .error (set_error_simple 0 "Invalid number.") := by
  refine ⟨?_, ?_, rfl, rfl, rfl⟩
  · cases h : host.float_from_string [0x2D, 0x2E, 0x35] <;>
      simp [_read_entry, read_fuel, json_read, skip_spaces, skip_spaces_from, code_at,
        keyword_compare, read_number, read_number_scan, h, set_error_simple]
  · cases h : host.float_from_string [0x31, 0x2E, 0x65, 0x35] <;>
      simp [_read_entry, read_fuel, json_read, skip_spaces, skip_spaces_from, code_at,
        keyword_compare, read_number, read_number_scan, h, set_error_simple]

end Jsonlib2

namespace Jsonlib2

/-! ## What `read_number` returns -/

theorem number_span_cons {c : Nat} (cs : List Nat) (h : is_number_char c) :
    number_span (c :: cs) = c :: number_span cs := by
  simp [number_span, List.takeWhile_cons, h]

theorem number_span_stop {c : Nat} (cs : List Nat) (h : ¬ is_number_char c) :
    number_span (c :: cs) = [] := by
  simp [number_span, List.takeWhile_cons, h]

theorem take_number_span (l : List Nat) : l.take (number_span l).length = number_span l := by
  have h := List.takeWhile_append_dropWhile (fun c => decide (is_number_char c)) l
  unfold number_span
  nth_rewrite 2 [← h]
  rw [List.take_left]

theorem number_span_chars (l : List Nat) : ∀ c ∈ number_span l, is_number_char c := by
  intro c hc
  have := List.mem_takeWhile_imp hc
  simpa using this

theorem read_number_scan_span : ∀ (l : List Nat) (ptr : Nat) (fl : NumberFlags) (ptr2 : Nat)
    (fl2 : NumberFlags), read_number_scan l ptr fl = some (ptr2, fl2) →
      ptr2 = ptr + (number_span l).length ∧
      (fl2.is_float = true ↔ fl.is_float = true ∨ 0x2E ∈ number_span l) ∧
      (fl2.has_exponent = true ↔
        fl.has_exponent = true ∨ 0x65 ∈ number_span l ∨ 0x45 ∈ number_span l)
  | [], ptr, fl, ptr2, fl2, h => by
    simp only [read_number_scan, Option.some.injEq, Prod.mk.injEq] at h
    obtain ⟨rfl, rfl⟩ := h
    simp [number_span]
  | c :: cs, ptr, fl, ptr2, fl2, h => by
    have key : ∀ f : NumberFlags, read_number_scan cs (ptr + 1) f = some (ptr2, fl2) →
        is_number_char c →
        (f.is_float = true ↔ fl.is_float = true ∨ c = 0x2E) →
        (f.has_exponent = true ↔ fl.has_exponent = true ∨ c = 0x65 ∨ c = 0x45) →
        ptr2 = ptr + (number_span (c :: cs)).length ∧
        (fl2.is_float = true ↔ fl.is_float = true ∨ 0x2E ∈ number_span (c :: cs)) ∧
        (fl2.has_exponent = true ↔
          fl.has_exponent = true ∨ 0x65 ∈ number_span (c :: cs) ∨
            0x45 ∈ number_span (c :: cs)) := by
      intro f hf hnc h1 h2
      obtain ⟨e1, e2, e3⟩ := read_number_scan_span cs (ptr + 1) f ptr2 fl2 hf
      rw [number_span_cons cs hnc]
      refine ⟨by rw [e1, List.length_cons]; omega, ?_, ?_⟩
      · rw [e2, h1, List.mem_cons]
        constructor
        · rintro ((a | a) | a)
          · exact Or.inl a
          · exact Or.inr (Or.inl a.symm)
          · exact Or.inr (Or.inr a)
        · rintro (a | a | a)
          · exact Or.inl (Or.inl a)
          · exact Or.inl (Or.inr a.symm)
          · exact Or.inr a
      · rw [e3, h2, List.mem_cons, List.mem_cons]
        constructor
        · rintro ((a | a | a) | a | a)
          · exact Or.inl a
          · exact Or.inr (Or.inl (Or.inl a.symm))
          · exact Or.inr (Or.inr (Or.inl a.symm))
          · exact Or.inr (Or.inl (Or.inr a))
          · exact Or.inr (Or.inr (Or.inr a))
        · rintro (a | (a | a) | (a | a))
          · exact Or.inl (Or.inl a)
          · exact Or.inl (Or.inr (Or.inl a.symm))
          · exact Or.inr (Or.inl a)
          · exact Or.inl (Or.inr (Or.inr a.symm))
          · exact Or.inr (Or.inr a)
    rw [read_number_scan] at h
    by_cases c0 : c = 0
    · rw [if_pos c0] at h
      simp only [Option.some.injEq, Prod.mk.injEq] at h
      obtain ⟨rfl, rfl⟩ := h
      rw [number_span_stop cs (by unfold is_number_char; omega)]
      simp
    rw [if_neg c0] at h
    by_cases c1 : c = 0x30
    · rw [if_pos c1] at h
      have hnc : is_number_char c := by unfold is_number_char; omega
      split_ifs at h
      · exact key _ h hnc (by simp; omega) (by simp; omega)
      · exact key _ h hnc (by simp; omega) (by simp; omega)
    rw [if_neg c1] at h
    by_cases c2 : 0x31 ≤ c ∧ c ≤ 0x39
    · rw [if_pos c2] at h
      have hnc : is_number_char c := by unfold is_number_char; omega
      split_ifs at h
      exact key _ h hnc (by simp; omega) (by simp; omega)
    rw [if_neg c2] at h
    by_cases c3 : c = 0x2D ∨ c = 0x2B
    · rw [if_pos c3] at h
      have hnc : is_number_char c := by unfold is_number_char; omega
      exact key _ h hnc (by simp; omega) (by simp; omega)
    rw [if_neg c3] at h
    by_cases c4 : c = 0x65 ∨ c = 0x45
    · rw [if_pos c4] at h
      have hnc : is_number_char c := by unfold is_number_char; omega
      exact key _ h hnc (by simp; omega) (by simp; omega)
    rw [if_neg c4] at h
    by_cases c5 : c = 0x2E
    · rw [if_pos c5] at h
      have hnc : is_number_char c := by unfold is_number_char; omega
      exact key _ h hnc (by simp; omega) (by simp; omega)
    rw [if_neg c5] at h
    simp only [Option.some.injEq, Prod.mk.injEq] at h
    obtain ⟨rfl, rfl⟩ := h
    rw [number_span_stop cs (by unfold is_number_char; omega)]
    simp

theorem digits_value_eq (ds : List Nat) (hds : ∀ c ∈ ds, is_digit c) :
    ds.foldl (fun a c => a * 10 + PyLong_DigitValue c) 0 = digits_value ds := by
  unfold digits_value
  have : ∀ (acc : Nat), ds.foldl (fun a c => a * 10 + PyLong_DigitValue c) acc
      = ds.foldl (fun a c => a * 10 + (c - 0x30)) acc := by
    induction ds with
    | nil => intro acc; rfl
    | cons c cs ih =>
      intro acc
      have hc := hds c (List.mem_cons_self _ _)
      unfold is_digit at hc
      simp only [List.foldl_cons]
      rw [ih (fun x hx => hds x (List.mem_cons_of_mem _ hx))]
      simp only [PyLong_DigitValue, hc, and_self, if_true]
  exact this 0

theorem sign_not_space {c : Nat} (h : is_digit c ∨ c = 0x2B ∨ c = 0x2D) : c_isspace c = false := by
  unfold is_digit at h
  simp only [c_isspace, decide_eq_false_iff_not]
  omega

theorem dropWhile_space_signed (r : List Nat)
    (hr : ∀ c ∈ r, is_digit c ∨ c = 0x2B ∨ c = 0x2D) : r.dropWhile c_isspace = r := by
  cases r with
  | nil => rfl
  | cons c t => rw [List.dropWhile_cons_of_neg]; simp [sign_not_space (hr c (List.mem_cons_self _ _))]

/-- On digits and signs, the digit part of `PyLong_FromString` succeeds only on
digits alone and returns their decimal value. -/
theorem PyLong_FromString_digits_signed (r : List Nat)
    (hr : ∀ c ∈ r, is_digit c ∨ c = 0x2B ∨ c = 0x2D) (z : Nat)
    (h : PyLong_FromString_digits r 10 = some z) :
    r ≠ [] ∧ (∀ c ∈ r, is_digit c) ∧ z = digits_value r := by
  have hpre : strip_base_marker r 10 = r := by
    unfold strip_base_marker
    split
    · simp
    · rfl
  simp only [PyLong_FromString_digits, hpre] at h
  split_ifs at h with h1 h2
  have hdrop : r.dropWhile (fun c => decide (PyLong_DigitValue c < 10)) = [] := by
    cases hd : r.dropWhile (fun c => decide (PyLong_DigitValue c < 10)) with
    | nil => rfl
    | cons x t =>
      exfalso
      have hx : x ∈ r := (List.dropWhile_suffix _).subset (by rw [hd]; exact List.mem_cons_self _ _)
      have hnx : ¬ (decide (PyLong_DigitValue x < 10) = true) := by
        have := List.head_dropWhile_not (fun c => decide (PyLong_DigitValue c < 10)) r
          (by rw [hd]; simp)
        simpa [hd] using this
      have hsx : x = 0x2B ∨ x = 0x2D := by
        rcases hr x hx with a | a
        · exact absurd (by simpa using digit_value_lt a) hnx
        · exact a
      rw [hd] at h2
      have hss : strip_long_suffix (x :: t) = x :: t := by
        have hne : ¬ (x = 0x4C ∨ x = 0x6C) := by omega
        simp only [strip_long_suffix, hne, if_false]
      rw [hss, List.dropWhile_cons_of_neg (by simp [sign_not_space (Or.inr hsx)])] at h2
      exact absurd h2 (by simp)
  have hall : ∀ c ∈ r, is_digit c := by
    intro c hc
    have hlt : PyLong_DigitValue c < 10 := by
      have := List.dropWhile_eq_nil_iff.1 hdrop c hc
      simpa using this
    rcases hr c hc with a | a
    · exact a
    · exfalso
      unfold PyLong_DigitValue at hlt
      rcases a with a | a <;> subst a <;> simp at hlt
  have htake : r.takeWhile (fun c => decide (PyLong_DigitValue c < 10)) = r := by
    rw [List.takeWhile_eq_self_iff]
    intro x hx
    simpa using digit_value_lt (hall x hx)
  rw [htake] at h h1
  simp only [Option.some.injEq] at h
  exact ⟨h1, hall, by rw [← h, digits_value_eq r hall]⟩

/-- On a span of digits and signs `PyLong_FromUnicode` in base 10 succeeds only
on `[+-]?[0-9]+` and returns its decimal value. -/
theorem PyLong_FromUnicode_signed {F : Type} (host : Host F) (span : List Nat)
    (hs : ∀ c ∈ span, is_digit c ∨ c = 0x2B ∨ c = 0x2D) (n : Int)
    (h : PyLong_FromUnicode host span 10 = some n) :
    is_signed_digits span ∧ n = decimal_value span := by
  have henc : PyUnicode_EncodeDecimal host span = some span :=
    EncodeDecimal_ascii host span (fun c hc => by
      have := hs c hc; unfold is_digit at this; omega)
  simp only [PyLong_FromUnicode, henc] at h
  unfold PyLong_FromString at h
  rw [dropWhile_space_signed span hs] at h
  cases span with
  | nil => simp at h
  | cons c r =>
    have hr : ∀ x ∈ r, is_digit x ∨ x = 0x2B ∨ x = 0x2D :=
      fun x hx => hs x (List.mem_cons_of_mem _ hx)
    simp only at h
    by_cases cp : c = 0x2B
    · subst cp
      rw [if_pos rfl, dropWhile_space_signed r hr] at h
      cases hz : PyLong_FromString_digits r 10 with
      | none => simp [hz] at h
      | some z =>
        obtain ⟨h1, h2, h3⟩ := PyLong_FromString_digits_signed r hr z hz
        simp only [hz, Option.map_some', Option.some.injEq] at h
        exact ⟨⟨[0x2B], r, rfl, Or.inr (Or.inr rfl), h1, h2⟩, by
          rw [← h, h3]; simp [decimal_value]⟩
    · rw [if_neg cp] at h
      by_cases cm : c = 0x2D
      · subst cm
        rw [if_pos rfl, dropWhile_space_signed r hr] at h
        cases hz : PyLong_FromString_digits r 10 with
        | none => simp [hz] at h
        | some z =>
          obtain ⟨h1, h2, h3⟩ := PyLong_FromString_digits_signed r hr z hz
          simp only [hz, Option.map_some', Option.some.injEq] at h
          exact ⟨⟨[0x2D], r, rfl, Or.inr (Or.inl rfl), h1, h2⟩, by
            rw [← h, h3]; simp [decimal_value]⟩
      · rw [if_neg cm, dropWhile_space_signed (c :: r) hs] at h
        cases hz : PyLong_FromString_digits (c :: r) 10 with
        | none => simp [hz] at h
        | some z =>
          obtain ⟨h1, h2, h3⟩ := PyLong_FromString_digits_signed (c :: r) hs z hz
          simp only [hz, Option.map_some', Option.some.injEq] at h
          refine ⟨⟨[], c :: r, rfl, Or.inl rfl, h1, h2⟩, ?_⟩
          rw [← h, h3]
          unfold decimal_value
          split
          · rename_i e; simp only [List.cons.injEq] at e; exact absurd e.1 cm
          · rename_i e; simp only [List.cons.injEq] at e; exact absurd e.1 cp
          · rfl

/-- C12: when `read_number` accepts, the cursor moves to the first code unit
after the matched span; if the span has a point or an exponent letter, the span
itself goes to the `parse_float` hook when there is one, whose result is
returned, and otherwise the result is the float the host reads from it; if the
span has neither, the span itself goes to the `parse_int` hook when there is
one, and otherwise the span is `[+-]?[0-9]+` and the result is the integer with
its decimal value. -/
theorem read_number_result {F : Type} (host : Host F) (d : Decoder F) (o : Value F)
    (d2 : Decoder F) (h : read_number host d = .ok (o, d2)) :
    d2 = { d with index := d.index + (number_span (d.start.drop d.index)).length } ∧
    (is_float_span (number_span (d.start.drop d.index)) →
      (∀ hook, d.parse_float = some hook → hook (number_span (d.start.drop d.index)) = some o) ∧
      (d.parse_float = none →
        ∃ x, host.float_from_string (number_span (d.start.drop d.index)) = some x ∧
          o = .float x)) ∧
    (¬ is_float_span (number_span (d.start.drop d.index)) →
      (∀ hook, d.parse_int = some hook → hook (number_span (d.start.drop d.index)) = some o) ∧
      (d.parse_int = none →
        is_signed_digits (number_span (d.start.drop d.index)) ∧
          o = .int (decimal_value (number_span (d.start.drop d.index))))) := by
  unfold read_number at h
  cases hscan : read_number_scan (d.start.drop d.index) d.index
      { is_float := false, got_digit := false, leading_zero := false, has_exponent := false } with
  | none => simp [hscan] at h
  | some r =>
    obtain ⟨ptr, fl⟩ := r
    obtain ⟨e1, e2, e3⟩ := read_number_scan_span _ _ _ _ _ hscan
    simp only [Bool.false_eq_true, false_or] at e2 e3
    have hu : (d.start.drop d.index).take (ptr - d.index) = number_span (d.start.drop d.index) := by
      rw [e1, Nat.add_sub_cancel_left, take_number_span]
    simp only [hscan, hu] at h
    have hfs : is_float_span (number_span (d.start.drop d.index))
        ↔ (fl.is_float || fl.has_exponent) = true := by
      unfold is_float_span
      rw [Bool.or_eq_true, e2, e3]
    by_cases hg : fl.got_digit = true
    · simp only [hg, if_true] at h
      by_cases hf : (fl.is_float || fl.has_exponent) = true
      · simp only [hf, if_true] at h
        have hfloat := hfs.2 hf
        cases hpf : d.parse_float with
        | some hook =>
          simp only [hpf] at h
          cases hh : hook (number_span (d.start.drop d.index)) with
          | none => simp [hh] at h
          | some ob =>
            simp only [hh, Except.ok.injEq, Prod.mk.injEq] at h
            obtain ⟨rfl, rfl⟩ := h
            refine ⟨by rw [e1], fun _ => ⟨fun hook2 e => ?_, fun e => by simp at e⟩,
              fun hn => absurd hfloat hn⟩
            simp only [Option.some.injEq] at e
            rw [← e, hh]
        | none =>
          simp only [hpf] at h
          cases hh : host.float_from_string (number_span (d.start.drop d.index)) with
          | none => simp [hh] at h
          | some x =>
            simp only [hh, Option.map_some', Except.ok.injEq, Prod.mk.injEq] at h
            obtain ⟨rfl, rfl⟩ := h
            exact ⟨by rw [e1], fun _ => ⟨fun hook2 e => by simp at e, fun _ => ⟨x, rfl, rfl⟩⟩,
              fun hn => absurd hfloat hn⟩
      · simp only [hf, if_false] at h
        have hnf : ¬ is_float_span (number_span (d.start.drop d.index)) := fun a => hf (hfs.1 a)
        cases hpi : d.parse_int with
        | some hook =>
          simp only [hpi] at h
          cases hh : hook (number_span (d.start.drop d.index)) with
          | none => simp [hh] at h
          | some ob =>
            simp only [hh, Except.ok.injEq, Prod.mk.injEq] at h
            obtain ⟨rfl, rfl⟩ := h
            refine ⟨by rw [e1], fun a => absurd a hnf,
              fun _ => ⟨fun hook2 e => ?_, fun e => by simp at e⟩⟩
            simp only [Option.some.injEq] at e
            rw [← e, hh]
        | none =>
          simp only [hpi] at h
          cases hh : PyLong_FromUnicode host (number_span (d.start.drop d.index)) 10 with
          | none => simp [hh] at h
          | some n =>
            simp only [hh, Option.map_some', Except.ok.injEq, Prod.mk.injEq] at h
            obtain ⟨rfl, rfl⟩ := h
            have hchars : ∀ c ∈ number_span (d.start.drop d.index),
                is_digit c ∨ c = 0x2B ∨ c = 0x2D := by
              intro c hc
              have h1 := number_span_chars _ c hc
              unfold is_float_span at hnf
              unfold is_number_char at h1
              unfold is_digit
              have n1 : c ≠ 0x2E := fun a => hnf (Or.inl (a ▸ hc))
              have n2 : c ≠ 0x65 := fun a => hnf (Or.inr (Or.inl (a ▸ hc)))
              have n3 : c ≠ 0x45 := fun a => hnf (Or.inr (Or.inr (a ▸ hc)))
              omega
            obtain ⟨s1, s2⟩ := PyLong_FromUnicode_signed host _ hchars n hh
            exact ⟨by rw [e1], fun a => absurd a hnf,
              fun _ => ⟨fun hook2 e => by simp at e, fun _ => ⟨s1, by rw [s2]⟩⟩⟩
    · simp [hg] at h

/-- The number `1e+22` followed by `]`: a float, the cursor on the `]`. -/
theorem read_number_result_witness :
    read_number example_host (new_decoder [0x31, 0x65, 0x2B, 0x32, 0x32, 0x5D])
      = .ok (Value.float (PyFloat.finite false),
          { (new_decoder [0x31, 0x65, 0x2B, 0x32, 0x32, 0x5D] : Decoder Bool) with index := 5 }) ∧
    ({ (new_decoder [0x31, 0x65, 0x2B, 0x32, 0x32, 0x5D] : Decoder Bool) with index := 5 }
      = { (new_decoder [0x31, 0x65, 0x2B, 0x32, 0x32, 0x5D] : Decoder Bool) with
          index := 0 + (number_span (List.drop 0 [0x31, 0x65, 0x2B, 0x32, 0x32, 0x5D])).length }) :=
  ⟨rfl, (read_number_result example_host (new_decoder [0x31, 0x65, 0x2B, 0x32, 0x32, 0x5D])
    (Value.float (PyFloat.finite false))
    { (new_decoder [0x31, 0x65, 0x2B, 0x32, 0x32, 0x5D] : Decoder Bool) with index := 5 } rfl).1⟩

end Jsonlib2

namespace Jsonlib2

/-! ## Keywords and the `parse_constant` hook -/

theorem keyword_compare_hook {F : Type} (d : Decoder F) (i sz : Nat) (kw rest : List Nat)
    (retval : Value F) (hook : List Nat → Option (Value F)) (o : Value F)
    (hk : d.parse_constant = some hook) (ho : hook kw = some o)
    (h : d.start.drop i = kw ++ rest) :
    keyword_compare (d.moved i sz) kw retval = some (o, d.moved (i + kw.length) sz) := by
  have hlen : d.start.length - i ≥ kw.length := by
    have := congrArg List.length h
    simp only [List.length_drop, List.length_append] at this
    omega
  obtain ⟨s, ix, sz0, pf, pi, pc⟩ := d
  simp only at hk h hlen
  subst hk
  simp only [keyword_compare, Decoder.moved, hlen, if_true, h, List.take_left, ho]

theorem json_read_keyword_compare {F : Type} (host : Host F) (d : Decoder F) (i sz fuel : Nat)
    (kw : List Nat) (v o : Value F) (hkw : (kw, v) ∈ keyword_table) (rest : List Nat)
    (h : d.start.drop i = kw ++ rest)
    (hkc : keyword_compare (d.moved i sz) kw v = some (o, d.moved (i + kw.length) sz)) :
    json_read host (fuel + 1) (d.moved i sz) = .ok (o, d.moved (i + kw.length) sz) := by
  simp only [keyword_table, List.mem_cons, Prod.mk.injEq, List.mem_singleton, List.not_mem_nil,
    or_false] at hkw
  rcases hkw with ⟨rfl, rfl⟩ | ⟨rfl, rfl⟩ | ⟨rfl, rfl⟩ | ⟨rfl, rfl⟩ | ⟨rfl, rfl⟩ | ⟨rfl, rfl⟩ <;>
  · have hsk := skip_spaces_moved_stop d i sz h (by unfold is_json_space; omega)
    have hc := code_at_of_drop_zero h
    simp only [List.cons_append, List.getD_cons_zero] at hc
    rw [json_read]
    simp only [hsk, moved_start, moved_index, hc, hkc]
    simp

/-- With a `parse_constant` hook the keyword `true` decodes to what the hook
returns for it, here the integer 7, not to the boolean. -/
theorem parse_constant_hook_counterexample :
    _read_entry example_host [0x74, 0x72, 0x75, 0x65] none none
      (some (fun _ => some (Value.int 7))) = .ok (Value.int 7) := by
  rfl

/-- C13, amended: at each of the six keywords `true`, `false`, `null`, `NaN`,
`Infinity`, `-Infinity`, decoding consumes exactly the keyword; with no
`parse_constant` hook the value is the boolean, null or float sentinel the
keyword stands for; with a hook, the hook is called with the matched text and
what it returns is the value, for every one of the six keywords. -/
theorem keyword_decoding {F : Type} (host : Host F) (d : Decoder F) (fuel : Nat)
    (kw : List Nat) (v : Value F) (hkw : (kw, v) ∈ keyword_table) (rest : List Nat)
    (h : d.start.drop d.index = kw ++ rest) :
    (d.parse_constant = none →
      json_read host (fuel + 1) d = .ok (v, { d with index := d.index + kw.length })) ∧
    (∀ (hook : List Nat → Option (Value F)) (o : Value F),
      d.parse_constant = some hook → hook kw = some o →
      json_read host (fuel + 1) d = .ok (o, { d with index := d.index + kw.length })) := by
  constructor
  · intro hk
    exact json_read_keyword_compare host d d.index d.stringparse_buffer_size fuel kw v v hkw rest h
      (keyword_compare_ok d d.index d.stringparse_buffer_size kw rest v hk h)
  · intro hook o hk ho
    exact json_read_keyword_compare host d d.index d.stringparse_buffer_size fuel kw v o hkw rest h
      (keyword_compare_hook d d.index d.stringparse_buffer_size kw rest v hook o hk ho h)

/-- The keyword `null` with no hook, and with a hook that answers 7. -/
theorem keyword_decoding_witness :
    (([0x6E, 0x75, 0x6C, 0x6C], Value.null) ∈ keyword_table (F := Bool)) ∧
    ((new_decoder [0x6E, 0x75, 0x6C, 0x6C] : Decoder Bool).start.drop 0
      = [0x6E, 0x75, 0x6C, 0x6C] ++ []) ∧
    json_read example_host (0 + 1) (new_decoder [0x6E, 0x75, 0x6C, 0x6C])
      = .ok (Value.null, { (new_decoder [0x6E, 0x75, 0x6C, 0x6C] : Decoder Bool) with
          index := 0 + ([0x6E, 0x75, 0x6C, 0x6C] : List Nat).length }) ∧
    json_read example_host (0 + 1)
        { (new_decoder [0x6E, 0x75, 0x6C, 0x6C] : Decoder Bool) with
          parse_constant := some (fun _ => some (Value.int 7)) }
      = .ok (Value.int 7, { (new_decoder [0x6E, 0x75, 0x6C, 0x6C] : Decoder Bool) with
          parse_constant := some (fun _ => some (Value.int 7)),
          index := 0 + ([0x6E, 0x75, 0x6C, 0x6C] : List Nat).length }) :=
  ⟨by simp [keyword_table], rfl,
    (keyword_decoding example_host (new_decoder [0x6E, 0x75, 0x6C, 0x6C]) 0
      [0x6E, 0x75, 0x6C, 0x6C] Value.null (by simp [keyword_table]) [] rfl).1 rfl,
    (keyword_decoding example_host
      { (new_decoder [0x6E, 0x75, 0x6C, 0x6C] : Decoder Bool) with
        parse_constant := some (fun _ => some (Value.int 7)) } 0
      [0x6E, 0x75, 0x6C, 0x6C] Value.null (by simp [keyword_table]) [] rfl).2
      (fun _ => some (Value.int 7)) (Value.int 7) rfl rfl⟩

end Jsonlib2

namespace Jsonlib2

/-! ## Line and column of an error -/

theorem code_at_eq_iff (text : List Nat) (q c : Nat) (hc : c ≠ 0) :
    code_at text q = c ↔ text[q]? = some c := by
  unfold code_at
  rw [List.getD_eq_getElem?_getD]
  cases text[q]? with
  | none => simp; exact fun h => hc h.symm
  | some x => simp

theorem mem_take_succ (text : List Nat) (q c : Nat) :
    c ∈ text.take (q + 1) ↔ c ∈ text.take q ∨ text[q]? = some c := by
  rw [List.take_succ, List.mem_append]
  cases text[q]? with
  | none => simp
  | some x => simp [eq_comm]

theorem count_row_loop_spec (start : List Nat) :
    ∀ (n ptr row : Nat),
      count_row_loop start n ptr row = row + ((start.drop ptr).take n).count 0x0A
  | 0, _, _ => by simp [count_row_loop]
  | n + 1, ptr, row => by
    rw [count_row_loop, count_row_loop_spec start n (ptr + 1)]
    cases h : start.drop ptr with
    | nil =>
      have hlen : start.length ≤ ptr := List.drop_eq_nil_iff.1 h
      have h2 : start.drop (ptr + 1) = [] := List.drop_eq_nil_iff.2 (by omega)
      have hc : code_at start ptr = 0 := by
        unfold code_at; rw [List.getD_eq_default _ _ hlen]
      simp [h2, hc]
    | cons c t =>
      have h2 : start.drop (ptr + 1) = t := by
        rw [← List.drop_drop, h]; rfl
      have hc : code_at start ptr = c := by
        unfold code_at
        rw [List.getD_eq_getElem?_getD, ← List.head?_drop, h]; rfl
      rw [h2, hc, List.take_succ_cons, List.count_cons]
      by_cases e : c = 0x0A
      · simp [e]; omega
      · have e2 : ¬ (c == 10) = true := by simpa using e
        simp [e, e2]

theorem count_column_loop_le (start : List Nat) : ∀ (q : Nat), count_column_loop start q ≤ q
  | 0 => by simp [count_column_loop]
  | q + 1 => by
    rw [count_column_loop]
    split_ifs
    · exact Nat.le_succ_of_le (count_column_loop_le start q)
    · exact Nat.le_refl _

theorem last_line_feed_none (text : List Nat) :
    ∀ (q : Nat), 0x0A ∉ text.take q → spec_last_line_feed text q = -1
  | 0, _ => rfl
  | q + 1, h => by
    rw [mem_take_succ, not_or] at h
    rw [spec_last_line_feed, if_neg h.2]
    exact last_line_feed_none text q h.1

theorem last_line_feed_loop (text : List Nat) :
    ∀ (q : Nat), 0x0A ∈ text.take (q + 1) →
      spec_last_line_feed text (q + 1) = (count_column_loop text q : Int)
  | 0, h => by
    rw [mem_take_succ] at h
    have h0 : text[0]? = some 0x0A := by
      rcases h with h | h
      · simp at h
      · exact h
    simp [spec_last_line_feed, h0, count_column_loop]
  | q + 1, h => by
    rw [mem_take_succ] at h
    rw [spec_last_line_feed, count_column_loop]
    by_cases e : text[q + 1]? = some 0x0A
    · have ec : code_at text (q + 1) = 0x0A := (code_at_eq_iff text (q + 1) 0x0A (by decide)).2 e
      rw [if_pos e, if_neg (by simpa using ec)]
    · have ec : code_at text (q + 1) ≠ 0x0A :=
        fun hh => e ((code_at_eq_iff text (q + 1) 0x0A (by decide)).1 hh)
      rw [if_neg e, if_pos ec]
      exact last_line_feed_loop text q (h.resolve_right e)

/-- C19: for every text and every position `p`, `set_error` reports the offset
`p`, the line `1 +` the number of line feeds below `p`, and the column `p` minus
the index of the last line feed below `p`, that index taken as `-1` when there
is none. -/
theorem set_error_coordinates (text : List Nat) (p : Nat) (description : Description) :
    ∃ column : Nat, set_error text p description = (spec_line text p, column, p, description) ∧
      (column : Int) = spec_column text p := by
  have hrow : count_row_loop text p 0 1 = spec_line text p := by
    rw [count_row_loop_spec]; simp [spec_line]
  unfold set_error count_row_column
  simp only [hrow]
  by_cases h1 : spec_line text p = 1
  · refine ⟨p + 1, by simp [h1], ?_⟩
    have hno : 0x0A ∉ text.take p := by
      unfold spec_line at h1
      intro hm
      have := List.count_pos_iff.2 hm
      omega
    rw [spec_column, last_line_feed_none text p hno]
    push_cast; ring
  · refine ⟨p - count_column_loop text (p - 1), by simp [h1], ?_⟩
    have hm : 0x0A ∈ text.take p := by
      unfold spec_line at h1
      by_contra hno
      rw [← List.count_eq_zero] at hno
      omega
    obtain ⟨q, rfl⟩ : ∃ q, p = q + 1 := by
      cases p with
      | zero => simp at hm
      | succ q => exact ⟨q, rfl⟩
    have hle := count_column_loop_le text q
    rw [spec_column, last_line_feed_loop text q hm, Nat.add_sub_cancel]
    push_cast [Nat.cast_sub (Nat.le_succ_of_le hle)]
    ring

end Jsonlib2

namespace Jsonlib2

/-! ## Byte-order marks -/

theorem memcmp_eq_isPrefixOf (bytes bom : List Nat) :
    memcmp_eq bytes bom bom.length = bom.isPrefixOf bytes := by
  unfold memcmp_eq
  rw [List.take_length, Bool.eq_iff_iff, decide_eq_true_iff, List.isPrefixOf_iff_prefix,
    List.prefix_iff_eq_take]
  exact eq_comm

/-- C20: on a buffer of at least 4 bytes `detect_encoding` returns the encoding
of the first byte-order mark, in the order UTF-8, UTF-32LE, UTF-32BE, UTF-16LE,
UTF-16BE, that the buffer starts with; a buffer that starts `FF FE 00 00` is
UTF-32LE with BOM. -/
theorem detect_encoding_first_bom :
    (∀ (bytes : List Nat), 4 ≤ bytes.length → ∀ (p : List Nat × Encoding),
      bom_order.find? (fun q => q.1.isPrefixOf bytes) = some p → detect_encoding bytes = p.2) ∧
    (∀ (rest : List Nat),
      detect_encoding (0xFF :: 0xFE :: 0x00 :: 0x00 :: rest) = .UTF_32_LE_BOM) := by
  constructor
  · intro bytes hlen p hp
    have hl : ¬ bytes.length < 4 := by omega
    have m1 := memcmp_eq_isPrefixOf bytes BOM_UTF8
    have m2 := memcmp_eq_isPrefixOf bytes BOM_UTF32_LE
    have m3 := memcmp_eq_isPrefixOf bytes BOM_UTF32_BE
    have m4 := memcmp_eq_isPrefixOf bytes BOM_UTF16_LE
    have m5 := memcmp_eq_isPrefixOf bytes BOM_UTF16_BE
    simp only [BOM_UTF8, BOM_UTF32_LE, BOM_UTF32_BE, BOM_UTF16_LE, BOM_UTF16_BE,
      List.length_cons, List.length_nil] at m1 m2 m3 m4 m5
    unfold detect_encoding
    simp only [hl, if_false, BOM_UTF8, BOM_UTF32_LE, BOM_UTF32_BE, BOM_UTF16_LE, BOM_UTF16_BE,
      m1, m2, m3, m4, m5]
    simp only [bom_order, List.find?] at hp
    cases h1 : [0xEF, 0xBB, 0xBF].isPrefixOf bytes
    · cases h2 : [0xFF, 0xFE, 0x00, 0x00].isPrefixOf bytes
      · cases h3 : [0x00, 0x00, 0xFE, 0xFF].isPrefixOf bytes
        · cases h4 : [0xFF, 0xFE].isPrefixOf bytes
          · cases h5 : [0xFE, 0xFF].isPrefixOf bytes
            · simp [h1, h2, h3, h4, h5] at hp
            · simp [h1, h2, h3, h4, h5] at hp ⊢; rw [← hp]
          · simp [h1, h2, h3, h4] at hp ⊢; rw [← hp]
        · simp [h1, h2, h3] at hp ⊢; rw [← hp]
      · simp [h1, h2] at hp ⊢; rw [← hp]
    · simp [h1] at hp ⊢; rw [← hp]
  · intro rest
    simp [detect_encoding, memcmp_eq, BOM_UTF8, BOM_UTF32_LE]

/-- The buffer `FF FE 00 00 5B 00 00 00` starts with both the UTF-32LE and the
UTF-16LE mark and is classified by the first. -/
theorem detect_encoding_first_bom_witness :
    4 ≤ [0xFF, 0xFE, 0x00, 0x00, 0x5B, 0x00, 0x00, 0x00].length ∧
      bom_order.find? (fun q => q.1.isPrefixOf [0xFF, 0xFE, 0x00, 0x00, 0x5B, 0x00, 0x00, 0x00])
        = some ([0xFF, 0xFE, 0x00, 0x00], Encoding.UTF_32_LE_BOM) ∧
      detect_encoding [0xFF, 0xFE, 0x00, 0x00, 0x5B, 0x00, 0x00, 0x00] = Encoding.UTF_32_LE_BOM :=
  ⟨by decide, by decide,
    detect_encoding_first_bom.1 [0xFF, 0xFE, 0x00, 0x00, 0x5B, 0x00, 0x00, 0x00] (by decide)
      ([0xFF, 0xFE, 0x00, 0x00], Encoding.UTF_32_LE_BOM) (by decide)⟩

end Jsonlib2

namespace Jsonlib2

/-! ## Whitespace between tokens -/

theorem skip_spaces_from_ws : ∀ (ws : List Nat), is_ws ws → ∀ (rest : List Nat) (i : Nat),
    skip_spaces_from (ws ++ rest) i = skip_spaces_from rest (i + ws.length)
  | [], _, rest, i => by simp
  | c :: ws, h, rest, i => by
    have hc : is_json_space c := h c (List.mem_cons_self _ _)
    have hc2 : c ≠ 0 ∧ (c = 0x09 ∨ c = 0x0A ∨ c = 0x0D ∨ c = 0x20) := by
      unfold is_json_space at hc; omega
    rw [List.cons_append, skip_spaces_from, if_pos hc2,
      skip_spaces_from_ws ws (fun x hx => h x (List.mem_cons_of_mem _ hx)) rest (i + 1)]
    simp only [List.length_cons]
    congr 1; omega

theorem skip_spaces_ws {F : Type} (d : Decoder F) (i sz : Nat) (ws rest : List Nat)
    (hws : is_ws ws) (h : d.start.drop i = ws ++ rest) :
    skip_spaces (d.moved i sz) = skip_spaces (d.moved (i + ws.length) sz) := by
  have h2 : d.start.drop (i + ws.length) = rest := drop_add_of_drop h
  simp only [skip_spaces, moved_start, moved_index, h, h2, skip_spaces_from_ws ws hws]
  rfl

theorem skip_spaces_ws_stop {F : Type} (d : Decoder F) (i sz : Nat) (ws : List Nat) {c : Nat}
    {t : List Nat} (hws : is_ws ws) (h : d.start.drop i = ws ++ c :: t)
    (hc : ¬ is_json_space c) :
    skip_spaces (d.moved i sz) = d.moved (i + ws.length) sz := by
  rw [skip_spaces_ws d i sz ws (c :: t) hws h]
  exact skip_spaces_moved_stop d (i + ws.length) sz (drop_add_of_drop h) hc

theorem skip_spaces_ws_end {F : Type} (d : Decoder F) (i sz : Nat) (ws : List Nat)
    (hws : is_ws ws) (h : d.start.drop i = ws) :
    skip_spaces (d.moved i sz) = d.moved (i + ws.length) sz := by
  have h' : d.start.drop i = ws ++ [] := by rw [h]; simp
  rw [skip_spaces_ws d i sz ws [] hws h']
  have h2 : d.start.drop (i + ws.length) = [] := drop_add_of_drop h'
  simp only [skip_spaces, moved_start, moved_index, h2, skip_spaces_from]
  rfl

theorem skip_spaces_idem {F : Type} (d : Decoder F) : skip_spaces (skip_spaces d) = skip_spaces d := by
  have key : ∀ (l : List Nat) (i : Nat) (buf : List Nat), buf.drop i = l →
      skip_spaces_from (buf.drop (skip_spaces_from l i)) (skip_spaces_from l i)
        = skip_spaces_from l i := by
    intro l
    induction l with
    | nil => intro i buf h; simp [skip_spaces_from, h]
    | cons c cs ih =>
      intro i buf h
      rw [skip_spaces_from]
      split_ifs with hc
      · exact ih (i + 1) buf (drop_add_of_drop (x := [c]) h)
      · rw [h, skip_spaces_from, if_neg hc]
  simp only [skip_spaces]
  congr 1
  exact key _ d.index d.start rfl

/-- The loops and `json_read` begin with `skip_spaces`, so they do the same from a
cursor before a run of whitespace and from the cursor after it. -/
theorem json_read_skip {F : Type} (host : Host F) (fuel : Nat) (d : Decoder F) :
    json_read host fuel d = json_read host fuel (skip_spaces d) := by
  cases fuel with
  | zero => rfl
  | succ f =>
    rw [json_read, json_read]
    simp only [skip_spaces_idem]

theorem read_array_impl_skip {F : Type} (host : Host F) (fuel : Nat) (acc : List (Value F))
    (start : Nat) (st : ParseArrayState) (d : Decoder F) :
    read_array_impl host fuel acc start st d
      = read_array_impl host fuel acc start st (skip_spaces d) := by
  cases fuel with
  | zero => rfl
  | succ f =>
    rw [read_array_impl, read_array_impl]
    simp only [skip_spaces_idem]

theorem read_object_impl_skip {F : Type} (host : Host F) (fuel : Nat)
    (acc : List (List Nat × Value F)) (key : Option (Value F)) (start : Nat)
    (st : ParseObjectState) (d : Decoder F) :
    read_object_impl host fuel acc key start st d
      = read_object_impl host fuel acc key start st (skip_spaces d) := by
  cases fuel with
  | zero => rfl
  | succ f =>
    rw [read_object_impl, read_object_impl]
    simp only [skip_spaces_idem]

theorem json_read_ws {F : Type} (host : Host F) (fuel : Nat) (d : Decoder F) (i sz : Nat)
    (ws rest : List Nat) (hws : is_ws ws) (h : d.start.drop i = ws ++ rest) :
    json_read host fuel (d.moved i sz) = json_read host fuel (d.moved (i + ws.length) sz) := by
  rw [json_read_skip, skip_spaces_ws d i sz ws rest hws h, ← json_read_skip]

theorem read_array_impl_ws {F : Type} (host : Host F) (fuel : Nat) (acc : List (Value F))
    (start : Nat) (st : ParseArrayState) (d : Decoder F) (i sz : Nat)
    (ws rest : List Nat) (hws : is_ws ws) (h : d.start.drop i = ws ++ rest) :
    read_array_impl host fuel acc start st (d.moved i sz)
      = read_array_impl host fuel acc start st (d.moved (i + ws.length) sz) := by
  rw [read_array_impl_skip, skip_spaces_ws d i sz ws rest hws h, ← read_array_impl_skip]

theorem read_object_impl_ws {F : Type} (host : Host F) (fuel : Nat)
    (acc : List (List Nat × Value F)) (key : Option (Value F)) (start : Nat)
    (st : ParseObjectState) (d : Decoder F) (i sz : Nat)
    (ws rest : List Nat) (hws : is_ws ws) (h : d.start.drop i = ws ++ rest) :
    read_object_impl host fuel acc key start st (d.moved i sz)
      = read_object_impl host fuel acc key start st (d.moved (i + ws.length) sz) := by
  rw [read_object_impl_skip, skip_spaces_ws d i sz ws rest hws h, ← read_object_impl_skip]

theorem is_ws_append {a b : List Nat} (ha : is_ws a) (hb : is_ws b) : is_ws (a ++ b) := by
  intro c hc
  rcases List.mem_append.1 hc with h | h
  · exact ha c h
  · exact hb c h

theorem number_stop_ws (ws rest : List Nat) (hws : is_ws ws) (h : number_stop rest) :
    number_stop (ws ++ rest) := by
  cases ws with
  | nil => exact h
  | cons c t =>
    have := hws c (List.mem_cons_self _ _)
    show ¬ is_number_char c
    unfold is_json_space at this
    unfold is_number_char
    omega

end Jsonlib2

namespace Jsonlib2

/-! ## Scalars of a JSON text -/

theorem keyword_texts_table {F : Type} (kw : List Nat) (h : kw ∈ keyword_texts) :
    ∃ v : Value F, (kw, v) ∈ keyword_table ∧ keyword_value kw = some v := by
  simp only [keyword_texts, List.mem_cons, List.mem_singleton, List.not_mem_nil, or_false] at h
  rcases h with rfl | rfl | rfl | rfl | rfl | rfl
  · exact ⟨.bool true, by simp [keyword_table], by simp [keyword_value, keyword_table]⟩
  · exact ⟨.bool false, by simp [keyword_table], by simp [keyword_value, keyword_table]⟩
  · exact ⟨.null, by simp [keyword_table], by simp [keyword_value, keyword_table]⟩
  · exact ⟨.float .nan, by simp [keyword_table], by simp [keyword_value, keyword_table]⟩
  · exact ⟨.float .inf, by simp [keyword_table], by simp [keyword_value, keyword_table]⟩
  · exact ⟨.float .neg_inf, by simp [keyword_table], by simp [keyword_value, keyword_table]⟩

theorem json_read_keyword_text {F : Type} (host : Host F) (d : Decoder F) (i sz fuel : Nat)
    (kw : List Nat) (hkw : kw ∈ keyword_texts) (v : Value F)
    (hv : (JText.keyword kw).value host d = some v) (rest : List Nat)
    (h : d.start.drop i = kw ++ rest) :
    json_read host (fuel + 1) (d.moved i sz) = .ok (v, d.moved (i + kw.length) sz) := by
  obtain ⟨v0, hmem, hval⟩ := keyword_texts_table (F := F) kw hkw
  simp only [JText.value] at hv
  cases hpc : d.parse_constant with
  | none =>
    rw [hpc] at hv
    simp only [hval, Option.some.injEq] at hv
    subst hv
    exact json_read_keyword_compare host d i sz fuel kw v0 v0 hmem rest h
      (keyword_compare_ok d i sz kw rest v0 hpc h)
  | some hook =>
    rw [hpc] at hv
    exact json_read_keyword_compare host d i sz fuel kw v0 v hmem rest h
      (keyword_compare_hook d i sz kw rest v0 hook v hpc hv h)

/-- A well-formed JSON text starts with a code unit that opens a value, and the
parser finds a value there. -/
theorem text_head (J : JText) (hwf : J.WF) :
    ∃ c t, J.text = c :: t ∧ value_start c ∧
      ∀ {F : Type} (d : Decoder F) (i sz : Nat) (rest : List Nat),
        d.start.drop i = J.text ++ rest → parser_find_next_value (d.moved i sz) = 0 := by
  have simple : ∀ (c : Nat) (t : List Nat), J.text = c :: t →
      (c = 0x22 ∨ c = 0x2D ∨ (0x30 ≤ c ∧ c ≤ 0x39) ∨ c = 0x5B ∨ c = 0x7B) →
      ∃ c t, J.text = c :: t ∧ value_start c ∧
        ∀ {F : Type} (d : Decoder F) (i sz : Nat) (rest : List Nat),
          d.start.drop i = J.text ++ rest → parser_find_next_value (d.moved i sz) = 0 := by
    intro c t hr hcc
    refine ⟨c, t, hr, by unfold value_start; omega, fun d i sz rest h => ?_⟩
    rw [hr] at h
    exact find_next_simple d i sz h hcc
  cases J with
  | keyword kw =>
    simp only [JText.WF, keyword_texts, List.mem_cons, List.mem_singleton, List.not_mem_nil,
      or_false] at hwf
    have keyword : kw ∈ [[0x74, 0x72, 0x75, 0x65], [0x66, 0x61, 0x6C, 0x73, 0x65],
        [0x6E, 0x75, 0x6C, 0x6C], [0x4E, 0x61, 0x4E],
        [0x49, 0x6E, 0x66, 0x69, 0x6E, 0x69, 0x74, 0x79]] →
        ∃ c t, (JText.keyword kw).text = c :: t ∧ value_start c ∧
          ∀ {F : Type} (d : Decoder F) (i sz : Nat) (rest : List Nat),
            d.start.drop i = (JText.keyword kw).text ++ rest →
              parser_find_next_value (d.moved i sz) = 0 := by
      intro hcc
      have hfn : ∀ {F : Type} (d : Decoder F) (i sz : Nat) (rest : List Nat),
          d.start.drop i = (JText.keyword kw).text ++ rest →
            parser_find_next_value (d.moved i sz) = 0 := by
        intro F d i sz rest h
        exact find_next_keyword d i sz kw rest hcc h
      simp only [List.mem_cons, List.mem_singleton, List.not_mem_nil, or_false] at hcc
      rcases hcc with e | e | e | e | e <;>
      · subst e
        exact ⟨_, _, rfl, by unfold value_start; omega, hfn⟩
    rcases hwf with e | e | e | e | e | e
    · exact keyword (by simp [e])
    · exact keyword (by simp [e])
    · exact keyword (by simp [e])
    · exact keyword (by simp [e])
    · exact keyword (by simp [e])
    · subst e
      exact simple 0x2D [0x49, 0x6E, 0x66, 0x69, 0x6E, 0x69, 0x74, 0x79] rfl (by omega)
  | number n =>
    simp only [JText.WF] at hwf
    obtain ⟨c, t, ht, hh⟩ := number_text_head n hwf.1
    refine simple c t (by simp only [JText.text, ht]) ?_
    unfold is_digit at hh
    rcases hh with hh | ⟨hh, _⟩ <;> omega
  | string toks => exact simple 0x22 (tokens_src toks ++ [0x22]) rfl (by omega)
  | array ws elems =>
    cases elems with
    | nil => exact simple 0x5B (ws ++ [0x5D]) (by simp [JText.text]) (by omega)
    | cons e rest =>
      obtain ⟨b, v, a⟩ := e
      exact simple 0x5B _ (by rw [JText.text]) (by omega)
  | object ws members =>
    cases members with
    | nil => exact simple 0x7B (ws ++ [0x7D]) (by simp [JText.text]) (by omega)
    | cons e rest =>
      obtain ⟨⟨b, key, m⟩, n, v, a⟩ := e
      exact simple 0x7B _ (by rw [JText.text]) (by omega)

end Jsonlib2

namespace Jsonlib2

/-! ## Steps over the elements of a JSON text -/

theorem drop_of_drop {buf x y : List Nat} {p : Nat} (h : buf.drop p = x ++ y) (q : Nat)
    (hq : q = p + x.length) : buf.drop q = y := by
  subst hq; exact drop_add_of_drop h

/-- An element of an array: whitespace, then a value that `json_read` reads. -/
theorem elem_step {F : Type} (host : Host F) (d : Decoder F) (p sz g start : Nat)
    (acc : List (Value F)) (st : ParseArrayState)
    (hst : st = .ARRAY_EMPTY ∨ st = .ARRAY_NEED_VALUE)
    (ws : List Nat) (hws : is_ws ws) (v : JText) (hwf : v.WF) (x : Value F) (rest : List Nat)
    (h : d.start.drop p = ws ++ (v.text ++ rest))
    (hv : ∀ sz0, ∃ sz1, json_read host g (d.moved (p + ws.length) sz0)
      = .ok (x, d.moved (p + ws.length + v.text.length) sz1)) :
    ∃ sz1, read_array_impl host (g + 1) acc start st (d.moved p sz)
      = read_array_impl host g (acc ++ [x]) start .ARRAY_GOT_VALUE
          (d.moved (p + ws.length + v.text.length) sz1) := by
  obtain ⟨c, t, hr, hvs, hp⟩ := text_head v hwf
  have h2 : d.start.drop (p + ws.length) = v.text ++ rest := drop_add_of_drop h
  have hc : d.start.drop p = ws ++ c :: (t ++ rest) := by rw [h, hr]; rfl
  have h2c : d.start.drop (p + ws.length) = c :: (t ++ rest) := by rw [h2, hr]; rfl
  rw [array_value_step host d p (p + ws.length) sz g start acc st c hst
    (skip_spaces_ws_stop d p sz ws hws hc (value_start_facts hvs).1)
    (by rw [code_at_of_drop_zero h2c]; rfl) hvs (hp d (p + ws.length) sz rest h2)]
  obtain ⟨sz1, hx⟩ := hv sz
  simp only [hx]
  exact ⟨sz1, rfl⟩

/-- A member of an object: whitespace, the key, whitespace, the colon,
whitespace, then a value that `json_read` reads. -/
theorem member_text_step {F : Type} (host : Host F) (d : Decoder F) (p sz g start : Nat)
    (acc : List (List Nat × Value F)) (ko : Option (Value F)) (st : ParseObjectState)
    (hst : st = .OBJECT_EMPTY ∨ st = .OBJECT_NEED_KEY)
    (b : List Nat) (hb : is_ws b) (key : List StrToken) (hkey : ∀ t ∈ key, t.WF)
    (m : List Nat) (hm : is_ws m) (n : List Nat) (hn : is_ws n) (v : JText) (hwf : v.WF)
    (x : Value F) (rest : List Nat)
    (h : d.start.drop p = b ++ (quoted key ++ (m ++ 0x3A :: (n ++ (v.text ++ rest)))))
    (hv : ∀ sz0, ∃ sz1,
      json_read host g (d.moved (p + b.length + (quoted key).length + m.length + 1 + n.length) sz0)
      = .ok (x, d.moved (p + b.length + (quoted key).length + m.length + 1 + n.length
          + v.text.length) sz1)) :
    ∃ sz1, read_object_impl host (g + 3) acc ko start st (d.moved p sz)
      = read_object_impl host g (PyDict_SetItem acc (key.map StrToken.val) x) none start
          .OBJECT_GOT_VALUE
          (d.moved (p + b.length + (quoted key).length + m.length + 1 + n.length
            + v.text.length) sz1) := by
  obtain ⟨c, t, hr, hvs, hp⟩ := text_head v hwf
  have h1 : d.start.drop (p + b.length) = quoted key ++ (m ++ 0x3A :: (n ++ (v.text ++ rest))) :=
    drop_add_of_drop h
  have h2 : d.start.drop (p + b.length + (quoted key).length)
      = m ++ 0x3A :: (n ++ (v.text ++ rest)) := drop_add_of_drop h1
  have h3 : d.start.drop (p + b.length + (quoted key).length + m.length)
      = 0x3A :: (n ++ (v.text ++ rest)) := drop_add_of_drop h2
  have h4 : d.start.drop (p + b.length + (quoted key).length + m.length + 1)
      = n ++ (v.text ++ rest) := drop_add_of_drop (x := [0x3A]) h3
  have h5 : d.start.drop (p + b.length + (quoted key).length + m.length + 1 + n.length)
      = v.text ++ rest := drop_add_of_drop h4
  have hq : d.start.drop p
      = b ++ 0x22 :: (tokens_src key ++ [0x22] ++ (m ++ 0x3A :: (n ++ (v.text ++ rest)))) := by
    rw [h]; simp [quoted]
  have h1q : d.start.drop (p + b.length)
      = 0x22 :: (tokens_src key ++ 0x22 :: (m ++ 0x3A :: (n ++ (v.text ++ rest)))) := by
    rw [h1]; simp [quoted]
  have h4c : d.start.drop (p + b.length + (quoted key).length + m.length + 1)
      = n ++ c :: (t ++ rest) := by rw [h4, hr]; rfl
  have h5c : d.start.drop (p + b.length + (quoted key).length + m.length + 1 + n.length)
      = c :: (t ++ rest) := by rw [h5, hr]; rfl
  rw [object_key_step host d p (p + b.length) sz (g + 2) start acc ko st hst
    (skip_spaces_ws_stop d p sz b hb hq (by unfold is_json_space; omega))
    (by rw [code_at_of_drop_zero h1q]; rfl)]
  have hs := json_read_str host d (p + b.length) sz (g + 1) key hkey _ h1q
  simp only [hs]
  have hql : (0x22 :: (tokens_src key ++ [0x22])).length = (quoted key).length := rfl
  rw [hql, read_object_impl_ws host (g + 2) acc _ start _ d _ _ m _ hm h2,
    object_colon_step host d _ _ (g + 1) start acc _ _ h3,
    object_value_step host d _
      (p + b.length + (quoted key).length + m.length + 1 + n.length) _ g start acc
      (key.map StrToken.val) c
      (skip_spaces_ws_stop d _ _ n hn h4c (value_start_facts hvs).1)
      (by rw [code_at_of_drop_zero h5c]; rfl) hvs (hp d _ _ rest h5)]
  obtain ⟨sz1, hx⟩ := hv (scratch_after (d.moved (p + b.length) sz) (tokens_src key))
  simp only [hx]
  exact ⟨sz1, rfl⟩

theorem elems_tail_length (elems : List (List Nat × JText × List Nat)) :
    elems.length ≤ (elems_tail_text elems).length := by
  induction elems with
  | nil => simp
  | cons e rest ih =>
    obtain ⟨b, v, a⟩ := e
    simp only [elems_tail_text, List.length_cons, List.length_append, List.cons_append]
    omega

theorem members_tail_length
    (members : List ((List Nat × List StrToken × List Nat) × (List Nat × JText × List Nat))) :
    4 * members.length ≤ (members_tail_text members).length := by
  induction members with
  | nil => simp
  | cons e rest ih =>
    obtain ⟨⟨b, key, m⟩, n, v, a⟩ := e
    simp only [members_tail_text, quoted, List.length_cons, List.length_append, List.cons_append,
      List.length_nil]
    omega

theorem stop_bracket (c : Nat) (rest : List Nat) (hc : c = 0x5D ∨ c = 0x7D ∨ c = 0x2C) :
    number_stop (c :: rest) := by
  show ¬ is_number_char c
  unfold is_number_char; omega

theorem elems_tail_stop (elems : List (List Nat × JText × List Nat)) (rest : List Nat)
    (h : number_stop rest) : number_stop (elems_tail_text elems ++ rest) := by
  cases elems with
  | nil => exact h
  | cons e more =>
    obtain ⟨b, v, a⟩ := e
    simp only [elems_tail_text, List.cons_append]
    exact stop_bracket _ _ (by omega)

theorem members_tail_stop
    (members : List ((List Nat × List StrToken × List Nat) × (List Nat × JText × List Nat)))
    (rest : List Nat) (h : number_stop rest) :
    number_stop (members_tail_text members ++ rest) := by
  cases members with
  | nil => exact h
  | cons e more =>
    obtain ⟨⟨b, key, m⟩, n, v, a⟩ := e
    simp only [members_tail_text, List.cons_append]
    exact stop_bracket _ _ (by omega)

end Jsonlib2

namespace Jsonlib2

/-! ## The decoder on well-formed JSON texts -/

theorem json_read_scalar_text {F : Type} (host : Host F) (d : Decoder F) (J : JText)
    (hwf : J.WF) (v : Value F) (hv : J.value host d = some v)
    (hsc : (∃ kw, J = .keyword kw) ∨ (∃ n, J = .number n) ∨ (∃ toks, J = .string toks))
    (fuel i sz : Nat) (rest : List Nat)
    (h : d.start.drop i = J.text ++ rest) (hstop : number_stop rest)
    (hfuel : 2 * J.text.length ≤ fuel) :
    ∃ sz', json_read host fuel (d.moved i sz) = .ok (v, d.moved (i + J.text.length) sz') := by
  obtain ⟨c, t, hr, _, _⟩ := text_head J hwf
  have hpos : 1 ≤ fuel := by
    rw [hr] at hfuel; simp only [List.length_cons] at hfuel; omega
  obtain ⟨g, rfl⟩ : ∃ g, fuel = g + 1 := ⟨fuel - 1, by omega⟩
  rcases hsc with ⟨kw, rfl⟩ | ⟨n, rfl⟩ | ⟨toks, rfl⟩
  · simp only [JText.WF] at hwf
    exact ⟨sz, json_read_keyword_text host d i sz g kw hwf v hv rest h⟩
  · simp only [JText.WF] at hwf
    simp only [JText.value] at hv
    exact ⟨sz, json_read_number host d n hwf.1 hwf.2 rest hstop i sz g h v hv⟩
  · simp only [JText.WF] at hwf
    simp only [JText.value, Option.some.injEq] at hv
    subst hv
    have h' : d.start.drop i = 0x22 :: (tokens_src toks ++ 0x22 :: rest) := by
      rw [h]; simp [JText.text, quoted]
    exact ⟨_, json_read_str host d i sz g toks hwf rest h'⟩

mutual

/-- `json_read` on a well-formed JSON text returns the value the text denotes
and leaves the cursor right after the text. -/
theorem json_read_text {F : Type} (host : Host F) (d : Decoder F) :
    ∀ (J : JText), J.WF → ∀ (v : Value F), J.value host d = some v →
      ∀ (fuel i sz : Nat) (rest : List Nat),
      d.start.drop i = J.text ++ rest → number_stop rest → 2 * J.text.length ≤ fuel →
      ∃ sz', json_read host fuel (d.moved i sz) = .ok (v, d.moved (i + J.text.length) sz')
  | .keyword kw, hwf, v, hv, fuel, i, sz, rest, h, hstop, hfuel =>
    json_read_scalar_text host d _ hwf v hv (Or.inl ⟨kw, rfl⟩) fuel i sz rest h hstop hfuel
  | .number n, hwf, v, hv, fuel, i, sz, rest, h, hstop, hfuel =>
    json_read_scalar_text host d _ hwf v hv (Or.inr (Or.inl ⟨n, rfl⟩)) fuel i sz rest h hstop
      hfuel
  | .string toks, hwf, v, hv, fuel, i, sz, rest, h, hstop, hfuel =>
    json_read_scalar_text host d _ hwf v hv (Or.inr (Or.inr ⟨toks, rfl⟩)) fuel i sz rest h hstop
      hfuel
  | .array ws [], hwf, v, hv, fuel, i, sz, rest, h, _, hfuel => by
    simp only [JText.WF] at hwf
    simp only [JText.value, elems_values, Option.map_some', Option.some.injEq] at hv
    subst hv
    have hlen : (JText.array ws []).text.length = 1 + ws.length + 1 := by
      simp [JText.text]; omega
    rw [hlen] at hfuel ⊢
    have h1 : d.start.drop i = 0x5B :: (ws ++ 0x5D :: rest) := by
      rw [h]; simp [JText.text]
    have h2 : d.start.drop (i + 1) = ws ++ 0x5D :: rest := drop_add_of_drop (x := [0x5B]) h1
    have h3 : d.start.drop (i + 1 + ws.length) = 0x5D :: rest := drop_add_of_drop h2
    obtain ⟨g, rfl⟩ : ∃ g, fuel = g + 2 := ⟨fuel - 2, by omega⟩
    rw [json_read_arr host d i sz (g + 1) _ h1,
      read_array_impl_ws host (g + 1) [] i _ d (i + 1) sz ws _ hwf.1 h2,
      array_close_step host d (i + 1 + ws.length) sz g i [] _ rest (Or.inl rfl) h3]
    refine ⟨sz, ?_⟩
    have e : i + 1 + ws.length + 1 = i + (1 + ws.length + 1) := by omega
    rw [e]
  | .array ws ((b, x, a) :: more), hwf, v, hv, fuel, i, sz, rest, h, _, hfuel => by
    simp only [JText.WF, elems_WF] at hwf
    obtain ⟨hws, hb, hx, ha, hmore⟩ := hwf
    simp only [JText.value, elems_values] at hv
    cases hxv : x.value host d with
    | none => simp [hxv] at hv
    | some xv =>
      cases hmv : elems_values host d more with
      | none => simp [hxv, hmv] at hv
      | some mv =>
        simp only [hxv, hmv, Option.map_some', Option.some.injEq] at hv
        subst hv
        have hlen : (JText.array ws ((b, x, a) :: more)).text.length
            = 1 + (ws ++ b).length + x.text.length + a.length
              + (elems_tail_text more).length + 1 := by
          simp [JText.text]; omega
        rw [hlen] at hfuel ⊢
        have hn := elems_tail_length more
        have h1 : d.start.drop i = 0x5B :: ((ws ++ b) ++ (x.text ++ (a ++
            (elems_tail_text more ++ 0x5D :: rest)))) := by
          rw [h]; simp [JText.text]
        have h2 : d.start.drop (i + 1) = (ws ++ b) ++ (x.text ++ (a ++
            (elems_tail_text more ++ 0x5D :: rest))) := drop_add_of_drop (x := [0x5B]) h1
        have h3 : d.start.drop (i + 1 + (ws ++ b).length) = x.text ++ (a ++
            (elems_tail_text more ++ 0x5D :: rest)) := drop_add_of_drop h2
        have h4 : d.start.drop (i + 1 + (ws ++ b).length + x.text.length) = a ++
            (elems_tail_text more ++ 0x5D :: rest) := drop_add_of_drop h3
        have h5 : d.start.drop (i + 1 + (ws ++ b).length + x.text.length + a.length)
            = elems_tail_text more ++ 0x5D :: rest := drop_add_of_drop h4
        have h6 : d.start.drop (i + 1 + (ws ++ b).length + x.text.length + a.length
            + (elems_tail_text more).length) = 0x5D :: rest := drop_add_of_drop h5
        obtain ⟨g, rfl⟩ : ∃ g, fuel = g + 2 := ⟨fuel - 2, by omega⟩
        rw [json_read_arr host d i sz (g + 1) _ h1]
        obtain ⟨sz1, he⟩ := elem_step host d (i + 1) sz g i [] .ARRAY_EMPTY (Or.inl rfl)
          (ws ++ b) (is_ws_append hws hb) x hx xv _ h2
          (fun sz0 => json_read_text host d x hx xv hxv g _ sz0 _ h3
            (number_stop_ws a _ ha (elems_tail_stop more _ (stop_bracket _ _ (by omega))))
            (by omega))
        rw [he, read_array_impl_ws host g _ i _ d _ sz1 a _ ha h4]
        obtain ⟨sz2, hs⟩ := elems_tail_sim host d more hmore mv hmv g ([] ++ [xv]) i _ sz1
          (0x5D :: rest) h5 (stop_bracket _ _ (by omega)) (by omega)
        rw [hs]
        obtain ⟨k, hk⟩ : ∃ k, g - 2 * more.length = k + 1 :=
          ⟨g - 2 * more.length - 1, by omega⟩
        rw [hk, array_close_step host d _ sz2 k i _ _ rest (Or.inr rfl) h6]
        refine ⟨sz2, ?_⟩
        have e : i + 1 + (ws ++ b).length + x.text.length + a.length
            + (elems_tail_text more).length + 1
            = i + (1 + (ws ++ b).length + x.text.length + a.length
              + (elems_tail_text more).length + 1) := by omega
        rw [e]
        rfl
  | .object ws [], hwf, v, hv, fuel, i, sz, rest, h, _, hfuel => by
    simp only [JText.WF] at hwf
    simp only [JText.value, members_values, Option.map_some', Option.some.injEq] at hv
    subst hv
    have hlen : (JText.object ws []).text.length = 1 + ws.length + 1 := by
      simp [JText.text]; omega
    rw [hlen] at hfuel ⊢
    have h1 : d.start.drop i = 0x7B :: (ws ++ 0x7D :: rest) := by
      rw [h]; simp [JText.text]
    have h2 : d.start.drop (i + 1) = ws ++ 0x7D :: rest := drop_add_of_drop (x := [0x7B]) h1
    have h3 : d.start.drop (i + 1 + ws.length) = 0x7D :: rest := drop_add_of_drop h2
    obtain ⟨g, rfl⟩ : ∃ g, fuel = g + 2 := ⟨fuel - 2, by omega⟩
    rw [json_read_obj host d i sz (g + 1) _ h1,
      read_object_impl_ws host (g + 1) [] none i _ d (i + 1) sz ws _ hwf.1 h2,
      object_close_step host d (i + 1 + ws.length) sz g i [] none _ rest (Or.inl rfl) h3]
    refine ⟨sz, ?_⟩
    have e : i + 1 + ws.length + 1 = i + (1 + ws.length + 1) := by omega
    rw [e]
    rfl
  | .object ws (((b, key, m), (n, x, a)) :: more), hwf, v, hv, fuel, i, sz, rest, h, _,
      hfuel => by
    simp only [JText.WF, members_WF] at hwf
    obtain ⟨hws, hb, hkey, hm, hn, hx, ha, hmore⟩ := hwf
    simp only [JText.value, members_values] at hv
    cases hxv : x.value host d with
    | none => simp [hxv] at hv
    | some xv =>
      cases hmv : members_values host d more with
      | none => simp [hxv, hmv] at hv
      | some mv =>
        simp only [hxv, hmv, Option.map_some', Option.some.injEq] at hv
        subst hv
        have hlen : (JText.object ws (((b, key, m), (n, x, a)) :: more)).text.length
            = 1 + (ws ++ b).length + (quoted key).length + m.length + 1 + n.length
              + x.text.length + a.length + (members_tail_text more).length + 1 := by
          simp [JText.text]; omega
        rw [hlen] at hfuel ⊢
        have hnl := members_tail_length more
        have h1 : d.start.drop i = 0x7B :: ((ws ++ b) ++ (quoted key ++ (m ++ 0x3A :: (n ++
            (x.text ++ (a ++ (members_tail_text more ++ 0x7D :: rest))))))) := by
          rw [h]; simp [JText.text]
        have h2 : d.start.drop (i + 1) = (ws ++ b) ++ (quoted key ++ (m ++ 0x3A :: (n ++
            (x.text ++ (a ++ (members_tail_text more ++ 0x7D :: rest)))))) :=
          drop_add_of_drop (x := [0x7B]) h1
        have h3 : d.start.drop (i + 1 + (ws ++ b).length + (quoted key).length + m.length + 1
            + n.length) = x.text ++ (a ++ (members_tail_text more ++ 0x7D :: rest)) := by
          have a1 := drop_add_of_drop h2
          have a2 := drop_add_of_drop a1
          have a3 := drop_add_of_drop a2
          have a4 := drop_add_of_drop (x := [0x3A]) a3
          exact drop_add_of_drop a4
        have h4 : d.start.drop (i + 1 + (ws ++ b).length + (quoted key).length + m.length + 1
            + n.length + x.text.length) = a ++ (members_tail_text more ++ 0x7D :: rest) :=
          drop_add_of_drop h3
        have h5 : d.start.drop (i + 1 + (ws ++ b).length + (quoted key).length + m.length + 1
            + n.length + x.text.length + a.length)
            = members_tail_text more ++ 0x7D :: rest := drop_add_of_drop h4
        have h6 : d.start.drop (i + 1 + (ws ++ b).length + (quoted key).length + m.length + 1
            + n.length + x.text.length + a.length + (members_tail_text more).length)
            = 0x7D :: rest := drop_add_of_drop h5
        obtain ⟨g, rfl⟩ : ∃ g, fuel = g + 4 := ⟨fuel - 4, by omega⟩
        rw [json_read_obj host d i sz (g + 3) _ h1]
        obtain ⟨sz1, he⟩ := member_text_step host d (i + 1) sz g i [] none .OBJECT_EMPTY
          (Or.inl rfl) (ws ++ b) (is_ws_append hws hb) key hkey m hm n hn x hx xv _ h2
          (fun sz0 => json_read_text host d x hx xv hxv g _ sz0 _ h3
            (number_stop_ws a _ ha (members_tail_stop more _ (stop_bracket _ _ (by omega))))
            (by omega))
        rw [he, read_object_impl_ws host g _ none i _ d _ sz1 a _ ha h4]
        obtain ⟨sz2, hs⟩ := members_tail_sim host d more hmore mv hmv g
          (PyDict_SetItem [] (key.map StrToken.val) xv) i _ sz1
          (0x7D :: rest) h5 (stop_bracket _ _ (by omega)) (by omega)
        rw [hs]
        obtain ⟨k, hk⟩ : ∃ k, g - 4 * more.length = k + 1 :=
          ⟨g - 4 * more.length - 1, by omega⟩
        rw [hk, object_close_step host d _ sz2 k i _ none _ rest (Or.inr rfl) h6]
        refine ⟨sz2, ?_⟩
        have e : i + 1 + (ws ++ b).length + (quoted key).length + m.length + 1
            + n.length + x.text.length + a.length + (members_tail_text more).length + 1
            = i + (1 + (ws ++ b).length + (quoted key).length + m.length + 1 + n.length
              + x.text.length + a.length + (members_tail_text more).length + 1) := by omega
        rw [e]
        rfl

/-- From the state after a value of an array, the loop of `read_array_impl`
reads the elements that follow and is then in the same state after the last. -/
theorem elems_tail_sim {F : Type} (host : Host F) (d : Decoder F) :
    ∀ (elems : List (List Nat × JText × List Nat)), elems_WF elems →
      ∀ (vals : List (Value F)), elems_values host d elems = some vals →
      ∀ (fuel : Nat) (acc : List (Value F)) (start i sz : Nat) (rest : List Nat),
      d.start.drop i = elems_tail_text elems ++ rest → number_stop rest →
      2 * (elems_tail_text elems).length ≤ fuel →
      ∃ sz', read_array_impl host fuel acc start .ARRAY_GOT_VALUE (d.moved i sz)
        = read_array_impl host (fuel - 2 * elems.length) (acc ++ vals) start .ARRAY_GOT_VALUE
            (d.moved (i + (elems_tail_text elems).length) sz')
  | [], _, vals, hv, fuel, acc, start, i, sz, rest, _, _, _ => by
    simp only [elems_values, Option.some.injEq] at hv
    subst hv
    exact ⟨sz, by simp [elems_tail_text]⟩
  | (b, x, a) :: more, hwf, vals, hv, fuel, acc, start, i, sz, rest, h, hstop, hfuel => by
    simp only [elems_WF] at hwf
    obtain ⟨hb, hx, ha, hmore⟩ := hwf
    simp only [elems_values] at hv
    cases hxv : x.value host d with
    | none => simp [hxv] at hv
    | some xv =>
      cases hmv : elems_values host d more with
      | none => simp [hxv, hmv] at hv
      | some mv =>
        simp only [hxv, hmv, Option.some.injEq] at hv
        subst hv
        have hlen : (elems_tail_text ((b, x, a) :: more)).length
            = 1 + b.length + x.text.length + a.length + (elems_tail_text more).length := by
          simp [elems_tail_text]; omega
        rw [hlen] at hfuel ⊢
        have h1 : d.start.drop i = 0x2C :: (b ++ (x.text ++ (a ++
            (elems_tail_text more ++ rest)))) := by
          rw [h]; simp [elems_tail_text]
        have h2 : d.start.drop (i + 1) = b ++ (x.text ++ (a ++
            (elems_tail_text more ++ rest))) := drop_add_of_drop (x := [0x2C]) h1
        have h3 : d.start.drop (i + 1 + b.length) = x.text ++ (a ++
            (elems_tail_text more ++ rest)) := drop_add_of_drop h2
        have h4 : d.start.drop (i + 1 + b.length + x.text.length) = a ++
            (elems_tail_text more ++ rest) := drop_add_of_drop h3
        have h5 : d.start.drop (i + 1 + b.length + x.text.length + a.length)
            = elems_tail_text more ++ rest := drop_add_of_drop h4
        obtain ⟨g, rfl⟩ : ∃ g, fuel = g + 2 := ⟨fuel - 2, by omega⟩
        rw [array_comma_step host d i sz (g + 1) start acc _ h1]
        obtain ⟨sz1, he⟩ := elem_step host d (i + 1) sz g start acc .ARRAY_NEED_VALUE
          (Or.inr rfl) b hb x hx xv _ h2
          (fun sz0 => json_read_text host d x hx xv hxv g _ sz0 _ h3
            (number_stop_ws a _ ha (elems_tail_stop more _ hstop)) (by omega))
        rw [he, read_array_impl_ws host g _ start _ d _ sz1 a _ ha h4]
        obtain ⟨sz2, hs⟩ := elems_tail_sim host d more hmore mv hmv g (acc ++ [xv]) start _ sz1
          rest h5 hstop (by omega)
        rw [hs]
        refine ⟨sz2, ?_⟩
        have e1 : g + 2 - 2 * ((b, x, a) :: more).length = g - 2 * more.length := by
          simp only [List.length_cons]; omega
        have e2 : i + 1 + b.length + x.text.length + a.length + (elems_tail_text more).length
            = i + (1 + b.length + x.text.length + a.length + (elems_tail_text more).length) := by
          omega
        rw [e1, e2]
        simp

/-- From the state after a member of an object, the loop of `read_object_impl`
reads the members that follow and is then in the same state after the last. -/
theorem members_tail_sim {F : Type} (host : Host F) (d : Decoder F) :
    ∀ (members : List ((List Nat × List StrToken × List Nat) × (List Nat × JText × List Nat))),
      members_WF members →
      ∀ (kvs : List (List Nat × Value F)), members_values host d members = some kvs →
      ∀ (fuel : Nat) (acc : List (List Nat × Value F)) (start i sz : Nat) (rest : List Nat),
      d.start.drop i = members_tail_text members ++ rest → number_stop rest →
      2 * (members_tail_text members).length ≤ fuel →
      ∃ sz', read_object_impl host fuel acc none start .OBJECT_GOT_VALUE (d.moved i sz)
        = read_object_impl host (fuel - 4 * members.length)
            (kvs.foldl (fun acc kv => PyDict_SetItem acc kv.1 kv.2) acc) none start
            .OBJECT_GOT_VALUE (d.moved (i + (members_tail_text members).length) sz')
  | [], _, kvs, hv, fuel, acc, start, i, sz, rest, _, _, _ => by
    simp only [members_values, Option.some.injEq] at hv
    subst hv
    exact ⟨sz, by simp [members_tail_text]⟩
  | ((b, key, m), (n, x, a)) :: more, hwf, kvs, hv, fuel, acc, start, i, sz, rest, h, hstop,
      hfuel => by
    simp only [members_WF] at hwf
    obtain ⟨hb, hkey, hm, hn, hx, ha, hmore⟩ := hwf
    simp only [members_values] at hv
    cases hxv : x.value host d with
    | none => simp [hxv] at hv
    | some xv =>
      cases hmv : members_values host d more with
      | none => simp [hxv, hmv] at hv
      | some mv =>
        simp only [hxv, hmv, Option.some.injEq] at hv
        subst hv
        have hlen : (members_tail_text (((b, key, m), (n, x, a)) :: more)).length
            = 1 + b.length + (quoted key).length + m.length + 1 + n.length
              + x.text.length + a.length + (members_tail_text more).length := by
          simp [members_tail_text]; omega
        rw [hlen] at hfuel ⊢
        have hkl : 2 ≤ (quoted key).length := by simp [quoted]
        have h1 : d.start.drop i = 0x2C :: (b ++ (quoted key ++ (m ++ 0x3A :: (n ++
            (x.text ++ (a ++ (members_tail_text more ++ rest))))))) := by
          rw [h]; simp [members_tail_text]
        have h2 : d.start.drop (i + 1) = b ++ (quoted key ++ (m ++ 0x3A :: (n ++
            (x.text ++ (a ++ (members_tail_text more ++ rest)))))) :=
          drop_add_of_drop (x := [0x2C]) h1
        have h3 : d.start.drop (i + 1 + b.length + (quoted key).length + m.length + 1
            + n.length) = x.text ++ (a ++ (members_tail_text more ++ rest)) := by
          have a1 := drop_add_of_drop h2
          have a2 := drop_add_of_drop a1
          have a3 := drop_add_of_drop a2
          have a4 := drop_add_of_drop (x := [0x3A]) a3
          exact drop_add_of_drop a4
        have h4 : d.start.drop (i + 1 + b.length + (quoted key).length + m.length + 1
            + n.length + x.text.length) = a ++ (members_tail_text more ++ rest) :=
          drop_add_of_drop h3
        have h5 : d.start.drop (i + 1 + b.length + (quoted key).length + m.length + 1
            + n.length + x.text.length + a.length)
            = members_tail_text more ++ rest := drop_add_of_drop h4
        obtain ⟨g, rfl⟩ : ∃ g, fuel = g + 4 := ⟨fuel - 4, by omega⟩
        rw [object_comma_step host d i sz (g + 3) start acc none _ h1]
        obtain ⟨sz1, he⟩ := member_text_step host d (i + 1) sz g start acc none .OBJECT_NEED_KEY
          (Or.inr rfl) b hb key hkey m hm n hn x hx xv _ h2
          (fun sz0 => json_read_text host d x hx xv hxv g _ sz0 _ h3
            (number_stop_ws a _ ha (members_tail_stop more _ hstop)) (by omega))
        rw [he, read_object_impl_ws host g _ none start _ d _ sz1 a _ ha h4]
        obtain ⟨sz2, hs⟩ := members_tail_sim host d more hmore mv hmv g
          (PyDict_SetItem acc (key.map StrToken.val) xv) start _ sz1 rest h5 hstop (by omega)
        rw [hs]
        refine ⟨sz2, ?_⟩
        have e1 : g + 4 - 4 * (((b, key, m), (n, x, a)) :: more).length
            = g - 4 * more.length := by
          simp only [List.length_cons]; omega
        have e2 : i + 1 + b.length + (quoted key).length + m.length + 1 + n.length
            + x.text.length + a.length + (members_tail_text more).length
            = i + (1 + b.length + (quoted key).length + m.length + 1 + n.length
              + x.text.length + a.length + (members_tail_text more).length) := by omega
        rw [e1, e2]
        simp

end

end Jsonlib2

namespace Jsonlib2

/-! ## Decoding a well-formed JSON text -/

/-- The decoder `_read_entry` starts from. -/
theorem read_entry_decoder {F : Type} (host : Host F) (text : List Nat)
    (pf pi pc : Option (List Nat → Option (Value F))) :
    _read_entry host text pf pi pc
      = match json_read host (read_fuel text)
          ((Decoder.mk text 0 0 pf pi pc).moved 0 0) with
        | .error e => .error e
        | .ok (result, decoder) =>
          if (skip_spaces decoder).index < (skip_spaces decoder).start.length then
            .error (set_error_simple (skip_spaces decoder).index
              "Extra data after JSON expression.")
          else .ok result := rfl

/-- `_read_entry` on a well-formed JSON text with whitespace around it returns
the value the text denotes. -/
theorem read_entry_text {F : Type} (host : Host F)
    (pf pi pc : Option (List Nat → Option (Value F))) (ws1 ws2 : List Nat) (J : JText)
    (h1 : is_ws ws1) (h2 : is_ws ws2) (hwf : J.WF) (v : Value F)
    (hv : J.value host (Decoder.mk (ws1 ++ J.text ++ ws2) 0 0 pf pi pc) = some v) :
    _read_entry host (ws1 ++ J.text ++ ws2) pf pi pc = .ok v := by
  have hd : (Decoder.mk (ws1 ++ J.text ++ ws2) 0 0 pf pi pc).start.drop 0
      = ws1 ++ (J.text ++ ws2) := by simp
  have hd2 := drop_add_of_drop hd
  have hd3 := drop_add_of_drop hd2
  obtain ⟨sz, hj⟩ := json_read_text host _ J hwf v hv (read_fuel (ws1 ++ J.text ++ ws2))
    (0 + ws1.length) 0 ws2 hd2 (by simpa using number_stop_ws ws2 [] h2 trivial)
    (by unfold read_fuel; simp only [List.length_append]; omega)
  rw [read_entry_decoder, json_read_ws host _ _ 0 0 ws1 _ h1 hd, hj]
  simp only [skip_spaces_ws_end _ _ sz ws2 h2 hd3, moved_index, moved_start]
  rw [if_neg (by simp only [List.length_append]; omega)]

end Jsonlib2

namespace Jsonlib2

/-! ## Duplicate keys -/

theorem lookup_SetItem {F : Type} (k : List Nat) (v : Value F) (q : List Nat) :
    ∀ (acc : List (List Nat × Value F)),
      (PyDict_SetItem acc k v).lookup q = if q = k then some v else acc.lookup q
  | [] => by
    simp only [PyDict_SetItem, List.lookup_cons, List.lookup_nil]
    by_cases e : q = k
    · simp [e]
    · have : (q == k) = false := by simpa using e
      simp [e, this]
  | (k2, v2) :: rest => by
    rw [PyDict_SetItem]
    by_cases e2 : k2 = k
    · rw [if_pos e2]
      subst e2
      simp only [List.lookup_cons]
      by_cases e : q = k2
      · simp [e]
      · have : (q == k2) = false := by simpa using e
        simp [e, this]
    · rw [if_neg e2]
      simp only [List.lookup_cons]
      by_cases e : q = k2
      · subst e
        have : ¬ (q = k) := e2
        simp [this]
      · have hq : (q == k2) = false := by simpa using e
        simp only [hq]
        exact lookup_SetItem k v q rest

theorem keys_SetItem {F : Type} (k : List Nat) (v : Value F) :
    ∀ (acc : List (List Nat × Value F)),
      (PyDict_SetItem acc k v).map Prod.fst
        = if k ∈ acc.map Prod.fst then acc.map Prod.fst else acc.map Prod.fst ++ [k]
  | [] => by simp [PyDict_SetItem]
  | (k2, v2) :: rest => by
    rw [PyDict_SetItem]
    by_cases e2 : k2 = k
    · subst e2; simp
    · rw [if_neg e2]
      simp only [List.map_cons, keys_SetItem k v rest, List.mem_cons]
      have : ¬ (k = k2) := fun e => e2 e.symm
      by_cases hm : k ∈ rest.map Prod.fst
      · simp [hm]
      · simp [hm, this]

theorem nodup_SetItem {F : Type} (k : List Nat) (v : Value F) (acc : List (List Nat × Value F))
    (h : (acc.map Prod.fst).Nodup) : ((PyDict_SetItem acc k v).map Prod.fst).Nodup := by
  rw [keys_SetItem]
  split_ifs with hm
  · exact h
  · exact List.nodup_append.2 ⟨h, List.nodup_singleton k, by
      intro x hx hx2
      simp only [List.mem_singleton] at hx2
      subst hx2
      exact hm hx⟩

theorem foldl_SetItem {F : Type} : ∀ (kvs acc : List (List Nat × Value F)),
    ((kvs.foldl (fun acc kv => PyDict_SetItem acc kv.1 kv.2) acc).map Prod.fst).Nodup ∨
      ¬ (acc.map Prod.fst).Nodup
  | [], acc => by
    by_cases h : (acc.map Prod.fst).Nodup
    · exact Or.inl h
    · exact Or.inr h
  | kv :: rest, acc => by
    by_cases h : (acc.map Prod.fst).Nodup
    · rcases foldl_SetItem rest (PyDict_SetItem acc kv.1 kv.2) with r | r
      · exact Or.inl r
      · exact absurd (nodup_SetItem kv.1 kv.2 acc h) r
    · exact Or.inr h

theorem lookup_foldl_SetItem {F : Type} (q : List Nat) :
    ∀ (kvs acc : List (List Nat × Value F)),
      (kvs.foldl (fun acc kv => PyDict_SetItem acc kv.1 kv.2) acc).lookup q
        = (kvs.reverse.lookup q).or (acc.lookup q)
  | [], acc => by simp
  | (k, v) :: rest, acc => by
    rw [List.foldl_cons, lookup_foldl_SetItem q rest, lookup_SetItem, List.reverse_cons,
      List.lookup_append]
    cases rest.reverse.lookup q with
    | some x => simp
    | none =>
      simp only [Option.none_or, List.lookup_cons, List.lookup_nil]
      by_cases e : q = k
      · simp [e]
      · have : (q == k) = false := by simpa using e
        simp [e, this]

/-- C16: decoding a well-formed object text, whatever keys repeat in it,
succeeds; the result is a mapping (its keys are pairwise distinct) that gives
every key the value of its last occurrence in the text. -/
theorem duplicate_keys_last_wins {F : Type} (host : Host F)
    (pf pi pc : Option (List Nat → Option (Value F))) (ws1 ws2 ws : List Nat)
    (members : List ((List Nat × List StrToken × List Nat) × (List Nat × JText × List Nat)))
    (h1 : is_ws ws1) (h2 : is_ws ws2) (hwf : (JText.object ws members).WF)
    (kvs : List (List Nat × Value F))
    (hv : members_values host
      (entry_decoder (ws1 ++ (JText.object ws members).text ++ ws2) pf pi pc) members
        = some kvs) :
    _read_entry host (ws1 ++ (JText.object ws members).text ++ ws2) pf pi pc
        = .ok (.obj (dict_of_members kvs)) ∧
      ((dict_of_members kvs).map Prod.fst).Nodup ∧
      ∀ key, (dict_of_members kvs).lookup key = kvs.reverse.lookup key := by
  refine ⟨?_, ?_, ?_⟩
  · refine read_entry_text host pf pi pc ws1 ws2 _ h1 h2 hwf _ ?_
    have hv2 : members_values host
        (Decoder.mk (ws1 ++ (JText.object ws members).text ++ ws2) 0 0 pf pi pc) members
        = some kvs := hv
    simp only [JText.value, hv2, Option.map_some']
  · rcases foldl_SetItem kvs ([] : List (List Nat × Value F)) with r | r
    · exact r
    · exact absurd List.nodup_nil r
  · intro key
    unfold dict_of_members
    rw [lookup_foldl_SetItem]
    simp

/-- The object `{"a":true,"b":null,"a":false}`: the key `a` ends with the value
of its second occurrence. -/
theorem duplicate_keys_last_wins_witness :
    _read_entry example_host
        ([] ++ (JText.object []
          [(([], [StrToken.plain 0x61], []), ([], JText.keyword [0x74, 0x72, 0x75, 0x65], [])),
           (([], [StrToken.plain 0x62], []), ([], JText.keyword [0x6E, 0x75, 0x6C, 0x6C], [])),
           (([], [StrToken.plain 0x61], []),
            ([], JText.keyword [0x66, 0x61, 0x6C, 0x73, 0x65], []))]).text ++ [])
        none none none
      = .ok (.obj (dict_of_members
          [([0x61], Value.bool true), ([0x62], Value.null), ([0x61], Value.bool false)])) ∧
    dict_of_members
        [([0x61], Value.bool true), ([0x62], (Value.null : Value Bool)),
         ([0x61], Value.bool false)]
      = [([0x61], Value.bool false), ([0x62], Value.null)] :=
  ⟨(duplicate_keys_last_wins example_host none none none [] [] []
      [(([], [StrToken.plain 0x61], []), ([], JText.keyword [0x74, 0x72, 0x75, 0x65], [])),
       (([], [StrToken.plain 0x62], []), ([], JText.keyword [0x6E, 0x75, 0x6C, 0x6C], [])),
       (([], [StrToken.plain 0x61], []), ([], JText.keyword [0x66, 0x61, 0x6C, 0x73, 0x65], []))]
      (by simp [is_ws]) (by simp [is_ws])
      (by simp [JText.WF, is_ws, members_WF, StrToken.WF, keyword_texts])
      [([0x61], Value.bool true), ([0x62], Value.null), ([0x61], Value.bool false)]
      rfl).1, rfl⟩

end Jsonlib2

namespace Jsonlib2

/-! ## The decoder never changes the text -/

theorem keyword_compare_start {F : Type} (d : Decoder F) (kw : List Nat) (rv v : Value F)
    (d2 : Decoder F) (h : keyword_compare d kw rv = some (v, d2)) : d2.start = d.start := by
  simp only [keyword_compare] at h
  split_ifs at h
  · split at h
    · split at h
      · simp at h
      · simp only [Option.some.injEq, Prod.mk.injEq] at h
        rw [← h.2]
    · simp only [Option.some.injEq, Prod.mk.injEq] at h
      rw [← h.2]

theorem read_string_start {F : Type} (host : Host F) (d : Decoder F) (s : List Nat)
    (d2 : Decoder F) (h : read_string host d = .ok (s, d2)) : d2.start = d.start := by
  simp only [read_string] at h
  split_ifs at h
  · simp only [Except.ok.injEq, Prod.mk.injEq] at h
    rw [← h.2]
  · split at h
    · simp at h
    · split_ifs at h
      · simp only [read_string_full] at h
        split at h
        · simp at h
        · simp only [Except.ok.injEq, Prod.mk.injEq] at h
          rw [← h.2]
          split_ifs <;> rfl
      · simp only [Except.ok.injEq, Prod.mk.injEq] at h
        rw [← h.2]

theorem read_number_start {F : Type} (host : Host F) (d : Decoder F) (o : Value F)
    (d2 : Decoder F) (h : read_number host d = .ok (o, d2)) : d2.start = d.start := by
  unfold read_number at h
  split at h
  · simp at h
  · simp only at h
    split at h
    · simp at h
    · simp only [Except.ok.injEq, Prod.mk.injEq] at h
      rw [← h.2]

theorem skip_spaces_start {F : Type} (d : Decoder F) : (skip_spaces d).start = d.start := rfl

theorem keyword_case_start {F : Type} (d d0 : Decoder F) (kw : List Nat) (rv v : Value F)
    (d2 : Decoder F) (other : Except DecodeError (Value F × Decoder F))
    (hd : d.start = d0.start)
    (ho : other = .ok (v, d2) → d2.start = d0.start)
    (h : (match keyword_compare d kw rv with
      | some r => Except.ok r
      | none => other) = .ok (v, d2)) : d2.start = d0.start := by
  cases hk : keyword_compare d kw rv with
  | none => rw [hk] at h; exact ho h
  | some r =>
    rw [hk] at h
    simp only [Except.ok.injEq] at h
    subst h
    rw [keyword_compare_start d kw rv v d2 hk, hd]

theorem start_preserved {F : Type} (host : Host F) : ∀ (fuel : Nat),
    (∀ (d : Decoder F) v d2, json_read host fuel d = .ok (v, d2) → d2.start = d.start) ∧
    (∀ acc start st (d : Decoder F) r d2,
      read_array_impl host fuel acc start st d = .ok (r, d2) → d2.start = d.start) ∧
    (∀ acc key start st (d : Decoder F) r d2,
      read_object_impl host fuel acc key start st d = .ok (r, d2) → d2.start = d.start)
  | 0 => by
    refine ⟨?_, ?_, ?_⟩
    · intro d v d2 h; simp [json_read] at h
    · intro acc start st d r d2 h; simp [read_array_impl] at h
    · intro acc key start st d r d2 h; simp [read_object_impl] at h
  | f + 1 => by
    obtain ⟨ihj, iha, iho⟩ := start_preserved host f
    refine ⟨?_, ?_, ?_⟩
    · intro d v d2 h
      rw [json_read] at h
      have hnum : read_number host (skip_spaces d) = .ok (v, d2) → d2.start = d.start :=
        fun hh => read_number_start host (skip_spaces d) v d2 hh
      have hbad : (Except.error (set_error_unexpected (skip_spaces d) (skip_spaces d).index
          "<valid thing>") : Except DecodeError (Value F × Decoder F)) = .ok (v, d2) →
          d2.start = d.start := fun hh => by simp at hh
      by_cases c0 : code_at (skip_spaces d).start (skip_spaces d).index = 0
      · simp [c0] at h
      simp only [c0, if_false] at h
      by_cases c1 : code_at (skip_spaces d).start (skip_spaces d).index = 0x7B
      · simp only [c1, if_true] at h
        split at h
        · simp at h
        · rename_i object d1 heq
          simp only [Except.ok.injEq, Prod.mk.injEq] at h
          rw [← h.2]
          have e := iho _ _ _ _ _ _ _ heq
          exact e
      simp only [c1, if_false] at h
      by_cases c2 : code_at (skip_spaces d).start (skip_spaces d).index = 0x5B
      · simp only [c2, if_true] at h
        split at h
        · simp at h
        · rename_i list d1 heq
          simp only [Except.ok.injEq, Prod.mk.injEq] at h
          rw [← h.2]
          have e := iha _ _ _ _ _ _ heq
          exact e
      simp only [c2, if_false] at h
      by_cases c3 : code_at (skip_spaces d).start (skip_spaces d).index = 0x22
      · simp only [c3, if_true] at h
        split at h
        · simp at h
        · rename_i s d1 heq
          simp only [Except.ok.injEq, Prod.mk.injEq] at h
          rw [← h.2]
          have e := read_string_start host _ s d1 heq
          exact e
      simp only [c3, if_false] at h
      by_cases c4 : code_at (skip_spaces d).start (skip_spaces d).index = 0x74
      · simp only [c4, if_true] at h
        exact keyword_case_start (skip_spaces d) d _ _ v d2 _ rfl hbad h
      simp only [c4, if_false] at h
      by_cases c5 : code_at (skip_spaces d).start (skip_spaces d).index = 0x66
      · simp only [c5, if_true] at h
        exact keyword_case_start (skip_spaces d) d _ _ v d2 _ rfl hbad h
      simp only [c5, if_false] at h
      by_cases c6 : code_at (skip_spaces d).start (skip_spaces d).index = 0x6E
      · simp only [c6, if_true] at h
        exact keyword_case_start (skip_spaces d) d _ _ v d2 _ rfl hbad h
      simp only [c6, if_false] at h
      by_cases c7 : code_at (skip_spaces d).start (skip_spaces d).index = 0x4E
      · simp only [c7, if_true] at h
        exact keyword_case_start (skip_spaces d) d _ _ v d2 _ rfl hbad h
      simp only [c7, if_false] at h
      by_cases c8 : code_at (skip_spaces d).start (skip_spaces d).index = 0x49
      · simp only [c8, if_true] at h
        exact keyword_case_start (skip_spaces d) d _ _ v d2 _ rfl hbad h
      simp only [c8, if_false] at h
      by_cases c9 : code_at (skip_spaces d).start (skip_spaces d).index = 0x2D
      · simp only [c9, if_true] at h
        exact keyword_case_start (skip_spaces d) d _ _ v d2 _ rfl hnum h
      simp only [c9, if_false] at h
      split_ifs at h
      all_goals exact hnum h
    · intro acc start st d r d2 h
      rw [read_array_impl] at h
      by_cases c0 : code_at (skip_spaces d).start (skip_spaces d).index = 0
      · simp [c0] at h
      simp only [c0, if_false] at h
      have hneed2 : (match json_read host f (skip_spaces d) with
            | .error e => .error e
            | .ok (value, d1) =>
              read_array_impl host f (acc ++ [value]) start .ARRAY_GOT_VALUE d1)
            = Except.ok (r, d2) → d2.start = d.start := by
        intro hh
        split at hh
        · simp at hh
        · rename_i value d1 heq
          have e1 := ihj _ _ _ heq
          have e2 := iha _ _ _ _ _ _ hh
          rw [e2, e1]; rfl
      have hneed : (if parser_find_next_value (skip_spaces d) = 0 then
            match json_read host f (skip_spaces d) with
            | .error e => .error e
            | .ok (value, d1) =>
              read_array_impl host f (acc ++ [value]) start .ARRAY_GOT_VALUE d1
          else .error (set_error_unexpected (skip_spaces d) (skip_spaces d).index
            "object in array")) = Except.ok (r, d2) → d2.start = d.start := by
        intro hh
        split_ifs at hh
        exact hneed2 hh
      cases st with
      | ARRAY_EMPTY =>
        simp only at h
        split_ifs at h
        · simp only [Except.ok.injEq, Prod.mk.injEq] at h
          rw [← h.2]; rfl
        · exact hneed2 h
      | ARRAY_NEED_VALUE => exact hneed h
      | ARRAY_GOT_VALUE =>
        simp only at h
        split_ifs at h
        · have e := iha _ _ _ _ _ _ h
          exact e
        · simp only [Except.ok.injEq, Prod.mk.injEq] at h
          rw [← h.2]; rfl
    · intro acc key start st d r d2 h
      rw [read_object_impl] at h
      by_cases c0 : code_at (skip_spaces d).start (skip_spaces d).index = 0
      · simp [c0] at h
      simp only [c0, if_false] at h
      have hkey2 : (match json_read host f (skip_spaces d) with
            | .error e => .error e
            | .ok (k, d1) =>
              read_object_impl host f acc (some k) start .OBJECT_NEED_COLON d1)
            = Except.ok (r, d2) → d2.start = d.start := by
        intro hh
        split at hh
        · simp at hh
        · rename_i k d1 heq
          have e1 := ihj _ _ _ heq
          have e2 := iho _ _ _ _ _ _ _ hh
          rw [e2, e1]; rfl
      have hkey : (if code_at (skip_spaces d).start (skip_spaces d).index ≠ 0x22 then
            .error (set_error_unexpected (skip_spaces d) (skip_spaces d).index "property name")
          else
            match json_read host f (skip_spaces d) with
            | .error e => .error e
            | .ok (k, d1) =>
              read_object_impl host f acc (some k) start .OBJECT_NEED_COLON d1)
            = Except.ok (r, d2) → d2.start = d.start := by
        intro hh
        split_ifs at hh
        exact hkey2 hh
      cases st with
      | OBJECT_EMPTY =>
        simp only at h
        split_ifs at h
        · simp only [Except.ok.injEq, Prod.mk.injEq] at h
          rw [← h.2]; rfl
        · exact hkey2 h
      | OBJECT_NEED_KEY => exact hkey h
      | OBJECT_NEED_COLON =>
        simp only at h
        split_ifs at h
        have e := iho _ _ _ _ _ _ _ h
        exact e
      | OBJECT_NEED_VALUE =>
        simp only at h
        split_ifs at h
        split at h
        · simp at h
        · rename_i value d1 heq
          have e1 := ihj _ _ _ heq
          split at h
          · have e2 := iho _ _ _ _ _ _ _ h
            rw [e2, e1]; rfl
          · simp at h
      | OBJECT_GOT_VALUE =>
        simp only at h
        split_ifs at h
        · have e := iho _ _ _ _ _ _ _ h
          exact e
        · simp only [Except.ok.injEq, Prod.mk.injEq] at h
          rw [← h.2]; rfl

end Jsonlib2

namespace Jsonlib2

/-! ## Trailing data -/

theorem ws_or_first_other : ∀ (l : List Nat),
    is_ws l ∨ ∃ ws c t, l = ws ++ c :: t ∧ is_ws ws ∧ ¬ is_json_space c
  | [] => Or.inl (fun c hc => by simp at hc)
  | x :: xs => by
    by_cases hx : is_json_space x
    · rcases ws_or_first_other xs with h | ⟨ws, c, t, h1, h2, h3⟩
      · left
        intro c hc
        rcases List.mem_cons.1 hc with r | r
        · rw [r]; exact hx
        · exact h c r
      · right
        refine ⟨x :: ws, c, t, by rw [h1]; rfl, ?_, h3⟩
        intro y hy
        rcases List.mem_cons.1 hy with r | r
        · rw [r]; exact hx
        · exact h2 y r
    · exact Or.inr ⟨[], x, xs, rfl, fun c hc => by simp at hc, hx⟩

theorem trailing_cases {F : Type} (host : Host F) (text : List Nat)
    (pf pi pc : Option (List Nat → Option (Value F))) (v : Value F) (d2 : Decoder F)
    (h : json_read host (read_fuel text) (entry_decoder text pf pi pc) = .ok (v, d2)) :
    (is_ws (text.drop d2.index) → _read_entry host text pf pi pc = .ok v) ∧
    (∀ ws c t, text.drop d2.index = ws ++ c :: t → is_ws ws → ¬ is_json_space c →
      _read_entry host text pf pi pc
        = .error (set_error_simple (d2.index + ws.length) "Extra data after JSON expression.")) := by
  have hs : d2.start = text := (start_preserved host _).1 _ _ _ h
  have h' : json_read host (read_fuel text) ((Decoder.mk text 0 0 pf pi pc).moved 0 0)
      = .ok (v, d2) := h
  have hself : d2 = d2.moved d2.index d2.stringparse_buffer_size := rfl
  constructor
  · intro hws
    have hd : d2.start.drop d2.index = text.drop d2.index := by rw [hs]
    have hskip := skip_spaces_ws_end d2 d2.index d2.stringparse_buffer_size _ hws hd
    rw [← hself] at hskip
    rw [read_entry_decoder, h']
    simp only [hskip, moved_index, moved_start, hs]
    rw [if_neg (by rw [List.length_drop]; omega)]
  · intro ws c t hd hws hc
    have hd2 : d2.start.drop d2.index = ws ++ c :: t := by rw [hs, hd]
    have hskip := skip_spaces_ws_stop d2 d2.index d2.stringparse_buffer_size ws hws hd2 hc
    rw [← hself] at hskip
    have hl := congrArg List.length hd
    simp only [List.length_drop, List.length_append, List.length_cons] at hl
    rw [read_entry_decoder, h']
    simp only [hskip, moved_index, moved_start, hs]
    rw [if_pos (by omega)]

/-- C18: once `json_read` has read the first value of a text, the decode
succeeds, with that value, exactly when nothing but tabs, line feeds, carriage
returns and spaces remains; otherwise it fails with "Extra data after JSON
expression." at the first code unit after the value that is not one of them. -/
theorem trailing_data_rejected {F : Type} (host : Host F) (text : List Nat)
    (pf pi pc : Option (List Nat → Option (Value F))) (v : Value F) (d2 : Decoder F)
    (h : json_read host (read_fuel text) (entry_decoder text pf pi pc) = .ok (v, d2)) :
    ((∃ r, _read_entry host text pf pi pc = .ok r) ↔ is_ws (text.drop d2.index)) ∧
    (is_ws (text.drop d2.index) → _read_entry host text pf pi pc = .ok v) ∧
    (∀ ws c t, text.drop d2.index = ws ++ c :: t → is_ws ws → ¬ is_json_space c →
      _read_entry host text pf pi pc
        = .error (set_error_simple (d2.index + ws.length) "Extra data after JSON expression.")) := by
  obtain ⟨a, b⟩ := trailing_cases host text pf pi pc v d2 h
  refine ⟨⟨?_, fun hws => ⟨v, a hws⟩⟩, a, b⟩
  rintro ⟨r, hr⟩
  rcases ws_or_first_other (text.drop d2.index) with hws | ⟨ws, c, t, h1, h2, h3⟩
  · exact hws
  · rw [b ws c t h1 h2 h3] at hr
    simp at hr

/-- The text `true x`: the value ends at offset 4, the `x` at offset 5 is
refused. -/
theorem trailing_data_rejected_witness :
    json_read example_host (read_fuel [0x74, 0x72, 0x75, 0x65, 0x20, 0x78])
        (entry_decoder [0x74, 0x72, 0x75, 0x65, 0x20, 0x78] none none none)
      = .ok (Value.bool true,
          (entry_decoder [0x74, 0x72, 0x75, 0x65, 0x20, 0x78] none none none).moved 4 0) ∧
    _read_entry example_host [0x74, 0x72, 0x75, 0x65, 0x20, 0x78] none none none
      = .error (set_error_simple (4 + [0x20].length) "Extra data after JSON expression.") :=
  ⟨rfl, (trailing_data_rejected example_host [0x74, 0x72, 0x75, 0x65, 0x20, 0x78] none none none
    (Value.bool true)
    ((entry_decoder [0x74, 0x72, 0x75, 0x65, 0x20, 0x78] none none none).moved 4 0) rfl).2.2
    [0x20] 0x78 [] rfl (by simp [is_ws, is_json_space]) (by simp [is_json_space])⟩

end Jsonlib2

namespace Jsonlib2

/-! ## Reading up to a point inside an array or an object -/

theorem elems_lead_length (done : List (List Nat × JText × List Nat)) :
    done.length ≤ (elems_lead_text done).length := by
  induction done with
  | nil => simp
  | cons e rest ih =>
    obtain ⟨b, v, a⟩ := e
    simp only [elems_lead_text, List.length_cons, List.length_append]
    omega

theorem members_lead_length
    (done : List ((List Nat × List StrToken × List Nat) × (List Nat × JText × List Nat))) :
    4 * done.length ≤ (members_lead_text done).length := by
  induction done with
  | nil => simp
  | cons e rest ih =>
    obtain ⟨⟨b, key, m⟩, n, v, a⟩ := e
    simp only [members_lead_text, quoted, List.length_cons, List.length_append, List.length_nil]
    omega

/-- The elements read so far, each with its comma: the loop of `read_array_impl`
is then where the next element is due. -/
theorem elems_lead_sim {F : Type} (host : Host F) (d : Decoder F) :
    ∀ (done : List (List Nat × JText × List Nat)), elems_WF done →
      ∀ (vals : List (Value F)), elems_values host d done = some vals →
      ∀ (fuel : Nat) (acc : List (Value F)) (start i sz : Nat) (st : ParseArrayState)
        (rest : List Nat),
      (st = .ARRAY_EMPTY ∨ st = .ARRAY_NEED_VALUE) →
      d.start.drop i = elems_lead_text done ++ rest →
      2 * (elems_lead_text done).length ≤ fuel →
      ∃ sz', read_array_impl host fuel acc start st (d.moved i sz)
          = read_array_impl host (fuel - 2 * done.length) (acc ++ vals) start
              (if done.length = 0 then st else .ARRAY_NEED_VALUE)
              (d.moved (i + (elems_lead_text done).length) sz')
  | [], _, vals, hv, fuel, acc, start, i, sz, st, rest, hst, _, _ => by
    simp only [elems_values, Option.some.injEq] at hv
    subst hv
    exact ⟨sz, by simp [elems_lead_text]⟩
  | (b, x, a) :: more, hwf, vals, hv, fuel, acc, start, i, sz, st, rest, hst, h, hfuel => by
    simp only [elems_WF] at hwf
    obtain ⟨hb, hx, ha, hmore⟩ := hwf
    simp only [elems_values] at hv
    cases hxv : x.value host d with
    | none => simp [hxv] at hv
    | some xv =>
      cases hmv : elems_values host d more with
      | none => simp [hxv, hmv] at hv
      | some mv =>
        simp only [hxv, hmv, Option.some.injEq] at hv
        subst hv
        have hlen : (elems_lead_text ((b, x, a) :: more)).length
            = b.length + x.text.length + a.length + 1 + (elems_lead_text more).length := by
          simp [elems_lead_text]; omega
        rw [hlen] at hfuel ⊢
        have h1 : d.start.drop i = b ++ (x.text ++ (a ++ 0x2C ::
            (elems_lead_text more ++ rest))) := by
          rw [h]; simp [elems_lead_text]
        have h2 : d.start.drop (i + b.length) = x.text ++ (a ++ 0x2C ::
            (elems_lead_text more ++ rest)) := drop_add_of_drop h1
        have h3 : d.start.drop (i + b.length + x.text.length) = a ++ 0x2C ::
            (elems_lead_text more ++ rest) := drop_add_of_drop h2
        have h4 : d.start.drop (i + b.length + x.text.length + a.length) = 0x2C ::
            (elems_lead_text more ++ rest) := drop_add_of_drop h3
        have h5 : d.start.drop (i + b.length + x.text.length + a.length + 1)
            = elems_lead_text more ++ rest := drop_add_of_drop (x := [0x2C]) h4
        obtain ⟨g, rfl⟩ : ∃ g, fuel = g + 2 := ⟨fuel - 2, by omega⟩
        obtain ⟨sz1, he⟩ := elem_step host d i sz (g + 1) start acc st hst b hb x hx xv _ h1
          (fun sz0 => json_read_text host d x hx xv hxv (g + 1) _ sz0 _ h2
            (number_stop_ws a _ ha (stop_bracket _ _ (by omega))) (by omega))
        rw [he, read_array_impl_ws host (g + 1) _ start _ d _ sz1 a _ ha h3,
          array_comma_step host d _ sz1 g start _ _ h4]
        obtain ⟨sz2, hs⟩ := elems_lead_sim host d more hmore mv hmv g (acc ++ [xv])
          start _ sz1 .ARRAY_NEED_VALUE rest (Or.inr rfl) h5 (by omega)
        rw [hs]
        refine ⟨sz2, ?_⟩
        have e1 : g + 2 - 2 * ((b, x, a) :: more).length = g - 2 * more.length := by
          simp only [List.length_cons]; omega
        have e2 : i + b.length + x.text.length + a.length + 1 + (elems_lead_text more).length
            = i + (b.length + x.text.length + a.length + 1 + (elems_lead_text more).length) := by
          omega
        rw [e1, e2]
        simp

/-- The members read so far, each with its comma: the loop of
`read_object_impl` is then where the next key is due. -/
theorem members_lead_sim {F : Type} (host : Host F) (d : Decoder F) :
    ∀ (done : List ((List Nat × List StrToken × List Nat) × (List Nat × JText × List Nat))),
      members_WF done →
      ∀ (kvs : List (List Nat × Value F)), members_values host d done = some kvs →
      ∀ (fuel : Nat) (acc : List (List Nat × Value F)) (ko : Option (Value F))
        (start i sz : Nat) (st : ParseObjectState) (rest : List Nat),
      (st = .OBJECT_EMPTY ∨ st = .OBJECT_NEED_KEY) →
      d.start.drop i = members_lead_text done ++ rest →
      2 * (members_lead_text done).length ≤ fuel →
      ∃ sz', read_object_impl host fuel acc ko start st (d.moved i sz)
          = read_object_impl host (fuel - 4 * done.length)
              (kvs.foldl (fun acc kv => PyDict_SetItem acc kv.1 kv.2) acc)
              (if done.length = 0 then ko else none) start
              (if done.length = 0 then st else .OBJECT_NEED_KEY)
              (d.moved (i + (members_lead_text done).length) sz')
  | [], _, kvs, hv, fuel, acc, ko, start, i, sz, st, rest, _, _, _ => by
    simp only [members_values, Option.some.injEq] at hv
    subst hv
    exact ⟨sz, by simp [members_lead_text]⟩
  | ((b, key, m), (n, x, a)) :: more, hwf, kvs, hv, fuel, acc, ko, start, i, sz, st, rest, hst, h,
      hfuel => by
    simp only [members_WF] at hwf
    obtain ⟨hb, hkey, hm, hn, hx, ha, hmore⟩ := hwf
    simp only [members_values] at hv
    cases hxv : x.value host d with
    | none => simp [hxv] at hv
    | some xv =>
      cases hmv : members_values host d more with
      | none => simp [hxv, hmv] at hv
      | some mv =>
        simp only [hxv, hmv, Option.some.injEq] at hv
        subst hv
        have hlen : (members_lead_text (((b, key, m), (n, x, a)) :: more)).length
            = b.length + (quoted key).length + m.length + 1 + n.length + x.text.length
              + a.length + 1 + (members_lead_text more).length := by
          simp [members_lead_text]; omega
        rw [hlen] at hfuel ⊢
        have hkl : 2 ≤ (quoted key).length := by simp [quoted]
        have h1 : d.start.drop i = b ++ (quoted key ++ (m ++ 0x3A :: (n ++ (x.text ++
            (a ++ 0x2C :: (members_lead_text more ++ rest)))))) := by
          rw [h]; simp [members_lead_text]
        have h3 : d.start.drop (i + b.length + (quoted key).length + m.length + 1 + n.length)
            = x.text ++ (a ++ 0x2C :: (members_lead_text more ++ rest)) := by
          have a1 := drop_add_of_drop h1
          have a2 := drop_add_of_drop a1
          have a3 := drop_add_of_drop a2
          have a4 := drop_add_of_drop (x := [0x3A]) a3
          exact drop_add_of_drop a4
        have h4 : d.start.drop (i + b.length + (quoted key).length + m.length + 1 + n.length
            + x.text.length) = a ++ 0x2C :: (members_lead_text more ++ rest) :=
          drop_add_of_drop h3
        have h5 : d.start.drop (i + b.length + (quoted key).length + m.length + 1 + n.length
            + x.text.length + a.length) = 0x2C :: (members_lead_text more ++ rest) :=
          drop_add_of_drop h4
        have h6 : d.start.drop (i + b.length + (quoted key).length + m.length + 1 + n.length
            + x.text.length + a.length + 1) = members_lead_text more ++ rest :=
          drop_add_of_drop (x := [0x2C]) h5
        obtain ⟨g, rfl⟩ : ∃ g, fuel = g + 4 := ⟨fuel - 4, by omega⟩
        obtain ⟨sz1, he⟩ := member_text_step host d i sz (g + 1) start acc ko st hst
          b hb key hkey m hm n hn x hx xv _ h1
          (fun sz0 => json_read_text host d x hx xv hxv (g + 1) _ sz0 _ h3
            (number_stop_ws a _ ha (stop_bracket _ _ (by omega))) (by omega))
        rw [he, read_object_impl_ws host (g + 1) _ none start _ d _ sz1 a _ ha h4,
          object_comma_step host d _ sz1 g start _ none _ h5]
        obtain ⟨sz2, hs⟩ := members_lead_sim host d more hmore mv hmv g
          (PyDict_SetItem acc (key.map StrToken.val) xv) none start _ sz1 .OBJECT_NEED_KEY rest
          (Or.inr rfl) h6 (by omega)
        rw [hs]
        refine ⟨sz2, ?_⟩
        have e1 : g + 4 - 4 * (((b, key, m), (n, x, a)) :: more).length
            = g - 4 * more.length := by
          simp only [List.length_cons]; omega
        have e2 : i + b.length + (quoted key).length + m.length + 1 + n.length
            + x.text.length + a.length + 1 + (members_lead_text more).length
            = i + (b.length + (quoted key).length + m.length + 1 + n.length
              + x.text.length + a.length + 1 + (members_lead_text more).length) := by omega
        rw [e1, e2]
        simp

/-- A key where a key is due. -/
theorem object_key_piece {F : Type} (host : Host F) (d : Decoder F) (q sz g start : Nat)
    (acc : List (List Nat × Value F)) (ko : Option (Value F)) (st : ParseObjectState)
    (hst : st = .OBJECT_EMPTY ∨ st = .OBJECT_NEED_KEY)
    (key : List StrToken) (hkey : ∀ t ∈ key, t.WF) (rest : List Nat)
    (h : d.start.drop q = quoted key ++ rest) :
    ∃ sz1, read_object_impl host (g + 2) acc ko start st (d.moved q sz)
      = read_object_impl host (g + 1) acc (some (.str (key.map StrToken.val))) start
          .OBJECT_NEED_COLON (d.moved (q + (quoted key).length) sz1) := by
  have hq : d.start.drop q = 0x22 :: (tokens_src key ++ 0x22 :: rest) := by
    rw [h]; simp [quoted]
  rw [object_key_step host d q q sz (g + 1) start acc ko st hst
    (skip_spaces_moved_stop d q sz hq (by unfold is_json_space; omega))
    (by rw [code_at_of_drop_zero hq]; rfl)]
  have hs := json_read_str host d q sz g key hkey _ hq
  simp only [hs]
  exact ⟨_, rfl⟩

/-- A value that `json_read` reads where a value is due. -/
theorem object_value_piece {F : Type} (host : Host F) (d : Decoder F) (q sz g start : Nat)
    (acc : List (List Nat × Value F)) (k : List Nat) (v : JText) (hwf : v.WF) (x : Value F)
    (rest : List Nat) (h : d.start.drop q = v.text ++ rest)
    (hv : ∀ sz0, ∃ sz1, json_read host g (d.moved q sz0)
      = .ok (x, d.moved (q + v.text.length) sz1)) :
    ∃ sz1, read_object_impl host (g + 1) acc (some (.str k)) start .OBJECT_NEED_VALUE
        (d.moved q sz)
      = read_object_impl host g (PyDict_SetItem acc k x) none start .OBJECT_GOT_VALUE
          (d.moved (q + v.text.length) sz1) := by
  obtain ⟨c, t, hr, hvs, hp⟩ := text_head v hwf
  have hc : d.start.drop q = c :: (t ++ rest) := by rw [h, hr]; rfl
  rw [object_value_step host d q q sz g start acc k c
    (skip_spaces_moved_stop d q sz hc (value_start_facts hvs).1)
    (by rw [code_at_of_drop_zero hc]; rfl) hvs (hp d q sz rest h)]
  obtain ⟨sz1, hx⟩ := hv sz
  simp only [hx]
  exact ⟨sz1, rfl⟩

end Jsonlib2

namespace Jsonlib2

/-! ## `json_read` on an opened array or object -/

theorem json_read_arr_lift {F : Type} (host : Host F) (d : Decoder F) (i sz fuel : Nat)
    (t : List Nat) (h : d.start.drop i = 0x5B :: t) :
    json_read host (fuel + 1) (d.moved i sz)
      = lift_array (read_array_impl host fuel [] i .ARRAY_EMPTY (d.moved (i + 1) sz)) :=
  json_read_arr host d i sz fuel t h

theorem json_read_obj_lift {F : Type} (host : Host F) (d : Decoder F) (i sz fuel : Nat)
    (t : List Nat) (h : d.start.drop i = 0x7B :: t) :
    json_read host (fuel + 1) (d.moved i sz)
      = lift_object (read_object_impl host fuel [] none i .OBJECT_EMPTY (d.moved (i + 1) sz)) :=
  json_read_obj host d i sz fuel t h

theorem text_length_pos (J : JText) (hwf : J.WF) : 1 ≤ J.text.length := by
  obtain ⟨c, t, hr, _, _⟩ := text_head J hwf
  rw [hr]; simp

theorem sim_arr_need {F : Type} (host : Host F) (d : Decoder F) (ws : List Nat)
    (done : List (List Nat × JText × List Nat)) (b : List Nat)
    (hwf : (Opened.arr_need ws done b).WF)
    (hden : (Opened.arr_need ws done b).denotes host d) (fuel p sz : Nat) (rest : List Nat)
    (h : d.start.drop p = (Opened.arr_need ws done b).text ++ rest)
    (hfuel : 2 * (Opened.arr_need ws done b).text.length ≤ fuel) :
    ∃ fuel2 list sz2, fuel + 1 ≤ fuel2 + 2 * (Opened.arr_need ws done b).text.length ∧
      json_read host fuel (d.moved p sz)
        = lift_array (read_array_impl host fuel2 list p
            (if done.length = 0 then .ARRAY_EMPTY else .ARRAY_NEED_VALUE)
            (d.moved (p + (Opened.arr_need ws done b).text.length) sz2)) := by
  simp only [Opened.WF] at hwf
  obtain ⟨hws, hdone, hb⟩ := hwf
  simp only [Opened.denotes, Option.isSome_iff_exists] at hden
  obtain ⟨vals, hvals⟩ := hden
  have hlen : (Opened.arr_need ws done b).text.length
      = 1 + ws.length + (elems_lead_text done).length + b.length := by
    simp [Opened.text]; omega
  rw [hlen] at hfuel ⊢
  have hn := elems_lead_length done
  have h1 : d.start.drop p = 0x5B :: (ws ++ (elems_lead_text done ++ (b ++ rest))) := by
    rw [h]; simp [Opened.text]
  have h2 : d.start.drop (p + 1) = ws ++ (elems_lead_text done ++ (b ++ rest)) :=
    drop_add_of_drop (x := [0x5B]) h1
  have h3 : d.start.drop (p + 1 + ws.length) = elems_lead_text done ++ (b ++ rest) :=
    drop_add_of_drop h2
  have h4 : d.start.drop (p + 1 + ws.length + (elems_lead_text done).length) = b ++ rest :=
    drop_add_of_drop h3
  obtain ⟨f, rfl⟩ : ∃ f, fuel = f + 1 := ⟨fuel - 1, by omega⟩
  rw [json_read_arr_lift host d p sz f _ h1,
    read_array_impl_ws host f [] p _ d (p + 1) sz ws _ hws h2]
  obtain ⟨sz2, hs⟩ := elems_lead_sim host d done hdone vals hvals f [] p _ sz .ARRAY_EMPTY _
    (Or.inl rfl) h3 (by omega)
  rw [hs, read_array_impl_ws host _ _ p _ d _ sz2 b _ hb h4]
  refine ⟨f - 2 * done.length, [] ++ vals, sz2, by omega, ?_⟩
  have e : p + 1 + ws.length + (elems_lead_text done).length + b.length
      = p + (1 + ws.length + (elems_lead_text done).length + b.length) := by omega
  rw [e]

theorem sim_arr_got {F : Type} (host : Host F) (d : Decoder F) (ws : List Nat)
    (done : List (List Nat × JText × List Nat)) (b : List Nat) (v : JText) (a : List Nat)
    (hwf : (Opened.arr_got ws done b v a).WF)
    (hden : (Opened.arr_got ws done b v a).denotes host d) (fuel p sz : Nat) (rest : List Nat)
    (hstop : number_stop rest)
    (h : d.start.drop p = (Opened.arr_got ws done b v a).text ++ rest)
    (hfuel : 2 * (Opened.arr_got ws done b v a).text.length ≤ fuel) :
    ∃ fuel2 list sz2, fuel + 1 ≤ fuel2 + 2 * (Opened.arr_got ws done b v a).text.length ∧
      json_read host fuel (d.moved p sz)
        = lift_array (read_array_impl host fuel2 list p .ARRAY_GOT_VALUE
            (d.moved (p + (Opened.arr_got ws done b v a).text.length) sz2)) := by
  simp only [Opened.WF] at hwf
  obtain ⟨hws, hdone, hb, hv, ha⟩ := hwf
  simp only [Opened.denotes, Option.isSome_iff_exists] at hden
  obtain ⟨⟨vals, hvals⟩, x, hx⟩ := hden
  have hlen : (Opened.arr_got ws done b v a).text.length
      = 1 + ws.length + (elems_lead_text done).length + b.length + v.text.length
        + a.length := by
    simp [Opened.text]; omega
  rw [hlen] at hfuel ⊢
  have hn := elems_lead_length done
  have hvl := text_length_pos v hv
  have h1 : d.start.drop p = 0x5B :: (ws ++ (elems_lead_text done ++ (b ++ (v.text ++
      (a ++ rest))))) := by
    rw [h]; simp [Opened.text]
  have h2 : d.start.drop (p + 1) = ws ++ (elems_lead_text done ++ (b ++ (v.text ++
      (a ++ rest)))) := drop_add_of_drop (x := [0x5B]) h1
  have h3 : d.start.drop (p + 1 + ws.length) = elems_lead_text done ++ (b ++ (v.text ++
      (a ++ rest))) := drop_add_of_drop h2
  have h4 : d.start.drop (p + 1 + ws.length + (elems_lead_text done).length)
      = b ++ (v.text ++ (a ++ rest)) := drop_add_of_drop h3
  have h5 : d.start.drop (p + 1 + ws.length + (elems_lead_text done).length + b.length)
      = v.text ++ (a ++ rest) := drop_add_of_drop h4
  have h6 : d.start.drop (p + 1 + ws.length + (elems_lead_text done).length + b.length
      + v.text.length) = a ++ rest := drop_add_of_drop h5
  obtain ⟨f, rfl⟩ : ∃ f, fuel = f + 1 := ⟨fuel - 1, by omega⟩
  rw [json_read_arr_lift host d p sz f _ h1,
    read_array_impl_ws host f [] p _ d (p + 1) sz ws _ hws h2]
  obtain ⟨sz2, hs⟩ := elems_lead_sim host d done hdone vals hvals f [] p _ sz .ARRAY_EMPTY _
    (Or.inl rfl) h3 (by omega)
  rw [hs]
  obtain ⟨g, hg⟩ : ∃ g, f - 2 * done.length = g + 1 := ⟨f - 2 * done.length - 1, by omega⟩
  rw [hg]
  obtain ⟨sz3, he⟩ := elem_step host d _ sz2 g p ([] ++ vals)
    (if done.length = 0 then .ARRAY_EMPTY else .ARRAY_NEED_VALUE)
    (by split_ifs <;> simp) b hb v hv x _ h4
    (fun sz0 => json_read_text host d v hv x hx g _ sz0 _ h5
      (number_stop_ws a _ ha hstop) (by omega))
  rw [he, read_array_impl_ws host g _ p _ d _ sz3 a _ ha h6]
  refine ⟨g, [] ++ vals ++ [x], sz3, by omega, ?_⟩
  have e : p + 1 + ws.length + (elems_lead_text done).length + b.length + v.text.length
      + a.length
      = p + (1 + ws.length + (elems_lead_text done).length + b.length + v.text.length
        + a.length) := by omega
  rw [e]

/-- `json_read` on an opening brace, whitespace and members each with its
comma. -/
theorem sim_obj_lead {F : Type} (host : Host F) (d : Decoder F) (ws : List Nat)
    (done : List ((List Nat × List StrToken × List Nat) × (List Nat × JText × List Nat)))
    (hws : is_ws ws) (hdone : members_WF done) (kvs : List (List Nat × Value F))
    (hkvs : members_values host d done = some kvs) (f p sz : Nat) (rest : List Nat)
    (h : d.start.drop p = 0x7B :: (ws ++ (members_lead_text done ++ rest)))
    (hfuel : 2 * (members_lead_text done).length ≤ f) :
    ∃ sz2, json_read host (f + 1) (d.moved p sz)
      = lift_object (read_object_impl host (f - 4 * done.length) (dict_of_members kvs) none p
          (if done.length = 0 then .OBJECT_EMPTY else .OBJECT_NEED_KEY)
          (d.moved (p + 1 + ws.length + (members_lead_text done).length) sz2)) := by
  have h2 : d.start.drop (p + 1) = ws ++ (members_lead_text done ++ rest) :=
    drop_add_of_drop (x := [0x7B]) h
  have h3 : d.start.drop (p + 1 + ws.length) = members_lead_text done ++ rest :=
    drop_add_of_drop h2
  rw [json_read_obj_lift host d p sz f _ h,
    read_object_impl_ws host f [] none p _ d (p + 1) sz ws _ hws h2]
  obtain ⟨sz2, hs⟩ := members_lead_sim host d done hdone kvs hkvs f [] none p _ sz
    .OBJECT_EMPTY _ (Or.inl rfl) h3 hfuel
  rw [hs]
  refine ⟨sz2, ?_⟩
  simp only [ite_self]
  rfl

theorem sim_obj_need_key {F : Type} (host : Host F) (d : Decoder F) (ws : List Nat)
    (done : List ((List Nat × List StrToken × List Nat) × (List Nat × JText × List Nat)))
    (b : List Nat) (hwf : (Opened.obj_need_key ws done b).WF)
    (hden : (Opened.obj_need_key ws done b).denotes host d) (fuel p sz : Nat)
    (rest : List Nat)
    (h : d.start.drop p = (Opened.obj_need_key ws done b).text ++ rest)
    (hfuel : 2 * (Opened.obj_need_key ws done b).text.length ≤ fuel) :
    ∃ fuel2 object sz2, fuel + 1 ≤ fuel2 + 2 * (Opened.obj_need_key ws done b).text.length ∧
      json_read host fuel (d.moved p sz)
        = lift_object (read_object_impl host fuel2 object none p
            (if done.length = 0 then .OBJECT_EMPTY else .OBJECT_NEED_KEY)
            (d.moved (p + (Opened.obj_need_key ws done b).text.length) sz2)) := by
  simp only [Opened.WF] at hwf
  obtain ⟨hws, hdone, hb⟩ := hwf
  simp only [Opened.denotes, Option.isSome_iff_exists] at hden
  obtain ⟨kvs, hkvs⟩ := hden
  have hlen : (Opened.obj_need_key ws done b).text.length
      = 1 + ws.length + (members_lead_text done).length + b.length := by
    simp [Opened.text]; omega
  rw [hlen] at hfuel ⊢
  have hn := members_lead_length done
  have h1 : d.start.drop p = 0x7B :: (ws ++ (members_lead_text done ++ (b ++ rest))) := by
    rw [h]; simp [Opened.text]
  have h4 : d.start.drop (p + 1 + ws.length + (members_lead_text done).length) = b ++ rest := by
    have a1 := drop_add_of_drop (x := [0x7B]) h1
    have a2 := drop_add_of_drop a1
    exact drop_add_of_drop a2
  obtain ⟨f, rfl⟩ : ∃ f, fuel = f + 1 := ⟨fuel - 1, by omega⟩
  obtain ⟨sz2, hs⟩ := sim_obj_lead host d ws done hws hdone kvs hkvs f p sz _ h1 (by omega)
  rw [hs, read_object_impl_ws host _ _ none p _ d _ sz2 b _ hb h4]
  refine ⟨f - 4 * done.length, dict_of_members kvs, sz2, by omega, ?_⟩
  have e : p + 1 + ws.length + (members_lead_text done).length + b.length
      = p + (1 + ws.length + (members_lead_text done).length + b.length) := by omega
  rw [e]

theorem sim_obj_need_colon {F : Type} (host : Host F) (d : Decoder F) (ws : List Nat)
    (done : List ((List Nat × List StrToken × List Nat) × (List Nat × JText × List Nat)))
    (b : List Nat) (key : List StrToken) (m : List Nat)
    (hwf : (Opened.obj_need_colon ws done b key m).WF)
    (hden : (Opened.obj_need_colon ws done b key m).denotes host d) (fuel p sz : Nat)
    (rest : List Nat)
    (h : d.start.drop p = (Opened.obj_need_colon ws done b key m).text ++ rest)
    (hfuel : 2 * (Opened.obj_need_colon ws done b key m).text.length ≤ fuel) :
    ∃ fuel2 object sz2,
      fuel + 1 ≤ fuel2 + 2 * (Opened.obj_need_colon ws done b key m).text.length ∧
      json_read host fuel (d.moved p sz)
        = lift_object (read_object_impl host fuel2 object
            (some (.str (key.map StrToken.val))) p .OBJECT_NEED_COLON
            (d.moved (p + (Opened.obj_need_colon ws done b key m).text.length) sz2)) := by
  simp only [Opened.WF] at hwf
  obtain ⟨hws, hdone, hb, hkey, hm⟩ := hwf
  simp only [Opened.denotes, Option.isSome_iff_exists] at hden
  obtain ⟨kvs, hkvs⟩ := hden
  have hlen : (Opened.obj_need_colon ws done b key m).text.length
      = 1 + ws.length + (members_lead_text done).length + b.length + (quoted key).length
        + m.length := by
    simp [Opened.text]; omega
  rw [hlen] at hfuel ⊢
  have hn := members_lead_length done
  have hkl : 2 ≤ (quoted key).length := by simp [quoted]
  have h1 : d.start.drop p = 0x7B :: (ws ++ (members_lead_text done ++ (b ++ (quoted key ++
      (m ++ rest))))) := by
    rw [h]; simp [Opened.text]
  have h4 : d.start.drop (p + 1 + ws.length + (members_lead_text done).length)
      = b ++ (quoted key ++ (m ++ rest)) := by
    have a1 := drop_add_of_drop (x := [0x7B]) h1
    have a2 := drop_add_of_drop a1
    exact drop_add_of_drop a2
  have h5 : d.start.drop (p + 1 + ws.length + (members_lead_text done).length + b.length)
      = quoted key ++ (m ++ rest) := drop_add_of_drop h4
  have h6 : d.start.drop (p + 1 + ws.length + (members_lead_text done).length + b.length
      + (quoted key).length) = m ++ rest := drop_add_of_drop h5
  obtain ⟨f, rfl⟩ : ∃ f, fuel = f + 1 := ⟨fuel - 1, by omega⟩
  obtain ⟨sz2, hs⟩ := sim_obj_lead host d ws done hws hdone kvs hkvs f p sz _ h1 (by omega)
  rw [hs, read_object_impl_ws host _ _ none p _ d _ sz2 b _ hb h4]
  obtain ⟨g, hg⟩ : ∃ g, f - 4 * done.length = g + 2 := ⟨f - 4 * done.length - 2, by omega⟩
  rw [hg]
  obtain ⟨sz3, hk⟩ := object_key_piece host d _ sz2 g p (dict_of_members kvs) none
    (if done.length = 0 then .OBJECT_EMPTY else .OBJECT_NEED_KEY)
    (by split_ifs <;> simp) key hkey _ h5
  rw [hk, read_object_impl_ws host _ _ _ p _ d _ sz3 m _ hm h6]
  refine ⟨g + 1, dict_of_members kvs, sz3, by omega, ?_⟩
  have e : p + 1 + ws.length + (members_lead_text done).length + b.length
      + (quoted key).length + m.length
      = p + (1 + ws.length + (members_lead_text done).length + b.length + (quoted key).length
        + m.length) := by omega
  rw [e]

theorem sim_obj_need_value {F : Type} (host : Host F) (d : Decoder F) (ws : List Nat)
    (done : List ((List Nat × List StrToken × List Nat) × (List Nat × JText × List Nat)))
    (b : List Nat) (key : List StrToken) (m n : List Nat)
    (hwf : (Opened.obj_need_value ws done b key m n).WF)
    (hden : (Opened.obj_need_value ws done b key m n).denotes host d) (fuel p sz : Nat)
    (rest : List Nat)
    (h : d.start.drop p = (Opened.obj_need_value ws done b key m n).text ++ rest)
    (hfuel : 2 * (Opened.obj_need_value ws done b key m n).text.length ≤ fuel) :
    ∃ fuel2 object sz2,
      fuel + 1 ≤ fuel2 + 2 * (Opened.obj_need_value ws done b key m n).text.length ∧
      json_read host fuel (d.moved p sz)
        = lift_object (read_object_impl host fuel2 object
            (some (.str (key.map StrToken.val))) p .OBJECT_NEED_VALUE
            (d.moved (p + (Opened.obj_need_value ws done b key m n).text.length) sz2)) := by
  have hwf2 : (Opened.obj_need_colon ws done b key m).WF := by
    simp only [Opened.WF] at hwf ⊢
    exact ⟨hwf.1, hwf.2.1, hwf.2.2.1, hwf.2.2.2.1, hwf.2.2.2.2.1⟩
  have hn : is_ws n := by
    simp only [Opened.WF] at hwf
    exact hwf.2.2.2.2.2
  have hlen : (Opened.obj_need_value ws done b key m n).text.length
      = (Opened.obj_need_colon ws done b key m).text.length + 1 + n.length := by
    simp [Opened.text]; omega
  have h1 : d.start.drop p = (Opened.obj_need_colon ws done b key m).text
      ++ (0x3A :: (n ++ rest)) := by
    rw [h]; simp [Opened.text]
  obtain ⟨fuel2, object, sz2, hf2, hs⟩ := sim_obj_need_colon host d ws done b key m hwf2 hden
    fuel p sz _ h1 (by omega)
  have h2 : d.start.drop (p + (Opened.obj_need_colon ws done b key m).text.length)
      = 0x3A :: (n ++ rest) := drop_add_of_drop h1
  have h3 : d.start.drop (p + (Opened.obj_need_colon ws done b key m).text.length + 1)
      = n ++ rest := drop_add_of_drop (x := [0x3A]) h2
  obtain ⟨g, rfl⟩ : ∃ g, fuel2 = g + 1 := ⟨fuel2 - 1, by omega⟩
  rw [hs, object_colon_step host d _ sz2 g p object _ _ h2,
    read_object_impl_ws host _ _ _ p _ d _ sz2 n _ hn h3]
  refine ⟨g, object, sz2, by omega, ?_⟩
  have e : p + (Opened.obj_need_colon ws done b key m).text.length + 1 + n.length
      = p + (Opened.obj_need_value ws done b key m n).text.length := by omega
  rw [e]

theorem sim_obj_got {F : Type} (host : Host F) (d : Decoder F) (ws : List Nat)
    (done : List ((List Nat × List StrToken × List Nat) × (List Nat × JText × List Nat)))
    (b : List Nat) (key : List StrToken) (m n : List Nat) (v : JText) (a : List Nat)
    (hwf : (Opened.obj_got ws done b key m n v a).WF)
    (hden : (Opened.obj_got ws done b key m n v a).denotes host d) (fuel p sz : Nat)
    (rest : List Nat) (hstop : number_stop rest)
    (h : d.start.drop p = (Opened.obj_got ws done b key m n v a).text ++ rest)
    (hfuel : 2 * (Opened.obj_got ws done b key m n v a).text.length ≤ fuel) :
    ∃ fuel2 object sz2,
      fuel + 1 ≤ fuel2 + 2 * (Opened.obj_got ws done b key m n v a).text.length ∧
      json_read host fuel (d.moved p sz)
        = lift_object (read_object_impl host fuel2 object none p .OBJECT_GOT_VALUE
            (d.moved (p + (Opened.obj_got ws done b key m n v a).text.length) sz2)) := by
  have hwf2 : (Opened.obj_need_value ws done b key m n).WF := by
    simp only [Opened.WF] at hwf ⊢
    exact ⟨hwf.1, hwf.2.1, hwf.2.2.1, hwf.2.2.2.1, hwf.2.2.2.2.1, hwf.2.2.2.2.2.1⟩
  obtain ⟨hv, ha⟩ : v.WF ∧ is_ws a := by
    simp only [Opened.WF] at hwf
    exact hwf.2.2.2.2.2.2
  simp only [Opened.denotes, Option.isSome_iff_exists] at hden
  obtain ⟨hden2, x, hx⟩ := hden
  have hden3 : (Opened.obj_need_value ws done b key m n).denotes host d := by
    simp only [Opened.denotes, Option.isSome_iff_exists]; exact hden2
  have hvl := text_length_pos v hv
  have hlen : (Opened.obj_got ws done b key m n v a).text.length
      = (Opened.obj_need_value ws done b key m n).text.length + v.text.length + a.length := by
    simp [Opened.text]; omega
  have h1 : d.start.drop p = (Opened.obj_need_value ws done b key m n).text
      ++ (v.text ++ (a ++ rest)) := by
    rw [h]; simp [Opened.text]
  obtain ⟨fuel2, object, sz2, hf2, hs⟩ := sim_obj_need_value host d ws done b key m n hwf2 hden3
    fuel p sz _ h1 (by omega)
  have h2 : d.start.drop (p + (Opened.obj_need_value ws done b key m n).text.length)
      = v.text ++ (a ++ rest) := drop_add_of_drop h1
  have h3 : d.start.drop (p + (Opened.obj_need_value ws done b key m n).text.length
      + v.text.length) = a ++ rest := drop_add_of_drop h2
  obtain ⟨g, rfl⟩ : ∃ g, fuel2 = g + 1 := ⟨fuel2 - 1, by omega⟩
  obtain ⟨sz3, hp⟩ := object_value_piece host d _ sz2 g p object (key.map StrToken.val) v hv x
    _ h2 (fun sz0 => json_read_text host d v hv x hx g _ sz0 _ h2
      (number_stop_ws a _ ha hstop) (by omega))
  rw [hs, hp, read_object_impl_ws host _ _ _ p _ d _ sz3 a _ ha h3]
  refine ⟨g, PyDict_SetItem object (key.map StrToken.val) x, sz3, by omega, ?_⟩
  have e : p + (Opened.obj_need_value ws done b key m n).text.length + v.text.length + a.length
      = p + (Opened.obj_got ws done b key m n v a).text.length := by omega
  rw [e]

/-- `json_read` on an opened array or object is the rest of the call from the
point where the text stops, with fuel left. -/
theorem opened_sim {F : Type} (host : Host F) (d : Decoder F) (op : Opened) (hwf : op.WF)
    (hden : op.denotes host d) (fuel p sz : Nat) (rest : List Nat)
    (hstop : op.after_value = true → number_stop rest)
    (h : d.start.drop p = op.text ++ rest) (hfuel : 2 * op.text.length ≤ fuel) :
    ∃ fuel2 list object sz2, fuel + 1 ≤ fuel2 + 2 * op.text.length ∧
      json_read host fuel (d.moved p sz)
        = op.resume host fuel2 list object p (d.moved (p + op.text.length) sz2) := by
  cases op with
  | arr_need ws done b =>
    obtain ⟨f2, l, s2, h1, h2⟩ := sim_arr_need host d ws done b hwf hden fuel p sz rest h hfuel
    exact ⟨f2, l, [], s2, h1, h2⟩
  | arr_got ws done b v a =>
    obtain ⟨f2, l, s2, h1, h2⟩ := sim_arr_got host d ws done b v a hwf hden fuel p sz rest
      (hstop rfl) h hfuel
    exact ⟨f2, l, [], s2, h1, h2⟩
  | obj_need_key ws done b =>
    obtain ⟨f2, o, s2, h1, h2⟩ := sim_obj_need_key host d ws done b hwf hden fuel p sz rest h
      hfuel
    exact ⟨f2, [], o, s2, h1, h2⟩
  | obj_need_colon ws done b key m =>
    obtain ⟨f2, o, s2, h1, h2⟩ := sim_obj_need_colon host d ws done b key m hwf hden fuel p sz
      rest h hfuel
    exact ⟨f2, [], o, s2, h1, h2⟩
  | obj_need_value ws done b key m n =>
    obtain ⟨f2, o, s2, h1, h2⟩ := sim_obj_need_value host d ws done b key m n hwf hden fuel p
      sz rest h hfuel
    exact ⟨f2, [], o, s2, h1, h2⟩
  | obj_got ws done b key m n v a =>
    obtain ⟨f2, o, s2, h1, h2⟩ := sim_obj_got host d ws done b key m n v a hwf hden fuel p sz
      rest (hstop rfl) h hfuel
    exact ⟨f2, [], o, s2, h1, h2⟩

end Jsonlib2

namespace Jsonlib2

/-! ## What stops the parser inside an array or an object -/

theorem skip_spaces_at_zero {F : Type} (d : Decoder F) (q sz : Nat)
    (h0 : code_at d.start q = 0) : skip_spaces (d.moved q sz) = d.moved q sz := by
  cases hd : d.start.drop q with
  | nil =>
    simp only [skip_spaces, moved_start, moved_index, hd, skip_spaces_from]
    rfl
  | cons c t =>
    have hc : c = 0 := by
      have := code_at_of_drop_zero hd
      rw [h0] at this
      simpa using this.symm
    simp only [skip_spaces, moved_start, moved_index, hd, skip_spaces_from, hc]
    simp
    rfl

/-- End of input inside an array or an object. -/
theorem resume_eof {F : Type} (host : Host F) (op : Opened) (fuel : Nat)
    (list : List (Value F)) (object : List (List Nat × Value F)) (start : Nat) (d : Decoder F)
    (q sz : Nat) (h0 : code_at d.start q = 0) :
    op.resume host (fuel + 1) list object start (d.moved q sz)
      = .error (set_error_simple start (unterminated_message op)) := by
  have hsk := skip_spaces_at_zero d q sz h0
  unfold Opened.resume unterminated_message
  cases hop : op.is_array
  · simp only [Bool.false_eq_true, if_false]
    rw [read_object_impl]
    simp only [hsk, moved_start, moved_index, h0, if_true]
    rfl
  · simp only [if_true]
    rw [read_array_impl]
    simp only [hsk, moved_start, moved_index, h0, if_true]
    rfl

theorem value_due_not_after {op : Opened} (h : op.value_due = true) : op.after_value = false := by
  cases op <;> simp [Opened.value_due] at h <;> rfl

theorem opened_text_head (op : Opened) :
    ∃ c t, op.text = c :: t ∧ (c = 0x5B ∨ c = 0x7B) := by
  cases op <;> exact ⟨_, _, rfl, by simp⟩

/-- A value that `json_read` rejects, in the place of an element or of the value
of a member. -/
theorem resume_inner_error {F : Type} (host : Host F) (op : Opened) (hdue : op.value_due = true)
    (fuel : Nat) (list : List (Value F)) (object : List (List Nat × Value F)) (start : Nat)
    (d : Decoder F) (q sz : Nat) (c : Nat) (t : List Nat) (h : d.start.drop q = c :: t)
    (hc : c = 0x5B ∨ c = 0x7B) (e : DecodeError)
    (inner : json_read host fuel (d.moved q sz) = .error e) :
    op.resume host (fuel + 1) list object start (d.moved q sz) = .error e := by
  have hvs : value_start c := by unfold value_start; omega
  have hsk := skip_spaces_moved_stop d q sz h (value_start_facts hvs).1
  have hcode : code_at d.start q = c := by rw [code_at_of_drop_zero h]; rfl
  have hp := find_next_simple d q sz h (by omega)
  cases op with
  | arr_need ws done b =>
    simp only [Opened.resume, Opened.is_array, if_true, Opened.array_state]
    rw [array_value_step host d q q sz fuel start list _ c (by split_ifs <;> simp) hsk hcode hvs
      hp, inner]
    rfl
  | obj_need_value ws done b key m n =>
    simp only [Opened.resume, Opened.is_array, Bool.false_eq_true, if_false,
      Opened.object_state, Opened.pending_key]
    rw [object_value_step host d q q sz fuel start object _ c hsk hcode hvs hp, inner]
    rfl
  | arr_got ws done b v a => simp [Opened.value_due] at hdue
  | obj_need_key ws done b => simp [Opened.value_due] at hdue
  | obj_need_colon ws done b key m => simp [Opened.value_due] at hdue
  | obj_got ws done b key m n v a => simp [Opened.value_due] at hdue

theorem context_head (ctx : List Opened) (hole : List Nat)
    (hc : ∃ c t, hole = c :: t ∧ (c = 0x5B ∨ c = 0x7B)) :
    ∃ c2 t2, context_text ctx ++ hole = c2 :: t2 ∧ (c2 = 0x5B ∨ c2 = 0x7B) := by
  cases ctx with
  | nil => exact hc
  | cons op rest =>
    obtain ⟨c2, t2, h2, hc2⟩ := opened_text_head op
    exact ⟨c2, t2 ++ (context_text rest ++ hole), by
      simp only [context_text, List.flatMap_cons, h2, List.cons_append, List.append_assoc], hc2⟩

/-- An error of `json_read` inside nested arrays and objects is the error of the
whole call. -/
theorem context_error {F : Type} (host : Host F) (d : Decoder F) (e : DecodeError) (m : Nat)
    (hole : List Nat) (hc : ∃ c t, hole = c :: t ∧ (c = 0x5B ∨ c = 0x7B)) :
    ∀ (ctx : List Opened),
      (∀ op ∈ ctx, op.WF ∧ op.denotes host d ∧ op.value_due = true) →
      ∀ (i : Nat), d.start.drop i = context_text ctx ++ hole →
      (∀ f sz, m ≤ f →
        json_read host f (d.moved (i + (context_text ctx).length) sz) = .error e) →
      ∀ f sz, m + 2 * (context_text ctx).length ≤ f →
        json_read host f (d.moved i sz) = .error e
  | [], _, i, _, inner, f, sz, hf => by
    have := inner f sz (by simp [context_text] at hf; omega)
    simpa [context_text] using this
  | op :: rest, hctx, i, h, inner, f, sz, hf => by
    obtain ⟨hwf, hden, hdue⟩ := hctx op (List.mem_cons_self _ _)
    have hlen : (context_text (op :: rest)).length
        = op.text.length + (context_text rest).length := by
      simp [context_text]
    rw [hlen] at hf inner
    have h1 : d.start.drop i = op.text ++ (context_text rest ++ hole) := by
      rw [h]; simp [context_text]
    have h2 : d.start.drop (i + op.text.length) = context_text rest ++ hole :=
      drop_add_of_drop h1
    have ih := context_error host d e m hole hc rest
      (fun o ho => hctx o (List.mem_cons_of_mem _ ho)) (i + op.text.length) h2
      (fun f sz hm => by
        have := inner f sz hm
        rwa [← Nat.add_assoc] at this)
    obtain ⟨fuel2, list, object, sz2, hf2, hs⟩ := opened_sim host d op hwf hden f i sz _
      (fun ha => by rw [value_due_not_after hdue] at ha; simp at ha) h1 (by omega)
    obtain ⟨c2, t2, hh, hc2⟩ := context_head rest hole hc
    rw [hh] at h2
    obtain ⟨g, rfl⟩ : ∃ g, fuel2 = g + 1 := ⟨fuel2 - 1, by omega⟩
    rw [hs]
    exact resume_inner_error host op hdue g list object i d _ sz2 c2 t2 h2 hc2 e
      (ih g sz2 (by omega))

/-- `_read_entry` fails with the error the loop of the innermost opened array or
object ends with. -/
theorem read_entry_opened_error {F : Type} (host : Host F)
    (pf pi pc : Option (List Nat → Option (Value F))) (ws0 : List Nat) (ctx : List Opened)
    (op : Opened) (rest : List Nat) (e : DecodeError) (hws : is_ws ws0)
    (hctx : ∀ o ∈ ctx, o.WF ∧
      o.denotes host (entry_decoder (ws0 ++ context_text ctx ++ (op.text ++ rest)) pf pi pc) ∧
      o.value_due = true)
    (hwf : op.WF)
    (hden : op.denotes host (entry_decoder (ws0 ++ context_text ctx ++ (op.text ++ rest)) pf pi pc))
    (hstop : op.after_value = true → number_stop rest)
    (hres : ∀ (g : Nat) (list : List (Value F)) (object : List (List Nat × Value F)) (sz : Nat),
      op.resume host (g + 2) list object (ws0.length + (context_text ctx).length)
        ((entry_decoder (ws0 ++ context_text ctx ++ (op.text ++ rest)) pf pi pc).moved
          (ws0.length + (context_text ctx).length + op.text.length) sz) = .error e) :
    _read_entry host (ws0 ++ context_text ctx ++ (op.text ++ rest)) pf pi pc = .error e := by
  have hd : (entry_decoder (ws0 ++ context_text ctx ++ (op.text ++ rest)) pf pi pc).start.drop 0
      = ws0 ++ (context_text ctx ++ (op.text ++ rest)) := by simp [entry_decoder]
  have hd2 := drop_add_of_drop hd
  have hd3 := drop_add_of_drop hd2
  rw [Nat.zero_add] at hd2 hd3
  have hhole : ∃ c t, op.text ++ rest = c :: t ∧ (c = 0x5B ∨ c = 0x7B) := by
    obtain ⟨c, t, h1, h2⟩ := opened_text_head op
    exact ⟨c, t ++ rest, by rw [h1]; rfl, h2⟩
  have inner : ∀ f sz, 2 * op.text.length + 1 ≤ f →
      json_read host f ((entry_decoder (ws0 ++ context_text ctx ++ (op.text ++ rest)) pf pi pc).moved
        (ws0.length + (context_text ctx).length) sz) = .error e := by
    intro f sz hf
    obtain ⟨fuel2, list, object, sz2, hf2, hs⟩ := opened_sim host _ op hwf hden f _ sz rest
      hstop hd3 (by omega)
    obtain ⟨g, rfl⟩ : ∃ g, fuel2 = g + 2 := ⟨fuel2 - 2, by omega⟩
    rw [hs]
    exact hres g list object sz2
  have hj := context_error host _ e (2 * op.text.length + 1) (op.text ++ rest) hhole ctx hctx
    ws0.length hd2 inner
    (read_fuel (ws0 ++ context_text ctx ++ (op.text ++ rest))) 0
    (by unfold read_fuel; simp only [List.length_append]; omega)
  have hj2 : json_read host (read_fuel (ws0 ++ context_text ctx ++ (op.text ++ rest)))
      ((entry_decoder (ws0 ++ context_text ctx ++ (op.text ++ rest)) pf pi pc).moved 0 0)
        = .error e := by
    rw [json_read_ws host _ _ 0 0 ws0 _ hws hd, Nat.zero_add]
    exact hj
  have hj3 : json_read host (read_fuel (ws0 ++ context_text ctx ++ (op.text ++ rest)))
      ((Decoder.mk (ws0 ++ context_text ctx ++ (op.text ++ rest)) 0 0 pf pi pc).moved 0 0)
        = .error e := hj2
  rw [read_entry_decoder, hj3]

end Jsonlib2

namespace Jsonlib2

/-! ## Tokens that are refused inside an array or an object -/

theorem keyword_compare_none {F : Type} (d : Decoder F) (i sz : Nat) (kw : List Nat)
    (retval : Value F) (h : ¬ kw <+: d.start.drop i) :
    keyword_compare (d.moved i sz) kw retval = none := by
  simp only [keyword_compare, moved_start, moved_index]
  split_ifs with h1 h2
  · exact absurd (List.prefix_iff_eq_take.mpr h2.symm) h
  · rfl
  · rfl

/-- Code units that start no value are refused by `json_read`, at their own
offset. -/
theorem json_read_not_value {F : Type} (host : Host F) (d : Decoder F) (q sz fuel : Nat)
    (c : Nat) (t : List Nat) (h : d.start.drop q = c :: t) (hc0 : c ≠ 0)
    (hcw : ¬ is_json_space c) (hv : ¬ starts_value (c :: t)) :
    json_read host (fuel + 1) (d.moved q sz)
      = .error (set_error_unexpected d q "<valid thing>") := by
  have hsk := skip_spaces_moved_stop d q sz h hcw
  have hcode : code_at d.start q = c := by rw [code_at_of_drop_zero h]; rfl
  simp only [starts_value, letter_keywords, List.mem_cons, List.mem_singleton, List.mem_nil_iff,
    or_false, not_or, not_exists, not_and] at hv
  obtain ⟨⟨h1, h2, h3, h4, h5⟩, hkw⟩ := hv
  have h3 : ¬ (0x30 ≤ c ∧ c ≤ 0x39) := fun hh => h3 hh.1 hh.2
  have kt := keyword_compare_none d q sz [0x74, 0x72, 0x75, 0x65] (Value.bool true)
    (by rw [h]; exact hkw _ (by simp))
  have kf := keyword_compare_none d q sz [0x66, 0x61, 0x6C, 0x73, 0x65] (Value.bool false)
    (by rw [h]; exact hkw _ (by simp))
  have kn := keyword_compare_none d q sz [0x6E, 0x75, 0x6C, 0x6C] (Value.null : Value F)
    (by rw [h]; exact hkw _ (by simp))
  have kN := keyword_compare_none d q sz [0x4E, 0x61, 0x4E] (Value.float (.nan) : Value F)
    (by rw [h]; exact hkw _ (by simp))
  have kI := keyword_compare_none d q sz [0x49, 0x6E, 0x66, 0x69, 0x6E, 0x69, 0x74, 0x79]
    (Value.float (.inf) : Value F) (by rw [h]; exact hkw _ (by simp))
  rw [json_read]
  simp only [hsk, moved_start, moved_index, hcode, hc0, h1, h2, h3, h4, h5, if_false, kt, kf,
    kn, kN, kI]
  split_ifs <;> rfl

/-- What the error names as wanted where a value is due. -/
theorem resume_bad_value {F : Type} (host : Host F) (op : Opened) (hdue : op.value_due = true)
    (fuel : Nat) (list : List (Value F)) (object : List (List Nat × Value F)) (start : Nat)
    (d : Decoder F) (q sz : Nat) (c : Nat) (t : List Nat) (h : d.start.drop q = c :: t)
    (hc0 : c ≠ 0) (hcw : ¬ is_json_space c) (hv : ¬ starts_value (c :: t))
    (hclose : op.array_state = .ARRAY_EMPTY → c ≠ 0x5D) :
    op.resume host (fuel + 2) list object start (d.moved q sz)
      = .error (set_error_unexpected d q
          (if parser_find_next_value (d.moved q 0) = 0 then "<valid thing>"
           else if op.is_array then "object in array" else "object in dictionary")) := by
  have hsk := skip_spaces_moved_stop d q sz h hcw
  have hcode : code_at d.start q = c := by rw [code_at_of_drop_zero h]; rfl
  have hj := json_read_not_value host d q sz fuel c t h hc0 hcw hv
  have hfind : parser_find_next_value (d.moved q sz) = parser_find_next_value (d.moved q 0) := rfl
  cases op with
  | arr_need ws done b =>
    simp only [Opened.resume, Opened.is_array, if_true]
    rw [read_array_impl]
    simp only [hsk, moved_start, moved_index, hcode, hc0, if_false, hj, hfind]
    by_cases hd : done.length = 0
    · have := hclose (by simp [Opened.array_state, hd])
      simp only [Opened.array_state, hd, if_true, this, if_false]
      split_ifs <;> rfl
    · simp only [Opened.array_state, hd, if_false]
      split_ifs <;> rfl
  | obj_need_value ws done b key m n =>
    simp only [Opened.resume, Opened.is_array, Bool.false_eq_true, if_false,
      Opened.object_state, Opened.pending_key]
    rw [read_object_impl]
    simp only [hsk, moved_start, moved_index, hcode, hc0, if_false, hj, hfind]
    split_ifs <;> rfl
  | arr_got ws done b v a => simp [Opened.value_due] at hdue
  | obj_need_key ws done b => simp [Opened.value_due] at hdue
  | obj_need_colon ws done b key m => simp [Opened.value_due] at hdue
  | obj_got ws done b key m n v a => simp [Opened.value_due] at hdue

/-- Where a key is due, anything but a quote is refused (a closing brace too,
except right after the opening one). -/
theorem resume_bad_key {F : Type} (host : Host F) (ws : List Nat)
    (done : List ((List Nat × List StrToken × List Nat) × (List Nat × JText × List Nat)))
    (b : List Nat) (fuel : Nat) (list : List (Value F)) (object : List (List Nat × Value F))
    (start : Nat) (d : Decoder F) (q sz : Nat) (c : Nat) (t : List Nat)
    (h : d.start.drop q = c :: t) (hc0 : c ≠ 0) (hcw : ¬ is_json_space c) (hq : c ≠ 0x22)
    (hclose : done = [] → c ≠ 0x7D) :
    (Opened.obj_need_key ws done b).resume host (fuel + 1) list object start (d.moved q sz)
      = .error (set_error_unexpected d q "property name") := by
  have hsk := skip_spaces_moved_stop d q sz h hcw
  have hcode : code_at d.start q = c := by rw [code_at_of_drop_zero h]; rfl
  simp only [Opened.resume, Opened.is_array, Bool.false_eq_true, if_false,
    Opened.object_state, Opened.pending_key]
  rw [read_object_impl]
  simp only [hsk, moved_start, moved_index, hcode, hc0, if_false, hq, ne_eq, not_false_eq_true,
    if_true]
  by_cases hd : done.length = 0
  · have := hclose (List.length_eq_zero.mp hd)
    simp only [hd, if_true, this, if_false]
    rfl
  · simp only [hd, if_false]
    rfl

/-- After a key, anything but a colon is refused. -/
theorem resume_bad_colon {F : Type} (host : Host F) (ws : List Nat)
    (done : List ((List Nat × List StrToken × List Nat) × (List Nat × JText × List Nat)))
    (b : List Nat) (key : List StrToken) (m : List Nat) (fuel : Nat) (list : List (Value F))
    (object : List (List Nat × Value F))
    (start : Nat) (d : Decoder F) (q sz : Nat) (c : Nat) (t : List Nat)
    (h : d.start.drop q = c :: t) (hc0 : c ≠ 0) (hcw : ¬ is_json_space c) (hq : c ≠ 0x3A) :
    (Opened.obj_need_colon ws done b key m).resume host (fuel + 1) list object start
        (d.moved q sz)
      = .error (set_error_unexpected d q "colon") := by
  have hsk := skip_spaces_moved_stop d q sz h hcw
  have hcode : code_at d.start q = c := by rw [code_at_of_drop_zero h]; rfl
  simp only [Opened.resume, Opened.is_array, Bool.false_eq_true, if_false,
    Opened.object_state, Opened.pending_key]
  rw [read_object_impl]
  simp only [hsk, moved_start, moved_index, hcode, hc0, if_false, hq, ne_eq, not_false_eq_true,
    if_true]
  rfl

/-- After a value, anything but a comma or the closing bracket is refused. -/
theorem resume_bad_comma {F : Type} (host : Host F) (op : Opened)
    (hafter : op.after_value = true)
    (fuel : Nat) (list : List (Value F)) (object : List (List Nat × Value F)) (start : Nat)
    (d : Decoder F) (q sz : Nat) (c : Nat) (t : List Nat) (h : d.start.drop q = c :: t)
    (hc0 : c ≠ 0) (hcw : ¬ is_json_space c) (hcomma : c ≠ 0x2C)
    (hclose : c ≠ (if op.is_array then 0x5D else 0x7D)) :
    op.resume host (fuel + 1) list object start (d.moved q sz)
      = .error (set_error_unexpected d q "comma") := by
  have hsk := skip_spaces_moved_stop d q sz h hcw
  have hcode : code_at d.start q = c := by rw [code_at_of_drop_zero h]; rfl
  cases op with
  | arr_got ws done b v a =>
    simp only [Opened.is_array, if_true] at hclose
    simp only [Opened.resume, Opened.is_array, if_true, Opened.array_state]
    rw [read_array_impl]
    simp only [hsk, moved_start, moved_index, hcode, hc0, if_false, hcomma, hclose]
    rfl
  | obj_got ws done b key m n v a =>
    simp only [Opened.is_array, Bool.false_eq_true, if_false] at hclose
    simp only [Opened.resume, Opened.is_array, Bool.false_eq_true, if_false,
      Opened.object_state, Opened.pending_key]
    rw [read_object_impl]
    simp only [hsk, moved_start, moved_index, hcode, hc0, if_false, hcomma, hclose]
    rfl
  | arr_need ws done b => simp [Opened.after_value] at hafter
  | obj_need_key ws done b => simp [Opened.after_value] at hafter
  | obj_need_colon ws done b key m => simp [Opened.after_value] at hafter
  | obj_need_value ws done b key m n => simp [Opened.after_value] at hafter

end Jsonlib2

namespace Jsonlib2

/-! ## C14: where an array wants a value -/

/-- C14: in an array, however deep it is nested, right after the opening bracket
and after every comma the next code unit that is not whitespace has to start a
value (a closing bracket is allowed right after the opening one): when it
starts none, `_read_entry` fails with a read error for an unexpected code unit
whose position is the offset of that code unit.  So `[,1]` fails at offset 1,
`[1,]` at offset 3 and `[1,2,}` at offset 5, which `set_error` reports as line
1, column 6, offset 5. -/
theorem array_value_required :
    (∀ {F : Type} (host : Host F) (pf pi pc : Option (List Nat → Option (Value F)))
      (ws0 : List Nat) (ctx : List Opened) (ws : List Nat)
      (done : List (List Nat × JText × List Nat)) (b : List Nat) (c : Nat) (t : List Nat),
      is_ws ws0 →
      (∀ o ∈ ctx, o.WF ∧
        o.denotes host (entry_decoder
          (ws0 ++ context_text ctx ++ ((Opened.arr_need ws done b).text ++ c :: t)) pf pi pc) ∧
        o.value_due = true) →
      (Opened.arr_need ws done b).WF →
      (Opened.arr_need ws done b).denotes host (entry_decoder
          (ws0 ++ context_text ctx ++ ((Opened.arr_need ws done b).text ++ c :: t)) pf pi pc) →
      c ≠ 0 → ¬ is_json_space c → ¬ starts_value (c :: t) → (done = [] → c ≠ 0x5D) →
      (ws0 ++ context_text ctx ++ ((Opened.arr_need ws done b).text ++ c :: t))[
          ws0.length + (context_text ctx).length + (Opened.arr_need ws done b).text.length]?
        = some c ∧
      ∃ wanted, wanted ∈ ["object in array", "<valid thing>"] ∧
        _read_entry host
            (ws0 ++ context_text ctx ++ ((Opened.arr_need ws done b).text ++ c :: t)) pf pi pc
          = .error (.ReadError
              (.unexpected (next_ucs4
                (ws0 ++ context_text ctx ++ ((Opened.arr_need ws done b).text ++ c :: t))
                (ws0.length + (context_text ctx).length +
                  (Opened.arr_need ws done b).text.length)) wanted)
              (ws0.length + (context_text ctx).length +
                (Opened.arr_need ws done b).text.length))) ∧
    _read_entry example_host [0x5B, 0x2C, 0x31, 0x5D] none none none
      = .error (.ReadError (.unexpected 0x2C "object in array") 1) ∧
    _read_entry example_host [0x5B, 0x31, 0x2C, 0x5D] none none none
      = .error (.ReadError (.unexpected 0x5D "object in array") 3) ∧
    _read_entry example_host [0x5B, 0x31, 0x2C, 0x32, 0x2C, 0x7D] none none none
      = .error (.ReadError (.unexpected 0x7D "object in array") 5) ∧
    DecodeError.report [0x5B, 0x31, 0x2C, 0x32, 0x2C, 0x7D]
        (.ReadError (.unexpected 0x7D "object in array") 5)
      = some (1, 6, 5, .unexpected 0x7D "object in array") := by
  refine ⟨?_, rfl, rfl, rfl, rfl⟩
  intro F host pf pi pc ws0 ctx ws done b c t hws hctx hwf hden hc0 hcw hv hclose
  constructor
  · rw [List.getElem?_append_right (by simp)]
    rw [List.getElem?_append_right (by simp)]
    simp
  · have hd : (entry_decoder
        (ws0 ++ context_text ctx ++ ((Opened.arr_need ws done b).text ++ c :: t)) pf pi pc).start.drop
          (ws0.length + (context_text ctx).length + (Opened.arr_need ws done b).text.length)
        = c :: t := by
      have h0 : (entry_decoder
          (ws0 ++ context_text ctx ++ ((Opened.arr_need ws done b).text ++ c :: t)) pf pi pc).start.drop 0
          = (ws0 ++ context_text ctx) ++ ((Opened.arr_need ws done b).text ++ c :: t) := rfl
      have h1 := drop_add_of_drop (drop_add_of_drop h0)
      simpa [Nat.add_assoc] using h1
    refine ⟨_, ?_, read_entry_opened_error host pf pi pc ws0 ctx (Opened.arr_need ws done b)
      (c :: t) _ hws hctx hwf hden (fun h => by simp [Opened.after_value] at h)
      (fun g list object sz => resume_bad_value host (Opened.arr_need ws done b) rfl g list object _ _ _ sz c t hd hc0 hcw hv
        (fun hst => hclose (by
          by_contra hne
          have : done.length ≠ 0 := fun h => hne (List.length_eq_zero.mp h)
          simp [Opened.array_state, this] at hst)))⟩
    simp only [Opened.is_array, if_true]
    split_ifs <;> simp

/-- The text `[true, }` with no hooks: the brace at offset 7 does not start a
value. -/
theorem array_value_required_witness :
    ([] ++ context_text [] ++
        ((Opened.arr_need [] [([], JText.keyword [0x74, 0x72, 0x75, 0x65], [])] [0x20]).text
          ++ 0x7D :: [])
      = [0x5B, 0x74, 0x72, 0x75, 0x65, 0x2C, 0x20, 0x7D]) ∧
    ∃ wanted, wanted ∈ ["object in array", "<valid thing>"] ∧
      _read_entry example_host
          ([] ++ context_text [] ++
            ((Opened.arr_need [] [([], JText.keyword [0x74, 0x72, 0x75, 0x65], [])] [0x20]).text
              ++ 0x7D :: [])) none none none
        = .error (.ReadError
            (.unexpected (next_ucs4
              ([] ++ context_text [] ++
                ((Opened.arr_need [] [([], JText.keyword [0x74, 0x72, 0x75, 0x65], [])]
                  [0x20]).text ++ 0x7D :: []))
              (([] : List Nat).length + (context_text []).length +
                (Opened.arr_need [] [([], JText.keyword [0x74, 0x72, 0x75, 0x65], [])]
                  [0x20]).text.length)) wanted)
            (([] : List Nat).length + (context_text []).length +
              (Opened.arr_need [] [([], JText.keyword [0x74, 0x72, 0x75, 0x65], [])]
                [0x20]).text.length)) :=
  ⟨rfl, (array_value_required.1 example_host none none none [] [] []
    [([], JText.keyword [0x74, 0x72, 0x75, 0x65], [])] [0x20] 0x7D []
    (by simp [is_ws])
    (by simp)
    (by simp [Opened.WF, is_ws, elems_WF, JText.WF, keyword_texts, is_json_space])
    rfl (by decide) (by simp [is_json_space])
    (by simp [starts_value, letter_keywords])
    (by simp)).2⟩

end Jsonlib2

namespace Jsonlib2

/-! ## C15: input that ends inside an array or an object -/

/-- C15: when the input ends inside an array or an object whose finished
elements or members are well-formed, however deep it is nested in arrays and
objects that wait for it as a value, `_read_entry` fails with
`Unterminated array.` for an array and `Unterminated object.` for an object,
and the position of the error is the offset of the opening bracket of that
very array or object. -/
theorem unterminated_at_opening_bracket {F : Type} (host : Host F)
    (pf pi pc : Option (List Nat → Option (Value F))) (ws0 : List Nat) (ctx : List Opened)
    (op : Opened) (hws : is_ws ws0)
    (hctx : ∀ o ∈ ctx, o.WF ∧
      o.denotes host (entry_decoder (ws0 ++ context_text ctx ++ op.text) pf pi pc) ∧
      o.value_due = true)
    (hwf : op.WF)
    (hden : op.denotes host (entry_decoder (ws0 ++ context_text ctx ++ op.text) pf pi pc)) :
    _read_entry host (ws0 ++ context_text ctx ++ op.text) pf pi pc
      = .error (set_error_simple (ws0.length + (context_text ctx).length)
          (if op.is_array then "Unterminated array." else "Unterminated object.")) ∧
    (ws0 ++ context_text ctx ++ op.text)[ws0.length + (context_text ctx).length]?
      = some (if op.is_array then 0x5B else 0x7B) := by
  constructor
  · have key := read_entry_opened_error host pf pi pc ws0 ctx op []
      (set_error_simple (ws0.length + (context_text ctx).length) (unterminated_message op)) hws
    simp only [List.append_nil] at key
    refine key hctx hwf hden (fun _ => trivial) ?_
    intro g list object sz
    have hz : ∀ (buf : List Nat) (p : Nat), buf.length ≤ p → code_at buf p = 0 :=
      fun buf p hp => by rw [code_at_of_drop_zero (List.drop_eq_nil_of_le hp)]; rfl
    refine resume_eof host op (g + 1) list object _ _ _ sz (hz _ _ ?_)
    simp [entry_decoder]
    omega
  · rw [List.getElem?_append_right (by simp)]
    simp only [List.length_append, Nat.sub_self]
    cases op <;> simp [Opened.text, Opened.is_array]

/-- The text `[null, {"a": [true, ` ends inside the innermost array, whose
opening bracket is at offset 13. -/
theorem unterminated_at_opening_bracket_witness :
    ([] ++ context_text
        [Opened.arr_need [] [([], JText.keyword [0x6E, 0x75, 0x6C, 0x6C], [])] [0x20],
         Opened.obj_need_value [] [] [] [StrToken.plain 0x61] [] [0x20]]
        ++ (Opened.arr_need [] [([], JText.keyword [0x74, 0x72, 0x75, 0x65], [])] [0x20]).text
      = [0x5B, 0x6E, 0x75, 0x6C, 0x6C, 0x2C, 0x20, 0x7B, 0x22, 0x61, 0x22, 0x3A, 0x20,
         0x5B, 0x74, 0x72, 0x75, 0x65, 0x2C, 0x20]) ∧
    _read_entry example_host
        ([] ++ context_text
          [Opened.arr_need [] [([], JText.keyword [0x6E, 0x75, 0x6C, 0x6C], [])] [0x20],
           Opened.obj_need_value [] [] [] [StrToken.plain 0x61] [] [0x20]]
          ++ (Opened.arr_need [] [([], JText.keyword [0x74, 0x72, 0x75, 0x65], [])] [0x20]).text)
        none none none
      = .error (set_error_simple 13 "Unterminated array.") :=
  ⟨rfl, (unterminated_at_opening_bracket example_host none none none []
    [Opened.arr_need [] [([], JText.keyword [0x6E, 0x75, 0x6C, 0x6C], [])] [0x20],
     Opened.obj_need_value [] [] [] [StrToken.plain 0x61] [] [0x20]]
    (Opened.arr_need [] [([], JText.keyword [0x74, 0x72, 0x75, 0x65], [])] [0x20])
    (by simp [is_ws])
    (by
      intro o ho
      simp only [List.mem_cons, List.mem_singleton, List.mem_nil_iff, or_false] at ho
      rcases ho with rfl | rfl
      · refine ⟨?_, rfl, rfl⟩
        simp [Opened.WF, is_ws, elems_WF, JText.WF, keyword_texts, is_json_space]
      · refine ⟨?_, rfl, rfl⟩
        simp [Opened.WF, is_ws, members_WF, StrToken.WF, is_json_space])
    (by simp [Opened.WF, is_ws, elems_WF, JText.WF, keyword_texts, is_json_space])
    rfl).1⟩

end Jsonlib2

namespace Jsonlib2

/-! ## C17: the members of an object -/

/-- C17: a well-formed object text, members `"key" : value` separated by commas
with whitespace anywhere between the tokens, decodes to the dictionary of its
members, and `{}` to the empty one.  Inside an object, however deep it is
nested, the next code unit `c` that is not whitespace is refused with a read
error at its own offset `pos` when it is not what the object needs there:
where a key is due, anything but a double quote (and the closing brace right
after the opening one), so a trailing comma before the closing brace is
refused at that brace; after a key, anything but a colon; after the colon,
anything that starts no value; after a value, anything but a comma or the
closing brace.  So `{1:2}` and `{a:1}` fail at offset 1, `{"a" 1}` and `{"a":}`
at offset 5, and the trailing comma of `{"a":1,}` at offset 7. -/
theorem object_members_required :
    (∀ {F : Type} (host : Host F) (pf pi pc : Option (List Nat → Option (Value F)))
      (ws1 ws2 ws : List Nat)
      (members : List ((List Nat × List StrToken × List Nat) × (List Nat × JText × List Nat)))
      (kvs : List (List Nat × Value F)),
      is_ws ws1 → is_ws ws2 → (JText.object ws members).WF →
      members_values host
        (entry_decoder (ws1 ++ (JText.object ws members).text ++ ws2) pf pi pc) members
          = some kvs →
      _read_entry host (ws1 ++ (JText.object ws members).text ++ ws2) pf pi pc
        = .ok (.obj (dict_of_members kvs))) ∧
    (∀ {F : Type} (host : Host F) (pf pi pc : Option (List Nat → Option (Value F)))
      (ws0 : List Nat) (ctx : List Opened) (op : Opened) (c : Nat) (t : List Nat)
      (text : List Nat) (pos : Nat),
      text = ws0 ++ context_text ctx ++ (op.text ++ c :: t) →
      pos = ws0.length + (context_text ctx).length + op.text.length →
      is_ws ws0 →
      (∀ o ∈ ctx, o.WF ∧ o.denotes host (entry_decoder text pf pi pc) ∧ o.value_due = true) →
      op.WF → op.denotes host (entry_decoder text pf pi pc) →
      c ≠ 0 → ¬ is_json_space c →
      text[pos]? = some c ∧
      match op with
      | .obj_need_key _ done _ =>
        c ≠ 0x22 → (done = [] → c ≠ 0x7D) →
          _read_entry host text pf pi pc
            = .error (.ReadError (.unexpected (next_ucs4 text pos) "property name") pos)
      | .obj_need_colon _ _ _ _ _ =>
        c ≠ 0x3A →
          _read_entry host text pf pi pc
            = .error (.ReadError (.unexpected (next_ucs4 text pos) "colon") pos)
      | .obj_need_value _ _ _ _ _ _ =>
        ¬ starts_value (c :: t) →
          ∃ wanted, wanted ∈ ["object in dictionary", "<valid thing>"] ∧
            _read_entry host text pf pi pc
              = .error (.ReadError (.unexpected (next_ucs4 text pos) wanted) pos)
      | .obj_got _ _ _ _ _ _ _ _ =>
        number_stop (c :: t) → c ≠ 0x2C → c ≠ 0x7D →
          _read_entry host text pf pi pc
            = .error (.ReadError (.unexpected (next_ucs4 text pos) "comma") pos)
      | _ => True) ∧
    _read_entry example_host [0x7B, 0x7D] none none none = .ok (.obj []) ∧
    _read_entry example_host [0x7B, 0x31, 0x3A, 0x32, 0x7D] none none none
      = .error (.ReadError (.unexpected 0x31 "property name") 1) ∧
    _read_entry example_host [0x7B, 0x61, 0x3A, 0x31, 0x7D] none none none
      = .error (.ReadError (.unexpected 0x61 "property name") 1) ∧
    _read_entry example_host [0x7B, 0x22, 0x61, 0x22, 0x20, 0x31, 0x7D] none none none
      = .error (.ReadError (.unexpected 0x31 "colon") 5) ∧
    _read_entry example_host [0x7B, 0x22, 0x61, 0x22, 0x3A, 0x7D] none none none
      = .error (.ReadError (.unexpected 0x7D "object in dictionary") 5) ∧
    _read_entry example_host [0x7B, 0x22, 0x61, 0x22, 0x3A, 0x31, 0x2C, 0x7D] none none none
      = .error (.ReadError (.unexpected 0x7D "property name") 7) := by
  refine ⟨?_, ?_, rfl, rfl, rfl, rfl, rfl, rfl⟩
  · intro F host pf pi pc ws1 ws2 ws members kvs h1 h2 hwf hv
    refine read_entry_text host pf pi pc ws1 ws2 (JText.object ws members) h1 h2 hwf _ ?_
    have hv2 : members_values host
        (Decoder.mk (ws1 ++ (JText.object ws members).text ++ ws2) 0 0 pf pi pc) members
          = some kvs := hv
    rw [JText.value, hv2]
    rfl
  · intro F host pf pi pc ws0 ctx op c t text pos htext hpos hws hctx hwf hden hc0 hcw
    subst htext hpos
    have hd : (entry_decoder (ws0 ++ context_text ctx ++ (op.text ++ c :: t)) pf pi pc).start.drop
          (ws0.length + (context_text ctx).length + op.text.length) = c :: t := by
      have h0 : (entry_decoder (ws0 ++ context_text ctx ++ (op.text ++ c :: t)) pf pi pc).start.drop 0
          = (ws0 ++ context_text ctx) ++ (op.text ++ c :: t) := rfl
      have h1 := drop_add_of_drop (drop_add_of_drop h0)
      simpa [Nat.add_assoc] using h1
    constructor
    · rw [List.getElem?_append_right (by simp)]
      rw [List.getElem?_append_right (by simp)]
      simp
    · have key := fun e hstop hres =>
        read_entry_opened_error host pf pi pc ws0 ctx op (c :: t) e hws hctx hwf hden hstop hres
      cases op with
      | arr_need ws done b => trivial
      | arr_got ws done b v a => trivial
      | obj_need_key ws done b =>
        intro hq hclose
        exact key _ (fun h => by simp [Opened.after_value] at h)
          (fun g list object sz =>
            resume_bad_key host ws done b (g + 1) list object _ _ _ sz c t hd hc0 hcw hq hclose)
      | obj_need_colon ws done b k m =>
        intro hq
        exact key _ (fun h => by simp [Opened.after_value] at h)
          (fun g list object sz =>
            resume_bad_colon host ws done b k m (g + 1) list object _ _ _ sz c t hd hc0 hcw hq)
      | obj_need_value ws done b k m n =>
        intro hv
        refine ⟨_, ?_, key _ (fun h => by simp [Opened.after_value] at h)
          (fun g list object sz =>
            resume_bad_value host (Opened.obj_need_value ws done b k m n) rfl g list object _ _ _
              sz c t hd hc0 hcw hv (fun hst => by simp [Opened.array_state] at hst))⟩
        simp only [Opened.is_array, Bool.false_eq_true, if_false]
        split_ifs <;> simp
      | obj_got ws done b k m n v a =>
        intro hstop hcomma hclose
        exact key _ (fun _ => hstop)
          (fun g list object sz =>
            resume_bad_comma host (Opened.obj_got ws done b k m n v a) rfl (g + 1) list object _ _
              _ sz c t hd hc0 hcw hcomma (by simpa [Opened.is_array] using hclose))

/-- The object `{"a":true}` decodes to the dictionary with the one key `a`; in
`{"a":true,}` the closing brace at offset 10 stands where a key is due. -/
theorem object_members_required_witness :
    _read_entry example_host
        ([] ++ (JText.object []
          [(([], [StrToken.plain 0x61], []),
            ([], JText.keyword [0x74, 0x72, 0x75, 0x65], []))]).text ++ []) none none none
      = .ok (.obj (dict_of_members [([0x61], Value.bool true)])) ∧
    _read_entry example_host
        [0x7B, 0x22, 0x61, 0x22, 0x3A, 0x74, 0x72, 0x75, 0x65, 0x2C, 0x7D] none none none
      = .error (.ReadError (.unexpected
          (next_ucs4 [0x7B, 0x22, 0x61, 0x22, 0x3A, 0x74, 0x72, 0x75, 0x65, 0x2C, 0x7D] 10)
          "property name") 10) :=
  ⟨object_members_required.1 example_host none none none [] [] []
      [(([], [StrToken.plain 0x61], []), ([], JText.keyword [0x74, 0x72, 0x75, 0x65], []))]
      [([0x61], Value.bool true)]
      (by simp [is_ws]) (by simp [is_ws])
      (by simp [JText.WF, is_ws, members_WF, StrToken.WF, keyword_texts])
      rfl,
    (object_members_required.2.1 example_host none none none [] []
      (Opened.obj_need_key []
        [(([], [StrToken.plain 0x61], []), ([], JText.keyword [0x74, 0x72, 0x75, 0x65], []))] [])
      0x7D [] [0x7B, 0x22, 0x61, 0x22, 0x3A, 0x74, 0x72, 0x75, 0x65, 0x2C, 0x7D] 10 rfl rfl
      (by simp [is_ws]) (by simp)
      (by simp [Opened.WF, is_ws, members_WF, StrToken.WF, JText.WF, keyword_texts])
      rfl (by decide) (by simp [is_json_space])).2 (by decide) (by simp)⟩

end Jsonlib2

namespace Jsonlib2

/-! ## C21: classification by the zero bytes of the first four bytes -/

theorem no_bom_memcmp (bytes : List Nat) (h : ∀ p ∈ bom_order, ¬ p.1 <+: bytes) :
    memcmp_eq bytes BOM_UTF8 3 = false ∧ memcmp_eq bytes BOM_UTF32_LE 4 = false ∧
    memcmp_eq bytes BOM_UTF32_BE 4 = false ∧ memcmp_eq bytes BOM_UTF16_LE 2 = false ∧
    memcmp_eq bytes BOM_UTF16_BE 2 = false := by
  have key : ∀ bom : List Nat, ¬ bom <+: bytes → memcmp_eq bytes bom bom.length = false := by
    intro bom hb
    rw [memcmp_eq_isPrefixOf, Bool.eq_false_iff]
    intro hp
    exact hb (List.isPrefixOf_iff_prefix.mp hp)
  refine ⟨key BOM_UTF8 (h (_, .UTF_8_BOM) (by simp [bom_order, BOM_UTF8])),
    key BOM_UTF32_LE (h (_, .UTF_32_LE_BOM) (by simp [bom_order, BOM_UTF32_LE])),
    key BOM_UTF32_BE (h (_, .UTF_32_BE_BOM) (by simp [bom_order, BOM_UTF32_BE])),
    key BOM_UTF16_LE (h (_, .UTF_16_LE_BOM) (by simp [bom_order, BOM_UTF16_LE])),
    key BOM_UTF16_BE (h (_, .UTF_16_BE_BOM) (by simp [bom_order, BOM_UTF16_BE]))⟩

/-- C21: a buffer shorter than 4 bytes is UTF-8 whatever it holds; a buffer of
at least 4 bytes that starts with none of the five byte-order marks is
classified by which of its first four bytes `b0 b1 b2 b3` are zero: UTF-16LE
for `b0 ≠ 0, b1 = 0, b2 ≠ 0, b3 = 0`, UTF-16BE for `b0 = 0, b1 ≠ 0, b2 = 0,
b3 ≠ 0`, UTF-32LE for `b0 ≠ 0, b1 = b2 = b3 = 0`, UTF-32BE for
`b0 = b1 = b2 = 0, b3 ≠ 0`, and UTF-8 in every other case. -/
theorem detect_encoding_zero_pattern :
    (∀ (bytes : List Nat), bytes.length < 4 → detect_encoding bytes = .UTF_8) ∧
    (∀ (b0 b1 b2 b3 : Nat) (rest : List Nat),
      (∀ p ∈ bom_order, ¬ p.1 <+: b0 :: b1 :: b2 :: b3 :: rest) →
      detect_encoding (b0 :: b1 :: b2 :: b3 :: rest)
        = if b0 ≠ 0 ∧ b1 = 0 ∧ b2 ≠ 0 ∧ b3 = 0 then .UTF_16_LE
          else if b0 = 0 ∧ b1 ≠ 0 ∧ b2 = 0 ∧ b3 ≠ 0 then .UTF_16_BE
          else if b0 ≠ 0 ∧ b1 = 0 ∧ b2 = 0 ∧ b3 = 0 then .UTF_32_LE
          else if b0 = 0 ∧ b1 = 0 ∧ b2 = 0 ∧ b3 ≠ 0 then .UTF_32_BE
          else .UTF_8) := by
  constructor
  · intro bytes h
    simp [detect_encoding, h]
  · intro b0 b1 b2 b3 rest h
    obtain ⟨m1, m2, m3, m4, m5⟩ := no_bom_memcmp _ h
    unfold detect_encoding
    simp only [m1, m2, m3, m4, m5]
    simp

/-- The buffer `7B 00 7D 00`, the document `{}` in UTF-16LE, has no byte-order
mark and the zero pattern of UTF-16LE. -/
theorem detect_encoding_zero_pattern_witness :
    detect_encoding [0x7B, 0x00, 0x7D, 0x00]
      = (if 0x7B ≠ 0 ∧ 0x00 = 0 ∧ 0x7D ≠ 0 ∧ 0x00 = 0 then Encoding.UTF_16_LE
        else if 0x7B = 0 ∧ 0x00 ≠ 0 ∧ 0x7D = 0 ∧ 0x00 ≠ 0 then .UTF_16_BE
        else if 0x7B ≠ 0 ∧ 0x00 = 0 ∧ 0x7D = 0 ∧ 0x00 = 0 then .UTF_32_LE
        else if 0x7B = 0 ∧ 0x00 = 0 ∧ 0x7D = 0 ∧ 0x00 ≠ 0 then .UTF_32_BE
        else .UTF_8) ∧
    detect_encoding [0x7B, 0x00, 0x7D, 0x00] = Encoding.UTF_16_LE :=
  ⟨detect_encoding_zero_pattern.2 0x7B 0x00 0x7D 0x00 [] (by decide), by decide⟩

end Jsonlib2

namespace Jsonlib2

/-! ## C22: the document `{}` in the ten encoding variants -/

/-- C22: for each of the ten encoding variants, the bytes of the document `{}`
in the codec of the variant, after the byte-order mark of the variant when it
has one, are classified by `detect_encoding` as that variant;
`unicode_autodetect` hands `PyUnicode_Decode` the codec of the variant and the
bytes without the mark (3 bytes dropped for UTF-8, 2 for UTF-16, 4 for UTF-32,
none without a mark); and, `PyUnicode_Decode` decoding these bytes to the two
characters `{}`, the decode returns the empty object. -/
theorem empty_object_all_encodings {F : Type} (host : Host F)
    (PyUnicode_Decode : Codec → List Nat → Option (List Nat))
    (pf pi pc : Option (List Nat → Option (Value F)))
    (hdec : ∀ codec, PyUnicode_Decode codec (encode_ascii codec [0x7B, 0x7D])
      = some [0x7B, 0x7D])
    (e : Encoding) :
    detect_encoding (e.bom ++ encode_ascii e.codec [0x7B, 0x7D]) = e ∧
    unicode_autodetect PyUnicode_Decode (e.bom ++ encode_ascii e.codec [0x7B, 0x7D])
      = PyUnicode_Decode e.codec
          ((e.bom ++ encode_ascii e.codec [0x7B, 0x7D]).drop e.bom.length) ∧
    (e.bom ++ encode_ascii e.codec [0x7B, 0x7D]).drop e.bom.length
      = encode_ascii e.codec [0x7B, 0x7D] ∧
    e.bom.length = (match e with
      | .UTF_8_BOM => 3
      | .UTF_16_LE_BOM => 2
      | .UTF_16_BE_BOM => 2
      | .UTF_32_LE_BOM => 4
      | .UTF_32_BE_BOM => 4
      | _ => 0) ∧
    _read_entry_bytes host PyUnicode_Decode (e.bom ++ encode_ascii e.codec [0x7B, 0x7D])
      pf pi pc = .ok (.obj []) := by
  have hdet : detect_encoding (e.bom ++ encode_ascii e.codec [0x7B, 0x7D]) = e := by
    cases e <;> decide
  have hdrop : (e.bom ++ encode_ascii e.codec [0x7B, 0x7D]).drop e.bom.length
      = encode_ascii e.codec [0x7B, 0x7D] := List.drop_left _ _
  have hauto : unicode_autodetect PyUnicode_Decode (e.bom ++ encode_ascii e.codec [0x7B, 0x7D])
      = PyUnicode_Decode e.codec
          ((e.bom ++ encode_ascii e.codec [0x7B, 0x7D]).drop e.bom.length) := by
    unfold unicode_autodetect
    rw [hdet]
    cases e <;> rfl
  refine ⟨hdet, hauto, hdrop, by cases e <;> rfl, ?_⟩
  unfold _read_entry_bytes
  rw [hauto, hdrop, hdec]
  rfl

/-- With the example decoder the bytes `FF FE 7B 00 7D 00`, UTF-16LE with its
mark, decode to the empty object. -/
theorem empty_object_all_encodings_witness :
    (Encoding.UTF_16_LE_BOM.bom ++ encode_ascii Encoding.UTF_16_LE_BOM.codec [0x7B, 0x7D]
      = [0xFF, 0xFE, 0x7B, 0x00, 0x7D, 0x00]) ∧
    _read_entry_bytes example_host example_decode
      (Encoding.UTF_16_LE_BOM.bom ++ encode_ascii Encoding.UTF_16_LE_BOM.codec [0x7B, 0x7D])
      none none none = .ok (.obj []) :=
  ⟨rfl,
    (empty_object_all_encodings example_host example_decode none none none
      (by intro codec; cases codec <;> rfl) Encoding.UTF_16_LE_BOM).2.2.2.2⟩

end Jsonlib2

namespace Jsonlib2

/-! ## C23: JSON whitespace only -/

theorem skip_spaces_from_takeWhile : ∀ (l : List Nat) (i : Nat),
    skip_spaces_from l i = i + (l.takeWhile (fun c => decide (is_json_space c))).length
  | [], i => by simp [skip_spaces_from]
  | c :: cs, i => by
    rw [skip_spaces_from]
    by_cases hc : is_json_space c
    · have hc2 : c ≠ 0 ∧ (c = 0x09 ∨ c = 0x0A ∨ c = 0x0D ∨ c = 0x20) := by
        unfold is_json_space at hc; omega
      rw [if_pos hc2, skip_spaces_from_takeWhile cs (i + 1), List.takeWhile_cons_of_pos (by simpa using hc)]
      simp only [List.length_cons]
      omega
    · have hc2 : ¬ (c ≠ 0 ∧ (c = 0x09 ∨ c = 0x0A ∨ c = 0x0D ∨ c = 0x20)) := fun h => hc h.2
      rw [if_neg hc2, List.takeWhile_cons_of_neg (by simpa using hc)]
      simp

/-- C23: `skip_spaces` changes the cursor only, moving it over the longest run of
tabs, line feeds, carriage returns and spaces at the cursor: what it stops on
is the end of the input or a code unit that is none of the four.  A text whose
first code unit after such a run is not JSON whitespace and starts no value is
rejected with a read error at that code unit; so it is for U+000B, U+000C,
U+00A0 and U+2028, whatever document follows them. -/
theorem skip_spaces_json_whitespace_only :
    (∀ {F : Type} (d : Decoder F), ∃ ws rest, d.start.drop d.index = ws ++ rest ∧ is_ws ws ∧
      (∀ c t, rest = c :: t → ¬ is_json_space c) ∧
      skip_spaces d = { d with index := d.index + ws.length }) ∧
    (∀ {F : Type} (host : Host F) (pf pi pc : Option (List Nat → Option (Value F)))
      (ws doc : List Nat) (c : Nat), is_ws ws → c ≠ 0 → ¬ is_json_space c →
      ¬ starts_value (c :: doc) →
      _read_entry host (ws ++ c :: doc) pf pi pc
        = .error (.ReadError (.unexpected (next_ucs4 (ws ++ c :: doc) ws.length) "<valid thing>")
            ws.length)) ∧
    (∀ {F : Type} (host : Host F) (pf pi pc : Option (List Nat → Option (Value F)))
      (ws doc : List Nat) (c : Nat), is_ws ws → c ∈ [0x0B, 0x0C, 0xA0, 0x2028] →
      _read_entry host (ws ++ c :: doc) pf pi pc
        = .error (.ReadError (.unexpected c "<valid thing>") ws.length)) := by
  have general : ∀ {F : Type} (host : Host F) (pf pi pc : Option (List Nat → Option (Value F)))
      (ws doc : List Nat) (c : Nat), is_ws ws → c ≠ 0 → ¬ is_json_space c →
      ¬ starts_value (c :: doc) →
      _read_entry host (ws ++ c :: doc) pf pi pc
        = .error (.ReadError (.unexpected (next_ucs4 (ws ++ c :: doc) ws.length) "<valid thing>")
            ws.length) := by
    intro F host pf pi pc ws doc c hws hc0 hcw hv
    have hd : (entry_decoder (ws ++ c :: doc) pf pi pc).start.drop 0 = ws ++ c :: doc := rfl
    have hd2 := drop_add_of_drop hd
    have hj : json_read host (read_fuel (ws ++ c :: doc))
        ((Decoder.mk (ws ++ c :: doc) 0 0 pf pi pc).moved 0 0)
          = .error (set_error_unexpected (entry_decoder (ws ++ c :: doc) pf pi pc)
              (0 + ws.length) "<valid thing>") := by
      have h1 := json_read_ws host (read_fuel (ws ++ c :: doc))
        (entry_decoder (ws ++ c :: doc) pf pi pc) 0 0 ws _ hws hd
      have h2 := json_read_not_value host (entry_decoder (ws ++ c :: doc) pf pi pc)
        (0 + ws.length) 0 (2 * (ws ++ c :: doc).length + 1) c doc hd2 hc0 hcw hv
      exact h1.trans h2
    rw [read_entry_decoder, hj, Nat.zero_add]
    rfl
  refine ⟨?_, general, ?_⟩
  · intro F d
    refine ⟨(d.start.drop d.index).takeWhile (fun c => decide (is_json_space c)),
      (d.start.drop d.index).dropWhile (fun c => decide (is_json_space c)),
      (List.takeWhile_append_dropWhile _ _).symm, ?_, ?_, ?_⟩
    · intro c hc
      simpa using List.mem_takeWhile_imp hc
    · intro c t h hc
      have := List.head_dropWhile_not (fun c => decide (is_json_space c)) (d.start.drop d.index)
        (by rw [h]; simp)
      simp only [h, List.head_cons] at this
      simp [hc] at this
    · simp only [skip_spaces, skip_spaces_from_takeWhile]
  · intro F host pf pi pc ws doc c hws hc
    have hc4 : c = 0x0B ∨ c = 0x0C ∨ c = 0xA0 ∨ c = 0x2028 := by simpa using hc
    have hn : next_ucs4 (ws ++ c :: doc) ws.length = c := by
      have hcode : code_at (ws ++ c :: doc) ws.length = c := by
        rw [code_at_of_drop_zero (List.drop_left ws (c :: doc))]; rfl
      unfold next_ucs4
      simp only [hcode]
      rw [if_neg (by omega)]
    rw [general host pf pi pc ws doc c hws (by omega) (by unfold is_json_space; omega) ?_, hn]
    simp only [starts_value, letter_keywords, List.mem_cons, List.mem_singleton,
      List.mem_nil_iff, or_false, not_or, not_exists, not_and]
    refine ⟨by omega, ?_⟩
    intro kw hkw hp
    have hhead := List.prefix_iff_eq_take.mp hp
    rcases hkw with rfl | rfl | rfl | rfl | rfl <;>
      simp at hhead <;> omega

/-- A line tabulation before the document `{}`: refused at offset 0. -/
theorem skip_spaces_json_whitespace_only_witness :
    _read_entry example_host ([] ++ 0x0B :: [0x7B, 0x7D]) none none none
      = .error (.ReadError (.unexpected 0x0B "<valid thing>") ([] : List Nat).length) :=
  skip_spaces_json_whitespace_only.2.2 example_host none none none [] [0x7B, 0x7D] 0x0B
    (by simp [is_ws]) (by simp)

end Jsonlib2

namespace Jsonlib2

/-! ## C24: ASCII-only output -/

theorem hexdigit_printable (n : Nat) :
    0x20 ≤ hexdigit (n &&& 0xF) ∧ hexdigit (n &&& 0xF) ≤ 0x7E := by
  rw [and_0xF]
  have h : ∀ i, i < 16 → 0x20 ≤ hexdigit i ∧ hexdigit i ≤ 0x7E := by decide
  exact h _ (Nat.mod_lt _ (by decide))

theorem printable_cons {x : Nat} {l : List Nat} (hx : 0x20 ≤ x ∧ x ≤ 0x7E)
    (hl : ∀ y ∈ l, 0x20 ≤ y ∧ y ≤ 0x7E) : ∀ y ∈ x :: l, 0x20 ≤ y ∧ y ≤ 0x7E :=
  List.forall_mem_cons.2 ⟨hx, hl⟩

theorem printable_nil : ∀ y ∈ ([] : List Nat), 0x20 ≤ y ∧ y ≤ 0x7E := fun _ h => by cases h

theorem printable_escape (e : Nat) (he : 0x20 ≤ e ∧ e ≤ 0x7E) :
    ∀ y ∈ [0x5C, e], 0x20 ≤ y ∧ y ≤ 0x7E :=
  printable_cons (by decide) (printable_cons he printable_nil)

theorem printable_hex4 (n : Nat) (l : List Nat) (hl : ∀ y ∈ l, 0x20 ≤ y ∧ y ≤ 0x7E) :
    ∀ y ∈ 0x5C :: 0x75 :: hexdigit ((n >>> 12) &&& 0xF) :: hexdigit ((n >>> 8) &&& 0xF) ::
      hexdigit ((n >>> 4) &&& 0xF) :: hexdigit (n &&& 0xF) :: l, 0x20 ≤ y ∧ y ≤ 0x7E :=
  printable_cons (by decide) (printable_cons (by decide)
    (printable_cons (hexdigit_printable _) (printable_cons (hexdigit_printable _)
      (printable_cons (hexdigit_printable _) (printable_cons (hexdigit_printable _) hl)))))

theorem escape_unichar_printable (c : Nat) : ∀ x ∈ escape_unichar c, 0x20 ≤ x ∧ x ≤ 0x7E := by
  unfold escape_unichar
  by_cases h1 : c = 0x08
  · rw [if_pos h1]; exact printable_escape _ (by decide)
  rw [if_neg h1]
  by_cases h2 : c = 0x09
  · rw [if_pos h2]; exact printable_escape _ (by decide)
  rw [if_neg h2]
  by_cases h3 : c = 0x0A
  · rw [if_pos h3]; exact printable_escape _ (by decide)
  rw [if_neg h3]
  by_cases h4 : c = 0x0C
  · rw [if_pos h4]; exact printable_escape _ (by decide)
  rw [if_neg h4]
  by_cases h5 : c = 0x0D
  · rw [if_pos h5]; exact printable_escape _ (by decide)
  rw [if_neg h5]
  by_cases h6 : c = 0x22
  · rw [if_pos h6]; exact printable_escape _ (by decide)
  rw [if_neg h6]
  by_cases h7 : c = 0x2F
  · rw [if_pos h7]; exact printable_escape _ (by decide)
  rw [if_neg h7]
  by_cases h8 : c = 0x5C
  · rw [if_pos h8]; exact printable_escape _ (by decide)
  rw [if_neg h8]
  by_cases h9 : c > 0xFFFF
  · rw [if_pos h9]
    exact printable_hex4 _ _ (printable_hex4 _ _ printable_nil)
  · rw [if_neg h9]
    exact printable_hex4 _ _ printable_nil

theorem unicode_to_ascii_printable (s : List Nat) (es : Bool) :
    ∀ x ∈ unicode_to_ascii s es, 0x20 ≤ x ∧ x ≤ 0x7E := by
  intro x hx
  simp only [unicode_to_ascii, List.mem_append, List.mem_singleton, List.mem_flatMap] at hx
  rcases hx with (rfl | ⟨c, _, hc⟩) | rfl
  · decide
  · unfold unicode_to_ascii_char at hc
    split_ifs at hc with h
    · simp only [List.mem_singleton] at hc
      subst hc
      omega
    · exact escape_unichar_printable c x hc
  · decide

theorem write_unicode_printable (enc : Encoder) (s out : List Nat)
    (hascii : enc.ensure_ascii = true) (h : write_unicode enc s = .ok out) :
    ∀ x ∈ out, 0x20 ≤ x ∧ x ≤ 0x7E := by
  unfold write_unicode at h
  split_ifs at h with hsafe
  · simp only [Except.ok.injEq] at h
    subst h
    intro x hx
    simp only [List.mem_append, List.mem_singleton] at hx
    rcases hx with (rfl | hx) | rfl
    · decide
    · have := List.all_eq_true.1 hsafe x hx
      simp only [write_unicode_needs_escape, hascii, true_and, Bool.not_eq_true',
        decide_eq_false_iff_not, not_or] at this
      omega
    · decide
  · split at h
    · simp at h
    · simp only [hascii, if_true, Except.ok.injEq] at h
      subst h
      exact unicode_to_ascii_printable s _

/-- C24: with `ensure_ascii` set, and either setting of `escape_slash`, the
quoted literal `write_unicode` returns for a string, whenever it returns one,
holds no code point outside U+0020..U+007E; so does the text `_write_entry`
returns for a string value. -/
theorem ensure_ascii_output_ascii {F : Type} (host : Host F) (enc : Encoder) (s out : List Nat)
    (hascii : enc.ensure_ascii = true) :
    (write_unicode enc s = .ok out → ∀ x ∈ out, 0x20 ≤ x ∧ x ≤ 0x7E) ∧
    (_write_entry host enc (.str s) = .ok out → ∀ x ∈ out, 0x20 ≤ x ∧ x ≤ 0x7E) := by
  refine ⟨write_unicode_printable enc s out hascii, ?_⟩
  intro h
  simp only [_write_entry, serializer_init_and_run_common] at h
  split_ifs at h
  simp only [Value.depth, write_object, write_basic] at h
  cases hw : write_unicode enc s with
  | error e => simp [hw] at h
  | ok pieces =>
    simp only [hw, List.nil_append, Except.ok.injEq] at h
    subst h
    exact write_unicode_printable enc s pieces hascii hw

/-- The string `é😀/` under the default options: every code point written is
printable ASCII. -/
theorem ensure_ascii_output_ascii_witness :
    write_unicode init_encoder [0xE9, 0x1F600, 0x2F]
      = .ok [0x22, 0x5C, 0x75, 0x30, 0x30, 0x65, 0x39, 0x5C, 0x75, 0x64, 0x38, 0x33, 0x64,
          0x5C, 0x75, 0x64, 0x65, 0x30, 0x30, 0x5C, 0x2F, 0x22] ∧
    ∀ x ∈ [0x22, 0x5C, 0x75, 0x30, 0x30, 0x65, 0x39, 0x5C, 0x75, 0x64, 0x38, 0x33, 0x64,
          0x5C, 0x75, 0x64, 0x65, 0x30, 0x30, 0x5C, 0x2F, 0x22], 0x20 ≤ x ∧ x ≤ 0x7E :=
  ⟨rfl, (ensure_ascii_output_ascii example_host init_encoder [0xE9, 0x1F600, 0x2F] _ rfl).1
    rfl⟩

end Jsonlib2

namespace Jsonlib2

/-! ## C25: code points above U+FFFF in ASCII-only output -/

theorem hexdigit_lower : ∀ i, i < 16 → hexdigit i = lower_hex_digit i := by decide

theorem hexdigits_lower_hex4 (n : Nat) :
    [hexdigit ((n >>> 12) &&& 0xF), hexdigit ((n >>> 8) &&& 0xF),
      hexdigit ((n >>> 4) &&& 0xF), hexdigit (n &&& 0xF)] = lower_hex4 n := by
  simp only [and_0xF, Nat.shiftRight_eq_div_pow, lower_hex4]
  rw [hexdigit_lower _ (Nat.mod_lt _ (by decide)), hexdigit_lower _ (Nat.mod_lt _ (by decide)),
    hexdigit_lower _ (Nat.mod_lt _ (by decide)), hexdigit_lower _ (Nat.mod_lt _ (by decide))]

/-- C25: for a code point `c` from U+10000 to U+10FFFF, with
`H = 0xD800 + ((c - 0x10000) >> 10)` and `L = 0xDC00 + ((c - 0x10000) & 0x3FF)`,
the ASCII-only escaping writes the 12 characters `\uHHHH\uLLLL`, the digits in
lowercase; `H` lies in D800..DBFF, `L` in DC00..DFFF, and
`((H - 0xD800) << 10) + (L - 0xDC00) + 0x10000 = c`.  With `ensure_ascii`,
`write_unicode` writes the one-character string as these 12 characters between
quotes. -/
theorem astral_escape_surrogate_pair (enc : Encoder) (c H L : Nat) (h1 : 0x10000 ≤ c)
    (h2 : c ≤ 0x10FFFF) (hH : H = 0xD800 + ((c - 0x10000) >>> 10))
    (hL : L = 0xDC00 + ((c - 0x10000) &&& 0x3FF)) :
    unicode_to_ascii_char enc.escape_slash c
      = [0x5C, 0x75] ++ lower_hex4 H ++ ([0x5C, 0x75] ++ lower_hex4 L) ∧
    (unicode_to_ascii_char enc.escape_slash c).length = 12 ∧
    (0xD800 ≤ H ∧ H ≤ 0xDBFF) ∧ (0xDC00 ≤ L ∧ L ≤ 0xDFFF) ∧
    ((H - 0xD800) <<< 10) + (L - 0xDC00) + 0x10000 = c ∧
    (enc.ensure_ascii = true →
      write_unicode enc [c]
        = .ok ([0x22] ++ ([0x5C, 0x75] ++ lower_hex4 H ++ ([0x5C, 0x75] ++ lower_hex4 L))
            ++ [0x22])) := by
  have hchar : unicode_to_ascii_char enc.escape_slash c
      = [0x5C, 0x75] ++ lower_hex4 H ++ ([0x5C, 0x75] ++ lower_hex4 L) := by
    unfold unicode_to_ascii_char
    rw [if_neg (by omega)]
    unfold escape_unichar
    have hne : ∀ k, k ≤ 0xFFFF → ¬ c = k := fun k hk h => by omega
    have hgt : c > 0xFFFF := by omega
    simp only [hne 0x08 (by decide), hne 0x09 (by decide), hne 0x0A (by decide),
      hne 0x0C (by decide), hne 0x0D (by decide), hne 0x22 (by decide), hne 0x2F (by decide),
      hne 0x5C (by decide), hgt, if_false, if_true]
    have eH := hexdigits_lower_hex4 ((c - 0x10000) >>> 10 + 0xD800)
    have eL := hexdigits_lower_hex4 (((c - 0x10000) &&& 0x3FF) + 0xDC00)
    rw [hH, hL, Nat.add_comm 0xD800, Nat.add_comm 0xDC00, ← eH, ← eL]
    rfl
  have hshift : (c - 0x10000) >>> 10 = (c - 0x10000) / 1024 := Nat.shiftRight_eq_div_pow _ 10
  have hand : (c - 0x10000) &&& 0x3FF = (c - 0x10000) % 1024 := and_0x3FF _
  refine ⟨hchar, by rw [hchar]; rfl, by omega, by omega, ?_, ?_⟩
  · rw [Nat.shiftLeft_eq]
    omega
  · intro hascii
    unfold write_unicode
    rw [if_neg]
    · have hs : write_unicode_surrogates [c] = none := by
        unfold write_unicode_surrogates
        rw [if_neg (by omega), if_neg (by omega)]
        rfl
      simp only [hs, hascii, if_true, unicode_to_ascii, List.flatMap_cons, List.flatMap_nil,
        List.append_nil, hchar]
    · simp only [List.all_cons, List.all_nil, Bool.and_true, Bool.not_eq_true',
        write_unicode_needs_escape, hascii, true_and, decide_eq_false_iff_not, not_or, not_lt,
        not_not]
      intro h
      omega

/-- The code point U+1F600: `H` is D83D, `L` is DE00, and the escape spells
backslash, `ud83d`, backslash, `ude00`. -/
theorem astral_escape_surrogate_pair_witness :
    unicode_to_ascii_char init_encoder.escape_slash 0x1F600
      = [0x5C, 0x75] ++ lower_hex4 0xD83D ++ ([0x5C, 0x75] ++ lower_hex4 0xDE00) ∧
    [0x5C, 0x75] ++ lower_hex4 0xD83D ++ ([0x5C, 0x75] ++ lower_hex4 0xDE00)
      = [0x5C, 0x75, 0x64, 0x38, 0x33, 0x64, 0x5C, 0x75, 0x64, 0x65, 0x30, 0x30] :=
  ⟨(astral_escape_surrogate_pair init_encoder 0x1F600 0xD83D 0xDE00 (by decide) (by decide)
    (by decide) (by decide)).1, by decide⟩

end Jsonlib2

namespace Jsonlib2

/-! ## C26: unpaired surrogates in a string to write -/

theorem surrogates_scan_none : ∀ (n : Nat) (s : List Nat), s.length ≤ n →
    write_unicode_surrogates s = none → ¬ has_unpaired_surrogate s := by
  intro n
  induction n with
  | zero =>
    intro s hs _ ⟨i, hi, _⟩
    omega
  | succ n ih =>
    intro s hs hscan
    cases s with
    | nil =>
      rintro ⟨i, hi, _⟩
      simp at hi
    | cons c rest =>
      unfold write_unicode_surrogates at hscan
      by_cases hh : 0xD800 ≤ c ∧ c ≤ 0xDBFF
      · rw [if_pos hh] at hscan
        cases rest with
        | nil => simp at hscan
        | cons c2 rest2 =>
          simp only at hscan
          by_cases hl : 0xDC00 ≤ c2 ∧ c2 ≤ 0xDFFF
          · rw [if_neg (not_not.mpr hl)] at hscan
            have ih2 := ih rest2 (by simp only [List.length_cons] at hs; omega) hscan
            rintro ⟨i, hi, h⟩
            match i, hi, h with
            | 0, _, h =>
              simp only [List.getD_cons_zero, List.getD_cons_succ, is_high_surrogate,
                is_low_surrogate, List.length_cons] at h
              omega
            | 1, _, h =>
              simp only [List.getD_cons_zero, List.getD_cons_succ, is_high_surrogate,
                is_low_surrogate, List.length_cons, Nat.sub_self] at h
              omega
            | j + 2, hi, h =>
              apply ih2
              refine ⟨j, by simp only [List.length_cons] at hi; omega, ?_⟩
              simp only [List.getD_cons_succ, List.length_cons] at h
              rcases h with ⟨a, b⟩ | ⟨a, b⟩
              · left
                refine ⟨a, fun hb => b ⟨by omega, hb.2⟩⟩
              · right
                refine ⟨a, fun hb => b ⟨by omega, ?_⟩⟩
                obtain ⟨k, rfl⟩ : ∃ k, j = k + 1 := ⟨j - 1, by omega⟩
                simpa using hb.2
          · rw [if_pos hl] at hscan
            simp at hscan
      · rw [if_neg hh] at hscan
        by_cases hl : 0xDC00 ≤ c ∧ c ≤ 0xDFFF
        · rw [if_pos hl] at hscan
          simp at hscan
        · rw [if_neg hl] at hscan
          have ih2 := ih rest (by simp only [List.length_cons] at hs; omega) hscan
          rintro ⟨i, hi, h⟩
          match i, hi, h with
          | 0, _, h =>
            simp only [List.getD_cons_zero, is_high_surrogate, is_low_surrogate] at h
            omega
          | j + 1, hi, h =>
            apply ih2
            refine ⟨j, by simp only [List.length_cons] at hi; omega, ?_⟩
            simp only [List.getD_cons_succ, List.length_cons] at h
            rcases h with ⟨a, b⟩ | ⟨a, b⟩
            · left
              refine ⟨a, fun hb => b ⟨by omega, hb.2⟩⟩
            · right
              refine ⟨a, fun hb => b ⟨by omega, ?_⟩⟩
              obtain ⟨k, rfl⟩ : ∃ k, j = k + 1 := ⟨j - 1, by omega⟩
              simpa using hb.2

theorem surrogates_scan_error : ∀ (n : Nat) (s : List Nat), s.length ≤ n →
    ∀ e : EncodeError, write_unicode_surrogates s = some e →
    (∃ message, e = .WriteError message) ∨ ∃ c, e = .reserved_code_point c := by
  intro n
  induction n with
  | zero =>
    intro s hs e h
    have : s = [] := List.length_eq_zero.mp (by omega)
    subst this
    simp [write_unicode_surrogates] at h
  | succ n ih =>
    intro s hs e hscan
    cases s with
    | nil => simp [write_unicode_surrogates] at hscan
    | cons c rest =>
      unfold write_unicode_surrogates at hscan
      by_cases hh : 0xD800 ≤ c ∧ c ≤ 0xDBFF
      · rw [if_pos hh] at hscan
        cases rest with
        | nil =>
          simp only [Option.some.injEq] at hscan
          exact .inl ⟨_, hscan.symm⟩
        | cons c2 rest2 =>
          simp only at hscan
          by_cases hl : 0xDC00 ≤ c2 ∧ c2 ≤ 0xDFFF
          · rw [if_neg (not_not.mpr hl)] at hscan
            exact ih rest2 (by simp only [List.length_cons] at hs; omega) e hscan
          · rw [if_pos hl] at hscan
            simp only [Option.some.injEq] at hscan
            exact .inl ⟨_, hscan.symm⟩
      · rw [if_neg hh] at hscan
        by_cases hl : 0xDC00 ≤ c ∧ c ≤ 0xDFFF
        · rw [if_pos hl] at hscan
          simp only [Option.some.injEq] at hscan
          exact .inr ⟨_, hscan.symm⟩
        · rw [if_neg hl] at hscan
          exact ih rest (by simp only [List.length_cons] at hs; omega) e hscan

theorem safe_iff (enc : Encoder) (s : List Nat) :
    s.all (fun c => !write_unicode_needs_escape enc c) = true
      ↔ ¬ ∃ c ∈ s, write_unicode_needs_escape enc c = true := by
  simp [List.all_eq_true]

/-- With an unpaired surrogate in the string, `write_unicode` fails exactly when
some code point of the string needs escaping under the options. -/
theorem unpaired_fails_iff (enc : Encoder) (s : List Nat) (h : has_unpaired_surrogate s) :
    (∃ e, write_unicode enc s = .error e ∧
        ((∃ message, e = .WriteError message) ∨ ∃ c, e = .reserved_code_point c))
      ↔ ∃ c ∈ s, write_unicode_needs_escape enc c = true := by
  unfold write_unicode
  by_cases hsafe : s.all (fun c => !write_unicode_needs_escape enc c) = true
  · rw [if_pos hsafe]
    constructor
    · rintro ⟨e, he, _⟩
      simp at he
    · intro hne
      exact absurd hne ((safe_iff enc s).1 hsafe)
  · rw [if_neg hsafe]
    have hne : ∃ c ∈ s, write_unicode_needs_escape enc c = true := by
      by_contra hc
      exact hsafe ((safe_iff enc s).2 hc)
    cases hscan : write_unicode_surrogates s with
    | none => exact absurd h (surrogates_scan_none s.length s (le_refl _) hscan)
    | some e =>
      simp only
      exact ⟨fun _ => hne, fun _ => ⟨e, rfl, surrogates_scan_error s.length s (le_refl _) e hscan⟩⟩

theorem unpaired_needs_escape (enc : Encoder) (hascii : enc.ensure_ascii = true) (s : List Nat)
    (h : has_unpaired_surrogate s) : ∃ c ∈ s, write_unicode_needs_escape enc c = true := by
  obtain ⟨i, hi, hc⟩ := h
  refine ⟨s.getD i 0, ?_, ?_⟩
  · rw [List.getD_eq_getElem _ _ hi]
    exact List.getElem_mem _
  · simp only [write_unicode_needs_escape, hascii, true_and, decide_eq_true_eq]
    unfold is_high_surrogate is_low_surrogate at hc
    omega

/-- C26: a string with an unpaired surrogate is refused with a write error
whenever `ensure_ascii` is set, and without `ensure_ascii` exactly when some
code point of the string needs escaping (a quote, a backslash, a control
character, a slash under `escape_slash`).  When none does, the first scan of
`write_unicode` returns the string between quotes and the scan for surrogates
is never reached: without `ensure_ascii` the strings U+D800 alone and
`a` U+DC00 are written as they are, for either setting of `escape_slash`. -/
theorem unpaired_surrogate_written :
    (∀ enc : Encoder, enc.ensure_ascii = false →
      has_unpaired_surrogate [0xD800] ∧
      write_unicode enc [0xD800] = .ok [0x22, 0xD800, 0x22] ∧
      has_unpaired_surrogate [0x61, 0xDC00] ∧
      write_unicode enc [0x61, 0xDC00] = .ok [0x22, 0x61, 0xDC00, 0x22]) ∧
    (∀ (enc : Encoder) (s : List Nat), has_unpaired_surrogate s →
      ((∃ e, write_unicode enc s = .error e ∧
          ((∃ message, e = .WriteError message) ∨ ∃ c, e = .reserved_code_point c))
        ↔ ∃ c ∈ s, write_unicode_needs_escape enc c = true)) ∧
    (∀ (enc : Encoder) (s : List Nat), has_unpaired_surrogate s → enc.ensure_ascii = true →
      ∃ e, write_unicode enc s = .error e ∧
        ((∃ message, e = .WriteError message) ∨ ∃ c, e = .reserved_code_point c)) := by
  refine ⟨?_, unpaired_fails_iff, ?_⟩
  · intro enc hascii
    refine ⟨⟨0, by decide, by simp [is_high_surrogate, is_low_surrogate]⟩, ?_,
      ⟨1, by decide, by simp [is_high_surrogate, is_low_surrogate]⟩, ?_⟩
    · simp [write_unicode, write_unicode_needs_escape, hascii]
    · simp [write_unicode, write_unicode_needs_escape, hascii]
  · intro enc s h hascii
    exact (unpaired_fails_iff enc s h).2 (unpaired_needs_escape enc hascii s h)

/-- With the default options but `ensure_ascii` off, the string U+D800 is
written as it is; with the default options it is refused. -/
theorem unpaired_surrogate_written_witness :
    write_unicode { init_encoder with ensure_ascii := false } [0xD800]
      = .ok [0x22, 0xD800, 0x22] ∧
    ∃ e, write_unicode init_encoder [0xD800] = .error e ∧
      ((∃ message, e = .WriteError message) ∨ ∃ c, e = .reserved_code_point c) :=
  ⟨(unpaired_surrogate_written.1 { init_encoder with ensure_ascii := false } rfl).2.1,
    unpaired_surrogate_written.2.2 init_encoder [0xD800]
      ⟨0, by decide, by simp [is_high_surrogate, is_low_surrogate]⟩ rfl⟩

end Jsonlib2

namespace Jsonlib2

/-! ## C27: NaN and the infinities -/

theorem write_entry_float {F : Type} (host : Host F) (enc : Encoder) (x : PyFloat F)
    (hindent : valid_json_whitespace enc.indent_string = true) :
    _write_entry host enc (.float x) = write_float host enc x := by
  simp only [_write_entry, serializer_init_and_run_common, hindent, Bool.true_eq_false, if_false,
    Value.depth, write_object, write_basic]
  cases write_float host enc x <;> simp

/-- C27: with `allow_nan` set, NaN, +Infinity and -Infinity are written as the
texts `NaN`, `Infinity` and `-Infinity`; with `allow_nan` not set each is
refused with its own write error, `Cannot serialize NaN.`,
`Cannot serialize Infinity.` and `Cannot serialize -Infinity.`, three distinct
messages.  So it is for `write_float` and, the indent string being valid, for
the whole encode call. -/
theorem special_floats_written {F : Type} (host : Host F) (enc : Encoder)
    (hindent : valid_json_whitespace enc.indent_string = true) :
    (enc.allow_nan = true →
      write_float host enc .nan = .ok [0x4E, 0x61, 0x4E] ∧
      write_float host enc .inf = .ok [0x49, 0x6E, 0x66, 0x69, 0x6E, 0x69, 0x74, 0x79] ∧
      write_float host enc .neg_inf
        = .ok [0x2D, 0x49, 0x6E, 0x66, 0x69, 0x6E, 0x69, 0x74, 0x79] ∧
      _write_entry host enc (.float .nan) = .ok [0x4E, 0x61, 0x4E] ∧
      _write_entry host enc (.float .inf)
        = .ok [0x49, 0x6E, 0x66, 0x69, 0x6E, 0x69, 0x74, 0x79] ∧
      _write_entry host enc (.float .neg_inf)
        = .ok [0x2D, 0x49, 0x6E, 0x66, 0x69, 0x6E, 0x69, 0x74, 0x79]) ∧
    (enc.allow_nan = false →
      write_float host enc .nan = .error (.WriteError "Cannot serialize NaN.") ∧
      write_float host enc .inf = .error (.WriteError "Cannot serialize Infinity.") ∧
      write_float host enc .neg_inf = .error (.WriteError "Cannot serialize -Infinity.") ∧
      _write_entry host enc (.float .nan) = .error (.WriteError "Cannot serialize NaN.") ∧
      _write_entry host enc (.float .inf)
        = .error (.WriteError "Cannot serialize Infinity.") ∧
      _write_entry host enc (.float .neg_inf)
        = .error (.WriteError "Cannot serialize -Infinity.")) ∧
    ("Cannot serialize NaN." ≠ "Cannot serialize Infinity." ∧
      "Cannot serialize NaN." ≠ "Cannot serialize -Infinity." ∧
      "Cannot serialize Infinity." ≠ "Cannot serialize -Infinity.") := by
  refine ⟨fun h => ?_, fun h => ?_, by decide, by decide, by decide⟩
  · simp only [write_entry_float host enc _ hindent]
    simp [write_float, h]
  · simp only [write_entry_float host enc _ hindent]
    simp [write_float, h]

/-- Under the default options NaN is written as `NaN`; with `allow_nan` off it is
refused. -/
theorem special_floats_written_witness :
    _write_entry example_host init_encoder (.float .nan) = .ok [0x4E, 0x61, 0x4E] ∧
    _write_entry example_host { init_encoder with allow_nan := false } (.float .nan)
      = .error (.WriteError "Cannot serialize NaN.") :=
  ⟨((special_floats_written example_host init_encoder rfl).1 rfl).2.2.2.1,
    ((special_floats_written example_host { init_encoder with allow_nan := false } rfl).2.1
      rfl).2.2.2.1⟩

end Jsonlib2

namespace Jsonlib2

/-! ## The serializer writes the indented text -/

theorem order_arr {F : Type} (enc : Encoder) (xs : List (Value F)) :
    enc.order (.arr xs) = .arr (xs.map enc.order) := by
  unfold Encoder.order
  by_cases h : enc.sort_keys = true
  · simp only [h, if_true, Value.sorted, sorted_list_eq_map]
  · simp only [h, Bool.false_eq_true, if_false]
    simp

theorem order_obj {F : Type} (enc : Encoder) (items : List (List Nat × Value F)) :
    enc.order (.obj items)
      = .obj ((if enc.sort_keys = false then items else PyList_Sort items).map
          (fun kv => (kv.1, enc.order kv.2))) := by
  unfold Encoder.order
  by_cases h : enc.sort_keys = true
  · simp only [h, if_true, Value.sorted, sorted_items_eq_map, Bool.true_eq_false, if_false]
    rw [PyList_Sort_map Value.sorted]
  · simp only [h, Bool.false_eq_true, if_false]
    have h2 : enc.sort_keys = false := by simpa using h
    simp [h2]

theorem order_scalar {F : Type} (enc : Encoder) (v : Value F)
    (h : (∀ xs, v ≠ .arr xs) ∧ ∀ items, v ≠ .obj items) : enc.order v = v := by
  unfold Encoder.order
  split_ifs
  · cases v with
    | arr xs => exact absurd rfl (h.1 xs)
    | obj items => exact absurd rfl (h.2 items)
    | _ => rfl
  · rfl

theorem sequence_loop_indented {F : Type} (host : Host F) (enc : Encoder) (s : List Nat)
    (W : Value F → Nat → List Nat → Except EncodeError (List Nat)) (g : Value F → Value F)
    (lvl size : Nat) (st e : List Nat) :
    ∀ (xs : List (Value F)) (ii : Nat) (out : List Nat), ii + xs.length = size →
      (∀ x ∈ xs, ∀ o, W x (lvl + 1) o = .ok (o ++ indented host enc s (lvl + 1) (g x))) →
      write_sequence_impl_loop W
        { start := st, end_ := e, pre_value := some (PySequence_Repeat s (lvl + 1)),
          post_value := [0x2C, 0x0A] }
        lvl size xs ii out
        = .ok (out ++ indented_body host enc s (lvl + 1) (xs.map g) ++ e) := by
  intro xs
  induction xs with
  | nil => intro ii out _ _; simp [write_sequence_impl_loop, indented_body]
  | cons x xs ih =>
    intro ii out hsz hW
    rw [write_sequence_impl_loop]
    simp only [hW x (List.mem_cons_self _ _)]
    rw [ih (ii + 1) _ (by simp only [List.length_cons] at hsz; omega)
      (fun y hy => hW y (List.mem_cons_of_mem _ hy))]
    cases xs with
    | nil =>
      have : ¬ (ii + 1 < size) := by simp only [List.length_cons, List.length_nil] at hsz; omega
      simp [this, indented_body, indented_tail]
    | cons y ys =>
      have : ii + 1 < size := by simp only [List.length_cons] at hsz; omega
      simp [this, indented_body, indented_tail]

theorem mapping_loop_indented {F : Type} (host : Host F) (enc : Encoder) (s : List Nat)
    (hcolon : enc.colon = [0x3A, 0x20])
    (W : Value F → Nat → List Nat → Except EncodeError (List Nat)) (g : Value F → Value F)
    (lvl size : Nat) (st e : List Nat) :
    ∀ (items : List (List Nat × Value F)) (ii : Nat) (out : List Nat),
      ii + items.length = size →
      (∀ kv ∈ items, (∀ c ∈ kv.1, is_scalar_value c) ∧
        ∀ o, W kv.2 (lvl + 1) o = .ok (o ++ indented host enc s (lvl + 1) (g kv.2))) →
      write_mapping_impl_loop host enc W
        { start := st, end_ := e, pre_value := some (PySequence_Repeat s (lvl + 1)),
          post_value := [0x2C, 0x0A] }
        lvl size items ii out
        = .ok (out ++ indented_members_body host enc s (lvl + 1)
            (items.map (fun kv => (kv.1, g kv.2))) ++ e) := by
  intro items
  induction items with
  | nil => intro ii out _ _; simp [write_mapping_impl_loop, indented_members_body]
  | cons kv rest ih =>
    obtain ⟨k, v⟩ := kv
    intro ii out hsz hW
    obtain ⟨hk, hv⟩ := hW (k, v) (List.mem_cons_self _ _)
    rw [write_mapping_impl_loop]
    simp only [mapping_process_key, write_basic_str_ok host enc k hk, hv, hcolon]
    rw [ih (ii + 1) _ (by simp only [List.length_cons] at hsz; omega)
      (fun y hy => hW y (List.mem_cons_of_mem _ hy))]
    cases rest with
    | nil =>
      have : ¬ (ii + 1 < size) := by simp only [List.length_cons, List.length_nil] at hsz; omega
      simp [this, indented_members_body, indented_members]
    | cons y ys =>
      obtain ⟨k2, v2⟩ := y
      have : ii + 1 < size := by simp only [List.length_cons] at hsz; omega
      simp [this, indented_members_body, indented_members]

theorem indented_arr {F : Type} (host : Host F) (enc : Encoder) (s : List Nat) (L : Nat)
    (xs : List (Value F)) (h : xs ≠ []) :
    indented host enc s L (.arr xs)
      = [0x5B, 0x0A] ++ indented_body host enc s (L + 1) xs ++
          ([0x0A] ++ PySequence_Repeat s L ++ [0x5D]) := by
  cases xs with
  | nil => exact absurd rfl h
  | cons x xs => simp [indented, indented_body]

theorem indented_obj {F : Type} (host : Host F) (enc : Encoder) (s : List Nat) (L : Nat)
    (items : List (List Nat × Value F)) (h : items ≠ []) :
    indented host enc s L (.obj items)
      = [0x7B, 0x0A] ++ indented_members_body host enc s (L + 1) items ++
          ([0x0A] ++ PySequence_Repeat s L ++ [0x7D]) := by
  cases items with
  | nil => exact absurd rfl h
  | cons kv rest =>
    obtain ⟨k, v⟩ := kv
    simp [indented, indented_members_body]

mutual

/-- With an indent string, `write_object` appends the indented text of a value of
the value model, its objects in the order the options ask for, given fuel
beyond its depth. -/
theorem write_object_indented {F : Type} (host : Host F) (enc : Encoder) (s : List Nat)
    (hi : enc.indent_string = some s) (hcolon : enc.colon = [0x3A, 0x20])
    (hnan : enc.allow_nan = true) :
    ∀ (v : Value F), v.wf → ∀ (fuel : Nat), v.depth < fuel → ∀ (lvl : Nat) (out : List Nat),
      write_object host enc fuel v lvl out
        = .ok (out ++ indented host enc s lvl (enc.order v))
  | .null, _, fuel, hf, lvl, out => by
    obtain ⟨k, rfl⟩ : ∃ k, fuel = k + 1 := ⟨fuel - 1, by omega⟩
    rw [order_scalar enc _ (by simp)]
    simp [write_object, write_basic, indented, scalar_text]
  | .bool b, _, fuel, hf, lvl, out => by
    obtain ⟨k, rfl⟩ : ∃ k, fuel = k + 1 := ⟨fuel - 1, by omega⟩
    rw [order_scalar enc _ (by simp)]
    cases b <;> simp [write_object, write_basic, indented, scalar_text]
  | .int n, _, fuel, hf, lvl, out => by
    obtain ⟨k, rfl⟩ : ∃ k, fuel = k + 1 := ⟨fuel - 1, by omega⟩
    rw [order_scalar enc _ (by simp)]
    simp [write_object, write_basic, indented, scalar_text]
  | .float x, _, fuel, hf, lvl, out => by
    obtain ⟨k, rfl⟩ : ∃ k, fuel = k + 1 := ⟨fuel - 1, by omega⟩
    rw [order_scalar enc _ (by simp)]
    simp only [write_object, write_float_ok host enc hnan x, indented]
  | .str t, hwf, fuel, hf, lvl, out => by
    obtain ⟨k, rfl⟩ : ∃ k, fuel = k + 1 := ⟨fuel - 1, by omega⟩
    simp only [Value.wf] at hwf
    rw [order_scalar enc _ (by simp)]
    simp only [write_object, write_basic_str_ok host enc t hwf, indented]
  | .arr xs, hwf, fuel, hf, lvl, out => by
    obtain ⟨k, rfl⟩ : ∃ k, fuel = k + 1 := ⟨fuel - 1, by omega⟩
    simp only [Value.wf] at hwf
    simp only [Value.depth] at hf
    have hW := write_list_indented host enc s hi hcolon hnan xs hwf k (by omega)
    rw [order_arr]
    cases xs with
    | nil => simp [write_object, write_iterable, indented]
    | cons x xs =>
      simp only [write_object, write_iterable, List.length_cons, Nat.add_one_ne_zero, if_false,
        write_sequence_impl, get_separators, hi]
      rw [sequence_loop_indented host enc s _ enc.order lvl _ _ _ (x :: xs) 0 _ (by simp)
        (fun y hy o => hW y hy (lvl + 1) o)]
      rw [indented_arr host enc s lvl _ (by simp)]
      simp
  | .obj items, hwf, fuel, hf, lvl, out => by
    obtain ⟨k, rfl⟩ : ∃ k, fuel = k + 1 := ⟨fuel - 1, by omega⟩
    simp only [Value.wf] at hwf
    simp only [Value.depth] at hf
    have hW := write_items_indented host enc s hi hcolon hnan items hwf.2 k (by omega)
    rw [order_obj]
    cases items with
    | nil =>
      have : PyList_Sort ([] : List (List Nat × Value F)) = [] := rfl
      simp [write_object, write_mapping, indented, this]
    | cons kv rest =>
      have hp := PyList_Sort_perm (kv :: rest)
      by_cases hs : enc.sort_keys = false
      · simp only [write_object, write_mapping, List.length_cons, Nat.add_one_ne_zero, if_false,
          hs, if_true, write_dict, get_separators, hi]
        rw [mapping_loop_indented host enc s hcolon _ enc.order lvl _ _ _ (kv :: rest) 0 _
          (by simp) (fun y hy => ⟨(hW y hy).1, fun o => (hW y hy).2 (lvl + 1) o⟩)]
        rw [indented_obj host enc s lvl _ (by simp)]
        simp
      · have hne : (PyList_Sort (kv :: rest)).map (fun kv => (kv.1, enc.order kv.2)) ≠ [] := by
          intro h0
          have := hp.length_eq
          rw [← List.length_map (PyList_Sort (kv :: rest)) (fun kv => (kv.1, enc.order kv.2)),
            h0] at this
          simp at this
        have hs2 : enc.sort_keys = true := by simpa using hs
        simp only [write_object, write_mapping, List.length_cons, Nat.add_one_ne_zero, if_false,
          hs2, Bool.true_eq_false, write_mapping_impl, get_separators, hi]
        rw [mapping_loop_indented host enc s hcolon _ enc.order lvl _ _ _
          (PyList_Sort (kv :: rest)) 0 _ (by simp)
          (fun y hy => ⟨(hW y (hp.mem_iff.1 hy)).1,
            fun o => (hW y (hp.mem_iff.1 hy)).2 (lvl + 1) o⟩)]
        rw [indented_obj host enc s lvl _ hne]
        simp

/-- `write_object_indented` for every value of a list. -/
theorem write_list_indented {F : Type} (host : Host F) (enc : Encoder) (s : List Nat)
    (hi : enc.indent_string = some s) (hcolon : enc.colon = [0x3A, 0x20])
    (hnan : enc.allow_nan = true) :
    ∀ (xs : List (Value F)), wf_list xs → ∀ (fuel : Nat), depth_list xs < fuel →
      ∀ x ∈ xs, ∀ (lvl : Nat) (out : List Nat),
        write_object host enc fuel x lvl out
          = .ok (out ++ indented host enc s lvl (enc.order x))
  | [], _, _, _, x, hx, _, _ => by simp at hx
  | y :: ys, hwf, fuel, hf, x, hx, lvl, out => by
    simp only [wf_list] at hwf
    simp only [depth_list] at hf
    rcases List.mem_cons.1 hx with r | r
    · subst r
      exact write_object_indented host enc s hi hcolon hnan x hwf.1 fuel (by omega) lvl out
    · exact write_list_indented host enc s hi hcolon hnan ys hwf.2 fuel (by omega) x r lvl out

/-- `write_object_indented` for the key and the value of every item. -/
theorem write_items_indented {F : Type} (host : Host F) (enc : Encoder) (s : List Nat)
    (hi : enc.indent_string = some s) (hcolon : enc.colon = [0x3A, 0x20])
    (hnan : enc.allow_nan = true) :
    ∀ (items : List (List Nat × Value F)), wf_items items → ∀ (fuel : Nat),
      depth_items items < fuel →
      ∀ kv ∈ items, (∀ c ∈ kv.1, is_scalar_value c) ∧ ∀ (lvl : Nat) (out : List Nat),
        write_object host enc fuel kv.2 lvl out
          = .ok (out ++ indented host enc s lvl (enc.order kv.2))
  | [], _, _, _, x, hx => by simp at hx
  | (k, v) :: rest, hwf, fuel, hf, x, hx => by
    simp only [wf_items] at hwf
    simp only [depth_items] at hf
    rcases List.mem_cons.1 hx with r | r
    · subst r
      exact ⟨hwf.1, fun lvl out =>
        write_object_indented host enc s hi hcolon hnan v hwf.2.1 fuel (by omega) lvl out⟩
    · exact write_items_indented host enc s hi hcolon hnan rest hwf.2.2 fuel (by omega) x r

end

end Jsonlib2

namespace Jsonlib2

/-! ## C30: indented output -/

theorem indented_tail_flatMap {F : Type} (host : Host F) (enc : Encoder) (s : List Nat)
    (L : Nat) : ∀ (xs : List (Value F)),
    indented_tail host enc s L xs
      = xs.flatMap (fun y => [0x2C, 0x0A] ++ (PySequence_Repeat s L ++ indented host enc s L y))
  | [] => by simp [indented_tail]
  | x :: xs => by
    rw [indented_tail, indented_tail_flatMap host enc s L xs]
    simp

theorem indented_members_flatMap {F : Type} (host : Host F) (enc : Encoder) (s : List Nat)
    (L : Nat) : ∀ (items : List (List Nat × Value F)),
    indented_members host enc s L items
      = items.flatMap (fun kv => [0x2C, 0x0A] ++
          (PySequence_Repeat s L ++ scalar_text host enc (.str kv.1) ++ [0x3A, 0x20] ++
            indented host enc s L kv.2))
  | [] => by simp [indented_members]
  | (k, v) :: rest => by
    rw [indented_members, indented_members_flatMap host enc s L rest]
    simp

/-- C30: with the indent string `s`, the default colon `: `, `allow_nan` set and
a value of the value model, `write_object` at level `lvl` appends, and the
encode call returns at level 0, the indented text of the value, its objects in
the order the options ask for.  In that text a non-empty array at level `L` is
`[`, a line feed, its first element after `s` repeated `L + 1` times, every
later element after a comma, a line feed and `s` repeated `L + 1` times, then a
line feed, `s` repeated `L` times and `]`; a non-empty object is the same
between braces, each member written as its key, `: ` and its value.  So
`{"a": 1, "b": 2}` with `indent=2` and `sort_keys` is written as `{`, line
feed, two spaces, `"a": 1,`, line feed, two spaces, `"b": 2`, line feed, `}`. -/
theorem indented_output {F : Type} (host : Host F) (enc : Encoder) (s : List Nat)
    (hi : enc.indent_string = some s) (hcolon : enc.colon = [0x3A, 0x20])
    (hnan : enc.allow_nan = true) :
    (∀ (v : Value F), v.wf → ∀ (fuel : Nat), v.depth < fuel → ∀ (lvl : Nat) (out : List Nat),
      write_object host enc fuel v lvl out
        = .ok (out ++ indented host enc s lvl (enc.order v))) ∧
    (∀ (v : Value F), v.wf → valid_json_whitespace (some s) = true →
      _write_entry host enc v = .ok (indented host enc s 0 (enc.order v))) ∧
    (∀ (L : Nat) (x : Value F) (xs : List (Value F)),
      indented host enc s L (.arr (x :: xs))
        = [0x5B, 0x0A] ++ (PySequence_Repeat s (L + 1) ++ indented host enc s (L + 1) x) ++
          xs.flatMap (fun y => [0x2C, 0x0A] ++
            (PySequence_Repeat s (L + 1) ++ indented host enc s (L + 1) y)) ++
          ([0x0A] ++ PySequence_Repeat s L ++ [0x5D])) ∧
    (∀ (L : Nat) (k : List Nat) (v : Value F) (rest : List (List Nat × Value F)),
      indented host enc s L (.obj ((k, v) :: rest))
        = [0x7B, 0x0A] ++
          (PySequence_Repeat s (L + 1) ++ scalar_text host enc (.str k) ++ [0x3A, 0x20] ++
            indented host enc s (L + 1) v) ++
          rest.flatMap (fun kv => [0x2C, 0x0A] ++
            (PySequence_Repeat s (L + 1) ++ scalar_text host enc (.str kv.1) ++ [0x3A, 0x20] ++
              indented host enc s (L + 1) kv.2)) ++
          ([0x0A] ++ PySequence_Repeat s L ++ [0x7D])) ∧
    _write_entry example_host
        { sorting_encoder with indent_string := normalize_indent_string (.int 2) }
        (.obj [([0x62], .int 2), ([0x61], .int 1)])
      = .ok [0x7B, 0x0A, 0x20, 0x20, 0x22, 0x61, 0x22, 0x3A, 0x20, 0x31, 0x2C, 0x0A,
          0x20, 0x20, 0x22, 0x62, 0x22, 0x3A, 0x20, 0x32, 0x0A, 0x7D] := by
  refine ⟨write_object_indented host enc s hi hcolon hnan, ?_, ?_, ?_, rfl⟩
  · intro v hwf hvalid
    simp only [_write_entry, serializer_init_and_run_common, hi, hvalid, Bool.true_eq_false,
      if_false]
    rw [write_object_indented host enc s hi hcolon hnan v hwf _ (Nat.lt_succ_self _)]
    simp
  · intro L x xs
    rw [indented, indented_tail_flatMap]
  · intro L k v rest
    rw [indented, indented_members_flatMap]

/-- The array `[true, []]` with a tab as the indent string. -/
theorem indented_output_witness :
    _write_entry example_host { init_encoder with indent_string := some [0x09] }
        (.arr [.bool true, .arr []])
      = .ok (indented example_host { init_encoder with indent_string := some [0x09] } [0x09] 0
          (Encoder.order { init_encoder with indent_string := some [0x09] }
            (.arr [.bool true, .arr []]))) ∧
    indented example_host { init_encoder with indent_string := some [0x09] } [0x09] 0
        (Encoder.order { init_encoder with indent_string := some [0x09] }
          (.arr [.bool true, .arr []]))
      = [0x5B, 0x0A, 0x09, 0x74, 0x72, 0x75, 0x65, 0x2C, 0x0A, 0x09, 0x5B, 0x5D, 0x0A, 0x5D] :=
  ⟨(indented_output example_host { init_encoder with indent_string := some [0x09] } [0x09]
      rfl rfl rfl).2.1 (.arr [.bool true, .arr []])
      (by simp [Value.wf, wf_list]) (by decide),
    by decide⟩

end Jsonlib2

namespace Jsonlib2

/-! ## The serializer on objects with identity: the guard and the nested calls -/

theorem leave_after_enter (st : WriteState) (r : List Nat) (o : Nat)
    (h : st.repr = r ++ [o]) : (Py_ReprLeave st o).repr = r := by
  simp [Py_ReprLeave, h]

theorem enter_new (st : WriteState) (o : Nat) (h : o ∉ st.repr) :
    Py_ReprEnter st o = (0, { st with repr := st.repr ++ [o] }) := by
  simp [Py_ReprEnter, h]

theorem enter_old (st : WriteState) (o : Nat) (h : o ∈ st.repr) :
    Py_ReprEnter st o = (1, st) := by
  simp [Py_ReprEnter, h]

/-! ### Errors of nested calls -/

theorem sequence_calls_error
    (W : WriteState → Nat → Nat → List Nat → Except EncodeError (List Nat) × WriteState)
    (sep : Separators) (lvl size : Nat) (items : List Nat) (ii : Nat) (out : List Nat)
    (st : WriteState) (a : WriteState × Nat × Nat × List Nat)
    (h : SequenceCalls W sep lvl size items ii out st a) (e : EncodeError) (s : WriteState)
    (he : W a.1 a.2.1 a.2.2.1 a.2.2.2 = (.error e, s)) :
    Heap.write_sequence_impl_loop W sep lvl size items ii out st = (.error e, s) := by
  induction h with
  | first item rest ii out st =>
    rw [Heap.write_sequence_impl_loop]
    simp only at he
    simp only [he]
  | later item rest ii out st out2 st2 a hw _ ih =>
    rw [Heap.write_sequence_impl_loop]
    simp only [hw]
    exact ih he

theorem mapping_calls_error {F : Type} (host : Host F) (enc : Encoder) (rt : Runtime F)
    (W : WriteState → Nat → Nat → List Nat → Except EncodeError (List Nat) × WriteState)
    (sep : Separators) (lvl size : Nat) (items : List (Nat × Nat)) (ii : Nat) (out : List Nat)
    (st : WriteState) (a : WriteState × Nat × Nat × List Nat)
    (h : MappingCalls host enc rt W sep lvl size items ii out st a) (e : EncodeError)
    (s : WriteState) (he : W a.1 a.2.1 a.2.2.1 a.2.2.2 = (.error e, s)) :
    Heap.write_mapping_impl_loop host enc rt W sep lvl size items ii out st = (.error e, s) := by
  induction h with
  | first raw_key value rest ii out st key serialized hk hs =>
    rw [Heap.write_mapping_impl_loop]
    simp only at he
    simp only [hk, hs, he]
  | later raw_key value rest ii out st key serialized out2 st2 a hk hs hw _ ih =>
    rw [Heap.write_mapping_impl_loop]
    simp only [hk, hs, hw]
    exact ih he

/-- The error of a call made within a call is the error of that call. -/
theorem nested_error {F : Type} (host : Host F) (enc : Encoder) (rt : Runtime F)
    (c1 c2 : Call) (h : Nested host enc rt c1 c2) (e : EncodeError) (s : WriteState)
    (he : c2.result host enc rt = (.error e, s)) :
    ∃ s2, c1.result host enc rt = (.error e, s2) := by
  cases h with
  | item fuel st object lvl hook out items a hheap hnew hne hcalls =>
    have hloop := sequence_calls_error _ _ _ _ _ _ _ _ a hcalls e s he
    refine ⟨Py_ReprLeave s object, ?_⟩
    simp only [Call.result, Heap.write_object, hheap, Heap.write_iterable,
      enter_new st object hnew, ne_eq, not_true_eq_false, if_false, List.length_eq_zero, hne,
      Heap.write_sequence_impl, hloop]
  | member fuel st object lvl hook out items a hheap hnew hne hcalls =>
    have hloop := mapping_calls_error host enc rt _ _ _ _ _ _ _ _ a hcalls e s he
    refine ⟨Py_ReprLeave s object, ?_⟩
    simp only [Call.result, Heap.write_object, hheap, Heap.write_mapping,
      enter_new st object hnew, ne_eq, not_true_eq_false, if_false, List.length_eq_zero, hne,
      hloop]
  | handled fuel st object lvl out handler result hbasic hl hd hh hr =>
    refine ⟨s, ?_⟩
    simp only [Call.result] at he ⊢
    rw [Heap.write_object]
    cases ho : rt.heap object with
    | list items => exact absurd ho (hl items)
    | dict items => exact absurd ho (hd items)
    | atom v =>
      rw [ho] at hbasic
      simp only [hbasic, ne_eq, not_true_eq_false, if_false, hh, Bool.false_eq_true, hr, he]
    | other =>
      rw [ho] at hbasic
      simp only [hbasic, ne_eq, not_true_eq_false, if_false, hh, Bool.false_eq_true, hr, he]

theorem nested_chain_error {F : Type} (host : Host F) (enc : Encoder) (rt : Runtime F)
    (c1 c2 : Call) (h : Relation.ReflTransGen (Nested host enc rt) c1 c2) (e : EncodeError) :
    (∃ s, c2.result host enc rt = (.error e, s)) →
    ∃ s, c1.result host enc rt = (.error e, s) := by
  induction h with
  | refl => exact id
  | tail _ hstep ih =>
    rintro ⟨s, hs⟩
    exact ih (nested_error host enc rt _ _ hstep e s hs)

/-! ### The guard list is restored -/

theorem sequence_loop_repr
    (W : WriteState → Nat → Nat → List Nat → Except EncodeError (List Nat) × WriteState)
    (hW : ∀ st o l out, (W st o l out).2.repr = st.repr)
    (sep : Separators) (lvl size : Nat) :
    ∀ (items : List Nat) (ii : Nat) (out : List Nat) (st : WriteState),
      (Heap.write_sequence_impl_loop W sep lvl size items ii out st).2.repr = st.repr
  | [], _, _, _ => rfl
  | item :: rest, ii, out, st => by
    rw [Heap.write_sequence_impl_loop]
    simp only
    split
    · rename_i e st2 heq
      exact (congrArg (fun r => r.2.repr) heq).symm.trans (hW _ _ _ _)
    · rename_i out2 st2 heq
      rw [sequence_loop_repr W hW sep lvl size rest]
      exact (congrArg (fun r => r.2.repr) heq).symm.trans (hW _ _ _ _)

theorem mapping_loop_repr {F : Type} (host : Host F) (enc : Encoder) (rt : Runtime F)
    (W : WriteState → Nat → Nat → List Nat → Except EncodeError (List Nat) × WriteState)
    (hW : ∀ st o l out, (W st o l out).2.repr = st.repr)
    (sep : Separators) (lvl size : Nat) :
    ∀ (items : List (Nat × Nat)) (ii : Nat) (out : List Nat) (st : WriteState),
      (Heap.write_mapping_impl_loop host enc rt W sep lvl size items ii out st).2.repr
        = st.repr
  | [], _, _, _ => rfl
  | (raw_key, value) :: rest, ii, out, st => by
    rw [Heap.write_mapping_impl_loop]
    cases Heap.mapping_process_key host enc rt raw_key with
    | error e => rfl
    | ok key =>
      simp only
      cases write_basic host enc (Value.str key) with
      | error e => rfl
      | ok serialized =>
        simp only
        split
        · rename_i e st2 heq
          exact (congrArg (fun r => r.2.repr) heq).symm.trans (hW _ _ _ _)
        · rename_i out2 st2 heq
          rw [mapping_loop_repr host enc rt W hW sep lvl size rest]
          exact (congrArg (fun r => r.2.repr) heq).symm.trans (hW _ _ _ _)

/-- Whatever `write_object` returns, the list of the containers that are being
written is afterwards what it was before. -/
theorem write_object_repr {F : Type} (host : Host F) (enc : Encoder) (rt : Runtime F) :
    ∀ (fuel : Nat) (st : WriteState) (object lvl : Nat) (hook : Bool) (out : List Nat),
      (Heap.write_object host enc rt fuel st object lvl hook out).2.repr = st.repr
  | 0, _, _, _, _, _ => rfl
  | fuel + 1, st, object, lvl, hook, out => by
    have ih : ∀ st o l out,
        ((fun st o l out => Heap.write_object host enc rt fuel st o l false out) st o l out).2.repr
          = st.repr := fun st o l out => write_object_repr host enc rt fuel st o l false out
    rw [Heap.write_object]
    cases ho : rt.heap object with
    | list items =>
      simp only [Heap.write_iterable]
      by_cases hin : object ∈ st.repr
      · simp [enter_old st object hin]
      · simp only [enter_new st object hin, ne_eq, not_true_eq_false, if_false]
        split_ifs
        · exact leave_after_enter _ st.repr object rfl
        · simp only [Heap.write_sequence_impl]
          exact leave_after_enter _ st.repr object (sequence_loop_repr _ ih _ _ _ _ _ _ _)
    | dict items =>
      by_cases hlen : items.length = 0
      · simp only [Heap.write_mapping, hlen, if_true]
      · by_cases hin : object ∈ st.repr
        · simp [Heap.write_mapping, hlen, enter_old st object hin]
        · simp only [Heap.write_mapping, hlen, if_false, enter_new st object hin, ne_eq,
            not_true_eq_false]
          exact leave_after_enter _ st.repr object
            (mapping_loop_repr host enc rt _ ih _ _ _ _ _ _ _)
    | atom v =>
      simp only
      cases Heap.write_basic host enc (PyObject.atom v) with
      | ok pieces => rfl
      | error e =>
        simp only
        by_cases he : e ≠ .UnknownSerializerError
        · rw [if_pos he]
        · rw [if_neg he]
          cases rt.default_handler with
          | none => rfl
          | some handler =>
            simp only
            cases hook with
            | true => rfl
            | false =>
              simp only [Bool.false_eq_true, if_false]
              cases handler object with
              | none => rfl
              | some result =>
                exact write_object_repr host enc rt fuel _ result lvl true out
    | other =>
      simp only
      cases Heap.write_basic host enc (PyObject.other : PyObject F) with
      | ok pieces => rfl
      | error e =>
        simp only
        by_cases he : e ≠ .UnknownSerializerError
        · rw [if_pos he]
        · rw [if_neg he]
          cases rt.default_handler with
          | none => rfl
          | some handler =>
            simp only
            cases hook with
            | true => rfl
            | false =>
              simp only [Bool.false_eq_true, if_false]
              cases handler object with
              | none => rfl
              | some result =>
                exact write_object_repr host enc rt fuel _ result lvl true out

theorem sequence_calls_repr
    (W : WriteState → Nat → Nat → List Nat → Except EncodeError (List Nat) × WriteState)
    (hW : ∀ st o l out, (W st o l out).2.repr = st.repr)
    (sep : Separators) (lvl size : Nat) (items : List Nat) (ii : Nat) (out : List Nat)
    (st : WriteState) (a : WriteState × Nat × Nat × List Nat)
    (h : SequenceCalls W sep lvl size items ii out st a) : a.1.repr = st.repr := by
  induction h with
  | first item rest ii out st => rfl
  | later item rest ii out st out2 st2 a hw _ ih =>
    rw [ih]
    exact (congrArg (fun r => r.2.repr) hw).symm.trans (hW _ _ _ _)

theorem mapping_calls_repr {F : Type} (host : Host F) (enc : Encoder) (rt : Runtime F)
    (W : WriteState → Nat → Nat → List Nat → Except EncodeError (List Nat) × WriteState)
    (hW : ∀ st o l out, (W st o l out).2.repr = st.repr)
    (sep : Separators) (lvl size : Nat) (items : List (Nat × Nat)) (ii : Nat) (out : List Nat)
    (st : WriteState) (a : WriteState × Nat × Nat × List Nat)
    (h : MappingCalls host enc rt W sep lvl size items ii out st a) : a.1.repr = st.repr := by
  induction h with
  | first raw_key value rest ii out st key serialized hk hs => rfl
  | later raw_key value rest ii out st key serialized out2 st2 a hk hs hw _ ih =>
    rw [ih]
    exact (congrArg (fun r => r.2.repr) hw).symm.trans (hW _ _ _ _)

/-- A call made within the call on a list or a dict starts with that container
appended to the list of the containers that are being written; a call on the
result of the handler starts with the list as it was. -/
theorem nested_repr {F : Type} (host : Host F) (enc : Encoder) (rt : Runtime F)
    (c1 c2 : Call) (h : Nested host enc rt c1 c2) :
    (guarded_container rt c1.object → c2.st.repr = c1.st.repr ++ [c1.object]) ∧
    (¬ guarded_container rt c1.object → c2.st.repr = c1.st.repr) := by
  cases h with
  | item fuel st object lvl hook out items a hheap hnew hne hcalls =>
    have := sequence_calls_repr _
      (fun st o l out => write_object_repr host enc rt fuel st o l false out) _ _ _ _ _ _ _ a
      hcalls
    refine ⟨fun _ => this, fun hn => absurd ?_ hn⟩
    simp only [guarded_container, hheap]
  | member fuel st object lvl hook out items a hheap hnew hne hcalls =>
    have := mapping_calls_repr host enc rt _
      (fun st o l out => write_object_repr host enc rt fuel st o l false out) _ _ _ _ _ _ _ a
      hcalls
    refine ⟨fun _ => this, fun hn => absurd ?_ hn⟩
    simp only [guarded_container, hheap]
    exact hne
  | handled fuel st object lvl out handler result hbasic hl hd hh hr =>
    have hn : ¬ guarded_container rt object := by
      unfold guarded_container
      cases ho : rt.heap object with
      | list items => exact absurd ho (hl items)
      | dict items => exact absurd ho (hd items)
      | atom v => simp
      | other => simp
    exact ⟨fun hc => absurd hc hn, fun _ => rfl⟩

theorem nested_repr_mono {F : Type} (host : Host F) (enc : Encoder) (rt : Runtime F)
    (c1 c2 : Call) (h : Relation.ReflTransGen (Nested host enc rt) c1 c2) :
    ∀ x ∈ c1.st.repr, x ∈ c2.st.repr := by
  classical
  induction h with
  | refl => exact fun x hx => hx
  | @tail b c _ hstep ih =>
    intro x hx
    by_cases hc : guarded_container rt b.object
    · rw [(nested_repr host enc rt _ _ hstep).1 hc]
      exact List.mem_append_left _ (ih x hx)
    · rw [(nested_repr host enc rt _ _ hstep).2 hc]
      exact ih x hx

/-- While a list or a non-empty dict is being written, every call made, however
deep, finds it in the list of the containers that are being written. -/
theorem nested_container_in_repr {F : Type} (host : Host F) (enc : Encoder) (rt : Runtime F)
    (c1 c2 : Call) (h : Relation.TransGen (Nested host enc rt) c1 c2)
    (hc : guarded_container rt c1.object) : c1.object ∈ c2.st.repr := by
  obtain ⟨c, hstep, hrest⟩ := Relation.TransGen.head'_iff.1 h
  apply nested_repr_mono host enc rt c c2 hrest
  rw [(nested_repr host enc rt _ _ hstep).1 hc]
  simp

/-- The guard: a call, with fuel left, on a list or a non-empty dict that is
being written fails at once and makes no call. -/
theorem guard_fires {F : Type} (host : Host F) (enc : Encoder) (rt : Runtime F) (c : Call)
    (hc : guarded_container rt c.object) (hin : c.object ∈ c.st.repr) (hfuel : 1 ≤ c.fuel) :
    c.result host enc rt
      = (.error (.WriteError "Cannot serialize self-referential values."), c.st) := by
  obtain ⟨fuel, st, object, lvl, hook, out⟩ := c
  obtain ⟨k, rfl⟩ : ∃ k, fuel = k + 1 := ⟨fuel - 1, by simp only at hfuel; omega⟩
  simp only at hin
  simp only [Call.result]
  rw [Heap.write_object]
  unfold guarded_container at hc
  simp only at hc
  cases ho : rt.heap object with
  | list items => simp [Heap.write_iterable, enter_old st object hin]
  | dict items =>
    rw [ho] at hc
    simp only at hc
    simp [Heap.write_mapping, hc, enter_old st object hin]
  | atom v => rw [ho] at hc; exact absurd hc (by simp)
  | other => rw [ho] at hc; exact absurd hc (by simp)

theorem guard_no_call {F : Type} (host : Host F) (enc : Encoder) (rt : Runtime F) (c c2 : Call)
    (hc : guarded_container rt c.object) (hin : c.object ∈ c.st.repr) :
    ¬ Nested host enc rt c c2 := by
  intro h
  cases h with
  | item fuel st object lvl hook out items a hheap hnew hne hcalls => exact hnew hin
  | member fuel st object lvl hook out items a hheap hnew hne hcalls => exact hnew hin
  | handled fuel st object lvl out handler result hbasic hl hd hh hr =>
    have hn : ¬ guarded_container rt object := by
      unfold guarded_container
      cases ho : rt.heap object with
      | list items => exact absurd ho (hl items)
      | dict items => exact absurd ho (hd items)
      | atom v => simp
      | other => simp
    exact hn hc

end Jsonlib2

namespace Jsonlib2

/-! ## C28: a container met again while it is written -/

/-- C28: on objects with identity, a call of `write_object`, with fuel left, on a
list or a non-empty dict that is in the list of the containers being written
returns the write error `Cannot serialize self-referential values.`, leaves
the state as it is and makes no call of `write_object`.  A list or non-empty
dict is in that list for every call made, however deep, while it is written.
So when a call on a container is reached, through any chain of nested calls,
within a call on the same container, the whole encode call fails with that
error.  The list that holds itself after the integer 1, and the dict whose
only value is a list that holds the dict, are refused in this way. -/
theorem self_reference_rejected {F : Type} (host : Host F) (enc : Encoder) (rt : Runtime F) :
    (∀ c : Call, guarded_container rt c.object → c.object ∈ c.st.repr → 1 ≤ c.fuel →
      c.result host enc rt
          = (.error (.WriteError "Cannot serialize self-referential values."), c.st) ∧
        ∀ c2, ¬ Nested host enc rt c c2) ∧
    (∀ c1 c2 : Call, Relation.TransGen (Nested host enc rt) c1 c2 →
      guarded_container rt c1.object → c1.object ∈ c2.st.repr) ∧
    (∀ c0 c1 c2 : Call, Relation.ReflTransGen (Nested host enc rt) c0 c1 →
      Relation.TransGen (Nested host enc rt) c1 c2 → guarded_container rt c1.object →
      c2.object = c1.object → 1 ≤ c2.fuel →
      ∃ s, c0.result host enc rt
        = (.error (.WriteError "Cannot serialize self-referential values."), s)) ∧
    Heap.serializer_init_and_run_common example_host init_encoder example_runtime 2 ⟨[], []⟩ 0
      = (.error (.WriteError "Cannot serialize self-referential values."), ⟨[], []⟩) ∧
    Heap.serializer_init_and_run_common example_host init_encoder example_runtime 3 ⟨[], []⟩ 2
      = (.error (.WriteError "Cannot serialize self-referential values."), ⟨[], []⟩) := by
  refine ⟨fun c hc hin hfuel => ⟨guard_fires host enc rt c hc hin hfuel,
    fun c2 => guard_no_call host enc rt c c2 hc hin⟩,
    nested_container_in_repr host enc rt, ?_, rfl, rfl⟩
  intro c0 c1 c2 h01 h12 hc hobj hfuel
  have hin : c2.object ∈ c2.st.repr := by
    rw [hobj]
    exact nested_container_in_repr host enc rt c1 c2 h12 hc
  have hc2 : guarded_container rt c2.object := by rw [hobj]; exact hc
  exact nested_chain_error host enc rt c0 c2 (h01.trans h12.to_reflTransGen) _
    ⟨c2.st, guard_fires host enc rt c2 hc2 hin hfuel⟩

/-- The call on the list at 0, which holds the integer at 1 and itself, makes
after the integer a call on the list again; the call fails. -/
theorem self_reference_rejected_witness :
    ∃ s, Call.result example_host init_encoder example_runtime ⟨2, ⟨[], []⟩, 0, 0, false, []⟩
      = (.error (.WriteError "Cannot serialize self-referential values."), s) :=
  (self_reference_rejected example_host init_encoder example_runtime).2.2.1
    ⟨2, ⟨[], []⟩, 0, 0, false, []⟩ ⟨2, ⟨[], []⟩, 0, 0, false, []⟩
    ⟨1, ⟨[0], []⟩, 0, 1, false, [0x5B, 0x31, 0x2C, 0x20]⟩
    Relation.ReflTransGen.refl
    (Relation.TransGen.single
      (Nested.item 1 ⟨[], []⟩ 0 0 false [] [1, 0] (⟨[0], []⟩, 0, 1, [0x5B, 0x31, 0x2C, 0x20])
        rfl (by decide) (by decide)
        (SequenceCalls.later 1 [0] 0 [0x5B] ⟨[0], []⟩ [0x5B, 0x31] ⟨[0], []⟩ _ rfl
          (SequenceCalls.first 0 [] 1 [0x5B, 0x31, 0x2C, 0x20] ⟨[0], []⟩))))
    trivial rfl (by decide)

end Jsonlib2

namespace Jsonlib2

/-! ## C29: the `default` handler -/

/-- C29: for an object that is neither a scalar `write_basic` serializes nor a
mapping nor a sequence, `write_object`, given fuel, does the following.  With no
handler it fails with the unknown-serializer error and the handler log stays as
it is.  With a handler, called on the result of a handler (`in_unknown_hook`)
it fails with the unknown-serializer error without calling the handler;
otherwise it calls the handler once, with that object, and writes the result
in the place of the object, at the same indent level and with
`in_unknown_hook` set: a result that is a scalar is written as `write_basic`
writes it, a result that is again such an object fails with the
unknown-serializer error, and in both cases the handler has been called once,
with the original object. -/
theorem default_handler_once {F : Type} (host : Host F) (enc : Encoder) (rt : Runtime F)
    (fuel : Nat) (st : WriteState) (object indent_level : Nat) (out : List Nat)
    (hother : rt.heap object = .other) :
    (rt.default_handler = none → ∀ hook,
      Heap.write_object host enc rt (fuel + 1) st object indent_level hook out
        = (.error .UnknownSerializerError, st)) ∧
    (∀ handler, rt.default_handler = some handler →
      Heap.write_object host enc rt (fuel + 1) st object indent_level true out
        = (.error .UnknownSerializerError, st) ∧
      (handler object = none →
        Heap.write_object host enc rt (fuel + 1) st object indent_level false out
          = (.error .Raised, { st with calls := st.calls ++ [object] })) ∧
      ∀ result, handler object = some result →
        Heap.write_object host enc rt (fuel + 1) st object indent_level false out
          = Heap.write_object host enc rt fuel { st with calls := st.calls ++ [object] }
              result indent_level true out ∧
        (rt.heap result = .other →
          Heap.write_object host enc rt (fuel + 2) st object indent_level false out
            = (.error .UnknownSerializerError, { st with calls := st.calls ++ [object] })) ∧
        (∀ v pieces, rt.heap result = .atom v → write_basic host enc v = .ok pieces →
          Heap.write_object host enc rt (fuel + 2) st object indent_level false out
            = (.ok (out ++ pieces), { st with calls := st.calls ++ [object] }))) := by
  have hstep : ∀ (f : Nat) (handler : Nat → Option Nat) (result : Nat),
      rt.default_handler = some handler → handler object = some result →
      Heap.write_object host enc rt (f + 1) st object indent_level false out
        = Heap.write_object host enc rt f { st with calls := st.calls ++ [object] }
            result indent_level true out := by
    intro f handler result hh hr
    rw [Heap.write_object]
    simp [hother, Heap.write_basic, hh, hr]
  refine ⟨?_, ?_⟩
  · intro hnone hook
    rw [Heap.write_object]
    simp [hother, Heap.write_basic, hnone]
  · intro handler hh
    refine ⟨?_, ?_, ?_⟩
    · rw [Heap.write_object]
      simp [hother, Heap.write_basic, hh]
    · intro hr
      rw [Heap.write_object]
      simp [hother, Heap.write_basic, hh, hr]
    · intro result hr
      refine ⟨hstep fuel handler result hh hr, ?_, ?_⟩
      · intro hres
        rw [hstep (fuel + 1) handler result hh hr, Heap.write_object]
        simp [hres, Heap.write_basic, hh]
      · intro v pieces hres hw
        rw [hstep (fuel + 1) handler result hh hr, Heap.write_object]
        simp [hres, Heap.write_basic, hw]

/-- The handler of the example runtime returns the integer at 1 for the object
at 5, which is written as `1` after one call of the handler; for the object at
7 it returns the object at 5, and the encode fails after one call. -/
theorem default_handler_once_witness :
    Heap.write_object example_host init_encoder example_runtime (0 + 2) ⟨[], []⟩ 5 0 false []
      = (.ok ([] ++ [0x31]), { (⟨[], []⟩ : WriteState) with calls := [] ++ [5] }) ∧
    Heap.write_object example_host init_encoder example_runtime (0 + 2) ⟨[], []⟩ 7 0 false []
      = (.error .UnknownSerializerError,
          { (⟨[], []⟩ : WriteState) with calls := [] ++ [7] }) :=
  ⟨(((default_handler_once example_host init_encoder example_runtime 0 ⟨[], []⟩ 5 0 [] rfl).2
      _ rfl).2.2 1 rfl).2.2 (.int 1) [0x31] rfl rfl,
    (((default_handler_once example_host init_encoder example_runtime 0 ⟨[], []⟩ 7 0 [] rfl).2
      _ rfl).2.2 5 rfl).2.1 rfl⟩

end Jsonlib2

namespace Jsonlib2

/-! ## C31: compact output -/

theorem render_tail_flatMap {F : Type} (host : Host F) (enc : Encoder) :
    ∀ (xs : List (Value F)),
    render_tail host enc xs = xs.flatMap (fun y => [0x2C, 0x20] ++ render host enc y)
  | [] => by simp [render_tail]
  | x :: xs => by
    rw [render_tail, render_tail_flatMap host enc xs]
    simp

theorem render_members_flatMap {F : Type} (host : Host F) (enc : Encoder) :
    ∀ (items : List (List Nat × Value F)),
    render_members host enc items
      = items.flatMap (fun kv => [0x2C, 0x20] ++
          (scalar_text host enc (.str kv.1) ++ [0x3A, 0x20] ++ render host enc kv.2))
  | [] => by simp [render_members]
  | (k, v) :: rest => by
    rw [render_members, render_members_flatMap host enc rest]
    simp

theorem write_object_compact {F : Type} (host : Host F) (enc : Encoder) (hc : enc.compact)
    (v : Value F) (hwf : v.wf) (fuel : Nat) (hf : v.depth < fuel) (lvl : Nat) (out : List Nat) :
    write_object host enc fuel v lvl out = .ok (out ++ render host enc (enc.order v)) := by
  unfold Encoder.order
  cases hs : enc.sort_keys
  · rw [if_neg (by simp)]
    exact write_object_render host enc hc hs v hwf fuel hf lvl out
  · rw [if_pos rfl]
    exact write_object_sorted host enc hc hs v hwf fuel hf lvl out

/-- C31: in compact mode (no indent string) with the default separators, `write_object`
appends, and the encode call returns, the compact text of the value, its objects in the
order the options ask for.  In that text a non-empty array is `[`, its elements joined
by `, `, and `]`; a non-empty object is `{`, its members joined by `, `, each the key,
`: ` and the value, and `}`; nothing follows the last element or member.  The empty
array is written `[]` and the empty object `{}`, whatever the indent string is. -/
theorem compact_output {F : Type} (host : Host F) (enc : Encoder) (hc : enc.compact) :
    (∀ (v : Value F), v.wf → ∀ (fuel : Nat), v.depth < fuel → ∀ (lvl : Nat) (out : List Nat),
      write_object host enc fuel v lvl out = .ok (out ++ render host enc (enc.order v))) ∧
    (∀ (v : Value F), v.wf → _write_entry host enc v = .ok (render host enc (enc.order v))) ∧
    (∀ (x : Value F) (xs : List (Value F)),
      render host enc (.arr (x :: xs))
        = [0x5B] ++ render host enc x ++
          xs.flatMap (fun y => [0x2C, 0x20] ++ render host enc y) ++ [0x5D]) ∧
    (∀ (k : List Nat) (v : Value F) (rest : List (List Nat × Value F)),
      render host enc (.obj ((k, v) :: rest))
        = [0x7B] ++ (scalar_text host enc (.str k) ++ [0x3A, 0x20] ++ render host enc v) ++
          rest.flatMap (fun kv => [0x2C, 0x20] ++
            (scalar_text host enc (.str kv.1) ++ [0x3A, 0x20] ++ render host enc kv.2)) ++
          [0x7D]) ∧
    (∀ (any : Encoder) (fuel lvl : Nat) (out : List Nat),
      write_object host any (fuel + 1) (.arr []) lvl out = .ok (out ++ [0x5B, 0x5D]) ∧
      write_object host any (fuel + 1) (.obj []) lvl out = .ok (out ++ [0x7B, 0x7D])) ∧
    _write_entry example_host init_encoder
        (.arr [.int 1, .obj [([0x61], .arr []), ([0x62], .obj [])], .null])
      = .ok [0x5B, 0x31, 0x2C, 0x20, 0x7B, 0x22, 0x61, 0x22, 0x3A, 0x20, 0x5B, 0x5D, 0x2C, 0x20,
          0x22, 0x62, 0x22, 0x3A, 0x20, 0x7B, 0x7D, 0x7D, 0x2C, 0x20,
          0x6E, 0x75, 0x6C, 0x6C, 0x5D] ∧
    _write_entry example_host { init_encoder with indent_string := some [0x20] }
        (.arr [.arr [], .obj []])
      = .ok [0x5B, 0x0A, 0x20, 0x5B, 0x5D, 0x2C, 0x0A, 0x20, 0x7B, 0x7D, 0x0A, 0x5D] := by
  refine ⟨write_object_compact host enc hc, ?_, ?_, ?_, ?_, rfl, rfl⟩
  · intro v hwf
    simp only [_write_entry, serializer_init_and_run_common, hc.1, valid_json_whitespace,
      Bool.true_eq_false, if_false]
    rw [write_object_compact host enc hc v hwf _ (Nat.lt_succ_self _)]
    simp
  · intro x xs
    rw [render, render_tail_flatMap]
  · intro k v rest
    rw [render, render_members_flatMap]
  · intro any fuel lvl out
    constructor
    · simp [write_object, write_iterable]
    · simp [write_object, write_mapping]

/-- The array `[1, [2, 3]]` with the default options. -/
theorem compact_output_witness :
    Encoder.compact init_encoder ∧
    _write_entry example_host init_encoder (.arr [.int 1, .arr [.int 2, .int 3]])
      = .ok (render example_host init_encoder
          (Encoder.order init_encoder (.arr [.int 1, .arr [.int 2, .int 3]]))) ∧
    render example_host init_encoder
        (Encoder.order init_encoder (.arr [.int 1, .arr [.int 2, .int 3]]))
      = [0x5B, 0x31, 0x2C, 0x20, 0x5B, 0x32, 0x2C, 0x20, 0x33, 0x5D, 0x5D] :=
  ⟨⟨rfl, rfl, rfl, rfl⟩,
   (compact_output example_host init_encoder ⟨rfl, rfl, rfl, rfl⟩).2.1
      (.arr [.int 1, .arr [.int 2, .int 3]]) (by simp [Value.wf, wf_list]),
   by decide⟩

end Jsonlib2

namespace Jsonlib2

/-! ## C32: the keys of the members -/

end Jsonlib2

namespace Jsonlib2

/-! ## C33: the order of the members with `sort_keys` -/

theorem PyList_Sort_ascending {F : Type} (items : List (List Nat × Value F)) :
    (PyList_Sort items).Sorted item_le := by
  unfold PyList_Sort
  exact @List.sorted_insertionSort _ item_le _ ⟨item_le_total⟩ ⟨item_le_trans⟩ items

theorem sorted_items_keys {F : Type} (items : List (List Nat × Value F)) :
    (sorted_items items).map Prod.fst = items.map Prod.fst := by
  rw [sorted_items_eq_map]
  simp [Function.comp_def]

/-- C33 (as the code has it): with `sort_keys` the `(key, value)` items of a mapping are
sorted by `PyList_Sort` as they are, before any key is coerced, and the members are
written in that order.  For a mapping whose keys are all strings the members are so
written in ascending order of the key strings, compared code unit by code unit; for
other keys the order is the one in which the runtime sorts the keys themselves. -/
theorem sorted_by_raw_keys {F : Type} (host : Host F) (enc : Encoder)
    (hs : enc.sort_keys = true) :
    (enc.compact → ∀ (items : List (List Nat × Value F)), (Value.obj items).wf →
      ∀ (fuel : Nat), (Value.obj items).depth < fuel → ∀ (lvl : Nat) (out : List Nat),
      write_object host enc fuel (.obj items) lvl out
        = .ok (out ++ render host enc (.obj (PyList_Sort (sorted_items items)))) ∧
      (PyList_Sort (sorted_items items)).Sorted item_le ∧
      ((PyList_Sort (sorted_items items)).map Prod.fst).Perm (items.map Prod.fst)) ∧
    (∀ (rt : Runtime F) (fuel : Nat) (st : WriteState) (o lvl : Nat) (hook : Bool)
      (out : List Nat) (items : List (Nat × Nat)),
      rt.heap o = .dict items → items ≠ [] → o ∉ st.repr →
      Heap.write_object host enc rt (fuel + 1) st o lvl hook out
        = ((Heap.write_mapping_impl_loop host enc rt
              (fun st o l out => Heap.write_object host enc rt fuel st o l false out)
              (get_separators enc.indent_string lvl enc.comma 0x7B 0x7D) lvl
              (rt.PyList_Sort items).length (rt.PyList_Sort items) 0
              (out ++ (get_separators enc.indent_string lvl enc.comma 0x7B 0x7D).start)
              { st with repr := st.repr ++ [o] }).1,
           Py_ReprLeave (Heap.write_mapping_impl_loop host enc rt
              (fun st o l out => Heap.write_object host enc rt fuel st o l false out)
              (get_separators enc.indent_string lvl enc.comma 0x7B 0x7D) lvl
              (rt.PyList_Sort items).length (rt.PyList_Sort items) 0
              (out ++ (get_separators enc.indent_string lvl enc.comma 0x7B 0x7D).start)
              { st with repr := st.repr ++ [o] }).2 o)) := by
  constructor
  · intro hc items hwf fuel hf lvl out
    refine ⟨?_, PyList_Sort_ascending _, ?_⟩
    · have h := write_object_sorted host enc hc hs (.obj items) hwf fuel hf lvl out
      simpa only [Value.sorted] using h
    · have hp := (PyList_Sort_perm (sorted_items items)).map Prod.fst
      rw [sorted_items_keys] at hp
      exact hp
  · intro rt fuel st o lvl hook out items hheap hne hnew
    have hlen : ¬ items.length = 0 := by
      rw [List.length_eq_zero]
      exact hne
    rw [Heap.write_object]
    simp only [hheap, Heap.write_mapping, hlen, if_false, enter_new st o hnew, ne_eq,
      not_true_eq_false, hs, Bool.true_eq_false]

/-- The object `{"b": 1, "a": 2}` is written `{"a": 2, "b": 1}`. -/
theorem sorted_by_raw_keys_witness :
    sorting_encoder.sort_keys = true ∧ Encoder.compact sorting_encoder ∧
    write_object example_host sorting_encoder 2
        (.obj [([0x62], .int 1), ([0x61], .int 2)]) 0 []
      = .ok ([] ++ render example_host sorting_encoder
          (.obj (PyList_Sort (sorted_items [([0x62], .int 1), ([0x61], .int 2)])))) ∧
    render example_host sorting_encoder
        (.obj (PyList_Sort (sorted_items [([0x62], .int 1), ([0x61], .int 2)])))
      = [0x7B, 0x22, 0x61, 0x22, 0x3A, 0x20, 0x32, 0x2C, 0x20,
          0x22, 0x62, 0x22, 0x3A, 0x20, 0x31, 0x7D] :=
  ⟨rfl, ⟨rfl, rfl, rfl, rfl⟩,
   ((sorted_by_raw_keys example_host sorting_encoder rfl).1 ⟨rfl, rfl, rfl, rfl⟩
      [([0x62], .int 1), ([0x61], .int 2)] (by simp [Value.wf, wf_items, is_scalar_value])
      2 (by decide) 0 []).1,
   by decide⟩

/-- The dict `{10: None, 9: None}` with `sort_keys`: the items are sorted as integers, so
the member with the key `"9"` is written before the one with the key `"10"`, although
the string `"10"` comes before the string `"9"`. -/
theorem integer_keys_counterexample :
    Heap.serializer_init_and_run_common example_host sorting_encoder keys_runtime 2 ⟨[], []⟩ 6
      = (.ok [0x7B, 0x22, 0x39, 0x22, 0x3A, 0x20, 0x6E, 0x75, 0x6C, 0x6C, 0x2C, 0x20,
          0x22, 0x31, 0x30, 0x22, 0x3A, 0x20, 0x6E, 0x75, 0x6C, 0x6C, 0x7D], ⟨[], []⟩) ∧
    keys_runtime.PyList_Sort [(7, 3), (8, 3)] = [(8, 3), (7, 3)] ∧
    Heap.mapping_process_key example_host sorting_encoder keys_runtime 8 = .ok [0x39] ∧
    Heap.mapping_process_key example_host sorting_encoder keys_runtime 7 = .ok [0x31, 0x30] ∧
    unicode_compare [0x31, 0x30] [0x39] = .lt ∧
    unicode_compare [0x22, 0x31, 0x30, 0x22] [0x22, 0x39, 0x22] = .lt :=
  ⟨rfl, rfl, rfl, rfl, rfl, rfl⟩

end Jsonlib2

namespace Jsonlib2

/-! ## C34: the indent string is checked before anything is written -/

theorem repeat_space (n : Nat) : PySequence_Repeat [0x20] n = List.replicate n 0x20 := by
  induction n with
  | zero => rfl
  | succ k ih => rw [PySequence_Repeat, ih, List.replicate_succ]; rfl

theorem valid_json_whitespace_iff (s : List Nat) :
    valid_json_whitespace (some s) = true ↔ ∀ c ∈ s, is_json_space c := by
  simp [valid_json_whitespace, is_json_space]

/-- C34: an encode call whose indent string holds a character other than tab, line feed,
carriage return and space fails with the `TypeError` "Only whitespace may be used for
indentation." whatever the value is, before `write_object` runs: nothing is written, the
`default` handler is not called and the guard list is untouched.  An indent string of
those four characters only, the empty one included, is accepted: the call is then
`write_object` on the value at level 0 with that indent string.  An integer indent
`n ≥ 0` gives the encoder the string of `n` spaces, so the call is the one with that
string. -/
theorem indent_checked_first {F : Type} (host : Host F) (enc : Encoder) :
    (∀ (s : List Nat) (value : Value F), (∃ c ∈ s, ¬ is_json_space c) →
      write host enc (.string s) value
        = .error (.TypeError "Only whitespace may be used for indentation.")) ∧
    (∀ (s : List Nat) (rt : Runtime F) (fuel : Nat) (st : WriteState) (value : Nat),
      (∃ c ∈ s, ¬ is_json_space c) →
      Heap.serializer_init_and_run_common host
          { enc with indent_string := normalize_indent_string (.string s) } rt fuel st value
        = (.error (.TypeError "Only whitespace may be used for indentation."), st)) ∧
    (∀ (s : List Nat) (value : Value F), (∀ c ∈ s, is_json_space c) →
      write host enc (.string s) value
        = write_object host { enc with indent_string := some s } (value.depth + 1) value 0 []) ∧
    (∀ (value : Value F),
      write host enc (.string []) value
        = write_object host { enc with indent_string := some [] } (value.depth + 1) value 0 []) ∧
    (∀ (n : Nat) (value : Value F),
      write host enc (.int (n : Int)) value
        = write host enc (.string (List.replicate n 0x20)) value ∧
      write host enc (.int (n : Int)) value
        = write_object host { enc with indent_string := some (List.replicate n 0x20) }
            (value.depth + 1) value 0 []) ∧
    write example_host init_encoder (.string [0x20, 0x2D]) (.arr [.int 1])
      = .error (.TypeError "Only whitespace may be used for indentation.") ∧
    write example_host init_encoder (.int 2) (.arr [.int 1])
      = .ok [0x5B, 0x0A, 0x20, 0x20, 0x31, 0x0A, 0x5D] ∧
    write example_host init_encoder (.string [0x09]) (.arr [.int 1])
      = .ok [0x5B, 0x0A, 0x09, 0x31, 0x0A, 0x5D] := by
  have hbad : ∀ s : List Nat, (∃ c ∈ s, ¬ is_json_space c) →
      valid_json_whitespace (some s) = false := by
    intro s ⟨c, hc, hn⟩
    cases hv : valid_json_whitespace (some s)
    · rfl
    · exact absurd ((valid_json_whitespace_iff s).1 hv c hc) hn
  have hgood : ∀ (s : List Nat) (value : Value F), (∀ c ∈ s, is_json_space c) →
      write host enc (.string s) value
        = write_object host { enc with indent_string := some s } (value.depth + 1) value 0 [] := by
    intro s value hs
    have hv := (valid_json_whitespace_iff s).2 hs
    simp only [write, serializer_init_and_run_common, normalize_indent_string, hv,
      Bool.true_eq_false, if_false]
  have hspaces : ∀ n : Nat, ∀ c ∈ List.replicate n 0x20, is_json_space c := by
    intro n c hc
    rw [List.eq_of_mem_replicate hc]
    exact Or.inr (Or.inr (Or.inr rfl))
  have hint : ∀ (n : Nat) (value : Value F),
      write host enc (.int (n : Int)) value
        = write host enc (.string (List.replicate n 0x20)) value := by
    intro n value
    simp only [write, normalize_indent_string, Int.toNat_ofNat, repeat_space]
  refine ⟨?_, ?_, hgood, ?_, ?_, rfl, rfl, rfl⟩
  · intro s value hs
    simp only [write, serializer_init_and_run_common, normalize_indent_string, hbad s hs,
      if_true]
  · intro s rt fuel st value hs
    simp only [Heap.serializer_init_and_run_common, normalize_indent_string, hbad s hs,
      if_true]
  · intro value
    exact hgood [] value (fun c hc => absurd hc (List.not_mem_nil c))
  · intro n value
    refine ⟨hint n value, ?_⟩
    rw [hint n value]
    exact hgood _ value (hspaces n)

/-- The indent `"x"` is refused for the value `null`. -/
theorem indent_checked_first_witness :
    (∃ c ∈ [0x78], ¬ is_json_space c) ∧
    write example_host init_encoder (.string [0x78]) .null
      = .error (.TypeError "Only whitespace may be used for indentation.") :=
  ⟨⟨0x78, by simp, by decide⟩,
   (indent_checked_first example_host init_encoder).1 [0x78] .null ⟨0x78, by simp, by decide⟩⟩

end Jsonlib2

namespace Jsonlib2

/-! ## Objects that unfold to values are written as those values -/

theorem unfolds_atom {F : Type} (rt : Runtime F) (v : Value F) (o : Nat)
    (h : unfolds rt v o) (w : Value F) (hw : rt.heap o = .atom w) : v = w := by
  cases v with
  | arr xs =>
    simp only [unfolds] at h
    obtain ⟨items, hi, _⟩ := h
    rw [hw] at hi
    cases hi
  | obj kvs =>
    simp only [unfolds] at h
    obtain ⟨items, hi, _⟩ := h
    rw [hw] at hi
    cases hi
  | null => simp only [unfolds] at h; rw [hw] at h; injection h with h; exact h.symm
  | bool b => simp only [unfolds] at h; rw [hw] at h; injection h with h; exact h.symm
  | int n => simp only [unfolds] at h; rw [hw] at h; injection h with h; exact h.symm
  | float x => simp only [unfolds] at h; rw [hw] at h; injection h with h; exact h.symm
  | str s => simp only [unfolds] at h; rw [hw] at h; injection h with h; exact h.symm

theorem unfolds_of_list {F : Type} (rt : Runtime F) (v : Value F) (o : Nat)
    (h : unfolds rt v o) (items : List Nat) (hl : rt.heap o = .list items) :
    ∃ xs, v = .arr xs ∧ unfolds_list rt xs items := by
  cases v with
  | arr xs =>
    simp only [unfolds] at h
    obtain ⟨items2, hi, hu⟩ := h
    rw [hl] at hi
    injection hi with hi
    subst hi
    exact ⟨xs, rfl, hu⟩
  | obj kvs =>
    simp only [unfolds] at h
    obtain ⟨items2, hi, _⟩ := h
    rw [hl] at hi
    cases hi
  | null => simp only [unfolds] at h; rw [hl] at h; cases h
  | bool b => simp only [unfolds] at h; rw [hl] at h; cases h
  | int n => simp only [unfolds] at h; rw [hl] at h; cases h
  | float x => simp only [unfolds] at h; rw [hl] at h; cases h
  | str s => simp only [unfolds] at h; rw [hl] at h; cases h

theorem unfolds_of_dict {F : Type} (rt : Runtime F) (v : Value F) (o : Nat)
    (h : unfolds rt v o) (items : List (Nat × Nat)) (hl : rt.heap o = .dict items) :
    ∃ kvs, v = .obj kvs ∧ unfolds_items rt kvs items := by
  cases v with
  | arr xs =>
    simp only [unfolds] at h
    obtain ⟨items2, hi, _⟩ := h
    rw [hl] at hi
    cases hi
  | obj kvs =>
    simp only [unfolds] at h
    obtain ⟨items2, hi, hu⟩ := h
    rw [hl] at hi
    injection hi with hi
    subst hi
    exact ⟨kvs, rfl, hu⟩
  | null => simp only [unfolds] at h; rw [hl] at h; cases h
  | bool b => simp only [unfolds] at h; rw [hl] at h; cases h
  | int n => simp only [unfolds] at h; rw [hl] at h; cases h
  | float x => simp only [unfolds] at h; rw [hl] at h; cases h
  | str s => simp only [unfolds] at h; rw [hl] at h; cases h

mutual

/-- An object unfolds to one value at most. -/
theorem unfolds_unique {F : Type} (rt : Runtime F) :
    ∀ (v w : Value F) (o : Nat), unfolds rt v o → unfolds rt w o → v = w
  | .null, w, o, h, hw => (unfolds_atom rt w o hw .null (by simpa only [unfolds] using h)).symm
  | .bool b, w, o, h, hw =>
    (unfolds_atom rt w o hw (.bool b) (by simpa only [unfolds] using h)).symm
  | .int n, w, o, h, hw =>
    (unfolds_atom rt w o hw (.int n) (by simpa only [unfolds] using h)).symm
  | .float x, w, o, h, hw =>
    (unfolds_atom rt w o hw (.float x) (by simpa only [unfolds] using h)).symm
  | .str s, w, o, h, hw =>
    (unfolds_atom rt w o hw (.str s) (by simpa only [unfolds] using h)).symm
  | .arr xs, w, o, h, hw => by
    simp only [unfolds] at h
    obtain ⟨items, hi, hu⟩ := h
    obtain ⟨ys, rfl, hy⟩ := unfolds_of_list rt w o hw items hi
    rw [unfolds_list_unique rt xs ys items hu hy]
  | .obj kvs, w, o, h, hw => by
    simp only [unfolds] at h
    obtain ⟨items, hi, hu⟩ := h
    obtain ⟨ys, rfl, hy⟩ := unfolds_of_dict rt w o hw items hi
    rw [unfolds_items_unique rt kvs ys items hu hy]

/-- `unfolds_unique` for lists. -/
theorem unfolds_list_unique {F : Type} (rt : Runtime F) :
    ∀ (xs ys : List (Value F)) (os : List Nat), unfolds_list rt xs os → unfolds_list rt ys os →
      xs = ys
  | [], ys, os, h, hy => by
    simp only [unfolds_list] at h
    subst h
    cases ys with
    | nil => rfl
    | cons y ys =>
      simp only [unfolds_list] at hy
      obtain ⟨_, _, he, _⟩ := hy
      cases he
  | x :: xs, ys, os, h, hy => by
    simp only [unfolds_list] at h
    obtain ⟨o, rest, rfl, hx, hxs⟩ := h
    cases ys with
    | nil => simp only [unfolds_list] at hy; cases hy
    | cons y ys =>
      simp only [unfolds_list] at hy
      obtain ⟨o2, rest2, he, hy1, hys⟩ := hy
      injection he with e1 e2
      subst e1
      subst e2
      rw [unfolds_unique rt x y o hx hy1, unfolds_list_unique rt xs ys rest hxs hys]

/-- `unfolds_unique` for items. -/
theorem unfolds_items_unique {F : Type} (rt : Runtime F) :
    ∀ (xs ys : List (List Nat × Value F)) (os : List (Nat × Nat)), unfolds_items rt xs os →
      unfolds_items rt ys os → xs = ys
  | [], ys, os, h, hy => by
    simp only [unfolds_items] at h
    subst h
    cases ys with
    | nil => rfl
    | cons y ys =>
      obtain ⟨s, v⟩ := y
      simp only [unfolds_items] at hy
      obtain ⟨_, _, _, he, _⟩ := hy
      cases he
  | (s, v) :: xs, ys, os, h, hy => by
    simp only [unfolds_items] at h
    obtain ⟨k, o, rest, rfl, hk, hx, hxs⟩ := h
    cases ys with
    | nil => simp only [unfolds_items] at hy; cases hy
    | cons y ys =>
      obtain ⟨s2, v2⟩ := y
      simp only [unfolds_items] at hy
      obtain ⟨k2, o2, rest2, he, hk2, hy1, hys⟩ := hy
      injection he with e1 e2
      injection e1 with e3 e4
      subst e3
      subst e4
      subst e2
      rw [hk] at hk2
      injection hk2 with hk3
      injection hk3 with hk4
      rw [hk4, unfolds_unique rt v v2 o hx hy1, unfolds_items_unique rt xs ys rest hxs hys]

end

theorem leave_entered (st : WriteState) (o : Nat) :
    Py_ReprLeave { st with repr := st.repr ++ [o] } o = st := by
  obtain ⟨r, c⟩ := st
  simp [Py_ReprLeave]

theorem unfolds_list_length {F : Type} (rt : Runtime F) :
    ∀ (xs : List (Value F)) (os : List Nat), unfolds_list rt xs os → os.length = xs.length
  | [], os, h => by simp only [unfolds_list] at h; subst h; rfl
  | x :: xs, os, h => by
    simp only [unfolds_list] at h
    obtain ⟨o, rest, rfl, _, hxs⟩ := h
    simp only [List.length_cons, unfolds_list_length rt xs rest hxs]

theorem unfolds_items_length {F : Type} (rt : Runtime F) :
    ∀ (xs : List (List Nat × Value F)) (os : List (Nat × Nat)), unfolds_items rt xs os →
      os.length = xs.length
  | [], os, h => by simp only [unfolds_items] at h; subst h; rfl
  | (s, v) :: xs, os, h => by
    simp only [unfolds_items] at h
    obtain ⟨k, o, rest, rfl, _, _, hxs⟩ := h
    simp only [List.length_cons, unfolds_items_length rt xs rest hxs]

theorem sequence_loop_unfolds {F : Type} (rt : Runtime F)
    (Wh : WriteState → Nat → Nat → List Nat → Except EncodeError (List Nat) × WriteState)
    (Wt : Value F → Nat → List Nat → Except EncodeError (List Nat))
    (sep : Separators) (lvl size : Nat) (st1 : WriteState) :
    ∀ (xs : List (Value F)) (os : List Nat), unfolds_list rt xs os →
      (∀ x ∈ xs, ∀ o, unfolds rt x o → ∀ l out, Wh st1 o l out = (Wt x l out, st1)) →
      ∀ (ii : Nat) (out : List Nat),
        Heap.write_sequence_impl_loop Wh sep lvl size os ii out st1
          = (write_sequence_impl_loop Wt sep lvl size xs ii out, st1)
  | [], os, h, _, ii, out => by
    simp only [unfolds_list] at h
    subst h
    rfl
  | x :: xs, os, h, hW, ii, out => by
    simp only [unfolds_list] at h
    obtain ⟨o, rest, rfl, hx, hxs⟩ := h
    have ih := sequence_loop_unfolds rt Wh Wt sep lvl size st1 xs rest hxs
      (fun y hy => hW y (List.mem_cons_of_mem _ hy))
    rw [Heap.write_sequence_impl_loop, write_sequence_impl_loop]
    simp only [hW x (List.mem_cons_self _ _) o hx]
    cases hp : sep.pre_value with
    | none =>
      simp only [Separators.with_pre_value, hp]
      cases hw : Wt x (lvl + 1) out with
      | error e => rfl
      | ok out2 => exact ih _ _
    | some p =>
      simp only [Separators.with_pre_value, hp]
      cases hw : Wt x (lvl + 1) (out ++ p) with
      | error e => rfl
      | ok out2 => exact ih _ _

theorem mapping_loop_unfolds {F : Type} (host : Host F) (enc : Encoder) (rt : Runtime F)
    (Wh : WriteState → Nat → Nat → List Nat → Except EncodeError (List Nat) × WriteState)
    (Wt : Value F → Nat → List Nat → Except EncodeError (List Nat))
    (sep : Separators) (lvl size : Nat) (st1 : WriteState) :
    ∀ (xs : List (List Nat × Value F)) (os : List (Nat × Nat)), unfolds_items rt xs os →
      (∀ kv ∈ xs, ∀ o, unfolds rt kv.2 o → ∀ l out, Wh st1 o l out = (Wt kv.2 l out, st1)) →
      ∀ (ii : Nat) (out : List Nat),
        Heap.write_mapping_impl_loop host enc rt Wh sep lvl size os ii out st1
          = (write_mapping_impl_loop host enc Wt sep lvl size xs ii out, st1)
  | [], os, h, _, ii, out => by
    simp only [unfolds_items] at h
    subst h
    rfl
  | (s, v) :: xs, os, h, hW, ii, out => by
    simp only [unfolds_items] at h
    obtain ⟨k, o, rest, rfl, hk, hx, hxs⟩ := h
    have ih := mapping_loop_unfolds host enc rt Wh Wt sep lvl size st1 xs rest hxs
      (fun y hy => hW y (List.mem_cons_of_mem _ hy))
    have hkey : Heap.mapping_process_key host enc rt k = .ok s := by
      simp [Heap.mapping_process_key, hk]
    rw [Heap.write_mapping_impl_loop, write_mapping_impl_loop]
    simp only [hkey, mapping_process_key, hW (s, v) (List.mem_cons_self _ _) o hx]
    cases hb : write_basic host enc (.str s) with
    | error e => rfl
    | ok serialized =>
      simp only
      cases hp : sep.pre_value with
      | none =>
        simp only [Separators.with_pre_value, hp]
        cases hw : Wt v (lvl + 1) (out ++ serialized ++ enc.colon) with
        | error e => rfl
        | ok out2 => exact ih _ _
      | some p =>
        simp only [Separators.with_pre_value, hp]
        cases hw : Wt v (lvl + 1) (out ++ p ++ serialized ++ enc.colon) with
        | error e => rfl
        | ok out2 => exact ih _ _

theorem surrogates_error_known : ∀ (n : Nat) (s : List Nat), s.length ≤ n →
    ∀ e, write_unicode_surrogates s = some e → e ≠ .UnknownSerializerError := by
  intro n
  induction n with
  | zero =>
    intro s hs e h
    have : s = [] := List.length_eq_zero.1 (Nat.le_zero.1 hs)
    subst this
    simp [write_unicode_surrogates] at h
  | succ k ih =>
    intro s hs e h
    cases s with
    | nil => simp [write_unicode_surrogates] at h
    | cons c rest =>
      simp only [List.length_cons] at hs
      rw [write_unicode_surrogates.eq_def] at h
      simp only at h
      by_cases h1 : 0xD800 ≤ c ∧ c ≤ 0xDBFF
      · rw [if_pos h1] at h
        cases rest with
        | nil =>
          simp only [Option.some.injEq] at h
          rw [← h]
          exact fun hh => by cases hh
        | cons c2 rest2 =>
          simp only at h
          by_cases h2 : ¬(0xDC00 ≤ c2 ∧ c2 ≤ 0xDFFF)
          · rw [if_pos h2] at h
            simp only [Option.some.injEq] at h
            rw [← h]
            exact fun hh => by cases hh
          · rw [if_neg h2] at h
            exact ih rest2 (by simp only [List.length_cons] at hs; omega) e h
      · rw [if_neg h1] at h
        by_cases h3 : 0xDC00 ≤ c ∧ c ≤ 0xDFFF
        · rw [if_pos h3] at h
          simp only [Option.some.injEq] at h
          rw [← h]
          exact fun hh => by cases hh
        · rw [if_neg h3] at h
          exact ih rest (by omega) e h

theorem write_basic_scalar_known {F : Type} (host : Host F) (enc : Encoder) (v : Value F)
    (hv : (∀ xs, v ≠ .arr xs) ∧ ∀ items, v ≠ .obj items) (e : EncodeError)
    (h : write_basic host enc v = .error e) : e ≠ .UnknownSerializerError := by
  cases v with
  | arr xs => exact absurd rfl (hv.1 xs)
  | obj items => exact absurd rfl (hv.2 items)
  | null => simp [write_basic] at h
  | bool b => cases b <;> simp [write_basic] at h
  | int n => simp [write_basic] at h
  | float x =>
    intro he
    subst he
    cases x <;> simp only [write_basic, write_float] at h <;>
      first | cases h | (split_ifs at h <;> cases h)
  | str s =>
    simp only [write_basic, write_unicode] at h
    by_cases hall : (s.all fun c => !write_unicode_needs_escape enc c) = true
    · rw [if_pos hall] at h
      cases h
    · rw [if_neg hall] at h
      cases hsur : write_unicode_surrogates s with
      | some e2 =>
        rw [hsur] at h
        simp only [Except.error.injEq] at h
        rw [← h]
        exact surrogates_error_known _ s (Nat.le_refl _) e2 hsur
      | none =>
        rw [hsur] at h
        simp only at h
        cases hea : enc.ensure_ascii
        · rw [hea] at h
          simp at h
        · rw [hea] at h
          simp at h

mutual

/-- Without `sort_keys`, `write_object` on an object that unfolds to a value, none of
the containers being written among those the value is made of, returns what
`write_object` on the value returns, and leaves the state as it was. -/
theorem write_object_unfolds {F : Type} (host : Host F) (enc : Encoder) (rt : Runtime F)
    (hs : enc.sort_keys = false) :
    ∀ (v : Value F) (o : Nat), unfolds rt v o → ∀ (fuel : Nat) (st : WriteState),
      (∀ a ∈ st.repr, ∀ va, unfolds rt va a → v.depth < va.depth) →
      ∀ (lvl : Nat) (hook : Bool) (out : List Nat),
        Heap.write_object host enc rt fuel st o lvl hook out
          = (write_object host enc fuel v lvl out, st)
  | .null, o, h, fuel, st, _, lvl, hook, out => by
    simp only [unfolds] at h
    cases fuel with
    | zero => rfl
    | succ k => simp [Heap.write_object, write_object, h, Heap.write_basic, write_basic]
  | .bool b, o, h, fuel, st, _, lvl, hook, out => by
    simp only [unfolds] at h
    cases fuel with
    | zero => rfl
    | succ k =>
      cases b <;> simp [Heap.write_object, write_object, h, Heap.write_basic, write_basic]
  | .int n, o, h, fuel, st, _, lvl, hook, out => by
    simp only [unfolds] at h
    cases fuel with
    | zero => rfl
    | succ k => simp [Heap.write_object, write_object, h, Heap.write_basic, write_basic]
  | .float x, o, h, fuel, st, _, lvl, hook, out => by
    simp only [unfolds] at h
    cases fuel with
    | zero => rfl
    | succ k =>
      simp only [Heap.write_object, write_object, h, Heap.write_basic]
      cases hw : write_basic host enc (.float x) with
      | ok pieces => rfl
      | error e =>
        simp only
        rw [if_pos (write_basic_scalar_known host enc _ (by simp) e hw)]
  | .str s, o, h, fuel, st, _, lvl, hook, out => by
    simp only [unfolds] at h
    cases fuel with
    | zero => rfl
    | succ k =>
      simp only [Heap.write_object, write_object, h, Heap.write_basic]
      cases hw : write_basic host enc (.str s) with
      | ok pieces => rfl
      | error e =>
        simp only
        rw [if_pos (write_basic_scalar_known host enc _ (by simp) e hw)]
  | .arr xs, o, h, fuel, st, hinv, lvl, hook, out => by
    have hv := h
    simp only [unfolds] at h
    obtain ⟨items, hi, hu⟩ := h
    cases fuel with
    | zero => rfl
    | succ k =>
      have hnew : o ∉ st.repr := fun hin => Nat.lt_irrefl _ (hinv o hin _ hv)
      have hinv1 : ∀ a ∈ ({ st with repr := st.repr ++ [o] } : WriteState).repr, ∀ va,
          unfolds rt va a → depth_list xs < va.depth := by
        intro a ha va hva
        rcases List.mem_append.1 ha with r | r
        · have := hinv a r va hva
          simp only [Value.depth] at this
          omega
        · rw [List.mem_singleton] at r
          subst r
          rw [unfolds_unique rt va _ a hva hv]
          simp only [Value.depth]
          omega
      have hW := write_list_unfolds host enc rt hs xs k _ hinv1
      have hlen := unfolds_list_length rt xs items hu
      rw [Heap.write_object]
      simp only [hi, Heap.write_iterable, enter_new st o hnew, ne_eq, not_true_eq_false,
        if_false, write_object, write_iterable, hlen]
      by_cases hz : xs.length = 0
      · simp only [hz, if_true, leave_entered]
      · simp only [hz, if_false, Heap.write_sequence_impl, write_sequence_impl]
        rw [sequence_loop_unfolds rt _ (write_object host enc k) _ lvl _ _ xs items hu
          (fun x hx o2 ho2 l out2 => hW x hx o2 ho2 l out2)]
        simp only [leave_entered, hlen]
  | .obj kvs, o, h, fuel, st, hinv, lvl, hook, out => by
    have hv := h
    simp only [unfolds] at h
    obtain ⟨items, hi, hu⟩ := h
    cases fuel with
    | zero => rfl
    | succ k =>
      have hnew : o ∉ st.repr := fun hin => Nat.lt_irrefl _ (hinv o hin _ hv)
      have hinv1 : ∀ a ∈ ({ st with repr := st.repr ++ [o] } : WriteState).repr, ∀ va,
          unfolds rt va a → depth_items kvs < va.depth := by
        intro a ha va hva
        rcases List.mem_append.1 ha with r | r
        · have := hinv a r va hva
          simp only [Value.depth] at this
          omega
        · rw [List.mem_singleton] at r
          subst r
          rw [unfolds_unique rt va _ a hva hv]
          simp only [Value.depth]
          omega
      have hW := write_items_unfolds host enc rt hs kvs k _ hinv1
      have hlen := unfolds_items_length rt kvs items hu
      rw [Heap.write_object]
      simp only [hi, Heap.write_mapping, write_object, write_mapping, hlen]
      by_cases hz : kvs.length = 0
      · simp only [hz, if_true]
      · simp only [hz, if_false, enter_new st o hnew, ne_eq, not_true_eq_false, hs, if_true,
          write_dict]
        rw [mapping_loop_unfolds host enc rt _ (write_object host enc k) _ lvl _ _ kvs items hu
          (fun kv hkv o2 ho2 l out2 => hW kv hkv o2 ho2 l out2)]
        simp only [leave_entered, hlen]

/-- `write_object_unfolds` for every value of a list. -/
theorem write_list_unfolds {F : Type} (host : Host F) (enc : Encoder) (rt : Runtime F)
    (hs : enc.sort_keys = false) :
    ∀ (xs : List (Value F)) (fuel : Nat) (st : WriteState),
      (∀ a ∈ st.repr, ∀ va, unfolds rt va a → depth_list xs < va.depth) →
      ∀ x ∈ xs, ∀ o, unfolds rt x o → ∀ (lvl : Nat) (out : List Nat),
        Heap.write_object host enc rt fuel st o lvl false out
          = (write_object host enc fuel x lvl out, st)
  | [], _, _, _, x, hx, _, _, _, _ => by simp at hx
  | y :: ys, fuel, st, hinv, x, hx, o, ho, lvl, out => by
    rcases List.mem_cons.1 hx with r | r
    · subst r
      exact write_object_unfolds host enc rt hs x o ho fuel st
        (fun a ha va hva => by
          have := hinv a ha va hva
          simp only [depth_list] at this
          omega) lvl false out
    · exact write_list_unfolds host enc rt hs ys fuel st
        (fun a ha va hva => by
          have := hinv a ha va hva
          simp only [depth_list] at this
          omega) x r o ho lvl out

/-- `write_object_unfolds` for the value of every item. -/
theorem write_items_unfolds {F : Type} (host : Host F) (enc : Encoder) (rt : Runtime F)
    (hs : enc.sort_keys = false) :
    ∀ (items : List (List Nat × Value F)) (fuel : Nat) (st : WriteState),
      (∀ a ∈ st.repr, ∀ va, unfolds rt va a → depth_items items < va.depth) →
      ∀ kv ∈ items, ∀ o, unfolds rt kv.2 o → ∀ (lvl : Nat) (out : List Nat),
        Heap.write_object host enc rt fuel st o lvl false out
          = (write_object host enc fuel kv.2 lvl out, st)
  | [], _, _, _, x, hx, _, _, _, _ => by simp at hx
  | (key, v) :: rest, fuel, st, hinv, x, hx, o, ho, lvl, out => by
    rcases List.mem_cons.1 hx with r | r
    · subst r
      exact write_object_unfolds host enc rt hs v o ho fuel st
        (fun a ha va hva => by
          have := hinv a ha va hva
          simp only [depth_items] at this
          omega) lvl false out
    · exact write_items_unfolds host enc rt hs rest fuel st
        (fun a ha va hva => by
          have := hinv a ha va hva
          simp only [depth_items] at this
          omega) x r o ho lvl out

end

end Jsonlib2

namespace Jsonlib2

/-! ## C35: the guard list is restored -/

theorem keys_heap_unfolds :
    unfolds keys_runtime (.arr [.arr [.int 1], .arr [.int 1]]) 9 := by
  have inner : unfolds keys_runtime (.arr [.int 1]) 10 :=
    ⟨[1], rfl, 1, [], rfl, rfl, rfl⟩
  exact ⟨[10, 10], rfl, 10, [10], rfl, inner, 10, [], rfl, inner, rfl⟩

/-- C35: whatever `write_object` is called on and whatever it returns, the list of the
containers that are being written is afterwards what it was before the call, and so
it is after the encode call.  So an object that unfolds to a value (its containers may
occur several times, but none contains itself) is written, without `sort_keys`, exactly
as that value is: every occurrence of a container is written, and the guard never
fires; in compact mode the encode call returns the compact text of the value.  The
list `[l, l]` for one list `l = [1]` is written `[[1], [1]]`. -/
theorem guard_list_restored {F : Type} (host : Host F) (enc : Encoder) (rt : Runtime F) :
    (∀ (fuel : Nat) (st : WriteState) (object lvl : Nat) (hook : Bool) (out : List Nat),
      (Heap.write_object host enc rt fuel st object lvl hook out).2.repr = st.repr) ∧
    (∀ (fuel : Nat) (st : WriteState) (value : Nat),
      (Heap.serializer_init_and_run_common host enc rt fuel st value).2.repr = st.repr) ∧
    (enc.sort_keys = false → ∀ (v : Value F) (o : Nat), unfolds rt v o →
      ∀ (fuel : Nat) (st : WriteState),
      (∀ a ∈ st.repr, ∀ va, unfolds rt va a → v.depth < va.depth) →
      ∀ (lvl : Nat) (hook : Bool) (out : List Nat),
        Heap.write_object host enc rt fuel st o lvl hook out
          = (write_object host enc fuel v lvl out, st)) ∧
    (enc.sort_keys = false → enc.compact → ∀ (v : Value F) (o : Nat), unfolds rt v o → v.wf →
      ∀ (fuel : Nat), v.depth < fuel → ∀ (calls : List Nat),
        Heap.serializer_init_and_run_common host enc rt fuel ⟨[], calls⟩ o
          = (.ok (render host enc v), ⟨[], calls⟩)) ∧
    unfolds keys_runtime (.arr [.arr [.int 1], .arr [.int 1]]) 9 ∧
    Heap.serializer_init_and_run_common example_host init_encoder keys_runtime 3 ⟨[], []⟩ 9
      = (.ok [0x5B, 0x5B, 0x31, 0x5D, 0x2C, 0x20, 0x5B, 0x31, 0x5D, 0x5D], ⟨[], []⟩) := by
  refine ⟨write_object_repr host enc rt, ?_, write_object_unfolds host enc rt, ?_, ?_, rfl⟩
  · intro fuel st value
    unfold Heap.serializer_init_and_run_common
    split_ifs
    · rfl
    · exact write_object_repr host enc rt fuel st value 0 false []
  · intro hs hc v o hu hwf fuel hf calls
    have hvalid : valid_json_whitespace enc.indent_string = true := by
      rw [hc.1]
      rfl
    simp only [Heap.serializer_init_and_run_common, hvalid, Bool.true_eq_false, if_false]
    rw [write_object_unfolds host enc rt hs v o hu fuel ⟨[], calls⟩
      (fun a ha => absurd ha (List.not_mem_nil a)) 0 false [],
      write_object_render host enc hc hs v hwf fuel hf 0 []]
    simp
  · exact keys_heap_unfolds

/-- The list `[l, l]` at address 9 of `keys_heap`. -/
theorem guard_list_restored_witness :
    init_encoder.sort_keys = false ∧ Encoder.compact init_encoder ∧
    unfolds keys_runtime (.arr [.arr [.int 1], .arr [.int 1]]) 9 ∧
    Heap.serializer_init_and_run_common example_host init_encoder keys_runtime 3 ⟨[], []⟩ 9
      = (.ok (render example_host init_encoder (.arr [.arr [.int 1], .arr [.int 1]])),
          ⟨[], []⟩) :=
  ⟨rfl, ⟨rfl, rfl, rfl, rfl⟩, keys_heap_unfolds,
   (guard_list_restored example_host init_encoder keys_runtime).2.2.2.1 rfl ⟨rfl, rfl, rfl, rfl⟩
      (.arr [.arr [.int 1], .arr [.int 1]]) 9
      keys_heap_unfolds
      (by simp [Value.wf, wf_list]) 3 (by decide) []⟩

end Jsonlib2

namespace Jsonlib2

/-! ## The cursor stays within the text -/

theorem code_at_lt (buf : List Nat) (i : Nat) (h : code_at buf i ≠ 0) : i < buf.length := by
  by_contra hn
  apply h
  unfold code_at
  rw [List.getD_eq_getElem?_getD, List.getElem?_eq_none (by omega)]
  rfl

theorem skip_spaces_from_bounds : ∀ (l : List Nat) (i : Nat),
    i ≤ skip_spaces_from l i ∧ skip_spaces_from l i ≤ i + l.length
  | [], i => by simp [skip_spaces_from]
  | c :: cs, i => by
    rw [skip_spaces_from]
    split_ifs
    · have := skip_spaces_from_bounds cs (i + 1)
      simp only [List.length_cons]
      omega
    · simp

theorem later_refl {F : Type} (d : Decoder F) (h : d.index ≤ d.start.length) : d.later d :=
  ⟨rfl, Nat.le_refl _, h, Nat.le_refl _, id⟩

theorem later_trans {F : Type} (d d1 d2 : Decoder F) (h1 : d.later d1) (h2 : d1.later d2) :
    d.later d2 := by
  obtain ⟨a1, a2, a3, a4, a5⟩ := h1
  obtain ⟨b1, b2, b3, b4, b5⟩ := h2
  refine ⟨b1.trans a1, Nat.le_trans a2 b2, ?_, Nat.le_trans a4 b4, fun h => b5 (a5 h)⟩
  rw [a1] at b3
  exact b3

theorem skip_spaces_later {F : Type} (d : Decoder F) (h : d.index ≤ d.start.length) :
    d.later (skip_spaces d) := by
  have hb := skip_spaces_from_bounds (d.start.drop d.index) d.index
  simp only [List.length_drop] at hb
  refine ⟨rfl, hb.1, ?_, Nat.le_refl _, id⟩
  show skip_spaces_from (d.start.drop d.index) d.index ≤ d.start.length
  omega

theorem step_later {F : Type} (d : Decoder F) (h : code_at d.start d.index ≠ 0) :
    d.later { d with index := d.index + 1 } :=
  ⟨rfl, Nat.le_succ _, code_at_lt _ _ h, Nat.le_refl _, id⟩

theorem sound_of_later {F α : Type} (d d1 : Decoder F) (E E1 : Prop)
    (r : Except DecodeError (α × Decoder F)) (hl : d.later d1) (hE : E → E1)
    (h : d1.sound E1 r) : d.sound E r := by
  cases r with
  | ok p =>
    obtain ⟨x, d2⟩ := p
    simp only [Decoder.sound] at h ⊢
    exact ⟨later_trans d d1 d2 hl h.1, Nat.lt_of_le_of_lt hl.2.1 h.2⟩
  | error e =>
    cases e with
    | ReadError desc p =>
      simp only [Decoder.sound] at h ⊢
      rw [← hl.1]
      exact h
    | HostError => trivial
    | RecursionLimit =>
      simp only [Decoder.sound] at h ⊢
      exact fun hh => h (hE hh)

theorem sound_of_within {F α : Type} (d : Decoder F) (E : Prop) (e : DecodeError)
    (h : e.within d.start.length) :
    d.sound E (.error e : Except DecodeError (α × Decoder F)) := by
  cases e with
  | ReadError desc p => exact h
  | HostError => trivial
  | RecursionLimit => exact absurd h (by simp [DecodeError.within])

theorem keyword_compare_later {F : Type} (d : Decoder F) (kw : List Nat) (rv v : Value F)
    (d2 : Decoder F) (hkw : kw ≠ []) (h : keyword_compare d kw rv = some (v, d2)) :
    d.later d2 ∧ d.index < d2.index := by
  have hpos : 0 < kw.length := List.length_pos.2 hkw
  simp only [keyword_compare] at h
  split_ifs at h with h1 h2
  have hd2 : d2 = { d with index := d.index + kw.length } := by
    split at h
    · split at h
      · simp at h
      · simp only [Option.some.injEq, Prod.mk.injEq] at h
        exact h.2.symm
    · simp only [Option.some.injEq, Prod.mk.injEq] at h
      exact h.2.symm
  subst hd2
  refine ⟨⟨rfl, Nat.le_add_right _ _, ?_, Nat.le_refl _, id⟩, ?_⟩
  · show d.index + kw.length ≤ d.start.length
    omega
  · show d.index < d.index + kw.length
    omega

theorem read_number_scan_bounds : ∀ (l : List Nat) (ptr : Nat) (fl : NumberFlags) (ptr2 : Nat)
    (fl2 : NumberFlags), read_number_scan l ptr fl = some (ptr2, fl2) →
      ptr ≤ ptr2 ∧ ptr2 ≤ ptr + l.length ∧ (fl2.got_digit = true → fl.got_digit = true ∨ ptr < ptr2)
  | [], ptr, fl, ptr2, fl2, h => by
    simp only [read_number_scan, Option.some.injEq, Prod.mk.injEq] at h
    obtain ⟨rfl, rfl⟩ := h
    exact ⟨Nat.le_refl _, Nat.le_add_right _ _, Or.inl⟩
  | c :: cs, ptr, fl, ptr2, fl2, h => by
    have key : ∀ f : NumberFlags, read_number_scan cs (ptr + 1) f = some (ptr2, fl2) →
        ptr ≤ ptr2 ∧ ptr2 ≤ ptr + (c :: cs).length ∧
          (fl2.got_digit = true → fl.got_digit = true ∨ ptr < ptr2) := by
      intro f hf
      have := read_number_scan_bounds cs (ptr + 1) f ptr2 fl2 hf
      simp only [List.length_cons]
      refine ⟨by omega, by omega, fun _ => Or.inr (by omega)⟩
    have stop : some (ptr, fl) = some (ptr2, fl2) →
        ptr ≤ ptr2 ∧ ptr2 ≤ ptr + (c :: cs).length ∧
          (fl2.got_digit = true → fl.got_digit = true ∨ ptr < ptr2) := by
      intro hs
      simp only [Option.some.injEq, Prod.mk.injEq] at hs
      obtain ⟨rfl, rfl⟩ := hs
      exact ⟨Nat.le_refl _, Nat.le_add_right _ _, Or.inl⟩
    rw [read_number_scan] at h
    split_ifs at h
    all_goals first | exact stop h | exact key _ h

theorem read_number_sound {F : Type} (host : Host F) (d : Decoder F)
    (hd : d.index ≤ d.start.length) : d.sound True (read_number host d) := by
  unfold read_number
  cases hscan : read_number_scan (d.start.drop d.index) d.index
      { is_float := false, got_digit := false, leading_zero := false, has_exponent := false } with
  | none => exact hd
  | some p =>
    obtain ⟨ptr, fl⟩ := p
    have hb := read_number_scan_bounds _ _ _ _ _ hscan
    simp only [List.length_drop] at hb
    simp only
    by_cases hg : fl.got_digit = true
    · split
      · exact hd
      · refine ⟨⟨rfl, hb.1, ?_, Nat.le_refl _, id⟩, ?_⟩
        · show ptr ≤ d.start.length
          omega
        · show d.index < ptr
          rcases hb.2.2 hg with h | h
          · simp at h
          · exact h
    · have hg2 : fl.got_digit = false := by simpa using hg
      simp only [hg2, Bool.false_eq_true, if_false]
      exact hd

/-! ### The scratch buffer -/

theorem next_power_2_loop_pow (min : Nat) : ∀ (fuel j : Nat),
    (∃ k, next_power_2_loop fuel (2 ^ j) min = 2 ^ k) ∧
      (min ≤ 2 ^ j * 2 ^ fuel → min ≤ next_power_2_loop fuel (2 ^ j) min)
  | 0, j => by
    refine ⟨⟨j, rfl⟩, fun h => ?_⟩
    simpa [next_power_2_loop] using h
  | fuel + 1, j => by
    rw [next_power_2_loop]
    by_cases hlt : 2 ^ j < min
    · rw [if_pos hlt]
      have ih := next_power_2_loop_pow min fuel (j + 1)
      rw [pow_succ] at ih
      refine ⟨ih.1, fun h => ih.2 ?_⟩
      rw [pow_succ] at h
      calc min ≤ 2 ^ j * (2 ^ fuel * 2) := h
        _ = 2 ^ j * 2 * 2 ^ fuel := by ring
    · rw [if_neg hlt]
      exact ⟨⟨j, rfl⟩, fun _ => Nat.le_of_not_lt hlt⟩

theorem next_power_2_spec (min : Nat) :
    (∃ k, next_power_2 1 min = 2 ^ k) ∧ min ≤ next_power_2 1 min := by
  have h := next_power_2_loop_pow min min 0
  simp only [pow_zero, one_mul] at h
  exact ⟨h.1, h.2 (Nat.le_of_lt (Nat.lt_two_pow min))⟩

/-! ### `read_string` -/

theorem read_string_scan_bounds {F : Type} (d : Decoder F) (start : Nat) :
    ∀ (l : List Nat) (ii : Nat) (escaped fancy : Bool) (ii2 : Nat) (f2 : Bool),
      read_string_scan d start l ii escaped fancy = .ok (ii2, f2) →
      ii ≤ ii2 ∧ ii2 < ii + l.length ∧ (f2 = true → fancy = true ∨ ii < ii2)
  | [], ii, escaped, fancy, ii2, f2, h => by simp [read_string_scan] at h
  | c :: cs, ii, escaped, fancy, ii2, f2, h => by
    have key : ∀ (e f : Bool), read_string_scan d start cs (ii + 1) e f = .ok (ii2, f2) →
        ii ≤ ii2 ∧ ii2 < ii + (c :: cs).length ∧ (f2 = true → fancy = true ∨ ii < ii2) := by
      intro e f hf
      have := read_string_scan_bounds d start cs (ii + 1) e f ii2 f2 hf
      simp only [List.length_cons]
      exact ⟨by omega, by omega, fun _ => Or.inr (by omega)⟩
    rw [read_string_scan] at h
    split_ifs at h
    all_goals first
      | exact key _ _ h
      | (simp only [Except.ok.injEq, Prod.mk.injEq] at h
         obtain ⟨rfl, rfl⟩ := h
         simp only [List.length_cons]
         exact ⟨Nat.le_refl _, by omega, Or.inl⟩)

theorem read_string_scan_within {F : Type} (d : Decoder F) (start len : Nat)
    (hd : d.index ≤ len) :
    ∀ (l : List Nat) (ii : Nat) (escaped fancy : Bool) (e : DecodeError),
      read_string_scan d start l ii escaped fancy = .error e → start + ii + l.length ≤ len →
      e.within len
  | [], ii, escaped, fancy, e, h, _ => by
    simp only [read_string_scan, Except.error.injEq] at h
    rw [← h]
    exact hd
  | c :: cs, ii, escaped, fancy, e, h, hl => by
    simp only [List.length_cons] at hl
    have key : ∀ (x f : Bool), read_string_scan d start cs (ii + 1) x f = .error e →
        e.within len :=
      fun x f hf => read_string_scan_within d start len hd cs (ii + 1) x f e hf (by omega)
    rw [read_string_scan] at h
    split_ifs at h
    all_goals first
      | exact key _ _ h
      | (simp only [Except.error.injEq] at h
         rw [← h]
         first
           | exact hd
           | (show start + ii ≤ len
              omega))

theorem read_unicode_escape_cases {F : Type} (host : Host F) (d : Decoder F)
    (start ii n : Nat) (r : Except DecodeError (Nat × Nat))
    (h : read_unicode_escape host d start ii n = r) :
    r = .error (set_error_simple (d.index + (ii + 1) - 1) "Unterminated unicode escape.") ∨
    r = .error .HostError ∨
    (4 ≤ n - (ii + 1) ∧
      r = .error (set_error_simple (d.index + (ii + 1 + 4) + 1) "Missing surrogate pair half.")) ∨
    (∃ value, r = .error (.ReadError (.reserved_code_point value) (d.index + (ii + 1 + 4) - 5))) ∨
    (4 ≤ n - (ii + 1) ∧ ∃ value, r = .ok (value, ii + 1 + 4)) ∨
    (10 ≤ n - (ii + 1) ∧ ∃ value, r = .ok (value, ii + 1 + 4 + 2 + 4)) := by
  unfold read_unicode_escape at h
  simp only at h
  by_cases c1 : n - (ii + 1) < 4
  · simp only [c1, if_true] at h
    exact Or.inl h.symm
  simp only [c1, if_false] at h
  cases hx : read_4hex host d.start (start + (ii + 1)) with
  | none =>
    simp only [hx] at h
    exact Or.inr (Or.inl h.symm)
  | some v =>
    simp only [hx] at h
    by_cases c2 : 0xD800 ≤ v ∧ v ≤ 0xDBFF
    · simp only [c2, and_self, if_true] at h
      by_cases c3 : n - (ii + 1) < 10
      · simp only [c3, if_true] at h
        exact Or.inr (Or.inr (Or.inl ⟨by omega, h.symm⟩))
      simp only [c3, if_false] at h
      by_cases c4 : code_at d.start (start + (ii + 1 + 4)) ≠ 0x5C ∨
          code_at d.start (start + (ii + 1 + 4) + 1) ≠ 0x75
      · rw [if_pos c4] at h
        exact Or.inr (Or.inr (Or.inl ⟨by omega, h.symm⟩))
      rw [if_neg c4] at h
      cases hy : read_4hex host d.start (start + (ii + 1 + 4 + 2)) with
      | none =>
        simp only [hy] at h
        exact Or.inr (Or.inl h.symm)
      | some w =>
        simp only [hy] at h
        exact Or.inr (Or.inr (Or.inr (Or.inr (Or.inr ⟨by omega, _, h.symm⟩))))
    · rw [if_neg c2] at h
      by_cases c5 : 0xDC00 ≤ v ∧ v ≤ 0xDFFF
      · rw [if_pos c5] at h
        exact Or.inr (Or.inr (Or.inr (Or.inl ⟨v, h.symm⟩)))
      · rw [if_neg c5] at h
        exact Or.inr (Or.inr (Or.inr (Or.inr (Or.inl ⟨by omega, v, h.symm⟩))))

theorem read_unicode_escape_ok {F : Type} (host : Host F) (d : Decoder F) (start ii n : Nat)
    (value next : Nat) (h : read_unicode_escape host d start ii n = .ok (value, next)) :
    ii + 5 ≤ next ∧ next ≤ n := by
  rcases read_unicode_escape_cases host d start ii n _ h with
    r | r | ⟨_, r⟩ | ⟨v, r⟩ | ⟨hn, v, r⟩ | ⟨hn, v, r⟩
  · cases r
  · cases r
  · cases r
  · cases r
  · simp only [Except.ok.injEq, Prod.mk.injEq] at r
    omega
  · simp only [Except.ok.injEq, Prod.mk.injEq] at r
    omega

theorem read_unicode_escape_within {F : Type} (host : Host F) (d : Decoder F)
    (start ii n len : Nat) (e : DecodeError)
    (h : read_unicode_escape host d start ii n = .error e) (h1 : d.index + 1 = start)
    (h2 : start + n ≤ len) (h3 : ii < n) : e.within len := by
  rcases read_unicode_escape_cases host d start ii n _ h with
    r | r | ⟨hn, r⟩ | ⟨v, r⟩ | ⟨hn, v, r⟩ | ⟨hn, v, r⟩
  · simp only [Except.error.injEq] at r
    rw [r]
    show d.index + (ii + 1) - 1 ≤ len
    omega
  · simp only [Except.error.injEq] at r
    rw [r]
    trivial
  · simp only [Except.error.injEq] at r
    rw [r]
    show d.index + (ii + 1 + 4) + 1 ≤ len
    omega
  · simp only [Except.error.injEq] at r
    rw [r]
    show d.index + (ii + 1 + 4) - 5 ≤ len
    omega
  · cases r
  · cases r

end Jsonlib2

namespace Jsonlib2

/-! ## The loop of `read_string_full` -/

theorem string_loop_cont (n len : Nat) (buf : List Nat) (x : Nat)
    (L : Except DecodeError (List Nat)) (W : List Nat) (hb : buf.length < n)
    (h : (∀ i ∈ W, i < n) ∧
      (∀ r, L = .ok r → r.length ≤ n ∧ r.length = (buf ++ [x]).length + W.length) ∧
      (∀ e, L = .error e → e.within len)) :
    (∀ i ∈ buf.length :: W, i < n) ∧
      (∀ r, L = .ok r → r.length ≤ n ∧ r.length = buf.length + (buf.length :: W).length) ∧
      (∀ e, L = .error e → e.within len) := by
  obtain ⟨h1, h2, h3⟩ := h
  refine ⟨?_, ?_, h3⟩
  · intro i hi
    rcases List.mem_cons.1 hi with r | r
    · rw [r]
      exact hb
    · exact h1 i r
  · intro r hr
    have := h2 r hr
    simp only [List.length_append, List.length_cons, List.length_nil] at this ⊢
    omega

theorem string_loop_stop (n len : Nat) (buf : List Nat) (hb : buf.length ≤ n) :
    (∀ i ∈ ([] : List Nat), i < n) ∧
      (∀ r, (Except.ok buf : Except DecodeError (List Nat)) = .ok r →
        r.length ≤ n ∧ r.length = buf.length + ([] : List Nat).length) ∧
      (∀ e, (Except.ok buf : Except DecodeError (List Nat)) = .error e → e.within len) := by
  refine ⟨fun i hi => absurd hi (List.not_mem_nil i), ?_, fun e he => by cases he⟩
  intro r hr
  simp only [Except.ok.injEq] at hr
  subst hr
  exact ⟨hb, rfl⟩

theorem string_loop_fail (n len : Nat) (buf : List Nat) (e0 : DecodeError)
    (he0 : e0.within len) :
    (∀ i ∈ ([] : List Nat), i < n) ∧
      (∀ r, (Except.error e0 : Except DecodeError (List Nat)) = .ok r →
        r.length ≤ n ∧ r.length = buf.length + ([] : List Nat).length) ∧
      (∀ e, (Except.error e0 : Except DecodeError (List Nat)) = .error e → e.within len) := by
  refine ⟨fun i hi => absurd hi (List.not_mem_nil i), ?_, ?_⟩
  · intro r hr
    cases hr
  intro e he
  simp only [Except.error.injEq] at he
  rw [← he]
  exact he0

/-- The loop of `read_string_full`, from a state in which every store so far has used
up at least one character: the stores go to indices below `max_char_count`, a result
has as many code points as there were stores, at most `max_char_count`, and an error is
reported within the text. -/
theorem read_string_full_loop_inv {F : Type} (host : Host F) (d : Decoder F)
    (start n len : Nat) (h1 : d.index + 1 = start) (h2 : start + n ≤ len) :
    ∀ (fuel ii : Nat) (escaped : Bool) (buf : List Nat),
      buf.length + (if escaped then 1 else 0) ≤ ii → ii ≤ n →
      (∀ i ∈ read_string_full_writes host d start n fuel ii escaped buf.length, i < n) ∧
      (∀ r, read_string_full_loop host d start n fuel ii escaped buf = .ok r →
        r.length ≤ n ∧
          r.length = buf.length +
            (read_string_full_writes host d start n fuel ii escaped buf.length).length) ∧
      (∀ e, read_string_full_loop host d start n fuel ii escaped buf = .error e →
        e.within len)
  | 0, ii, escaped, buf, hb, hn => by
    rw [read_string_full_loop, read_string_full_writes]
    exact string_loop_stop n len buf (by split_ifs at hb <;> omega)
  | fuel + 1, ii, escaped, buf, hb, hn => by
    have hbn : buf.length ≤ n := by split_ifs at hb <;> omega
    rw [read_string_full_loop, read_string_full_writes]
    by_cases hlt : ii < n
    · simp only [hlt, if_true]
      cases escaped with
      | true =>
        simp only [if_true] at hb ⊢
        have hbl : buf.length < n := by omega
        have step : ∀ x : Nat,
            (∀ i ∈ buf.length ::
                read_string_full_writes host d start n fuel (ii + 1) false (buf.length + 1),
              i < n) ∧
            (∀ r, read_string_full_loop host d start n fuel (ii + 1) false (buf ++ [x]) = .ok r →
              r.length ≤ n ∧ r.length = buf.length + (buf.length ::
                read_string_full_writes host d start n fuel (ii + 1) false
                  (buf.length + 1)).length) ∧
            (∀ e, read_string_full_loop host d start n fuel (ii + 1) false (buf ++ [x])
              = .error e → e.within len) := by
          intro x
          have ih := read_string_full_loop_inv host d start n len h1 h2 fuel (ii + 1) false
            (buf ++ [x]) (by simp; omega) (by omega)
          simp only [List.length_append, List.length_cons, List.length_nil, Nat.zero_add]
            at ih
          exact string_loop_cont n len buf x _ _ hbl (by
            simpa only [List.length_append, List.length_cons, List.length_nil, Nat.zero_add]
              using ih)
        by_cases e1 : code_at d.start (start + ii) = 0x5C ∨ code_at d.start (start + ii) = 0x22 ∨
            code_at d.start (start + ii) = 0x2F
        · have e1w : code_at d.start (start + ii) = 0x5C ∨ code_at d.start (start + ii) = 0x22 ∨
              code_at d.start (start + ii) = 0x2F ∨ code_at d.start (start + ii) = 0x62 ∨
              code_at d.start (start + ii) = 0x66 ∨ code_at d.start (start + ii) = 0x6E ∨
              code_at d.start (start + ii) = 0x72 ∨ code_at d.start (start + ii) = 0x74 := by
            rcases e1 with r | r | r
            · exact Or.inl r
            · exact Or.inr (Or.inl r)
            · exact Or.inr (Or.inr (Or.inl r))
          rw [if_pos e1, if_pos e1w]
          exact step _
        rw [if_neg e1]
        have n1 : ¬ code_at d.start (start + ii) = 0x5C := fun r => e1 (Or.inl r)
        have n2 : ¬ code_at d.start (start + ii) = 0x22 := fun r => e1 (Or.inr (Or.inl r))
        have n3 : ¬ code_at d.start (start + ii) = 0x2F := fun r => e1 (Or.inr (Or.inr r))
        by_cases e2 : code_at d.start (start + ii) = 0x62
        · simp only [e2, if_true, or_true, true_or]
          exact step _
        by_cases e3 : code_at d.start (start + ii) = 0x66
        · simp only [e3, if_true, or_true, true_or]
          exact step _
        by_cases e4 : code_at d.start (start + ii) = 0x6E
        · simp only [e4, if_true, or_true, true_or]
          exact step _
        by_cases e5 : code_at d.start (start + ii) = 0x72
        · simp only [e5, if_true, or_true, true_or]
          exact step _
        by_cases e6 : code_at d.start (start + ii) = 0x74
        · simp only [e6, if_true, or_true, true_or]
          exact step _
        simp only [n1, n2, n3, e2, e3, e4, e5, e6, if_false, or_self]
        by_cases e7 : code_at d.start (start + ii) = 0x75
        · simp only [e7, if_true]
          cases hu : read_unicode_escape host d start ii n with
          | error e0 =>
            exact string_loop_fail n len buf e0
              (read_unicode_escape_within host d start ii n len e0 hu h1 h2 hlt)
          | ok p =>
            obtain ⟨value, next⟩ := p
            have hnext := read_unicode_escape_ok host d start ii n value next hu
            have ih := read_string_full_loop_inv host d start n len h1 h2 fuel next false
              (buf ++ [value]) (by simp; omega) hnext.2
            simp only
            exact string_loop_cont n len buf value _ _ hbl (by
              simpa only [List.length_append, List.length_cons, List.length_nil, Nat.zero_add]
                using ih)
        · simp only [e7, if_false]
          exact string_loop_fail n len buf _ (by
            show start + ii - 1 ≤ len
            omega)
      | false =>
        simp only [Bool.false_eq_true, if_false, Nat.add_zero] at hb ⊢
        by_cases e1 : code_at d.start (start + ii) = 0x5C
        · simp only [e1, if_true]
          exact read_string_full_loop_inv host d start n len h1 h2 fuel (ii + 1) true buf
            (by simp; omega) (by omega)
        simp only [e1, if_false]
        by_cases e2 : code_at d.start (start + ii) = 0x22
        · simp only [e2, if_true]
          exact string_loop_stop n len buf hbn
        simp only [e2, if_false]
        have ih := read_string_full_loop_inv host d start n len h1 h2 fuel (ii + 1) false
          (buf ++ [code_at d.start (start + ii)]) (by simp; omega) (by omega)
        exact string_loop_cont n len buf (code_at d.start (start + ii)) _ _ (by omega) (by
          simpa only [List.length_append, List.length_cons, List.length_nil, Nat.zero_add]
            using ih)
    · simp only [hlt, if_false]
      exact string_loop_stop n len buf hbn

theorem read_string_full_result {F : Type} (host : Host F) (d : Decoder F) (start n : Nat)
    (r : List Nat) (d2 : Decoder F) (h : read_string_full host d start n = .ok (r, d2)) :
    read_string_full_loop host d start n n 0 false [] = .ok r ∧
    d2 = { d with
      index := start + n + 1,
      stringparse_buffer_size :=
        if n > d.stringparse_buffer_size then next_power_2 1 n else d.stringparse_buffer_size } := by
  unfold read_string_full at h
  cases hl : read_string_full_loop host d start n n 0 false [] with
  | error e => rw [hl] at h; simp at h
  | ok buffer =>
    rw [hl] at h
    simp only [Except.ok.injEq, Prod.mk.injEq] at h
    obtain ⟨hr, hd⟩ := h
    subst hr
    refine ⟨rfl, ?_⟩
    rw [← hd]
    by_cases hsz : n > d.stringparse_buffer_size
    · simp only [hsz, if_true]
    · simp only [hsz, if_false]

theorem capacity_after (size n : Nat) :
    size ≤ (if n > size then next_power_2 1 n else size) ∧
    n ≤ (if n > size then next_power_2 1 n else size) ∧
    (capacity_ok size → capacity_ok (if n > size then next_power_2 1 n else size)) ∧
    (capacity_ok size → 1 ≤ n → ∃ k, (if n > size then next_power_2 1 n else size) = 2 ^ k) := by
  have hp := next_power_2_spec n
  by_cases hsz : n > size
  · simp only [hsz, if_true]
    refine ⟨by omega, hp.2, fun _ => Or.inr hp.1, fun _ _ => hp.1⟩
  · simp only [hsz, if_false]
    refine ⟨Nat.le_refl _, by omega, id, ?_⟩
    intro hc hn
    rcases hc with h0 | hk
    · omega
    · exact hk

theorem read_string_full_sound {F : Type} (host : Host F) (d : Decoder F) (start n : Nat)
    (h1 : d.index + 1 = start) (h2 : start + n < d.start.length) :
    d.sound True (read_string_full host d start n) := by
  have inv := read_string_full_loop_inv host d start n d.start.length h1 (Nat.le_of_lt h2)
    n 0 false [] (by simp) (Nat.zero_le _)
  cases hr : read_string_full host d start n with
  | error e =>
    apply sound_of_within
    unfold read_string_full at hr
    cases hl : read_string_full_loop host d start n n 0 false [] with
    | error e2 =>
      rw [hl] at hr
      simp only [Except.error.injEq] at hr
      rw [← hr]
      exact inv.2.2 e2 hl
    | ok buffer => rw [hl] at hr; simp at hr
  | ok p =>
    obtain ⟨r, d2⟩ := p
    obtain ⟨_, hd2⟩ := read_string_full_result host d start n r d2 hr
    have hc := capacity_after d.stringparse_buffer_size n
    subst hd2
    refine ⟨⟨rfl, ?_, ?_, hc.1, hc.2.2.1⟩, ?_⟩
    · show d.index ≤ start + n + 1
      omega
    · show start + n + 1 ≤ d.start.length
      omega
    · show d.index < start + n + 1
      omega

theorem read_string_sound {F : Type} (host : Host F) (d : Decoder F)
    (hq : code_at d.start d.index ≠ 0) : d.sound True (read_string host d) := by
  have hlt := code_at_lt _ _ hq
  unfold read_string
  simp only
  by_cases c0 : code_at d.start (d.index + 1) = 0x22
  · rw [if_pos c0]
    have hlt2 := code_at_lt d.start (d.index + 1) (by rw [c0]; decide)
    refine ⟨⟨rfl, ?_, ?_, Nat.le_refl _, id⟩, ?_⟩
    · show d.index ≤ d.index + 1 + 1
      omega
    · show d.index + 1 + 1 ≤ d.start.length
      omega
    · show d.index < d.index + 1 + 1
      omega
  · rw [if_neg c0]
    have hlen : d.index + 1 + 0 + (d.start.drop (d.index + 1)).length ≤ d.start.length := by
      simp only [List.length_drop]
      omega
    cases hs : read_string_scan d (d.index + 1) (d.start.drop (d.index + 1)) 0 false false with
    | error e =>
      exact sound_of_within d True e
        (read_string_scan_within d (d.index + 1) d.start.length (Nat.le_of_lt hlt) _ 0 false
          false e hs hlen)
    | ok p =>
      obtain ⟨ii, fancy⟩ := p
      have hb := read_string_scan_bounds d (d.index + 1) _ 0 false false ii fancy hs
      simp only [List.length_drop, Nat.zero_add] at hb
      simp only
      cases fancy with
      | true =>
        simp only [if_true]
        exact read_string_full_sound host d (d.index + 1) ii rfl (by omega)
      | false =>
        simp only [Bool.false_eq_true, if_false]
        refine ⟨⟨rfl, ?_, ?_, Nat.le_refl _, id⟩, ?_⟩
        · show d.index ≤ d.index + 1 + ii + 1
          omega
        · show d.index + 1 + ii + 1 ≤ d.start.length
          omega
        · show d.index < d.index + 1 + ii + 1
          omega

end Jsonlib2

namespace Jsonlib2

/-! ## Every parser operation advances within the text, and the fuel suffices -/

theorem sound_map {F α β : Type} (d d1 : Decoder F) (E E1 : Prop)
    (r : Except DecodeError (α × Decoder F)) (r2 : Except DecodeError (β × Decoder F))
    (hl : d.later d1) (hE : E → E1) (h : d1.sound E1 r)
    (hr : (∀ e, r = .error e → r2 = .error e) ∧
      (∀ x d2, r = .ok (x, d2) → ∃ y, r2 = .ok (y, d2))) : d.sound E r2 := by
  cases r with
  | ok p =>
    obtain ⟨x, d2⟩ := p
    obtain ⟨y, hy⟩ := hr.2 x d2 rfl
    rw [hy]
    simp only [Decoder.sound] at h ⊢
    exact ⟨later_trans d d1 d2 hl h.1, Nat.lt_of_le_of_lt hl.2.1 h.2⟩
  | error e =>
    rw [hr.1 e rfl]
    cases e with
    | ReadError desc p =>
      simp only [Decoder.sound] at h ⊢
      rw [← hl.1]
      exact h
    | HostError => trivial
    | RecursionLimit =>
      simp only [Decoder.sound] at h ⊢
      exact fun hh => h (hE hh)

theorem sound_bind {F α β : Type} (d : Decoder F) (E E1 : Prop)
    (r : Except DecodeError (α × Decoder F))
    (k : α → Decoder F → Except DecodeError (β × Decoder F))
    (r2 : Except DecodeError (β × Decoder F))
    (hd : d.index ≤ d.start.length)
    (h1 : d.sound E1 r) (hE : E → E1)
    (h2 : ∀ x d1, r = .ok (x, d1) → d.later d1 → d.index < d1.index → d.sound E (k x d1))
    (hr : (∀ e, r = .error e → r2 = .error e) ∧ (∀ x d1, r = .ok (x, d1) → r2 = k x d1)) :
    d.sound E r2 := by
  cases r with
  | ok p =>
    obtain ⟨x, d1⟩ := p
    rw [hr.2 x d1 rfl]
    simp only [Decoder.sound] at h1
    exact h2 x d1 rfl h1.1 h1.2
  | error e =>
    exact sound_map d d E E1 (.error e : Except DecodeError (α × Decoder F)) r2
      (later_refl d hd) hE h1 ⟨fun e2 he => hr.1 e2 he, fun x d2 he => by cases he⟩

theorem sound_keyword {F : Type} (d d1 : Decoder F) (E : Prop) (kw : List Nat)
    (rv : Value F) (other r2 : Except DecodeError (Value F × Decoder F))
    (hl : d.later d1) (hkw : kw ≠ []) (ho : d.sound E other)
    (hr : (∀ p, keyword_compare d1 kw rv = some p → r2 = .ok p) ∧
      (keyword_compare d1 kw rv = none → r2 = other)) : d.sound E r2 := by
  cases hk : keyword_compare d1 kw rv with
  | none =>
    rw [hr.2 hk]
    exact ho
  | some p =>
    obtain ⟨v, d2⟩ := p
    rw [hr.1 _ hk]
    have := keyword_compare_later d1 kw rv v d2 hkw hk
    exact ⟨later_trans d d1 d2 hl this.1, Nat.lt_of_le_of_lt hl.2.1 this.2⟩

theorem sound_step {F α : Type} (d : Decoder F) (E : Prop) (x : α)
    (h : code_at d.start d.index ≠ 0) :
    d.sound E (.ok (x, { d with index := d.index + 1 }) : Except DecodeError (α × Decoder F)) :=
  ⟨step_later d h, Nat.lt_succ_self _⟩

theorem sound_unexpected {F α : Type} (d : Decoder F) (E : Prop) (wanted : String)
    (hd : d.index ≤ d.start.length) :
    d.sound E (.error (set_error_unexpected d d.index wanted) :
      Except DecodeError (α × Decoder F)) := hd

theorem parser_sound {F : Type} (host : Host F) : ∀ (fuel : Nat),
    (∀ (d : Decoder F), d.index ≤ d.start.length →
      d.sound (2 * (d.start.length - d.index) ≤ fuel ∧ 1 ≤ fuel) (json_read host fuel d)) ∧
    (∀ acc start st (d : Decoder F), d.index ≤ d.start.length → start ≤ d.start.length →
      d.sound (2 * (d.start.length - d.index) + 1 ≤ fuel)
        (read_array_impl host fuel acc start st d)) ∧
    (∀ acc key start st (d : Decoder F), d.index ≤ d.start.length → start ≤ d.start.length →
      d.sound (2 * (d.start.length - d.index) + 1 ≤ fuel)
        (read_object_impl host fuel acc key start st d))
  | 0 => by
    refine ⟨?_, ?_, ?_⟩
    · intro d _
      rw [json_read]
      exact fun h => absurd h.2 (by decide)
    · intro acc start st d _ _
      rw [read_array_impl]
      exact fun h => absurd h (by omega)
    · intro acc key start st d _ _
      rw [read_object_impl]
      exact fun h => absurd h (by omega)
  | f + 1 => by
    obtain ⟨ihj, iha, iho⟩ := parser_sound host f
    refine ⟨?_, ?_, ?_⟩
    · intro d hd
      have hl := skip_spaces_later d hd
      have hd1 : (skip_spaces d).index ≤ (skip_spaces d).start.length := hl.2.2.1
      have hlen : (skip_spaces d).start.length = d.start.length := rfl
      rw [json_read]
      by_cases c0 : code_at (skip_spaces d).start (skip_spaces d).index = 0
      · simp only [c0, if_true]
        exact Nat.zero_le _
      have hlt := code_at_lt _ _ c0
      have hbad : d.sound (2 * (d.start.length - d.index) ≤ f + 1 ∧ 1 ≤ f + 1)
          (.error (set_error_unexpected (skip_spaces d) (skip_spaces d).index "<valid thing>") :
            Except DecodeError (Value F × Decoder F)) := hd1
      have hnum : d.sound (2 * (d.start.length - d.index) ≤ f + 1 ∧ 1 ≤ f + 1)
          (read_number host (skip_spaces d)) :=
        sound_of_later d (skip_spaces d) _ True _ hl (fun _ => trivial)
          (read_number_sound host (skip_spaces d) hd1)
      simp only [c0, if_false]
      by_cases c1 : code_at (skip_spaces d).start (skip_spaces d).index = 0x7B
      · simp only [c1, if_true]
        refine sound_map d { skip_spaces d with index := (skip_spaces d).index + 1 } _ _ _ _
          (later_trans _ _ _ hl (step_later _ c0)) ?_
          (iho [] none (skip_spaces d).index .OBJECT_EMPTY _ hlt hd1)
          ⟨fun e he => by rw [he], fun x d2 he => by rw [he]; exact ⟨_, rfl⟩⟩
        intro hE
        have h2 := hl.2.1
        simp only [hlen] at hlt ⊢
        show 2 * (d.start.length - ((skip_spaces d).index + 1)) + 1 ≤ f
        omega
      simp only [c1, if_false]
      by_cases c2 : code_at (skip_spaces d).start (skip_spaces d).index = 0x5B
      · simp only [c2, if_true]
        refine sound_map d { skip_spaces d with index := (skip_spaces d).index + 1 } _ _ _ _
          (later_trans _ _ _ hl (step_later _ c0)) ?_
          (iha [] (skip_spaces d).index .ARRAY_EMPTY _ hlt hd1)
          ⟨fun e he => by rw [he], fun x d2 he => by rw [he]; exact ⟨_, rfl⟩⟩
        intro hE
        have h2 := hl.2.1
        simp only [hlen] at hlt ⊢
        show 2 * (d.start.length - ((skip_spaces d).index + 1)) + 1 ≤ f
        omega
      simp only [c2, if_false]
      by_cases c3 : code_at (skip_spaces d).start (skip_spaces d).index = 0x22
      · simp only [c3, if_true]
        exact sound_map d (skip_spaces d) _ True _ _ hl (fun _ => trivial)
          (read_string_sound host (skip_spaces d) c0)
          ⟨fun e he => by rw [he], fun x d2 he => by rw [he]; exact ⟨_, rfl⟩⟩
      simp only [c3, if_false]
      by_cases c4 : code_at (skip_spaces d).start (skip_spaces d).index = 0x74
      · simp only [c4, if_true]
        exact sound_keyword d (skip_spaces d) _ [0x74, 0x72, 0x75, 0x65] (.bool true) _ _ hl
          (by simp) hbad
          ⟨fun p hp => by rw [hp], fun hp => by rw [hp]⟩
      simp only [c4, if_false]
      by_cases c5 : code_at (skip_spaces d).start (skip_spaces d).index = 0x66
      · simp only [c5, if_true]
        exact sound_keyword d (skip_spaces d) _ [0x66, 0x61, 0x6C, 0x73, 0x65] (.bool false) _ _ hl
          (by simp) hbad
          ⟨fun p hp => by rw [hp], fun hp => by rw [hp]⟩
      simp only [c5, if_false]
      by_cases c6 : code_at (skip_spaces d).start (skip_spaces d).index = 0x6E
      · simp only [c6, if_true]
        exact sound_keyword d (skip_spaces d) _ [0x6E, 0x75, 0x6C, 0x6C] .null _ _ hl
          (by simp) hbad
          ⟨fun p hp => by rw [hp], fun hp => by rw [hp]⟩
      simp only [c6, if_false]
      by_cases c7 : code_at (skip_spaces d).start (skip_spaces d).index = 0x4E
      · simp only [c7, if_true]
        exact sound_keyword d (skip_spaces d) _ [0x4E, 0x61, 0x4E] (.float .nan) _ _ hl
          (by simp) hbad
          ⟨fun p hp => by rw [hp], fun hp => by rw [hp]⟩
      simp only [c7, if_false]
      by_cases c8 : code_at (skip_spaces d).start (skip_spaces d).index = 0x49
      · simp only [c8, if_true]
        exact sound_keyword d (skip_spaces d) _ [0x49, 0x6E, 0x66, 0x69, 0x6E, 0x69, 0x74, 0x79] (.float .inf) _ _ hl
          (by simp) hbad
          ⟨fun p hp => by rw [hp], fun hp => by rw [hp]⟩
      simp only [c8, if_false]
      by_cases c9 : code_at (skip_spaces d).start (skip_spaces d).index = 0x2D
      · simp only [c9, if_true]
        exact sound_keyword d (skip_spaces d) _ [0x2D, 0x49, 0x6E, 0x66, 0x69, 0x6E, 0x69, 0x74, 0x79] (.float .neg_inf) _ _ hl
          (by simp) hnum
          ⟨fun p hp => by rw [hp], fun hp => by rw [hp]⟩
      simp only [c9, if_false]
      split_ifs
      · exact hnum
      · exact hbad
    · intro acc start st d hd hs
      have hl := skip_spaces_later d hd
      have hd1 : (skip_spaces d).index ≤ (skip_spaces d).start.length := hl.2.2.1
      have hs1 : start ≤ (skip_spaces d).start.length := hs
      rw [read_array_impl]
      by_cases c0 : code_at (skip_spaces d).start (skip_spaces d).index = 0
      · simp only [c0, if_true]
        exact hs
      have hlt := code_at_lt _ _ c0
      simp only [c0, if_false]
      apply sound_of_later d (skip_spaces d) _
        (2 * ((skip_spaces d).start.length - (skip_spaces d).index) + 1 ≤ f + 1) _ hl
        (fun hE => by
          have h2 := hl.2.1
          show 2 * (d.start.length - (skip_spaces d).index) + 1 ≤ f + 1
          omega)
      have hnext : ∀ (a : List (Value F)) (s : ParseArrayState),
          (skip_spaces d).sound
            (2 * ((skip_spaces d).start.length - (skip_spaces d).index) + 1 ≤ f + 1)
            (read_array_impl host f a start s
              { skip_spaces d with index := (skip_spaces d).index + 1 }) := by
        intro a s
        refine sound_of_later _ _ _ _ _ (step_later _ c0) ?_ (iha a start s _ hlt hs1)
        intro hE
        show 2 * ((skip_spaces d).start.length - ((skip_spaces d).index + 1)) + 1 ≤ f
        omega
      have hneed : ∀ r2 : Except DecodeError (List (Value F) × Decoder F),
          ((∀ e, json_read host f (skip_spaces d) = .error e → r2 = .error e) ∧
            (∀ x d1, json_read host f (skip_spaces d) = .ok (x, d1) →
              r2 = read_array_impl host f (acc ++ [x]) start .ARRAY_GOT_VALUE d1)) →
          (skip_spaces d).sound
            (2 * ((skip_spaces d).start.length - (skip_spaces d).index) + 1 ≤ f + 1) r2 := by
        intro r2 hr
        refine sound_bind (skip_spaces d) _ _ (json_read host f (skip_spaces d))
          (fun x d1 => read_array_impl host f (acc ++ [x]) start .ARRAY_GOT_VALUE d1) r2 hd1
          (ihj _ hd1) ?_ ?_ hr
        · intro hE
          omega
        · intro x d1 _ hlater hlt1
          refine sound_of_later _ d1 _ _ _ hlater ?_
            (iha (acc ++ [x]) start .ARRAY_GOT_VALUE d1
              (by rw [hlater.1]; exact hlater.2.2.1) (by rw [hlater.1]; exact hs1))
          intro hE
          have h3 := hlater.2.2.1
          rw [hlater.1]
          omega
      cases st with
      | ARRAY_EMPTY =>
        simp only
        by_cases c1 : code_at (skip_spaces d).start (skip_spaces d).index = 0x5D
        · simp only [c1, if_true]
          exact sound_step _ _ _ c0
        · simp only [c1, if_false]
          by_cases hp : parser_find_next_value (skip_spaces d) = 0
          · simp only [hp, if_true]
            exact hneed _ ⟨fun e he => by rw [he], fun x d1 he => by rw [he]⟩
          · simp only [hp, if_false]
            exact hd1
      | ARRAY_NEED_VALUE =>
        simp only
        by_cases hp : parser_find_next_value (skip_spaces d) = 0
        · simp only [hp, if_true]
          exact hneed _ ⟨fun e he => by rw [he], fun x d1 he => by rw [he]⟩
        · simp only [hp, if_false]
          exact hd1
      | ARRAY_GOT_VALUE =>
        simp only
        by_cases c1 : code_at (skip_spaces d).start (skip_spaces d).index = 0x2C
        · simp only [c1, if_true]
          exact hnext _ _
        · simp only [c1, if_false]
          by_cases c2 : code_at (skip_spaces d).start (skip_spaces d).index = 0x5D
          · simp only [c2, if_true]
            exact sound_step _ _ _ c0
          · simp only [c2, if_false]
            exact hd1
    · intro acc key start st d hd hs
      have hl := skip_spaces_later d hd
      have hd1 : (skip_spaces d).index ≤ (skip_spaces d).start.length := hl.2.2.1
      have hs1 : start ≤ (skip_spaces d).start.length := hs
      rw [read_object_impl]
      by_cases c0 : code_at (skip_spaces d).start (skip_spaces d).index = 0
      · simp only [c0, if_true]
        exact hs
      have hlt := code_at_lt _ _ c0
      simp only [c0, if_false]
      apply sound_of_later d (skip_spaces d) _
        (2 * ((skip_spaces d).start.length - (skip_spaces d).index) + 1 ≤ f + 1) _ hl
        (fun hE => by
          have h2 := hl.2.1
          show 2 * (d.start.length - (skip_spaces d).index) + 1 ≤ f + 1
          omega)
      have hnext : ∀ (a : List (List Nat × Value F)) (ky : Option (Value F))
          (s : ParseObjectState),
          (skip_spaces d).sound
            (2 * ((skip_spaces d).start.length - (skip_spaces d).index) + 1 ≤ f + 1)
            (read_object_impl host f a ky start s
              { skip_spaces d with index := (skip_spaces d).index + 1 }) := by
        intro a ky s
        refine sound_of_later _ _ _ _ _ (step_later _ c0) ?_ (iho a ky start s _ hlt hs1)
        intro hE
        show 2 * ((skip_spaces d).start.length - ((skip_spaces d).index + 1)) + 1 ≤ f
        omega
      have hafter : ∀ (a : List (List Nat × Value F)) (ky : Option (Value F))
          (s : ParseObjectState) (d1 : Decoder F), (skip_spaces d).later d1 →
          (skip_spaces d).index < d1.index →
          (skip_spaces d).sound
            (2 * ((skip_spaces d).start.length - (skip_spaces d).index) + 1 ≤ f + 1)
            (read_object_impl host f a ky start s d1) := by
        intro a ky s d1 hlater hlt1
        refine sound_of_later _ d1 _ _ _ hlater ?_
          (iho a ky start s d1
            (by rw [hlater.1]; exact hlater.2.2.1) (by rw [hlater.1]; exact hs1))
        intro hE
        have h3 := hlater.2.2.1
        rw [hlater.1]
        omega
      have hbind : ∀ (k : Value F → Decoder F →
            Except DecodeError (List (List Nat × Value F) × Decoder F)),
          (∀ x d1, (skip_spaces d).later d1 → (skip_spaces d).index < d1.index →
            (skip_spaces d).sound
              (2 * ((skip_spaces d).start.length - (skip_spaces d).index) + 1 ≤ f + 1)
              (k x d1)) →
          ∀ r2 : Except DecodeError (List (List Nat × Value F) × Decoder F),
          ((∀ e, json_read host f (skip_spaces d) = .error e → r2 = .error e) ∧
            (∀ x d1, json_read host f (skip_spaces d) = .ok (x, d1) → r2 = k x d1)) →
          (skip_spaces d).sound
            (2 * ((skip_spaces d).start.length - (skip_spaces d).index) + 1 ≤ f + 1) r2 := by
        intro k hk r2 hr
        refine sound_bind (skip_spaces d) _ _ (json_read host f (skip_spaces d)) k r2 hd1
          (ihj _ hd1) ?_ (fun x d1 _ h1 h2 => hk x d1 h1 h2) hr
        intro hE
        omega
      have hkey : ∀ r2 : Except DecodeError (List (List Nat × Value F) × Decoder F),
          ((∀ e, json_read host f (skip_spaces d) = .error e → r2 = .error e) ∧
            (∀ x d1, json_read host f (skip_spaces d) = .ok (x, d1) →
              r2 = read_object_impl host f acc (some x) start .OBJECT_NEED_COLON d1)) →
          (skip_spaces d).sound
            (2 * ((skip_spaces d).start.length - (skip_spaces d).index) + 1 ≤ f + 1) r2 :=
        hbind (fun x d1 => read_object_impl host f acc (some x) start .OBJECT_NEED_COLON d1)
          (fun x d1 h1 h2 => hafter _ _ _ d1 h1 h2)
      cases st with
      | OBJECT_EMPTY =>
        simp only
        by_cases c1 : code_at (skip_spaces d).start (skip_spaces d).index = 0x7D
        · simp only [c1, if_true]
          exact sound_step _ _ _ c0
        · simp only [c1, if_false]
          by_cases c2 : code_at (skip_spaces d).start (skip_spaces d).index = 0x22
          · simp only [c2, ne_eq, not_true_eq_false, if_false]
            exact hkey _ ⟨fun e he => by rw [he], fun x d1 he => by rw [he]⟩
          · simp only [c2, ne_eq, not_false_eq_true, if_true]
            exact hd1
      | OBJECT_NEED_KEY =>
        simp only
        by_cases c2 : code_at (skip_spaces d).start (skip_spaces d).index = 0x22
        · simp only [c2, ne_eq, not_true_eq_false, if_false]
          exact hkey _ ⟨fun e he => by rw [he], fun x d1 he => by rw [he]⟩
        · simp only [c2, ne_eq, not_false_eq_true, if_true]
          exact hd1
      | OBJECT_NEED_COLON =>
        simp only
        by_cases c2 : code_at (skip_spaces d).start (skip_spaces d).index = 0x3A
        · simp only [c2, ne_eq, not_true_eq_false, if_false]
          exact hnext _ _ _
        · simp only [c2, ne_eq, not_false_eq_true, if_true]
          exact hd1
      | OBJECT_NEED_VALUE =>
        simp only
        by_cases hp : parser_find_next_value (skip_spaces d) = 0
        · simp only [hp, if_true]
          have hbadkey : ∀ r2 : Except DecodeError (List (List Nat × Value F) × Decoder F),
              ((∀ e, json_read host f (skip_spaces d) = .error e → r2 = .error e) ∧
                (∀ x d1, json_read host f (skip_spaces d) = .ok (x, d1) →
                  r2 = .error .HostError)) →
              (skip_spaces d).sound
                (2 * ((skip_spaces d).start.length - (skip_spaces d).index) + 1 ≤ f + 1) r2 :=
            hbind (fun _ _ => .error .HostError) (fun _ _ _ _ => trivial)
          cases key with
          | none => exact hbadkey _ ⟨fun e he => by rw [he], fun x d1 he => by rw [he]⟩
          | some kv =>
            cases kv with
            | str k =>
              exact hbind
                (fun x d1 => read_object_impl host f (PyDict_SetItem acc k x) none start
                  .OBJECT_GOT_VALUE d1)
                (fun x d1 h1 h2 => hafter _ _ _ d1 h1 h2) _
                ⟨fun e he => by rw [he], fun x d1 he => by rw [he]⟩
            | null => exact hbadkey _ ⟨fun e he => by rw [he], fun x d1 he => by rw [he]⟩
            | bool b => exact hbadkey _ ⟨fun e he => by rw [he], fun x d1 he => by rw [he]⟩
            | int n => exact hbadkey _ ⟨fun e he => by rw [he], fun x d1 he => by rw [he]⟩
            | float x => exact hbadkey _ ⟨fun e he => by rw [he], fun x d1 he => by rw [he]⟩
            | arr xs => exact hbadkey _ ⟨fun e he => by rw [he], fun x d1 he => by rw [he]⟩
            | obj items => exact hbadkey _ ⟨fun e he => by rw [he], fun x d1 he => by rw [he]⟩
        · simp only [hp, if_false]
          exact hd1
      | OBJECT_GOT_VALUE =>
        simp only
        by_cases c1 : code_at (skip_spaces d).start (skip_spaces d).index = 0x2C
        · simp only [c1, if_true]
          exact hnext _ _ _
        · simp only [c1, if_false]
          by_cases c2 : code_at (skip_spaces d).start (skip_spaces d).index = 0x7D
          · simp only [c2, if_true]
            exact sound_step _ _ _ c0
          · simp only [c2, if_false]
            exact hd1

end Jsonlib2

namespace Jsonlib2

/-! ## C36: the cursor stays within the text and every read advances it -/

end Jsonlib2

namespace Jsonlib2

/-! ## C37: the scratch buffer of `read_string_full` -/

theorem fancy_scan_positive {F : Type} (d : Decoder F) (start : Nat) (l : List Nat) (ii : Nat)
    (h : read_string_scan d start l 0 false false = .ok (ii, true)) : 1 ≤ ii := by
  rcases (read_string_scan_bounds d start l 0 false false ii true h).2.2 rfl with r | r
  · cases r
  · exact r

/-- C37: `read_string_full` on a literal with `n` code units between its quotes, called
as `read_string` calls it (`start` right behind the opening quote).  The capacity it
unescapes with is the old one, or `next_power_2 (1, n)` when the old one is below `n`:
it is at least `n`, not below the old one, and a power of two when `n ≥ 1` and the old
capacity is `0` or a power of two.  Every store of the loop and of
`read_unicode_escape` goes to an index below `n`, whatever the outcome; a result has as
many code points as there were stores, at most `n`, and the decoder returned has that
capacity.  The unescaping path is taken with `n ≥ 1` only.  Across the reads of a
decode call the capacity never decreases and stays `0` or a power of two. -/
theorem scratch_capacity_bounds {F : Type} (host : Host F) (d : Decoder F) (start n : Nat)
    (hstart : d.index + 1 = start) (hd : d.index ≤ d.start.length) :
    (d.stringparse_buffer_size
        ≤ (if n > d.stringparse_buffer_size then next_power_2 1 n
            else d.stringparse_buffer_size) ∧
      n ≤ (if n > d.stringparse_buffer_size then next_power_2 1 n
            else d.stringparse_buffer_size) ∧
      (capacity_ok d.stringparse_buffer_size → 1 ≤ n →
        ∃ k, (if n > d.stringparse_buffer_size then next_power_2 1 n
            else d.stringparse_buffer_size) = 2 ^ k)) ∧
    (∀ i ∈ read_string_full_writes host d start n n 0 false 0, i < n) ∧
    (∀ r d2, read_string_full host d start n = .ok (r, d2) →
      d2.stringparse_buffer_size
          = (if n > d.stringparse_buffer_size then next_power_2 1 n
              else d.stringparse_buffer_size) ∧
        r.length ≤ n ∧
        r.length = (read_string_full_writes host d start n n 0 false 0).length) ∧
    (∀ ii, code_at d.start (d.index + 1) ≠ 0x22 →
      read_string_scan d (d.index + 1) (d.start.drop (d.index + 1)) 0 false false
        = .ok (ii, true) →
      1 ≤ ii ∧ read_string host d = read_string_full host d (d.index + 1) ii) ∧
    (∀ fuel v d2, json_read host fuel d = .ok (v, d2) →
      d.stringparse_buffer_size ≤ d2.stringparse_buffer_size ∧
        (capacity_ok d.stringparse_buffer_size → capacity_ok d2.stringparse_buffer_size)) ∧
    (∀ (text : List Nat) (pf pi pc : Option (List Nat → Option (Value F))) fuel v d2,
      json_read host fuel
          { start := text, index := 0, stringparse_buffer_size := 0,
            parse_float := pf, parse_int := pi, parse_constant := pc } = .ok (v, d2) →
        capacity_ok d2.stringparse_buffer_size) := by
  have hc := capacity_after d.stringparse_buffer_size n
  have inv := read_string_full_loop_inv host d start n (start + n) hstart (Nat.le_refl _)
    n 0 false [] (by simp) (Nat.zero_le _)
  refine ⟨⟨hc.1, hc.2.1, hc.2.2.2⟩, inv.1, ?_, ?_, ?_, ?_⟩
  · intro r d2 h
    obtain ⟨hl, hd2⟩ := read_string_full_result host d start n r d2 h
    have := inv.2.1 r hl
    refine ⟨by rw [hd2], this.1, ?_⟩
    simpa using this.2
  · intro ii hq hs
    refine ⟨fancy_scan_positive d _ _ ii hs, ?_⟩
    unfold read_string
    simp only [hq, if_false, hs, if_true]
  · intro fuel v d2 h
    have hs := (parser_sound host fuel).1 d hd
    rw [h] at hs
    exact ⟨hs.1.2.2.2.1, hs.1.2.2.2.2⟩
  · intro text pf pi pc fuel v d2 h
    have hs := (parser_sound host fuel).1
      { start := text, index := 0, stringparse_buffer_size := 0,
        parse_float := pf, parse_int := pi, parse_constant := pc } (Nat.zero_le _)
    rw [h] at hs
    exact hs.1.2.2.2.2 (Or.inl rfl)

/-- The literal `"a\nb"`: four code units between the quotes, three stores, capacity 4;
and the text `["\n", "a\tb\tc"]` read from the start leaves the capacity 8. -/
theorem scratch_capacity_bounds_witness :
    (new_decoder [0x22, 0x61, 0x5C, 0x6E, 0x62, 0x22] : Decoder Bool).index + 1 = 1 ∧
    read_string_full_writes example_host
        (new_decoder [0x22, 0x61, 0x5C, 0x6E, 0x62, 0x22]) 1 4 4 0 false 0 = [0, 1, 2] ∧
    (∀ i ∈ read_string_full_writes example_host
        (new_decoder [0x22, 0x61, 0x5C, 0x6E, 0x62, 0x22]) 1 4 4 0 false 0, i < 4) ∧
    read_string_full example_host (new_decoder [0x22, 0x61, 0x5C, 0x6E, 0x62, 0x22]) 1 4
      = .ok ([0x61, 0x0A, 0x62],
          { (new_decoder [0x22, 0x61, 0x5C, 0x6E, 0x62, 0x22] : Decoder Bool) with
            index := 6, stringparse_buffer_size := 4 }) ∧
    json_read example_host 40
        (new_decoder [0x5B, 0x22, 0x5C, 0x6E, 0x22, 0x2C, 0x20,
          0x22, 0x61, 0x5C, 0x74, 0x62, 0x5C, 0x74, 0x63, 0x22, 0x5D])
      = .ok (.arr [.str [0x0A], .str [0x61, 0x09, 0x62, 0x09, 0x63]],
          { (new_decoder [0x5B, 0x22, 0x5C, 0x6E, 0x22, 0x2C, 0x20,
              0x22, 0x61, 0x5C, 0x74, 0x62, 0x5C, 0x74, 0x63, 0x22, 0x5D] : Decoder Bool) with
            index := 17, stringparse_buffer_size := 8 }) :=
  ⟨rfl, rfl,
   (scratch_capacity_bounds example_host (new_decoder [0x22, 0x61, 0x5C, 0x6E, 0x62, 0x22]) 1 4
      rfl (by decide)).2.1,
   rfl, rfl⟩

end Jsonlib2

namespace Jsonlib2

/-! ## C38: the number grammar and `read_number` -/

theorem scan_digit_after_zero (c : Nat) (cs : List Nat) (ptr : Nat) (fl : NumberFlags)
    (hc : is_digit c) (hg : fl.got_digit = true) (hl : fl.leading_zero = true)
    (hf : fl.is_float = false) : read_number_scan (c :: cs) ptr fl = none := by
  unfold is_digit at hc
  rw [read_number_scan, if_neg (by omega)]
  by_cases h0 : c = 0x30
  · rw [if_pos h0, if_neg (by simp [hg]), if_pos ⟨hl, hf⟩]
  · rw [if_neg h0, if_pos (by omega), if_pos ⟨hl, hf⟩]

theorem scan_exponent_sign (sign ds rest : List Nat) (ptr : Nat) (fl : NumberFlags)
    (hs : sign = [] ∨ sign = [0x2B] ∨ sign = [0x2D]) :
    read_number_scan (sign ++ ds ++ rest) ptr fl
      = read_number_scan (ds ++ rest) (ptr + sign.length) fl := by
  rcases hs with rfl | rfl | rfl
  · rfl
  · simp [read_number_scan]
  · simp [read_number_scan]

theorem scan_zero_exponent (n : NumberText) (hwf : n.WF) (hz : n.int_digits = [0x30])
    (hfr : n.frac_digits = none) (hex : n.exponent.isSome = true) (rest : List Nat)
    (ptr : Nat) : read_number_scan (n.text ++ rest) ptr init_flags = none := by
  obtain ⟨e, sign, ds, hexp⟩ : ∃ e sign ds, n.exponent = some (e, sign, ds) := by
    cases hx : n.exponent with
    | none => rw [hx] at hex; simp at hex
    | some t => exact ⟨t.1, t.2.1, t.2.2, rfl⟩
  obtain ⟨he, hs, hne, hds⟩ := hwf.2.2 e sign ds hexp
  obtain ⟨c, cs, rfl⟩ : ∃ c cs, ds = c :: cs := by
    cases ds with
    | nil => exact absurd rfl hne
    | cons c cs => exact ⟨c, cs, rfl⟩
  have hc : is_digit c := hds c (List.mem_cons_self _ _)
  have htext : n.text ++ rest
      = sign_text n.negative ++ (0x30 :: e :: (sign ++ (c :: cs) ++ rest)) := by
    simp [NumberText.text, hz, hfr, hexp, frac_text, exp_text]
  rw [htext]
  have hbody : ∀ (p : Nat), read_number_scan (0x30 :: e :: (sign ++ (c :: cs) ++ rest)) p
      init_flags = none := by
    intro p
    have h1 : read_number_scan (0x30 :: e :: (sign ++ (c :: cs) ++ rest)) p init_flags
        = read_number_scan (e :: (sign ++ (c :: cs) ++ rest)) (p + 1)
            { init_flags with leading_zero := true, got_digit := true } := by
      rw [read_number_scan]
      simp [init_flags]
    have h2 : read_number_scan (e :: (sign ++ (c :: cs) ++ rest)) (p + 1)
          { init_flags with leading_zero := true, got_digit := true }
        = read_number_scan (sign ++ (c :: cs) ++ rest) (p + 1 + 1)
            { init_flags with leading_zero := true, got_digit := true, has_exponent := true } := by
      rw [read_number_scan]
      rcases he with rfl | rfl <;> simp
    rw [h1, h2, scan_exponent_sign sign (c :: cs) rest _ _ hs]
    exact scan_digit_after_zero c (cs ++ rest) _ _ hc rfl rfl rfl
  cases n.negative with
  | false => exact hbody ptr
  | true =>
    have h0 : read_number_scan (sign_text true ++ (0x30 :: e :: (sign ++ (c :: cs) ++ rest)))
        ptr init_flags
        = read_number_scan (0x30 :: e :: (sign ++ (c :: cs) ++ rest)) (ptr + 1) init_flags := by
      simp [sign_text, read_number_scan]
    rw [h0]
    exact hbody (ptr + 1)

/-- C38: `read_number` on a literal of the grammar
`-?(0|[1-9][0-9]*)(.[0-9]+)?([eE][+-]?[0-9]+)?`, followed by the end of the input or
by a character its scan stops at.  When the integer part is `0` and an exponent
follows it directly, as in `0e5` and `-0E+2`, the literal is refused with "Invalid
number." at its first character, whatever the conversion would give.  Every other
literal of the grammar is accepted when the conversion (`parse_float`, `parse_int`,
`PyFloat_FromString` or `PyLong_FromUnicode`) accepts its text, and the cursor then
stands right behind the literal. -/
theorem zero_exponent_refused {F : Type} (host : Host F) (d : Decoder F) (n : NumberText)
    (hwf : n.WF) (rest : List Nat) (hstop : number_stop rest)
    (h : d.start.drop d.index = n.text ++ rest) :
    (n.int_digits = [0x30] → n.frac_digits = none → n.exponent.isSome = true →
      read_number host d = .error (set_error_simple d.index "Invalid number.")) ∧
    ((n.int_digits = [0x30] → n.frac_digits.isSome = true ∨ n.exponent.isSome = false) →
      ∀ o, number_object host d (n.frac_digits.isSome || n.exponent.isSome) n.text = some o →
        read_number host d = .ok (o, { d with index := d.index + n.text.length })) := by
  constructor
  · intro hz hfr hex
    have hscan := scan_zero_exponent n hwf hz hfr hex rest d.index
    unfold read_number
    rw [h]
    have hscan2 : read_number_scan (n.text ++ rest) d.index
        { is_float := false, got_digit := false, leading_zero := false, has_exponent := false }
        = none := hscan
    rw [hscan2]
  · intro hz o ho
    have hr := read_number_text host d n hwf hz rest hstop h
    rw [ho] at hr
    exact hr

/-- The literal `0e5` with a `parse_float` hook that accepts every text; `1e5` is
read by the same decoder. -/
theorem zero_exponent_refused_witness :
    NumberText.WF ⟨false, [0x30], none, some (0x65, [], [0x35])⟩ ∧
    number_stop [] ∧
    read_number example_host
        { (new_decoder [0x30, 0x65, 0x35] : Decoder Bool) with
          parse_float := some (fun u => some (.str u)) }
      = .error (set_error_simple 0 "Invalid number.") ∧
    read_number example_host
        { (new_decoder [0x2D, 0x30, 0x45, 0x2B, 0x32] : Decoder Bool) with
          parse_float := some (fun u => some (.str u)) }
      = .error (set_error_simple 0 "Invalid number.") ∧
    read_number example_host
        { (new_decoder [0x31, 0x65, 0x35] : Decoder Bool) with
          parse_float := some (fun u => some (.str u)) }
      = .ok (.str [0x31, 0x65, 0x35],
          { (new_decoder [0x31, 0x65, 0x35] : Decoder Bool) with
            parse_float := some (fun u => some (.str u)), index := 3 }) :=
  ⟨by simp [NumberText.WF, is_digit], trivial,
   (zero_exponent_refused example_host
      { (new_decoder [0x30, 0x65, 0x35] : Decoder Bool) with
        parse_float := some (fun u => some (.str u)) }
      ⟨false, [0x30], none, some (0x65, [], [0x35])⟩
      (by simp [NumberText.WF, is_digit]) [] trivial rfl).1 rfl rfl rfl,
   rfl, rfl⟩

end Jsonlib2

namespace Jsonlib2

/-! ## C39: the size pass and the fill pass of the escaping routines agree -/

theorem unicode_to_unicode_char_length (es : Bool) (c : Nat) :
    (unicode_to_unicode_char es c).length = unicode_to_unicode_char_size es c := by
  unfold unicode_to_unicode_char unicode_to_unicode_char_size
  by_cases h1 : c = 0x08
  · simp [h1]
  by_cases h2 : c = 0x09
  · simp [h2]
  by_cases h3 : c = 0x0A
  · simp [h3]
  by_cases h4 : c = 0x0C
  · simp [h4]
  by_cases h5 : c = 0x0D
  · simp [h5]
  by_cases h6 : c = 0x22
  · simp [h6]
  by_cases h7 : es = true ∧ c = 0x2F
  · simp [h7.1, h7.2]
  by_cases h8 : c = 0x5C
  · simp [h8]
  have hsz : ¬ (c = 0x08 ∨ c = 0x09 ∨ c = 0x0A ∨ c = 0x0C ∨ c = 0x0D ∨ c = 0x22 ∨
      (es = true ∧ c = 0x2F) ∨ c = 0x5C) := by tauto
  simp only [if_neg h1, if_neg h2, if_neg h3, if_neg h4, if_neg h5, if_neg h6, if_neg h7,
    if_neg h8, if_neg hsz]
  by_cases h9 : c ≤ 0x1F
  · simp only [if_pos h9, List.length_cons, List.length_nil]
  · simp only [if_neg h9, List.length_cons, List.length_nil]

theorem escape_unichar_length (c : Nat) :
    (escape_unichar c).length =
      if c = 0x08 ∨ c = 0x09 ∨ c = 0x0A ∨ c = 0x0C ∨ c = 0x0D ∨ c = 0x22 ∨ c = 0x2F ∨ c = 0x5C
      then 2 else if c > 0xFFFF then 12 else 6 := by
  unfold escape_unichar
  by_cases h1 : c = 0x08
  · simp [h1]
  by_cases h2 : c = 0x09
  · simp [h2]
  by_cases h3 : c = 0x0A
  · simp [h3]
  by_cases h4 : c = 0x0C
  · simp [h4]
  by_cases h5 : c = 0x0D
  · simp [h5]
  by_cases h6 : c = 0x22
  · simp [h6]
  by_cases h7 : c = 0x2F
  · simp [h7]
  by_cases h8 : c = 0x5C
  · simp [h8]
  have hsz : ¬ (c = 0x08 ∨ c = 0x09 ∨ c = 0x0A ∨ c = 0x0C ∨ c = 0x0D ∨ c = 0x22 ∨
      c = 0x2F ∨ c = 0x5C) := by tauto
  simp only [if_neg h1, if_neg h2, if_neg h3, if_neg h4, if_neg h5, if_neg h6, if_neg h7,
    if_neg h8, if_neg hsz]
  by_cases h9 : c > 0xFFFF
  · simp only [if_pos h9, List.length_cons, List.length_nil]
  · simp only [if_neg h9, List.length_cons, List.length_nil]

theorem unicode_to_ascii_char_length (es : Bool) (c : Nat) :
    (unicode_to_ascii_char es c).length = unicode_to_ascii_char_size es c := by
  unfold unicode_to_ascii_char unicode_to_ascii_char_size
  by_cases hp : c > 0x1F ∧ c ≤ 0x7E ∧ c ≠ 0x5C ∧ c ≠ 0x22 ∧ (es = false ∨ c ≠ 0x2F)
  · obtain ⟨p1, p2, p3, p4, p5⟩ := hp
    have hsz : ¬ (c = 0x08 ∨ c = 0x09 ∨ c = 0x0A ∨ c = 0x0C ∨ c = 0x0D ∨ c = 0x22 ∨
        (es = true ∧ c = 0x2F) ∨ c = 0x5C) := by
      rintro (h | h | h | h | h | h | h | h)
      · omega
      · omega
      · omega
      · omega
      · omega
      · exact p4 h
      · rcases p5 with p5 | p5
        · rw [p5] at h
          exact Bool.false_ne_true h.1
        · exact p5 h.2
      · exact p3 h
    rw [if_pos ⟨p1, p2, p3, p4, p5⟩, if_neg hsz, if_neg (by omega), if_neg (by omega),
      if_neg (by omega)]
    rfl
  · rw [if_neg hp, escape_unichar_length]
    by_cases hs : c = 0x08 ∨ c = 0x09 ∨ c = 0x0A ∨ c = 0x0C ∨ c = 0x0D ∨ c = 0x22 ∨
        (es = true ∧ c = 0x2F) ∨ c = 0x5C
    · have hs2 : c = 0x08 ∨ c = 0x09 ∨ c = 0x0A ∨ c = 0x0C ∨ c = 0x0D ∨ c = 0x22 ∨
          c = 0x2F ∨ c = 0x5C := by tauto
      rw [if_pos hs, if_pos hs2]
    · rw [if_neg hs]
      have hconj : ¬ (es = true ∧ c = 0x2F) := fun hh => hs (by tauto)
      have hslash : ¬ c = 0x2F := by
        intro h
        apply hp
        refine ⟨by omega, by omega, by omega, by omega, ?_⟩
        cases es
        · exact Or.inl rfl
        · exact absurd ⟨rfl, h⟩ hconj
      have hn : ¬ (c = 0x08 ∨ c = 0x09 ∨ c = 0x0A ∨ c = 0x0C ∨ c = 0x0D ∨ c = 0x22 ∨
          c = 0x2F ∨ c = 0x5C) := by tauto
      rw [if_neg hn]
      by_cases h9 : c ≤ 0x1F
      · rw [if_pos h9, if_neg (by omega)]
      · rw [if_neg h9]
        by_cases h10 : c > 0xFFFF
        · simp only [if_pos h10]
        · have h11 : c > 0x7E := by
            by_contra h11
            apply hp
            exact ⟨by omega, by omega, fun h => hn (by rw [h]; decide),
              fun h => hn (by rw [h]; decide), Or.inr hslash⟩
          simp only [if_neg h10, if_pos h11]

theorem foldl_size_flatMap (f : Nat → List Nat) (g : Nat → Nat)
    (h : ∀ c, (f c).length = g c) :
    ∀ (s : List Nat) (n : Nat), s.foldl (fun size c => size + g c) n = n + (s.flatMap f).length := by
  intro s
  induction s with
  | nil => intro n; rfl
  | cons c cs ih =>
    intro n
    rw [List.foldl_cons, ih, List.flatMap_cons, List.length_append, h c]
    omega

/-- C39: for every string and both settings of `escape_slash`, the buffer size that the
first pass of `unicode_to_unicode` and of `unicode_to_ascii` computes (2 for the quotes
plus 1, 2, 6 or 12 per character) is the number of characters the second pass writes. -/
theorem size_pass_matches_fill (unicode : List Nat) (escape_slash : Bool) :
    unicode_to_unicode_size unicode escape_slash =
        (unicode_to_unicode unicode escape_slash).length ∧
    unicode_to_ascii_size unicode escape_slash =
        (unicode_to_ascii unicode escape_slash).length ∧
    (∀ c, unicode_to_unicode_char_size escape_slash c =
        (unicode_to_unicode_char escape_slash c).length) ∧
    (∀ c, unicode_to_ascii_char_size escape_slash c =
        (unicode_to_ascii_char escape_slash c).length) ∧
    (∀ c, unicode_to_ascii_char_size escape_slash c ∈ [1, 2, 6, 12]) ∧
    unicode_to_ascii_size [0x2F, 0x7F, 0x1F600, 0x41] false = 22 ∧
    unicode_to_unicode_size [0x2F, 0x7F, 0x1F, 0x41] true = 12 := by
  refine ⟨?_, ?_, fun c => (unicode_to_unicode_char_length _ c).symm,
    fun c => (unicode_to_ascii_char_length _ c).symm, ?_, by decide, by decide⟩
  · unfold unicode_to_unicode_size unicode_to_unicode
    rw [foldl_size_flatMap _ _ (unicode_to_unicode_char_length escape_slash)]
    simp only [List.length_append, List.length_cons, List.length_nil]
    omega
  · unfold unicode_to_ascii_size unicode_to_ascii
    rw [foldl_size_flatMap _ _ (unicode_to_ascii_char_length escape_slash)]
    simp only [List.length_append, List.length_cons, List.length_nil]
    omega
  · intro c
    unfold unicode_to_ascii_char_size
    split_ifs <;> simp

end Jsonlib2

namespace Jsonlib2

/-! ## C40: the direct path of `write_unicode` agrees with the escaping routines -/

theorem unicode_to_unicode_char_plain (enc : Encoder) (c : Nat)
    (h : write_unicode_needs_escape enc c = false) :
    unicode_to_unicode_char enc.escape_slash c = [c] := by
  simp only [write_unicode_needs_escape, decide_eq_false_iff_not, not_or, not_and, not_lt] at h
  obtain ⟨h1, h2, h3, h4, _⟩ := h
  have hs : ¬ (enc.escape_slash = true ∧ c = 0x2F) := fun hh => h2 hh.1 hh.2
  unfold unicode_to_unicode_char
  rw [if_neg (by omega), if_neg (by omega), if_neg (by omega), if_neg (by omega),
    if_neg (by omega), if_neg h1, if_neg hs, if_neg h3, if_neg (by omega)]

theorem unicode_to_ascii_char_plain (enc : Encoder) (c : Nat)
    (h : write_unicode_needs_escape enc c = false) (ha : enc.ensure_ascii = true) :
    unicode_to_ascii_char enc.escape_slash c = [c] := by
  simp only [write_unicode_needs_escape, decide_eq_false_iff_not, not_or, not_and, not_lt] at h
  obtain ⟨h1, h2, h3, h4, h5⟩ := h
  have h6 := h5 ha
  unfold unicode_to_ascii_char
  rw [if_pos]
  refine ⟨by omega, by omega, h3, h1, ?_⟩
  cases hes : enc.escape_slash
  · exact Or.inl rfl
  · exact Or.inr (h2 hes)

theorem flatMap_plain (f : Nat → List Nat) :
    ∀ s : List Nat, (∀ c ∈ s, f c = [c]) → s.flatMap f = s := by
  intro s
  induction s with
  | nil => intro _; rfl
  | cons c cs ih =>
    intro h
    rw [List.flatMap_cons, h c (List.mem_cons_self _ _),
      ih (fun d hd => h d (List.mem_cons_of_mem _ hd))]
    rfl

/-- C40: for every string in which the first scan of `write_unicode` finds no character
that needs escaping, the literal written directly (quote, the characters, quote) is what
the escaping routine of the mode produces: `unicode_to_ascii` under `ensure_ascii`,
`unicode_to_unicode` otherwise (which agrees in both modes). -/
theorem direct_literal_matches_escaping (enc : Encoder) (unicode : List Nat)
    (h : ∀ c ∈ unicode, write_unicode_needs_escape enc c = false) :
    write_unicode enc unicode = .ok ([0x22] ++ unicode ++ [0x22]) ∧
    unicode_to_unicode unicode enc.escape_slash = [0x22] ++ unicode ++ [0x22] ∧
    (enc.ensure_ascii = true →
      unicode_to_ascii unicode enc.escape_slash = [0x22] ++ unicode ++ [0x22]) ∧
    write_unicode enc unicode =
      .ok (if enc.ensure_ascii then unicode_to_ascii unicode enc.escape_slash
        else unicode_to_unicode unicode enc.escape_slash) := by
  have hall : unicode.all (fun c => !write_unicode_needs_escape enc c) = true := by
    rw [List.all_eq_true]
    intro c hc
    rw [h c hc]
    rfl
  have hw : write_unicode enc unicode = .ok ([0x22] ++ unicode ++ [0x22]) := by
    unfold write_unicode
    rw [if_pos hall]
  have hu : unicode_to_unicode unicode enc.escape_slash = [0x22] ++ unicode ++ [0x22] := by
    unfold unicode_to_unicode
    rw [flatMap_plain _ unicode (fun c hc => unicode_to_unicode_char_plain enc c (h c hc))]
  have ha : enc.ensure_ascii = true →
      unicode_to_ascii unicode enc.escape_slash = [0x22] ++ unicode ++ [0x22] := by
    intro ha
    unfold unicode_to_ascii
    rw [flatMap_plain _ unicode (fun c hc => unicode_to_ascii_char_plain enc c (h c hc) ha)]
  refine ⟨hw, hu, ha, ?_⟩
  rw [hw]
  cases hea : enc.ensure_ascii
  · rw [if_neg (by simp), hu]
  · rw [if_pos rfl, ha hea]

theorem direct_literal_matches_escaping_witness :
    (∀ c ∈ [0x61, 0x2F, 0x7E], write_unicode_needs_escape
        { init_encoder with escape_slash := false } c = false) ∧
    write_unicode { init_encoder with escape_slash := false } [0x61, 0x2F, 0x7E] =
      .ok [0x22, 0x61, 0x2F, 0x7E, 0x22] ∧
    unicode_to_ascii [0x61, 0x2F, 0x7E] false = [0x22, 0x61, 0x2F, 0x7E, 0x22] :=
  ⟨by decide,
   (direct_literal_matches_escaping { init_encoder with escape_slash := false }
      [0x61, 0x2F, 0x7E] (by decide)).1,
   (direct_literal_matches_escaping { init_encoder with escape_slash := false }
      [0x61, 0x2F, 0x7E] (by decide)).2.2.1 rfl⟩

end Jsonlib2
